import Mathlib

/-!
Performance-report template helpers.

A shallow embedding of the JavaScript helpers of
`performance-reports/templates/allinea.js`, `perf-reports.js` and
`report-engine.js`, and the properties of these helpers proved (or refuted) over it:
`normaliseMetrics`, the colour functions, the number formatters, the scaling
factors, the conversion of parsed HTML to text, `makeId`, `remove`, `isVisible` and
`csvEscape`.

Conventions of the embedding:

* A JavaScript number is a `JSNum`: a finite value (a rational), `NaN`, `+Infinity`
  or `-Infinity`; there is no negative zero.  `roundDouble` rounds a rational to the
  nearest IEEE 754 double (53 significant bits, a tie going to the even significand,
  overflow to an infinity), and the operators `addD`, `subD`, `mulD`, `divD` round
  the exact result with it.  The percentages of `normaliseMetrics` and the colour
  conversion (`hslToRgb`, `hue2rgb`, the divisions of `computeColor`, the polyfill of
  `Math.fround`) use the rounded operators.  The other helpers use the operators
  `add`, `sub`, `mul`, `div` without rounding.
* A JavaScript value of the data table is a `JSVal` (the JSON values plus
  `undefined`); an object of the data table carries its own properties.
* The plain objects that the code uses as maps (`maxValues`,
  `numberOfMetricsInGroup`, `knownUnits`, `knownSymbols`) are read with `readPlain`:
  a key that is not an own property reaches `Object.prototype`, whose property names
  are `objectPrototypeNames`, and an assignment to `__proto__` of a number or a
  string creates no own property.
* A metric object is a `Metric` record: its optional fields are `none` when the
  property is `undefined`.  The fields of a metric reference have the types of the
  data model: `metricId` and `group` are strings, `maxBarValue` is a number.  A
  metric definition is a record whose `value` is a string (the dotted path) or
  `undefined`.
* JavaScript objects are references: the list `normaliseMetrics` returns holds the
  objects of the input array themselves, in their state after the call.
* The conversions of the language that depend on the text of a number or on the
  content of an object are the fields of a `Conv`; `Math.fround` is a parameter of
  the colour functions, with the built-in function and the polyfill as instances.
* A string is a `String`, read as the list of its characters; the source counts
  UTF-16 code units, which is the same for the Basic Multilingual Plane.
* The HTML parser and the entity table of `decode` are outside the embedding: the
  conversion to text starts from the parsed tree, and `decode` is a `Decoder`.
* A function that can throw returns an `Except JSError`.
-/

namespace PerfReports

set_option exponentiation.threshold 1100

/-! ## JavaScript numbers -/

/-- A JavaScript number: finite (a rational), `NaN`, `+Infinity`, `-Infinity`. -/
inductive JSNum where
  | fin (q : ℚ)
  | nan
  | posInf
  | negInf
  deriving DecidableEq

namespace JSNum

/-- The predicate `isFinite(x)` on a number. -/
def isFinite : JSNum → Bool
  | fin _ => true
  | _ => false

/-- Truthiness of a number: `0` and `NaN` are falsy. -/
def truthy : JSNum → Bool
  | fin q => decide (q ≠ 0)
  | nan => false
  | _ => true

/-- The product `a * b` of JavaScript. -/
def mul : JSNum → JSNum → JSNum
  | fin a, fin b => fin (a * b)
  | nan, _ => nan
  | _, nan => nan
  | posInf, fin b => if b = 0 then nan else if 0 < b then posInf else negInf
  | negInf, fin b => if b = 0 then nan else if 0 < b then negInf else posInf
  | fin a, posInf => if a = 0 then nan else if 0 < a then posInf else negInf
  | fin a, negInf => if a = 0 then nan else if 0 < a then negInf else posInf
  | posInf, posInf => posInf
  | negInf, negInf => posInf
  | posInf, negInf => negInf
  | negInf, posInf => negInf

/-- The quotient `a / b` of JavaScript (the zero divisor is `+0`). -/
def div : JSNum → JSNum → JSNum
  | nan, _ => nan
  | _, nan => nan
  | fin a, fin b =>
      if b = 0 then (if a = 0 then nan else if 0 < a then posInf else negInf)
      else fin (a / b)
  | fin _, posInf => fin 0
  | fin _, negInf => fin 0
  | posInf, fin b => if b < 0 then negInf else posInf
  | negInf, fin b => if b < 0 then posInf else negInf
  | posInf, posInf => nan
  | posInf, negInf => nan
  | negInf, posInf => nan
  | negInf, negInf => nan

/-- The comparison `a > b` of JavaScript (false when either side is `NaN`). -/
def gt : JSNum → JSNum → Bool
  | nan, _ => false
  | _, nan => false
  | fin a, fin b => decide (b < a)
  | posInf, posInf => false
  | posInf, _ => true
  | negInf, _ => false
  | fin _, posInf => false
  | fin _, negInf => true

/-- The larger of two numbers as `Math.max` computes it (`NaN` is contagious). -/
def max2 : JSNum → JSNum → JSNum
  | nan, _ => nan
  | _, nan => nan
  | a, b => if gt b a then b else a

/-- The function `Math.max(x1, ..., xn)`: `-Infinity` for no argument. -/
def mathMax (xs : List JSNum) : JSNum :=
  xs.foldl max2 negInf

/-- The comparison `a <= b` of JavaScript (false when either side is `NaN`). -/
def le : JSNum → JSNum → Bool
  | nan, _ => false
  | _, nan => false
  | fin a, fin b => decide (a ≤ b)
  | negInf, _ => true
  | _, posInf => true
  | posInf, _ => false
  | fin _, negInf => false

end JSNum

/-! ## Double precision

The numbers of JavaScript are the IEEE 754 double-precision numbers: every
arithmetic operation gives the exact result rounded to the nearest double, a tie
going to the even significand, and a result too large in size gives an infinity.
`JSNum.mul` and `JSNum.div` above are the exact operations; `JSNum.mulD` and
`JSNum.divD` are the operations of the language. -/

/-- The power `2 ^ e` for an integer exponent. -/
def pow2 (e : ℤ) : ℚ :=
  if 0 ≤ e then ((2 ^ e.toNat : ℕ) : ℚ) else 1 / ((2 ^ (-e).toNat : ℕ) : ℚ)

/-- Rounding to the nearest integer, a tie going to the even one. -/
def roundHalfEven (q : ℚ) : ℤ :=
  let f := Rat.floor q
  let r := q - f
  if r < 1 / 2 then f
  else if 1 / 2 < r then f + 1
  else if f % 2 = 0 then f else f + 1

/-- Bisection for a binary exponent: the largest `e` from `lo` to `lo + 2 ^ n - 1`
with `2 ^ e ≤ a`, and `lo` when there is none. -/
def exponentSearch (a : ℚ) : ℕ → ℤ → ℤ
  | 0, lo => lo
  | n + 1, lo =>
      if pow2 (lo + 2 ^ n) ≤ a then exponentSearch a n (lo + 2 ^ n)
      else exponentSearch a n lo

/-- The double-precision exponent of `a > 0`: the largest `e` from -1022 to 1023 with
`2 ^ e ≤ a`, and -1022 (the exponent of the subnormal numbers) when there is none. -/
def doubleExponent (a : ℚ) : ℤ :=
  min (exponentSearch a 11 (-1022)) 1023

/-- The multiple of the unit in the last place of `a` (53 significant bits) that is
nearest to `a > 0`, a tie going to the even multiple. -/
def roundMagnitude (a : ℚ) : ℚ :=
  let ulp := pow2 (doubleExponent a - 52)
  (roundHalfEven (a / ulp) : ℚ) * ulp

/-- The double nearest to the exact result `q`, a tie going to the even significand;
an infinity when the rounded size reaches `2 ^ 1024`. -/
def roundDouble (q : ℚ) : JSNum :=
  if q = 0 then .fin 0
  else
    let m := roundMagnitude |q|
    if pow2 1024 ≤ m then (if 0 < q then .posInf else .negInf)
    else .fin (if 0 < q then m else -m)

namespace JSNum

/-- A result of exact arithmetic, rounded to double precision. -/
def toDouble : JSNum → JSNum
  | fin q => roundDouble q
  | x => x

/-- The product `a * b` of two doubles, as the language computes it. -/
def mulD (a b : JSNum) : JSNum :=
  (mul a b).toDouble

/-- The quotient `a / b` of two doubles, as the language computes it. -/
def divD (a b : JSNum) : JSNum :=
  (div a b).toDouble

end JSNum

/-! ## JavaScript values and `allinea.lookup` -/

/-- A JavaScript value as found in the report data (JSON values and `undefined`). -/
inductive JSVal where
  | undefined
  | null
  | bool (b : Bool)
  | num (n : JSNum)
  | str (s : String)
  | arr (items : List JSVal)
  | obj (fields : List (String × JSVal))

namespace JSVal

/-- Property read `v[key]` on an object, an array or a string (own properties
only); every other read gives `undefined`. -/
def get : JSVal → String → JSVal
  | obj fields, key => (fields.lookup key).getD undefined
  | arr items, key =>
      if key = "length" then num (JSNum.fin items.length)
      else
        match (List.range items.length).find? (fun i => toString i = key) with
        | some i => items.getD i undefined
        | none => undefined
  | str s, key =>
      if key = "length" then num (JSNum.fin s.length)
      else
        match (List.range s.length).find? (fun i => toString i = key) with
        | some i => (s.toList[i]?.map fun c => str (String.singleton c)).getD undefined
        | none => undefined
  | _, _ => undefined

end JSVal

/-- The predicate `allinea.isObject`: `value !== null && typeof value === 'object'`. -/
def isObject : JSVal → Bool
  | .obj _ => true
  | .arr _ => true
  | _ => false

/-- Auxiliary for `splitDot`: `cur` is the current segment, reversed. -/
def splitDotAux : List Char → List Char → List String
  | [], cur => [String.mk cur.reverse]
  | c :: cs, cur =>
      if c = '.' then String.mk cur.reverse :: splitDotAux cs []
      else splitDotAux cs (c :: cur)

/-- The call `path.split('.')`. -/
def splitDot (path : String) : List String :=
  splitDotAux path.toList []

/-- The `while` loop of `allinea.lookup`: `path` is the list of remaining segments. -/
def lookupLoop : JSVal → List String → JSVal
  | obj, [] => obj
  | .undefined, _ :: _ => .undefined
  | obj, seg :: rest =>
      if isObject obj then lookupLoop (obj.get seg) rest else .undefined

/-- The function `allinea.lookup(obj, path)`; `path` is a string or `undefined`. -/
def lookup (obj : JSVal) (path : Option String) : JSVal :=
  match path with
  | some p => if p ≠ "" then lookupLoop obj (splitDot p) else obj
  | none => obj

/-! ## Metric objects -/

/-- A metric definition `{ value, displayName, units }` of `metricData`. -/
structure MetricDefinition where
  value : Option String
  displayName : Option String
  units : Option String
  deriving DecidableEq

/-- The four-tuple `{ mean, min, max, stdev }`; `none` is `null`. -/
structure Stats where
  mean : Option JSNum
  min : Option JSNum
  max : Option JSNum
  stdev : Option JSNum
  deriving DecidableEq

/-- A metric object.  The first six fields are those of a metric reference; the
last four are the properties `normaliseMetrics` writes. -/
structure Metric where
  metricId : Option String
  group : Option String
  maxBarValue : Option JSNum
  chartLabel : Option String
  heading : Option String
  colorName : Option String
  defn : Option MetricDefinition
  value : Option Stats
  normalisedValue : Option Stats
  noBar : Option Bool
  deriving DecidableEq

/-- The root context: `options.data.root.metricData` and `options.data.root.data`. -/
structure Root where
  metricData : List (String × MetricDefinition)
  data : JSVal

/-- A thrown JavaScript error: a `TypeError` or a `RangeError` of the language, or an
`Error` that the code throws itself with `throw new Error(msg)`. -/
inductive JSError where
  | typeError (msg : String)
  | error (msg : String)
  | rangeError (msg : String)
  deriving DecidableEq

/-- The property key a possibly undefined string converts to. -/
def propertyKey : Option String → String
  | some s => s
  | none => "undefined"

/-- The inner helper `valueOrNull` of `normaliseMetrics`. -/
def valueOrNull : JSVal → Option JSNum
  | .num n => if n.isFinite then some n else none
  | _ => none

/-- The expression `x || 0` for `x` a number, `null` or `undefined`. -/
def orZero : Option JSNum → JSNum
  | some n => if n.truthy then n else JSNum.fin 0
  | none => JSNum.fin 0

/-- The number a `null` or numeric operand converts to in arithmetic. -/
def nullToNumber : Option JSNum → JSNum
  | some n => n
  | none => JSNum.fin 0

/-! ## Plain objects used as maps -/

/-- The names of the properties that every plain object `{}` inherits from
`Object.prototype` (ECMAScript 2015, Annex B included). -/
def objectPrototypeNames : List String :=
  ["constructor", "hasOwnProperty", "isPrototypeOf", "propertyIsEnumerable",
   "toLocaleString", "toString", "valueOf", "__proto__", "__defineGetter__",
   "__defineSetter__", "__lookupGetter__", "__lookupSetter__"]

/-- What the read `obj[key]` of a plain object finds: an own property, a property
inherited from `Object.prototype` (a function, and the object `Object.prototype`
itself for `__proto__`), or nothing, the read giving `undefined`. -/
inductive Slot (α : Type) where
  | own (v : α)
  | inherited
  | missing

/-- The read `obj[key]` of a plain object whose own properties are `own`. -/
def readPlain {α : Type} (own : String → Option α) (key : String) : Slot α :=
  match own key with
  | some v => .own v
  | none => if key ∈ objectPrototypeNames then .inherited else .missing

/-- The assignment `obj[key] = v` of a number or a string to a plain object: it
creates or updates the own property `key`, except for the key `__proto__`, where the
inherited setter runs and ignores a value that is not an object. -/
def writePlain {α : Type} (own : String → Option α) (key : String) (v : α) :
    String → Option α :=
  fun k => if k = key ∧ key ≠ "__proto__" then some v else own k

/-- A value of `numberOfMetricsInGroup`: a number, or a text once `+ 1` was applied
to an inherited function: the text of that function followed by `ones` digits `1`,
which does not convert to a number. -/
inductive Count where
  | number (n : Nat)
  | text (ones : Nat)
  deriving DecidableEq

/-! ## `normaliseMetrics` -/

/-- The state the first loop of `normaliseMetrics` builds; `maxValues` and
`numberOfMetricsInGroup` are the own properties of the two plain objects. -/
structure Scan where
  newMetrics : List Metric
  maxValues : String → Option JSNum
  numberOfMetricsInGroup : String → Option Count
  warnings : List String

/-- The argument `maxValues[group] || 0` of `Math.max`, as the number `Math.max`
converts it to: an inherited function is truthy, so it is passed on, and it converts
to `NaN`. -/
def runningMaximum : Slot JSNum → JSNum
  | .own n => orZero (some n)
  | .inherited => JSNum.nan
  | .missing => JSNum.fin 0

/-- The expression `(numberOfMetricsInGroup[group] || 0) + 1`: a number is
incremented; a text and an inherited function are truthy, and `+ 1` appends the
digit `1` to their text. -/
def nextCount : Slot Count → Count
  | .own (.number n) => .number (n + 1)
  | .own (.text ones) => .text (ones + 1)
  | .inherited => .text 1
  | .missing => .number 1

/-- The number the read `maxValues[group]` converts to in the comparison `> 0` and in
the division. -/
def slotToNumber : Slot JSNum → JSNum
  | .own n => n
  | _ => JSNum.nan

/-- The library call `Handlebars.Utils.extend(obj, source)` (the templating
library is not part of these sources): it assigns every own property of `source`
to `obj` and returns `obj` itself.  `source` is given by its property writes; the
object literal `{}` has none. -/
def extend (obj : Metric) (source : List (Metric → Metric)) : Metric :=
  source.foldl (fun o write => write o) obj

/-- The state before the first loop: `[]`, `{}` and `{}`. -/
def Scan.init : Scan :=
  { newMetrics := [], maxValues := fun _ => none,
    numberOfMetricsInGroup := fun _ => none, warnings := [] }

/-- The value four-tuple the first loop computes from the looked-up `metricValue`. -/
def statsOf (metricValue : JSVal) : Stats :=
  let metricValue :=
    if isObject metricValue then metricValue else JSVal.obj [("mean", metricValue)]
  { mean := valueOrNull (metricValue.get "mean"),
    min := valueOrNull (metricValue.get "min"),
    max := valueOrNull (metricValue.get "max"),
    stdev := valueOrNull (metricValue.get "stdev") }

/-- The body of the first loop of `normaliseMetrics`, for one `metric`.
`newMetric` is the object `metric` itself, as `extend` returns its first
argument: the reads `metric.value.min`, `metric.value.mean` and `metric.value.max`
see the `value` just written on `newMetric`. -/
def scanMetric (root : Root) (s : Scan) (metric : Metric) : Scan :=
  let newMetric := extend metric []
  let newMetric :=
    { newMetric with defn := root.metricData.lookup (propertyKey metric.metricId) }
  let warnings :=
    match metric.metricId, newMetric.defn with
    | some id, none =>
        if id ≠ "" then s.warnings ++ ["unknown metric: " ++ id] else s.warnings
    | _, _ => s.warnings
  let metricValue := lookup root.data (newMetric.defn.bind MetricDefinition.value)
  let value := statsOf metricValue
  let newMetric := { newMetric with value := some value }
  match metric.group with
  | some group =>
      { newMetrics := s.newMetrics ++ [newMetric],
        maxValues := writePlain s.maxValues group
          (JSNum.mathMax [runningMaximum (readPlain s.maxValues group), orZero value.min,
            orZero value.mean, orZero value.max, orZero metric.maxBarValue]),
        numberOfMetricsInGroup := writePlain s.numberOfMetricsInGroup group
          (nextCount (readPlain s.numberOfMetricsInGroup group)),
        warnings := warnings }
  | none =>
      { s with newMetrics := s.newMetrics ++ [newMetric], warnings := warnings }

/-- The first loop of `normaliseMetrics`. -/
def firstLoop (root : Root) (metrics : List Metric) : Scan :=
  metrics.foldl (scanMetric root) Scan.init

/-- The expression `100.0 * field / divisor`, `field` a number or `null`: the
product is rounded to a double, and so is the quotient. -/
def percentOf (field : Option JSNum) (divisor : JSNum) : JSNum :=
  JSNum.divD (JSNum.mulD (JSNum.fin 100) (nullToNumber field)) divisor

/-- The object literal `{ min: 100.0*value.min/d, mean: ..., max: ..., stdev: ... }`. -/
def percentages (value : Stats) (divisor : JSNum) : Stats :=
  { min := some (percentOf value.min divisor),
    mean := some (percentOf value.mean divisor),
    max := some (percentOf value.max divisor),
    stdev := some (percentOf value.stdev divisor) }

/-- Reading `metric.value` to take a field of it: a `TypeError` when undefined. -/
def readValue (metric : Metric) : Except JSError Stats :=
  match metric.value with
  | some v => .ok v
  | none => .error (.typeError "Cannot read properties of undefined")

/-- The comparison `count <= 1` for the read `numberOfMetricsInGroup[group]`: false
unless the count is a number, as a text, a function and `undefined` convert to `NaN`. -/
def atMostOne : Slot Count → Bool
  | .own (.number n) => decide (n ≤ 1)
  | _ => false

/-- The body of the second loop of `normaliseMetrics`, for one `metric`. -/
def normaliseMetric (s : Scan) (metric : Metric) : Except JSError Metric :=
  let metric := { metric with normalisedValue := metric.value }
  match metric.group with
  | some group =>
      let scaled : Except JSError Metric :=
        if (slotToNumber (readPlain s.maxValues group)).gt (JSNum.fin 0) then
          (readValue metric).map fun value =>
            let divisor := slotToNumber (readPlain s.maxValues group)
            { metric with normalisedValue := some (percentages value divisor) }
        else .ok metric
      scaled.map fun metric =>
        { metric with
          noBar := some (atMostOne (readPlain s.numberOfMetricsInGroup group)) }
  | none =>
      match metric.maxBarValue with
      | some maxBarValue =>
          (readValue metric).map fun value =>
            { metric with normalisedValue := some (percentages value maxBarValue) }
      | none => .ok metric

/-- The second loop of `normaliseMetrics`, over `newMetrics`. -/
def secondLoop (s : Scan) : List Metric → Except JSError (List Metric)
  | [] => .ok []
  | metric :: rest => do
      let metric ← normaliseMetric s metric
      let rest ← secondLoop s rest
      pure (metric :: rest)

/-- The helper `normaliseMetrics(metrics, options)`.  The result lists the objects
of the returned array `newMetrics`; they are the objects of `metrics` themselves,
in their state after the call. -/
def normaliseMetrics (root : Root) (metrics : List Metric) : Except JSError (List Metric) :=
  let s := firstLoop root metrics
  secondLoop s s.newMetrics

/-- A metric reference as the report content supplies it: nothing written yet. -/
def Metric.ref (metricId group : Option String) (maxBarValue : Option JSNum) : Metric :=
  { metricId := metricId, group := group, maxBarValue := maxBarValue,
    chartLabel := none, heading := none, colorName := none,
    defn := none, value := none, normalisedValue := none, noBar := none }

/-- A metric definition with the dotted path `path` and no display name or units. -/
def MetricDefinition.atPath (path : String) : MetricDefinition :=
  { value := some path, displayName := none, units := none }

/-! ## Auxiliary definitions for the statements -/

/-- The names of the four fields of a value tuple. -/
inductive Field where
  | min
  | mean
  | max
  | stdev
  deriving DecidableEq

/-- The property name of a field. -/
def Field.key : Field → String
  | .min => "min"
  | .mean => "mean"
  | .max => "max"
  | .stdev => "stdev"

/-- Reading the field `f` of a value tuple. -/
def Stats.get (s : Stats) : Field → Option JSNum
  | .min => s.min
  | .mean => s.mean
  | .max => s.max
  | .stdev => s.stdev

/-- The value tuple the first loop resolves for one metric. -/
def valueOf (root : Root) (metric : Metric) : Stats :=
  statsOf (lookup root.data
    ((root.metricData.lookup (propertyKey metric.metricId)).bind MetricDefinition.value))

/-- The four values of one metric that the running maximum of its group takes in. -/
def seenValues (root : Root) (metric : Metric) : List JSNum :=
  let v := valueOf root metric
  [orZero v.min, orZero v.mean, orZero v.max, orZero metric.maxBarValue]

/-- The number of metrics of the list that declare the group `g`. -/
def membersOf (g : String) (metrics : List Metric) : Nat :=
  metrics.countP fun m => decide (m.group = some g)

/-- What the first loop writes on one metric: `def` and `value`. -/
def prepare (root : Root) (metric : Metric) : Metric :=
  { metric with
    defn := root.metricData.lookup (propertyKey metric.metricId),
    value := some (valueOf root metric) }

/-- What the second loop writes on one metric whose `value` is set. -/
def finish (s : Scan) (metric : Metric) : Metric :=
  match metric.group with
  | some group =>
      { metric with
        normalisedValue :=
          if (slotToNumber (readPlain s.maxValues group)).gt (JSNum.fin 0) then
            metric.value.map fun v =>
              percentages v (slotToNumber (readPlain s.maxValues group))
          else metric.value,
        noBar := some (atMostOne (readPlain s.numberOfMetricsInGroup group)) }
  | none =>
      match metric.maxBarValue with
      | some maxBarValue =>
          { metric with
            normalisedValue := metric.value.map fun v => percentages v maxBarValue }
      | none => { metric with normalisedValue := metric.value }

/-! ## Concrete report data used in the examples -/

/-- A data table with the bare means 50 (metric `a`) and 100 (metric `b`). -/
def twoMeansRoot : Root :=
  { metricData := [("a", MetricDefinition.atPath "t.a"), ("b", MetricDefinition.atPath "t.b")],
    data := .obj [("t", .obj [("a", .num (.fin 50)), ("b", .num (.fin 100))])] }

/-- Both metrics of `twoMeansRoot` in the group `g`. -/
def twoMeansMetrics : List Metric :=
  [Metric.ref (some "a") (some "g") none, Metric.ref (some "b") (some "g") none]

/-- A data table with the bare means 1 (metric `a`) and 3 (metric `b`). -/
def thirdsRoot : Root :=
  { metricData := [("a", MetricDefinition.atPath "t.a"), ("b", MetricDefinition.atPath "t.b")],
    data := .obj [("t", .obj [("a", .num (.fin 1)), ("b", .num (.fin 3))])] }

/-- A data table with the bare mean `2 ^ 1023` for the metric `a`. -/
def hugeRoot : Root :=
  { metricData := [("a", MetricDefinition.atPath "t.a")],
    data := .obj [("t", .obj [("a", .num (.fin (2 ^ 1023)))])] }

/-- A data table whose values are all negative: `a` is
`{mean: -5, min: -7, max: -3}` and `b` is `{mean: -2, min: -4, max: -1}`. -/
def negativeRoot : Root :=
  { metricData := [("a", MetricDefinition.atPath "a"), ("b", MetricDefinition.atPath "b")],
    data := .obj
      [("a", .obj [("mean", .num (.fin (-5))), ("min", .num (.fin (-7))),
                   ("max", .num (.fin (-3)))]),
       ("b", .obj [("mean", .num (.fin (-2))), ("min", .num (.fin (-4))),
                   ("max", .num (.fin (-1)))])] }

/-- Both metrics of `negativeRoot` in the group `g`, with the negative
`maxBarValue`s -1 and -6. -/
def negativeMetrics : List Metric :=
  [Metric.ref (some "a") (some "g") (some (.fin (-1))),
   Metric.ref (some "b") (some "g") (some (.fin (-6)))]

/-- The metric `b` of `negativeRoot` alone in the group `g`. -/
def negativeLoneMetrics : List Metric :=
  [Metric.ref (some "b") (some "g") none]

/-- The metric `a` alone in the group `g`. -/
def loneMetrics : List Metric :=
  [Metric.ref (some "a") (some "g") none]

/-- The metric `a` alone in the group `constructor`. -/
def constructorLoneMetrics : List Metric :=
  [Metric.ref (some "a") (some "constructor") none]

/-- The metrics `b` (mean 100) and `a` (mean 50) of `twoMeansRoot`, in this order, in
the group `toString`. -/
def toStringMetrics : List Metric :=
  [Metric.ref (some "b") (some "toString") none, Metric.ref (some "a") (some "toString") none]

/-- A data table with the bare means 100 (metric `a`) and -5 (metric `b`). -/
def mixedRoot : Root :=
  { metricData := [("a", MetricDefinition.atPath "t.a"), ("b", MetricDefinition.atPath "t.b")],
    data := .obj [("t", .obj [("a", .num (.fin 100)), ("b", .num (.fin (-5)))])] }

/-- Both metrics of `mixedRoot` in the group `constructor`. -/
def constructorPairMetrics : List Metric :=
  [Metric.ref (some "a") (some "constructor") none,
   Metric.ref (some "b") (some "constructor") none]

/-- A double between 1 and 2 whose percentage of itself is rounded above 100. -/
def roundedUpValue : ℚ :=
  3470952319048513 / 2251799813685248

/-- A data table with the bare mean `roundedUpValue` for the metric `a`. -/
def roundedUpRoot : Root :=
  { metricData := [("a", MetricDefinition.atPath "t.a")],
    data := .obj [("t", .obj [("a", .num (.fin roundedUpValue))])] }

/-- The metric `a` without a group, with `maxBarValue: 200`. -/
def barMetrics : List Metric :=
  [Metric.ref (some "a") none (some (.fin 200))]

/-- A report without metric definitions whose data table has top-level `mean` and
`max` entries. -/
def unknownRoot : Root :=
  { metricData := [],
    data := .obj [("mean", .num (.fin 7)), ("max", .num (.fin 9))] }

/-- One reference to the metric id `nope`, which `unknownRoot` does not define. -/
def unknownMetrics : List Metric :=
  [Metric.ref (some "nope") none none]

/-- The metric `a` (mean 50) without a group, with `maxBarValue: 0`. -/
def zeroBarMetrics : List Metric :=
  [Metric.ref (some "a") none (some (.fin 0))]

/-- The metric `b` (mean 100) without a group, with `maxBarValue: 50`. -/
def overBarMetrics : List Metric :=
  [Metric.ref (some "b") none (some (.fin 50))]

/-- A data table with the metric `a = {mean: 10, min: -5, max: 20, stdev: 30}`. -/
def spreadRoot : Root :=
  { metricData := [("a", MetricDefinition.atPath "a")],
    data := .obj [("a", .obj [("mean", .num (.fin 10)), ("min", .num (.fin (-5))),
                              ("max", .num (.fin 20)), ("stdev", .num (.fin 30))])] }

/-! ## More arithmetic on numbers -/

namespace JSNum

/-- The sum `a + b` of JavaScript. -/
def add : JSNum → JSNum → JSNum
  | fin a, fin b => fin (a + b)
  | nan, _ => nan
  | _, nan => nan
  | posInf, negInf => nan
  | negInf, posInf => nan
  | posInf, _ => posInf
  | negInf, _ => negInf
  | fin _, posInf => posInf
  | fin _, negInf => negInf

/-- The negation `-a` of JavaScript. -/
def neg : JSNum → JSNum
  | fin a => fin (-a)
  | nan => nan
  | posInf => negInf
  | negInf => posInf

/-- The difference `a - b` of JavaScript. -/
def sub (a b : JSNum) : JSNum :=
  add a (neg b)

/-- The sum `a + b` of two doubles, as the language computes it. -/
def addD (a b : JSNum) : JSNum :=
  (add a b).toDouble

/-- The difference `a - b` of two doubles, as the language computes it. -/
def subD (a b : JSNum) : JSNum :=
  (sub a b).toDouble

/-- The comparison `a < b` of JavaScript (false when either side is `NaN`). -/
def lt (a b : JSNum) : Bool :=
  gt b a

/-- The comparison `a >= b` of JavaScript (false when either side is `NaN`). -/
def ge (a b : JSNum) : Bool :=
  le b a

/-- The function `Math.abs`. -/
def abs : JSNum → JSNum
  | fin a => fin |a|
  | nan => nan
  | posInf => posInf
  | negInf => posInf

/-- The function `Math.round`: the nearest integer, a tie going up. -/
def round : JSNum → JSNum
  | fin a => fin (Rat.floor (a + 1 / 2))
  | x => x

end JSNum

/-! ## Conversions between values, numbers and strings -/

/-- Truthiness of a value. -/
def JSVal.truthy : JSVal → Bool
  | .undefined => false
  | .null => false
  | .bool b => b
  | .num n => n.truthy
  | .str s => decide (s ≠ "")
  | .arr _ => true
  | .obj _ => true

/-- The conversions of the language that the embedding leaves open: the number a
string converts to, the number an array or object converts to, and the text of a
number that is not an integer below `10^21` in size.  No number prints as the
placeholder of the formatters. -/
structure Conv where
  stringToNumber : String → JSNum
  objectToNumber : JSVal → JSNum
  numberText : ℚ → String
  numberText_ne : ∀ q, numberText q ≠ "not supported "

/-- The conversion `ToNumber(v)`, as in `+v`, `isFinite(v)` and arithmetic on `v`. -/
def toNumber (cv : Conv) : JSVal → JSNum
  | .undefined => JSNum.nan
  | .null => JSNum.fin 0
  | .bool b => JSNum.fin (if b then 1 else 0)
  | .num n => n
  | .str s => cv.stringToNumber s
  | v => cv.objectToNumber v

/-- The text of a number, as in `"" + x`: decimal digits for an integer below
`10^21` in size. -/
def numberToString (cv : Conv) : JSNum → String
  | .nan => "NaN"
  | .posInf => "Infinity"
  | .negInf => "-Infinity"
  | .fin q =>
      if q.den = 1 ∧ |q| < 10 ^ 21 then toString q.num else cv.numberText q

/-- A choice of the open conversions: every string and object converts to `NaN`. -/
def Conv.plain : Conv :=
  { stringToNumber := fun _ => JSNum.nan,
    objectToNumber := fun _ => JSNum.nan,
    numberText := fun _ => "",
    numberText_ne := fun _ h => by simp at h }

/-! ## `mergeColor`, `computeColor` and `hslToRgb` -/

/-- The expression `(+x || 0)`. -/
def plusOrZero (cv : Conv) (x : JSVal) : JSNum :=
  orZero (some (toNumber cv x))

/-- The two statements `if (x < 0) x = 0; if (x > hi) x = hi;`. -/
def clampTo (hi : ℚ) (x : JSNum) : JSNum :=
  let x := if x.lt (JSNum.fin 0) then JSNum.fin 0 else x
  if x.gt (JSNum.fin hi) then JSNum.fin hi else x

/-- The function `perfReports.mergeColor(c1, c2)`; the result is the new array `c`. -/
def mergeColor (cv : Conv) (c1 c2 : JSVal) : JSVal :=
  let c : JSNum × JSNum × JSNum := (JSNum.fin 0, JSNum.fin 0, JSNum.fin 0)
  let c :=
    if c1.truthy then
      (plusOrZero cv (c1.get "0"), plusOrZero cv (c1.get "1"), plusOrZero cv (c1.get "2"))
    else c
  let c :=
    if c2.truthy then
      (c.1.add (plusOrZero cv (c2.get "0")), c.2.1.add (plusOrZero cv (c2.get "1")),
        c.2.2.add (plusOrZero cv (c2.get "2")))
    else c
  .arr [.num (clampTo 360 c.1), .num (clampTo 100 c.2.1), .num (clampTo 100 c.2.2)]

/-- The polyfill of `Math.fround` at the top of `perf-reports.js`:
`Math.round(x * 1000000000) / 1000000000`. -/
def froundPolyfill (x : JSNum) : JSNum :=
  JSNum.divD (JSNum.round (JSNum.mulD x (JSNum.fin 1000000000))) (JSNum.fin 1000000000)

/-- The exponents of the normal single-precision numbers, from 127 down to -126. -/
def floatExponents : List ℤ :=
  (List.range 254).map fun i => 127 - (i : ℤ)

/-- The single-precision exponent of `a > 0`: the largest `e` of `floatExponents`
with `2 ^ e ≤ a`, and -126 (the subnormal range) when there is none. -/
def floatExponent (a : ℚ) : ℤ :=
  (floatExponents.find? fun e => decide (pow2 e ≤ a)).getD (-126)

/-- The built-in `Math.fround`: the nearest single-precision number (24 significant
bits, exponents from -126, a tie going to the even significand, overflow to an
infinity). -/
def froundNative : JSNum → JSNum
  | .fin q =>
      if q = 0 then .fin 0
      else
        let a := |q|
        let ulp := pow2 (floatExponent a - 23)
        let m := (roundHalfEven (a / ulp) : ℚ) * ulp
        if pow2 128 ≤ m then (if 0 < q then .posInf else .negInf)
        else .fin (if 0 < q then m else -m)
  | x => x

/-- The inner function `hue2rgb(p, q, t)` of `hslToRgb`. -/
def hue2rgb (p q t : JSNum) : JSNum :=
  let t := if t.lt (JSNum.fin 0) then t.addD (JSNum.fin 1) else t
  let t := if t.gt (JSNum.fin 1) then t.subD (JSNum.fin 1) else t
  if t.lt ((JSNum.fin 1).divD (JSNum.fin 6)) then
    p.addD (((q.subD p).mulD (JSNum.fin 6)).mulD t)
  else if t.lt ((JSNum.fin 1).divD (JSNum.fin 2)) then q
  else if t.lt ((JSNum.fin 2).divD (JSNum.fin 3)) then
    p.addD (((q.subD p).mulD (((JSNum.fin 2).divD (JSNum.fin 3)).subD t)).mulD (JSNum.fin 6))
  else p

/-- One channel of the result: `Math.round(Math.fround(x) * 255)`. -/
def channel (fround : JSNum → JSNum) (x : JSNum) : JSNum :=
  JSNum.round ((fround x).mulD (JSNum.fin 255))

/-- The values `r`, `g`, `b` of `hslToRgb` before `Math.fround` and `Math.round`. -/
def hslChannels (h s l : JSNum) : JSNum × JSNum × JSNum :=
  let q :=
    if l.lt (JSNum.fin (1 / 2)) then l.mulD ((JSNum.fin 1).addD s)
    else (l.addD s).subD (l.mulD s)
  let p := ((JSNum.fin 2).mulD l).subD q
  let r := hue2rgb p q (h.addD ((JSNum.fin 1).divD (JSNum.fin 3)))
  let g := hue2rgb p q h
  let b := hue2rgb p q (h.subD ((JSNum.fin 1).divD (JSNum.fin 3)))
  (r, g, b)

/-- The function `perfReports.hslToRgb(h, s, l)`; `fround` is the `Math.fround` in
force (the built-in one, or the polyfill where there is none). -/
def hslToRgb (cv : Conv) (fround : JSNum → JSNum) (h s l : JSNum) : String :=
  let (r, g, b) := hslChannels h s l
  "rgb(" ++ numberToString cv (channel fround r) ++ ", " ++
    numberToString cv (channel fround g) ++ ", " ++
    numberToString cv (channel fround b) ++ ")"

/-- A property read `v[key]` that throws on `null` and `undefined`. -/
def getProp (v : JSVal) (key : String) : Except JSError JSVal :=
  match v with
  | .undefined => .error (.typeError "Cannot read properties of undefined")
  | .null => .error (.typeError "Cannot read properties of null")
  | v => .ok (v.get key)

/-- The `for` loop of `computeColor` over the remaining segments of `colorName`;
`none` is the early `return "rgb(0, 0, 0)"`, `some color` the colour after the loop. -/
def computeColorLoop (cv : Conv) (colorData color : JSVal) :
    List String → Except JSError (Option JSVal)
  | [] => .ok (some color)
  | name :: rest =>
      match getProp colorData name with
      | .error e => .error e
      | .ok .undefined => .ok none
      | .ok (.arr items) =>
          computeColorLoop cv (.arr items) (mergeColor cv color (.arr items)) rest
      | .ok next =>
          match getProp next "default" with
          | .error e => .error e
          | .ok d => computeColorLoop cv next (mergeColor cv color d) rest

/-- The final `return perfReports.hslToRgb(color[0] / 360, color[1] / 100,
color[2] / 100)`. -/
def colorToRgb (cv : Conv) (fround : JSNum → JSNum) (color : JSVal) : String :=
  hslToRgb cv fround
    ((toNumber cv (color.get "0")).divD (JSNum.fin 360))
    ((toNumber cv (color.get "1")).divD (JSNum.fin 100))
    ((toNumber cv (color.get "2")).divD (JSNum.fin 100))

/-- The function `perfReports.computeColor(colorData, colorName)`.  The `for ... in`
loop visits the indices of `colorNames` in order. -/
def computeColor (cv : Conv) (fround : JSNum → JSNum) (colorData : JSVal)
    (colorName : String) : Except JSError String :=
  if !colorData.truthy then .ok "rgb(0, 0, 0)"
  else
    match colorData.get colorName with
    | .arr items => .ok (colorToRgb cv fround (.arr items))
    | _ =>
        match computeColorLoop cv colorData
            (.arr [.num (JSNum.fin 0), .num (JSNum.fin 0), .num (JSNum.fin 0)])
            (splitDot colorName) with
        | .error e => .error e
        | .ok none => .ok "rgb(0, 0, 0)"
        | .ok (some color) => .ok (colorToRgb cv fround color)

/-! ## Auxiliary definitions for the colour statements -/

/-- The literal triple `[a, b, c]` of numbers. -/
def triple (a b c : ℚ) : JSVal :=
  .arr [.num (.fin a), .num (.fin b), .num (.fin c)]

/-- The number a component of a colour counts as: 0 for a missing array and for a
component that is missing or does not convert to a number. -/
def componentValue (cv : Conv) (c : JSVal) (key : String) : JSNum :=
  if c.truthy then
    match toNumber cv (c.get key) with
    | .nan => .fin 0
    | n => n
  else .fin 0

/-- The component `x` of a merged colour is the sum of the two finite components,
clamped to `[0, hi]`. -/
def MergedComponent (cv : Conv) (c1 c2 : JSVal) (key : String) (hi : ℚ) (x : JSNum) : Prop :=
  ∀ a b, componentValue cv c1 key = .fin a → componentValue cv c2 key = .fin b →
    x = .fin (min (max (a + b) 0) hi)

/-- The outcome of walking dotted segments through a nested colour map. -/
inductive Path where
  | found (values : List JSVal)
  | missing
  | null

/-- Walking the segments through the nested map from `v`: `found` lists the values
met, in order, when every segment is a key at its level; `missing` when a segment is
not a key at its level; `null` when the walk meets the value `null`. -/
def path : JSVal → List String → Path
  | _, [] => .found []
  | v, name :: rest =>
      match v.get name with
      | .undefined => .missing
      | .null => .null
      | next =>
          match path next rest with
          | .found values => .found (next :: values)
          | other => other

/-- What a value of the nested map contributes to the colour: the value itself when
it is a literal array, its `"default"` entry otherwise. -/
def contribution : JSVal → JSVal
  | .arr items => .arr items
  | v => v.get "default"

/-- The colour derived from the values met on a path: start from `[0, 0, 0]` and
merge in the contribution of each value. -/
def derivedColor (cv : Conv) (values : List JSVal) : JSVal :=
  values.foldl (fun color v => mergeColor cv color (contribution v)) (triple 0 0 0)

/-- The colour data of the comment in `computeColor`. -/
def cpuColors : JSVal :=
  .obj [("cpu.multi_core", triple 77 88 99),
        ("cpu", .obj [("default", triple 100 50 50), ("single_core", triple 5 (-10) 15)])]

/-- The colour data `{a: {default: [10,20,30], b: [1,1,1]}}`. -/
def abColors : JSVal :=
  .obj [("a", .obj [("default", triple 10 20 30), ("b", triple 1 1 1)])]

/-- Colour data holding only the explicit entry `"cpu.multi_core": [77, 88, 99]`. -/
def explicitOnlyColors : JSVal :=
  .obj [("cpu.multi_core", triple 77 88 99)]

/-- The colour data `{a: null}`. -/
def nullLevelColors : JSVal :=
  .obj [("a", .null)]

/-! ## Auxiliary definitions for `hslToRgb` -/

/-- The piecewise hue formula of the HSL colour model, on exact numbers. -/
def hueFormula (p q t : ℚ) : ℚ :=
  let t := if t < 0 then t + 1 else t
  let t := if 1 < t then t - 1 else t
  if t < 1 / 6 then p + (q - p) * 6 * t
  else if t < 1 / 2 then q
  else if t < 2 / 3 then p + (q - p) * (2 / 3 - t) * 6
  else p

/-- The upper level `q` of the HSL colour model. -/
def upperLevel (s l : ℚ) : ℚ :=
  if l < 1 / 2 then l * (1 + s) else l + s - l * s

/-- The channel of the HSL colour `(h, s, l)` at the hue offset `off` (1/3 for red, 0
for green, -1/3 for blue), before rounding. -/
def channelValue (h s l off : ℚ) : ℚ :=
  hueFormula (2 * l - upperLevel s l) (upperLevel s l) (h + off)

/-- The part of `hue2rgb` that brings `t` back to the unit interval. -/
def wrapD (t : JSNum) : JSNum :=
  let t := if t.lt (JSNum.fin 0) then t.addD (JSNum.fin 1) else t
  if t.gt (JSNum.fin 1) then t.subD (JSNum.fin 1) else t

/-- The four `return` statements of `hue2rgb`. -/
def pieceD (p q t : JSNum) : JSNum :=
  if t.lt ((JSNum.fin 1).divD (JSNum.fin 6)) then
    p.addD (((q.subD p).mulD (JSNum.fin 6)).mulD t)
  else if t.lt ((JSNum.fin 1).divD (JSNum.fin 2)) then q
  else if t.lt ((JSNum.fin 2).divD (JSNum.fin 3)) then
    p.addD (((q.subD p).mulD (((JSNum.fin 2).divD (JSNum.fin 3)).subD t)).mulD (JSNum.fin 6))
  else p

/-- The finite value of a number rounded to double precision (0 when it overflows). -/
def roundValue (q : ℚ) : ℚ :=
  match roundDouble q with
  | .fin y => y
  | _ => 0

/-- The hue brought back to the unit interval, on exact numbers. -/
def wrapHue (t : ℚ) : ℚ :=
  let t := if t < 0 then t + 1 else t
  if 1 < t then t - 1 else t

/-- The shape of the piecewise hue formula between the levels `p` (value 0) and `q`
(value 1). -/
def shape (u : ℚ) : ℚ :=
  if u < 1 / 6 then 6 * u
  else if u < 1 / 2 then 1
  else if u < 2 / 3 then (2 / 3 - u) * 6
  else 0

/-- The upper level `q` as `hslToRgb` computes it in double precision. -/
def upperLevelD (s l : ℚ) : ℚ :=
  if l < 1 / 2 then roundValue (l * roundValue (1 + s))
  else roundValue (roundValue (l + s) - roundValue (l * s))

/-- The lower level `p` as `hslToRgb` computes it in double precision. -/
def lowerLevelD (s l : ℚ) : ℚ :=
  roundValue (roundValue (2 * l) - upperLevelD s l)

/-- A rounding `fround` stays within `2 ^ (-20)` of its argument on `[-2, 2]`. -/
def NearRounding (fround : JSNum → JSNum) : Prop :=
  ∀ x : ℚ, |x| ≤ 2 → ∃ y : ℚ, fround (.fin x) = .fin y ∧ |y - x| ≤ 1 / 1048576

/-- A lightness just below `12.5 / 255` (it is a double-precision number). -/
def greyLightness : ℚ :=
  52634403 / 1073741824

/-! ## The colour functions on a heap

The same two functions with the arrays and objects held in a heap, so that the
writes of the code have an address: `mergeColor` allocates its result `c` and writes
to `c` only. -/

/-- A value in the presence of a heap: a primitive, or the address of an array or
object. -/
inductive HVal where
  | undefined
  | null
  | bool (b : Bool)
  | num (n : JSNum)
  | str (s : String)
  | ref (address : Nat)

/-- An array or a plain object of the heap. -/
inductive HObj where
  | arr (items : List HVal)
  | obj (fields : List (String × HVal))

/-- A heap: the arrays and objects by address. -/
abbrev Heap := List HObj

/-- Property read `v[key]` in a heap (own properties only). -/
def hget (heap : Heap) : HVal → String → HVal
  | .ref a, key =>
      match heap[a]? with
      | some (.obj fields) => (fields.lookup key).getD .undefined
      | some (.arr items) =>
          if key = "length" then .num (JSNum.fin items.length)
          else
            match (List.range items.length).find? (fun i => toString i = key) with
            | some i => items.getD i .undefined
            | none => .undefined
      | none => .undefined
  | .str s, key =>
      if key = "length" then .num (JSNum.fin s.length)
      else
        match (List.range s.length).find? (fun i => toString i = key) with
        | some i => (s.toList[i]?.map fun c => HVal.str (String.singleton c)).getD .undefined
        | none => .undefined
  | _, _ => .undefined

/-- The test `Array.isArray(v)` in a heap. -/
def isArrayH (heap : Heap) : HVal → Bool
  | .ref a =>
      match heap[a]? with
      | some (.arr _) => true
      | _ => false
  | _ => false

/-- Truthiness of a heap value. -/
def HVal.truthy : HVal → Bool
  | .undefined => false
  | .null => false
  | .bool b => b
  | .num n => n.truthy
  | .str s => decide (s ≠ "")
  | .ref _ => true

/-- The conversion `ToNumber(v)` in a heap; `refNum` converts an array or object. -/
def toNumberH (cv : Conv) (refNum : Heap → Nat → JSNum) (heap : Heap) : HVal → JSNum
  | .undefined => JSNum.nan
  | .null => JSNum.fin 0
  | .bool b => JSNum.fin (if b then 1 else 0)
  | .num n => n
  | .str s => cv.stringToNumber s
  | .ref a => refNum heap a

/-- The write `c[i] = v` on the array at address `c`. -/
def writeItem (heap : Heap) (c i : Nat) (v : HVal) : Heap :=
  match heap[c]? with
  | some (.arr items) => heap.set c (.arr (items.set i v))
  | _ => heap

/-- The read of the number `c[i]` of the array at address `c`. -/
def readItem (cv : Conv) (refNum : Heap → Nat → JSNum) (heap : Heap) (c i : Nat) : JSNum :=
  toNumberH cv refNum heap (hget heap (.ref c) (toString i))

/-- The expression `(+x[key] || 0)` in a heap. -/
def plusOrZeroH (cv : Conv) (refNum : Heap → Nat → JSNum) (heap : Heap) (x : HVal)
    (key : String) : JSNum :=
  orZero (some (toNumberH cv refNum heap (hget heap x key)))

/-- The statements `if (c[i] < 0) c[i] = 0; if (c[i] > hi) c[i] = hi;` in a heap. -/
def clampItem (cv : Conv) (refNum : Heap → Nat → JSNum) (heap : Heap) (c i : Nat) (hi : ℚ) :
    Heap :=
  let heap :=
    if (readItem cv refNum heap c i).lt (JSNum.fin 0) then writeItem heap c i (.num (JSNum.fin 0))
    else heap
  if (readItem cv refNum heap c i).gt (JSNum.fin hi) then writeItem heap c i (.num (JSNum.fin hi))
  else heap

/-- The three assignments `c[i] = (+c1[i] || 0)` on the array at address `c`. -/
def assignFrom (cv : Conv) (refNum : Heap → Nat → JSNum) (heap : Heap) (c : Nat)
    (c1 : HVal) : Heap :=
  let heap := writeItem heap c 0 (.num (plusOrZeroH cv refNum heap c1 "0"))
  let heap := writeItem heap c 1 (.num (plusOrZeroH cv refNum heap c1 "1"))
  writeItem heap c 2 (.num (plusOrZeroH cv refNum heap c1 "2"))

/-- The three updates `c[i] += (+c2[i] || 0)` on the array at address `c`. -/
def addFrom (cv : Conv) (refNum : Heap → Nat → JSNum) (heap : Heap) (c : Nat)
    (c2 : HVal) : Heap :=
  let heap := writeItem heap c 0
    (.num ((readItem cv refNum heap c 0).add (plusOrZeroH cv refNum heap c2 "0")))
  let heap := writeItem heap c 1
    (.num ((readItem cv refNum heap c 1).add (plusOrZeroH cv refNum heap c2 "1")))
  writeItem heap c 2
    (.num ((readItem cv refNum heap c 2).add (plusOrZeroH cv refNum heap c2 "2")))

/-- The function `perfReports.mergeColor(c1, c2)` on a heap: the heap after the call
and the returned reference. -/
def mergeColorH (cv : Conv) (refNum : Heap → Nat → JSNum) (heap : Heap) (c1 c2 : HVal) :
    Heap × HVal :=
  let c := heap.length
  let heap := heap ++ [HObj.arr [.num (JSNum.fin 0), .num (JSNum.fin 0), .num (JSNum.fin 0)]]
  let heap := if c1.truthy then assignFrom cv refNum heap c c1 else heap
  let heap := if c2.truthy then addFrom cv refNum heap c c2 else heap
  let heap := clampItem cv refNum heap c 0 360
  let heap := clampItem cv refNum heap c 1 100
  let heap := clampItem cv refNum heap c 2 100
  (heap, .ref c)

/-- A property read in a heap that throws on `null` and `undefined`. -/
def getPropH (heap : Heap) (v : HVal) (key : String) : Except JSError HVal :=
  match v with
  | .undefined => .error (.typeError "Cannot read properties of undefined")
  | .null => .error (.typeError "Cannot read properties of null")
  | v => .ok (hget heap v key)

/-- The `for` loop of `computeColor` on a heap. -/
def computeColorLoopH (cv : Conv) (refNum : Heap → Nat → JSNum) (heap : Heap)
    (colorData color : HVal) : List String → Heap × Except JSError (Option HVal)
  | [] => (heap, .ok (some color))
  | name :: rest =>
      match getPropH heap colorData name with
      | .error e => (heap, .error e)
      | .ok .undefined => (heap, .ok none)
      | .ok next =>
          if isArrayH heap next then
            let merged := mergeColorH cv refNum heap color next
            computeColorLoopH cv refNum merged.1 next merged.2 rest
          else
            match getPropH heap next "default" with
            | .error e => (heap, .error e)
            | .ok d =>
                let merged := mergeColorH cv refNum heap color d
                computeColorLoopH cv refNum merged.1 next merged.2 rest

/-- The final `return perfReports.hslToRgb(...)` on a heap. -/
def colorToRgbH (cv : Conv) (refNum : Heap → Nat → JSNum) (fround : JSNum → JSNum)
    (heap : Heap) (color : HVal) : String :=
  hslToRgb cv fround
    ((toNumberH cv refNum heap (hget heap color "0")).divD (JSNum.fin 360))
    ((toNumberH cv refNum heap (hget heap color "1")).divD (JSNum.fin 100))
    ((toNumberH cv refNum heap (hget heap color "2")).divD (JSNum.fin 100))

/-- The function `perfReports.computeColor(colorData, colorName)` on a heap: the heap
after the call and the result. -/
def computeColorH (cv : Conv) (refNum : Heap → Nat → JSNum) (fround : JSNum → JSNum)
    (heap : Heap) (colorData : HVal) (colorName : String) : Heap × Except JSError String :=
  if !colorData.truthy then (heap, .ok "rgb(0, 0, 0)")
  else
    let color := heap.length
    let heap1 := heap ++ [HObj.arr [.num (JSNum.fin 0), .num (JSNum.fin 0), .num (JSNum.fin 0)]]
    if isArrayH heap1 (hget heap1 colorData colorName) then
      (heap1, .ok (colorToRgbH cv refNum fround heap1 (hget heap1 colorData colorName)))
    else
      match computeColorLoopH cv refNum heap1 colorData (.ref color) (splitDot colorName) with
      | (heap2, .error e) => (heap2, .error e)
      | (heap2, .ok none) => (heap2, .ok "rgb(0, 0, 0)")
      | (heap2, .ok (some c)) => (heap2, .ok (colorToRgbH cv refNum fround heap2 c))

/-- The heap `heap'` is `heap` followed by one new array of three numbers. -/
def FreshTriple (heap heap' : Heap) : Prop :=
  ∃ a b c, heap' = heap ++ [HObj.arr [.num a, .num b, .num c]]

/-- The colour data `{a: {default: [10,20,30], b: [1,1,1]}}` in a heap: the outer
object at address 0, the object `a` at 1, its two arrays at 2 and 3. -/
def abHeap : Heap :=
  [.obj [("a", .ref 1)],
   .obj [("default", .ref 2), ("b", .ref 3)],
   .arr [.num (JSNum.fin 10), .num (JSNum.fin 20), .num (JSNum.fin 30)],
   .arr [.num (JSNum.fin 1), .num (JSNum.fin 1), .num (JSNum.fin 1)]]

/-! ## The number formatters -/

/-- The test `v === null`. -/
def JSVal.isNull : JSVal → Bool
  | .null => true
  | _ => false

/-- The test `v === ''`. -/
def JSVal.isEmptyString : JSVal → Bool
  | .str s => decide (s = "")
  | _ => false

/-- The guard `num !== null && num !== '' && isFinite(num)` of the formatters. -/
def supported (cv : Conv) (num : JSVal) : Bool :=
  !num.isNull && !num.isEmptyString && (toNumber cv num).isFinite

/-- The digits of `toFixed` for the integer `n` nearest to `x * 10 ^ f`: the decimal
digits of `n`, for `f ≠ 0` padded with zeros on the left to `f + 1` digits, with a
point before the last `f` of them. -/
def fixedDigits (f n : Nat) : List Char :=
  let m := Nat.toDigits 10 n
  if f = 0 then m
  else
    let m := List.replicate (f + 1 - m.length) '0' ++ m
    m.take (m.length - f) ++ '.' :: m.drop (m.length - f)

/-- The method `x.toFixed(f)` for `0 ≤ f ≤ 100`: a minus sign for `x < 0`, then the
text of `|x|` from `10 ^ 21` on, and below that the integer nearest to
`|x| * 10 ^ f` (the larger one on a tie) written with `f` decimals. -/
def toFixed (cv : Conv) (f : Nat) : JSNum → String
  | .fin x =>
      let s := if x < 0 then "-" else ""
      let a := |x|
      if (10 : ℚ) ^ 21 ≤ a then s ++ numberToString cv (.fin a)
      else s ++ String.mk (fixedDigits f (Rat.floor (a * 10 ^ f + 1 / 2)).toNat)
  | x => numberToString cv x

/-- The function `perfReports.formatNumber(num)`. -/
def formatNumber (cv : Conv) (num : JSVal) : String :=
  if supported cv num then
    if (toNumber cv num).ge (JSNum.fin 100) then toFixed cv 0 (toNumber cv num)
    else if (toNumber cv num).ge (JSNum.fin 10) then toFixed cv 1 (toNumber cv num)
    else toFixed cv 2 (toNumber cv num)
  else "not supported "

/-- The power `10 ^ e` for an integer exponent. -/
def pow10 (e : ℤ) : ℚ :=
  if 0 ≤ e then ((10 ^ e.toNat : ℕ) : ℚ) else 1 / ((10 ^ (-e).toNat : ℕ) : ℚ)

/-- The search for the decimal exponent of `a > 0` downwards from `e`, over at most
`fuel` steps: the first exponent met with `10 ^ e ≤ a`. -/
def searchExponent (a : ℚ) : Nat → ℤ → ℤ
  | 0, e => e
  | fuel + 1, e => if pow10 e ≤ a then e else searchExponent a fuel (e - 1)

/-- The decimal exponent of `a > 0` over the range of the double-precision numbers:
the largest `e` from 308 down to -324 with `10 ^ e ≤ a`, and -324 when there is none. -/
def decimalExponent (a : ℚ) : ℤ :=
  searchExponent a 632 308

/-- The number that the string `x.toPrecision(6)` denotes, which is the value of
`x.toPrecision(6) / 1`: for `x ≠ 0` the multiple of `10 ^ (e - 5)` nearest to `|x|`
(the larger one on a tie), where `10 ^ e ≤ |x| < 10 ^ (e + 1)`, with the sign of `x`. -/
def toPrecision6 : JSNum → JSNum
  | .fin x =>
      if x = 0 then .fin 0
      else
        let a := |x|
        let unit := pow10 (decimalExponent a - 5)
        let v := (Rat.floor (a / unit + 1 / 2) : ℚ) * unit
        .fin (if x < 0 then -v else v)
  | x => x

/-- The function `perfReports.formatPreciseNumber(num)`. -/
def formatPreciseNumber (cv : Conv) (num : JSVal) : String :=
  if supported cv num then
    let accurate := numberToString cv (toPrecision6 (toNumber cv num))
    let formatted := formatNumber cv num
    if formatted.length ≤ accurate.length then accurate else formatted
  else "not supported "

/-- The template helper `percent(value, options)`: its guard
`value !== null && value !== '' && isFinite(+value)` is that of the formatters, and the
bound `0.1` stands for the double nearest to it, which no double lies strictly
between. -/
def percent (cv : Conv) (value : JSVal) : String :=
  if supported cv value then
    if (toNumber cv value).gt (JSNum.fin 0) && (toNumber cv value).lt (JSNum.fin (1 / 10)) then
      "<0.1"
    else toFixed cv 1 (toNumber cv value)
  else "not supported "

/-! ## Scaling factors -/

/-- An entry `{factor: ..., prefix: ...}` of a table of scaling factors; the field
`prefixText` is the property `prefix`. -/
structure Factor where
  factor : JSNum
  prefixText : String
  deriving DecidableEq

/-- The table `perfReports.siFactors`. -/
def siFactors : List Factor :=
  [⟨JSNum.fin (10 ^ 9), "G"⟩, ⟨JSNum.fin (10 ^ 6), "M"⟩, ⟨JSNum.fin (10 ^ 3), "k"⟩,
   ⟨JSNum.fin (10 ^ 0), ""⟩]

/-- The table `perfReports.iecFactors`. -/
def iecFactors : List Factor :=
  [⟨JSNum.fin (2 ^ 30), "Gi"⟩, ⟨JSNum.fin (2 ^ 20), "Mi"⟩, ⟨JSNum.fin (2 ^ 10), "ki"⟩,
   ⟨JSNum.fin (2 ^ 0), ""⟩]

/-- The `for` loop of `chooseFactor` from index `i` on: the first entry that
`Math.abs(value)` reaches. -/
def chooseFactorLoop (value : JSNum) : List Factor → Option Factor
  | [] => none
  | f :: rest => if value.abs.ge f.factor then some f else chooseFactorLoop value rest

/-- The function `perfReports.chooseFactor(value, factors)`; `none` is `undefined`,
which `factors[factors.length-1]` is for an empty table. -/
def chooseFactor (cv : Conv) (value : JSVal) (factors : List Factor) : Option Factor :=
  match chooseFactorLoop (toNumber cv value) factors with
  | some f => some f
  | none => factors.getLast?

/-- The number `v` is `x` written with six significant digits: for `x ≠ 0` with
`10 ^ e ≤ |x| < 10 ^ (e + 1)`, `|v|` is a multiple `n * 10 ^ (e - 5)` of the unit of the
sixth digit, within half a unit of `|x|` (a tie going up), and `v` has the sign of
`x`. -/
def SixDigits (x v : ℚ) : Prop :=
  (x = 0 ∧ v = 0) ∨
    ∃ e n : ℤ, (10 : ℚ) ^ e ≤ |x| ∧ |x| < (10 : ℚ) ^ (e + 1) ∧
      100000 ≤ n ∧ n ≤ 1000000 ∧
      v = (if x < 0 then -1 else 1) * (n * (10 : ℚ) ^ (e - 5)) ∧
      |x| - (10 : ℚ) ^ (e - 5) / 2 < n * (10 : ℚ) ^ (e - 5) ∧
      n * (10 : ℚ) ^ (e - 5) ≤ |x| + (10 : ℚ) ^ (e - 5) / 2

/-! ## `factorValue` and `factorUnits` -/

/-- The test `value == null`, true of `null` and `undefined`. -/
def JSVal.isNullish : JSVal → Bool
  | .null => true
  | .undefined => true
  | _ => false

/-- The function `perfReports.factorValue(value, factors)`; reading `factor.factor`
throws when `chooseFactor` returned `undefined`. -/
def factorValue (cv : Conv) (value : JSVal) (factors : List Factor) : Except JSError JSVal :=
  if !value.isNullish then
    match chooseFactor cv value factors with
    | some factor => .ok (.num ((toNumber cv value).div factor.factor))
    | none => .error (.typeError "Cannot read properties of undefined")
  else .ok value

/-- The argument `options` of `factorUnits`: the properties `symbol` and `units`, each
a string or `undefined`. -/
structure UnitOptions where
  symbol : Option String
  units : Option String

/-- The table `knownUnits` of `factorUnits`. -/
def knownUnits : List (String × String) :=
  [("B", "bytes"), ("B/s", "bytes/s")]

/-- The table `knownSymbols` of `factorUnits`. -/
def knownSymbols : List (String × String) :=
  [("bytes", "B"), ("bytes/s", "B/s")]

/-- A value of the expressions of `factorUnits`: a string, `undefined`, or the value
that `Object.prototype` holds under a name (a function; the prototype itself for
`__proto__`). -/
inductive UnitsValue where
  | text (s : String)
  | undefined
  | inherited (name : String)
  deriving DecidableEq

/-- A property of the options, a string or `undefined`, as a value. -/
def UnitsValue.ofOption : Option String → UnitsValue
  | some s => .text s
  | none => .undefined

/-- The read `table[key]` of a plain object of strings by a key that is a string or
`undefined`: a miss among the own properties reaches `Object.prototype`. -/
def tableGet (table : List (String × String)) (key : Option String) : UnitsValue :=
  match readPlain table.lookup (propertyKey key) with
  | .own s => .text s
  | .inherited => .inherited (propertyKey key)
  | .missing => .undefined

/-- The expression `a || b`: `a` when it is truthy, that is a non-empty string or an
inherited function or object. -/
def orValue (a b : UnitsValue) : UnitsValue :=
  match a with
  | .text s => if s ≠ "" then .text s else b
  | .undefined => b
  | .inherited name => .inherited name

/-- The text a value has in a concatenation with a string; `inheritedText` gives the
text of the value that `Object.prototype` holds under a name. -/
def UnitsValue.toText (inheritedText : String → String) : UnitsValue → String
  | .text s => s
  | .undefined => "undefined"
  | .inherited name => inheritedText name

/-- The text of the values of `Object.prototype` as V8 prints them: the source text of
a built-in function, `Object` being the function under `constructor`, and
`[object Object]` for the prototype itself. -/
def nativeText (name : String) : String :=
  if name = "__proto__" then "[object Object]"
  else if name = "constructor" then "function Object() \x7b [native code] \x7d"
  else "function " ++ name ++ "() \x7b [native code] \x7d"

/-- The function `perfReports.factorUnits(value, factors, options)`. -/
def factorUnits (cv : Conv) (inheritedText : String → String) (value : JSVal)
    (factors : List Factor) (options : UnitOptions) : Except JSError UnitsValue :=
  let factor := chooseFactor cv value factors
  let symbol :=
    orValue (.ofOption options.symbol)
      (orValue (tableGet knownSymbols options.units)
        (orValue (.ofOption options.units) (.text "")))
  let units :=
    orValue (.ofOption options.units)
      (orValue (tableGet knownUnits options.symbol)
        (orValue (.ofOption options.symbol) (.text "")))
  match factor with
  | none => .error (.typeError "Cannot read properties of undefined")
  | some factor =>
      .ok (if factor.prefixText ≠ "" then
          .text (factor.prefixText ++ symbol.toText inheritedText)
        else units)

/-- The template helper `iecUnits(value, options)`; `hash` is `options.hash`. -/
def iecUnits (cv : Conv) (inheritedText : String → String) (value : JSVal)
    (hash : UnitOptions) : Except JSError UnitsValue :=
  factorUnits cv inheritedText value iecFactors hash

/-- The template helper `siUnits(value, options)`; `hash` is `options.hash`. -/
def siUnits (cv : Conv) (inheritedText : String → String) (value : JSVal)
    (hash : UnitOptions) : Except JSError UnitsValue :=
  factorUnits cv inheritedText value siFactors hash

/-- A property of the options that is present: a non-empty string. -/
def explicit : Option String → Option String
  | some s => if s = "" then none else some s
  | none => none

/-- The symbol as the statement on `factorUnits` words it: the explicit symbol, else
the known symbol of the units, else the units, else the empty string. -/
def symbolOf (options : UnitOptions) : String :=
  match explicit options.symbol, explicit options.units with
  | some s, _ => s
  | none, some "bytes" => "B"
  | none, some "bytes/s" => "B/s"
  | none, some u => u
  | none, none => ""

/-- The units as the statement on `factorUnits` words them: the explicit units, else
the known units of the symbol, else the symbol, else the empty string. -/
def unitsOf (options : UnitOptions) : String :=
  match explicit options.units, explicit options.symbol with
  | some u, _ => u
  | none, some "B" => "bytes"
  | none, some "B/s" => "bytes/s"
  | none, some s => s
  | none, none => ""

/-- A property of the options that no read of a plain object finds in
`Object.prototype`. -/
def PlainName (name : Option String) : Prop :=
  ∀ u, name = some u → u ∉ objectPrototypeNames

/-! ## Text helpers of the report engine: `wrapText`, `collapseWhitespace`,
`parsedHtmlToText`

A string is the list of its characters (in the source, of its UTF-16 code units; the
two agree for the characters of the Basic Multilingual Plane). -/

/-- The array `wrappableChars` of `wrapText`. -/
def wrappableChars : List Char :=
  [' ', '\t',
   '\u2000', '\u2001', '\u2002', '\u2003', '\u2004', '\u2005', '\u2006',
   '\u2007', '\u2008', '\u2009', '\u200a',
   '\u200b',
   '\u205f',
   '\u3000']

/-- The variables of the loop of `wrapText`: the array `result`, and `startOfLine` and
`lastSpaceOnLine` (`none` is `undefined`). -/
structure WrapState where
  result : List Char
  startOfLine : Nat
  lastSpaceOnLine : Option Nat

/-- One pass of the `for` loop of `wrapText`, at index `i` with `c = string[i]`. -/
def wrapStep (wrapColumn : Nat) (st : WrapState) (i : Nat) (c : Char) : WrapState :=
  let st : WrapState :=
    if c = '\n' then { st with startOfLine := i + 1, lastSpaceOnLine := none }
    else if c ∈ wrappableChars then { st with lastSpaceOnLine := some i }
    else st
  let lineLength : ℤ := (i : ℤ) - (st.startOfLine : ℤ) + 1
  match st.lastSpaceOnLine with
  | some last =>
      if lineLength > (wrapColumn : ℤ) then
        { result := st.result.set last '\n', startOfLine := last + 1, lastSpaceOnLine := none }
      else st
  | none => st

/-- The `for` loop of `wrapText` from index `i` on; the list holds the characters
`string[i]`, `string[i+1]`, ... still to visit. -/
def wrapLoop (wrapColumn : Nat) : List Char → Nat → WrapState → WrapState
  | [], _, st => st
  | c :: cs, i, st => wrapLoop wrapColumn cs (i + 1) (wrapStep wrapColumn st i c)

/-- The function `wrapText` on the characters of the string. -/
def wrapChars (string : List Char) (wrapColumn : Nat) : List Char :=
  (wrapLoop wrapColumn string 0 ⟨string, 0, none⟩).result

/-- The function `wrapText(string, wrapColumn)`. -/
def wrapText (string : String) (wrapColumn : Nat) : String :=
  String.mk (wrapChars string.data wrapColumn)

/-- The character class `[ \r\n\t]` of `collapseWhitespace`. -/
def isWhitespace (c : Char) : Bool :=
  c = ' ' || c = '\r' || c = '\n' || c = '\t'

/-- The replacement `replace(/[ \r\n\t]+/g, ' ')` from left to right; `inRun` tells
that the character before was of the class, its run being replaced already. -/
def collapseFrom : Bool → List Char → List Char
  | _, [] => []
  | inRun, c :: cs =>
      if isWhitespace c then
        if inRun then collapseFrom true cs else ' ' :: collapseFrom true cs
      else c :: collapseFrom false cs

/-- The function `collapseWhitespace` on the characters of the string. -/
def collapseChars (string : List Char) : List Char :=
  collapseFrom false string

/-- The function `collapseWhitespace(string)`. -/
def collapseWhitespace (string : String) : String :=
  String.mk (collapseChars string.data)

/-- The function `decode` of the report engine, which replaces the HTML entities
`&name;`, `&#number;` and `&#xhex;`. The embedding leaves the replacement open and
keeps one law: each of the three patterns starts with `&`, so a string without `&`
is returned as it is. -/
structure Decoder where
  decode : String → String
  decode_plain : ∀ s : String, '&' ∉ s.data → decode s = s

/-- The decoder for text without entities: it returns every string as it is, which on
a string without `&` every decoder does. -/
def Decoder.identity : Decoder :=
  { decode := fun s => s,
    decode_plain := fun _ _ => rfl }

/-- An element of the parsed HTML: a tag with its name and children (no children
when `element.children` is `undefined`), a text, or an element of another type
(comment, directive, script, style), which the `switch` passes over. -/
inductive HtmlNode where
  | tag (name : String) (children : List HtmlNode)
  | text (data : String)
  | other

/-- The options of `parsedHtmlToText`: `wrap` is the column, 0 standing for `false`,
and `collapseWhitespace` the truth value of the option. -/
structure TextOptions where
  wrap : Nat
  collapseWhitespace : Bool

/-- The array `blockElements` of `parsedHtmlToText`. -/
def blockElements : List String :=
  ["p", "div", "h1", "h2", "h3", "h4", "h5", "h6", "ul", "ol", "pre"]

/-- The test `result.slice(-1) !== '\n'`. -/
def lastIsNotNewline (result : String) : Bool :=
  result.data.getLast? != some '\n'

/-- The case `'text'` of `htmlElementToText`: the text appended to `result`. -/
def textData (dec : Decoder) (options : TextOptions) (data : String) : String :=
  let data := dec.decode data
  let data := if options.collapseWhitespace then collapseWhitespace data else data
  if options.wrap ≠ 0 then wrapText data options.wrap else data

mutual
/-- The callback `htmlElementToText(element)`: `result` before the call to `result`
after it. -/
def htmlElementToText (dec : Decoder) (options : TextOptions) : String → HtmlNode → String
  | result, .tag name children =>
      let result :=
        if name = "br" then result ++ "\n"
        else if name ∈ blockElements then
          if result.length > 0 && lastIsNotNewline result then result ++ "\n" else result
        else result
      let result := result ++ elementsToText dec options "" children
      if name = "p" then result ++ "\n\n"
      else if name ∈ blockElements then
        if result.length = 0 || lastIsNotNewline result then result ++ "\n" else result
      else result
  | result, .text data => result ++ textData dec options data
  | result, .other => result
/-- The loop `allinea.forEach(parsed, htmlElementToText)` from the value `result` on. -/
def elementsToText (dec : Decoder) (options : TextOptions) : String → List HtmlNode → String
  | result, [] => result
  | result, element :: rest =>
      elementsToText dec options (htmlElementToText dec options result element) rest
end

/-- The function `parsedHtmlToText(parsed, options)`: the loop from `result = ''`. -/
def parsedHtmlToText (dec : Decoder) (parsed : List HtmlNode) (options : TextOptions) : String :=
  elementsToText dec options "" parsed

/-- The options passed to `htmlToText`: a key is `none` when it is not in the
object. -/
structure GivenOptions where
  wrap : Option Nat
  collapseWhitespace : Option Bool

/-- The loop over `defaultOptions` in `htmlToText`: `wrap: false` and
`collapseWhitespace: true` for the keys not given. -/
def withDefaults (options : GivenOptions) : TextOptions :=
  { wrap := options.wrap.getD 0, collapseWhitespace := options.collapseWhitespace.getD true }

/-- The method `htmlToText(string, options)` from the parsed document on: `dom` is
the tree `handler.dom` that the HTML parser built from `string`; `options` is `none`
when the argument is `undefined`. -/
def htmlToText (dec : Decoder) (dom : List HtmlNode) (options : Option GivenOptions) : String :=
  parsedHtmlToText dec dom (withDefaults (options.getD ⟨none, none⟩))

/-- The pieces of a text between its newline characters. -/
def linesOf : List Char → List (List Char)
  | [] => [[]]
  | c :: cs =>
      if c = '\n' then [] :: linesOf cs
      else
        match linesOf cs with
        | line :: rest => (c :: line) :: rest
        | [] => [[c]]

/-- The parse tree of `<p>a  b</p><br>c`. -/
def paragraphBreakText : List HtmlNode :=
  [.tag "p" [.text "a  b"], .tag "br" [], .text "c"]

/-- The parse tree of `x<span><div>y</div></span>`. -/
def blockInSpan : List HtmlNode :=
  [.text "x", .tag "span" [.tag "div" [.text "y"]]]

/-- A line respects the wrap column `W`: it has at most `W` characters, or it holds no
wrappable character. -/
def GoodLine (W : Nat) (line : List Char) : Prop :=
  line.length ≤ W ∨ ∀ c ∈ line, c ∉ wrappableChars

/-- The text made of the given lines, each followed by a newline. -/
def joinLines (lines : List (List Char)) : List Char :=
  (lines.map fun line => line ++ ['\n']).flatten

/-- The invariant of the loop of `wrapText` before index `i`, `rest` being the
characters from `i` on: `result` is a list of finished lines that respect the wrap
column, then the current line `cur`, which starts at `startOfLine`, then `rest`; with
no `lastSpaceOnLine` the current line holds no wrappable character, and otherwise it
has at most `W` characters and `lastSpaceOnLine` is the place of its last wrappable
character. -/
def WrapInv (W : Nat) (st : WrapState) (i : Nat) (rest : List Char) : Prop :=
  ∃ (lines : List (List Char)) (cur : List Char),
    st.result = joinLines lines ++ (cur ++ rest) ∧
    st.startOfLine = (joinLines lines).length ∧
    i = (joinLines lines).length + cur.length ∧
    (∀ l ∈ lines, GoodLine W l ∧ '\n' ∉ l) ∧
    '\n' ∉ cur ∧
    (match st.lastSpaceOnLine with
      | none => ∀ c ∈ cur, c ∉ wrappableChars
      | some p =>
          cur.length ≤ W ∧
            ∃ pre w post, cur = pre ++ w :: post ∧ w ∈ wrappableChars ∧
              p = (joinLines lines).length + pre.length ∧ ∀ c ∈ post, c ∉ wrappableChars)

/-! ## `allinea.makeId` -/

/-- The characters that the filter `/[^a-zA-Z0-9_\-.]/gi` keeps: the ASCII letters and
digits, `_`, `-` and `.`. -/
def isIdChar (c : Char) : Bool :=
  c.isAlphanum || c = '_' || c = '-' || c = '.'

/-- The replacement `replace(/[0-9]*$/, '')`: the digits at the end are removed. -/
def stripTrailingDigits (l : List Char) : List Char :=
  (l.reverse.dropWhile Char.isDigit).reverse

/-- The identifier `cleanId` that `makeId` computes from `str` before it looks at the
counters: the kept characters in lower case, without the digits at the end, with an
`x` in front when it does not start with a letter. -/
def cleanIdOf (str : String) : String :=
  let cleanId := (str.data.filter isIdChar).map Char.toLower
  let cleanId := stripTrailingDigits cleanId
  let cleanId := if (cleanId.head?.map Char.isLower).getD false then cleanId else 'x' :: cleanId
  String.mk cleanId

/-- The function `allinea.makeId(str)`: the returned id and `idCounters` after the
call. The object `idCounters` is the list of its assignments, the latest first. -/
def makeId (idCounters : List (String × Nat)) (str : String) :
    String × List (String × Nat) :=
  let cleanId := cleanIdOf str
  match idCounters.lookup cleanId with
  | some n =>
      let counter := n + 1
      (cleanId ++ toString counter, (cleanId, counter) :: idCounters)
  | none => (cleanId, (cleanId, 1) :: idCounters)

/-- The ids that successive calls of `makeId` return for the given inputs, from the
given state of `idCounters`. -/
def makeIds : List (String × Nat) → List String → List String
  | _, [] => []
  | idCounters, str :: rest =>
      (makeId idCounters str).1 :: makeIds (makeId idCounters str).2 rest

/-- The number that a list of decimal digits denotes. -/
def digitsValue (l : List Char) : Nat :=
  l.foldl (fun acc c => 10 * acc + (c.toNat - 48)) 0

/-- A text that is not empty and does not end with a digit, as every `cleanId` is. -/
def EndsWithoutDigit (l : List Char) : Prop :=
  ∃ init c, l = init ++ [c] ∧ c.isDigit = false

/-- The id for the `k`-th use of the clean id `b`: `b` itself for the first use, `b`
followed by the digits of `k` afterwards. -/
def label (b : String) (k : Nat) : String :=
  if k = 1 then b else b ++ toString k

/-- The count of uses of a clean id that `idCounters` records, 0 for none. -/
def usesOf (idCounters : List (String × Nat)) (b : String) : Nat :=
  (idCounters.lookup b).getD 0

/-! ## `allinea.remove` -/

/-- The loop `while(i--)` of `allinea.remove` entered with the counter at `i`: each
pass takes `i - 1`, and where the predicate holds of `array[i - 1]` removes that
element with `array.splice` and puts it in front of `result`. The pair returned is
`result` and the array as the loop leaves it. -/
def removeLoop (predicate : JSVal → Nat → List JSVal → Bool) :
    Nat → List JSVal → List JSVal → List JSVal × List JSVal
  | 0, array, result => (result, array)
  | i + 1, array, result =>
      if predicate (array.getD i .undefined) i array then
        removeLoop predicate i (array.eraseIdx i)
          (((array.drop i).take 1).headD .undefined :: result)
      else removeLoop predicate i array result

/-- The function `allinea.remove(array, predicate)`: the returned list, and the array
after the call. -/
def remove (array : List JSVal) (predicate : JSVal → Nat → List JSVal → Bool) :
    List JSVal × List JSVal :=
  removeLoop predicate array.length array []

/-! ## `allinea.toBool`, `allinea.isMetricValueValid` and the helper `isVisible` -/

/-- The predicate `allinea.isString`. -/
def isString : JSVal → Bool
  | .str _ => true
  | _ => false

/-- The comparison `a === b` of a value with a primitive `b`, as `indexOf` makes it
against the members of an array literal (an object is equal to none of them, `NaN`
is equal to nothing). -/
def strictEquals : JSVal → JSVal → Bool
  | .undefined, .undefined => true
  | .null, .null => true
  | .bool a, .bool b => a == b
  | .num (.fin a), .num (.fin b) => decide (a = b)
  | .num .posInf, .num .posInf => true
  | .num .negInf, .num .negInf => true
  | .str a, .str b => a == b
  | _, _ => false

/-- The test `list.indexOf(value) >= 0`. -/
def foundIn (list : List JSVal) (value : JSVal) : Bool :=
  list.any fun member => strictEquals member value

/-- The array `falsyStrings` of `allinea.toBool`: the texts of `false`, `0`, `-0`,
`null`, `undefined` and `NaN`. -/
def falsyStrings : List JSVal :=
  [.str "false", .str "0", .str "0", .str "null", .str "undefined", .str "NaN"]

/-- The function `allinea.toBool(value)`. -/
def toBool (value : JSVal) : Bool :=
  if foundIn falsyStrings value then false else value.truthy

/-- The array `zeroValues` of `allinea.isMetricValueValid`: `'0'`, `'0'`, `0`, `-0`. -/
def zeroValues : List JSVal :=
  [.str "0", .str "0", .num (JSNum.fin 0), .num (JSNum.fin 0)]

/-- The function `allinea.isMetricValueValid(value)`. -/
def isMetricValueValid (value : JSVal) : Bool :=
  if foundIn zeroValues value then true else toBool value

/-- The test `v !== undefined`. -/
def JSVal.isDefined : JSVal → Bool
  | .undefined => false
  | _ => true

/-- The resolution `allinea.lookup(options.data.root, path)` of a value known to be a
string. -/
def lookupString (root : JSVal) : JSVal → JSVal
  | .str path => lookup root (some path)
  | _ => root

/-- The template helper `isVisible(ctx, options)`; `root` is `options.data.root`. -/
def isVisible (ctx : JSVal) (root : JSVal) : Except JSError Bool :=
  match getProp ctx "visible" with
  | .error e => .error e
  | .ok visible =>
      if visible.isDefined then
        if isString visible then .ok (isMetricValueValid (lookupString root visible))
        else .ok (toBool visible)
      else
        if isString (ctx.get "hidden") then
          .ok (!isMetricValueValid (lookupString root (ctx.get "hidden")))
        else .ok (!toBool (ctx.get "hidden"))

/-- A root scope `{m: 0, t: '0'}` with a metric equal to 0 and one equal to `'0'`. -/
def zeroMetricRoot : JSVal :=
  .obj [("m", .num (JSNum.fin 0)), ("t", .str "0")]

/-! ## The helper `csvEscape` -/

/-- The conversion `String(value)`; `objectText` is the text of an array or object,
which the embedding leaves open. -/
def stringOf (cv : Conv) (objectText : JSVal → String) : JSVal → String
  | .undefined => "undefined"
  | .null => "null"
  | .bool b => if b then "true" else "false"
  | .num n => numberToString cv n
  | .str s => s
  | v => objectText v

/-- The replacement `replace(/"/g, '""')` on the characters of a string. -/
def doubleQuotes : List Char → List Char
  | [] => []
  | c :: cs => if c = '"' then '"' :: '"' :: doubleQuotes cs else c :: doubleQuotes cs

/-- The last two statements of `csvEscape` on the text `String(value)`: the quotes are
doubled, and the result is put in quotes when it holds a comma, a space, a newline or
a quote. -/
def csvQuote (text : String) : String :=
  let value := String.mk (doubleQuotes text.data)
  if value.data.contains ',' || value.data.contains ' ' || value.data.contains '\n'
      || value.data.contains '"' then
    "\"" ++ value ++ "\""
  else value

/-- The argument `options` of a helper call: `fn` is `none` when `options.fn` is
absent (function form), and holds the value that `options.fn(this)` returns
otherwise (block form). -/
structure HelperOptions where
  fn : Option JSVal

/-- The template helper `csvEscape`: `passed` are the arguments before `options`, and
`options` is `none` for a call without any argument. -/
def csvEscape (cv : Conv) (objectText : JSVal → String) (passed : List JSVal)
    (options : Option HelperOptions) : Except JSError String :=
  match options with
  | none => .error (.error "invalid usage of csvEscape")
  | some options =>
      if passed.length + 1 > 2 then .error (.error "invalid usage of csvEscape")
      else
        let value : Except JSError JSVal :=
          match options.fn with
          | some body =>
              if passed.length + 1 ≠ 1 then
                .error (.error
                  "invalid usage of csvEscape, no arguments should be passed when used as a block")
              else .ok body
          | none =>
              if passed.length + 1 ≠ 2 then
                .error (.error
                  "invalid usage of csvEscape, an argument is required when used as a function")
              else .ok (passed.getD 0 .undefined)
        value.map fun v => csvQuote (stringOf cv objectText v)

/-- The inverse of doubling, from left to right: a quote is kept and the quote that
follows it is dropped; `skip` tells that the character before was a kept quote. -/
def undoubleFrom : Bool → List Char → List Char
  | _, [] => []
  | skip, c :: cs =>
      if c = '"' then
        if skip then undoubleFrom false cs else '"' :: undoubleFrom true cs
      else c :: undoubleFrom false cs

/-- The inverse of doubling: each pair of quotes becomes one quote. -/
def undoubleQuotes (field : List Char) : List Char :=
  undoubleFrom false field

/-- The reading of a CSV field: a field that starts with a quote loses its first and
its last character and has its quotes undoubled; any other field is taken as it is. -/
def csvUnquote (field : String) : String :=
  match field.data with
  | '"' :: rest => String.mk (undoubleQuotes rest.dropLast)
  | _ => field

/-! ## The helpers `padLeft`, `padRight`, `percentToBar` and `customUnits` -/

namespace JSNum

/-- The smaller of two numbers as `Math.min` computes it (`NaN` is contagious). -/
def min2 : JSNum → JSNum → JSNum
  | nan, _ => nan
  | _, nan => nan
  | a, b => if gt a b then b else a

end JSNum

/-- The length that `Array(len)` accepts: an integer from 0 to `2 ^ 32 - 1`; any other
number is a `RangeError`. -/
def arrayLength : JSNum → Except JSError Nat
  | .fin q =>
      if q.den = 1 ∧ 0 ≤ q ∧ q < 2 ^ 32 then .ok q.num.toNat
      else .error (.rangeError "Invalid array length")
  | _ => .error (.rangeError "Invalid array length")

/-- The text `Array(len).join(sep)`: the separator between `len` empty places, that
is `len - 1` times, and the empty text for `len = 0`. -/
def emptyJoin (len : Nat) (sep : Char) : List Char :=
  List.replicate (len - 1) sep

/-- The beginning that `padLeft` and `padRight` share, `name` being the name of the
helper in the messages: the checks of the arguments, then `String(value)` and
`Math.max(+maxLength || 0, 0)`. The arguments are `passed` followed by `options`
(`none` for a call without any argument). -/
def padArguments (cv : Conv) (objectText : JSVal → String) (name : String)
    (passed : List JSVal) (options : Option HelperOptions) :
    Except JSError (String × JSNum) :=
  match options with
  | none => .error (.error ("invalid usage of " ++ name))
  | some options =>
      if passed.length + 1 < 2 ∨ passed.length + 1 > 3 then
        .error (.error ("invalid usage of " ++ name))
      else
        let maxLength := passed.getLast?.getD .undefined
        let value : Except JSError JSVal :=
          match options.fn with
          | some body =>
              if passed.length + 1 ≠ 2 then
                .error (.error ("invalid usage of " ++ name ++
                  ", an argument is required when used as a block"))
              else .ok body
          | none =>
              if passed.length + 1 ≠ 3 then
                .error (.error ("invalid usage of " ++ name ++
                  ", two arguments are required when used as a function"))
              else .ok (passed.getD 0 .undefined)
        value.map fun value =>
          (stringOf cv objectText value,
            JSNum.mathMax [plusOrZero cv maxLength, JSNum.fin 0])

/-- The last two statements of `padLeft` for the text `value` and the column
`maxLength`, a valid array length less one: `str` is `maxLength` spaces and the
text, and the result is `str.substring(str.length - maxLength)`. -/
def padLeftText (value : String) (maxLength : Nat) : String :=
  let str := emptyJoin (maxLength + 1) ' ' ++ value.data
  String.mk (str.drop (str.length - maxLength))

/-- The last two statements of `padRight`: `str` is the text and `maxLength` spaces,
and the result is `str.substring(0, maxLength)`. -/
def padRightText (value : String) (maxLength : Nat) : String :=
  let str := value.data ++ emptyJoin (maxLength + 1) ' '
  String.mk (str.take maxLength)

/-- The template helper `padLeft`. -/
def padLeft (cv : Conv) (objectText : JSVal → String) (passed : List JSVal)
    (options : Option HelperOptions) : Except JSError String :=
  match padArguments cv objectText "padLeft" passed options with
  | .error e => .error e
  | .ok (value, maxLength) =>
      match arrayLength (maxLength.add (JSNum.fin 1)) with
      | .error e => .error e
      | .ok len => .ok (padLeftText value (len - 1))

/-- The template helper `padRight`. -/
def padRight (cv : Conv) (objectText : JSVal → String) (passed : List JSVal)
    (options : Option HelperOptions) : Except JSError String :=
  match padArguments cv objectText "padRight" passed options with
  | .error e => .error e
  | .ok (value, maxLength) =>
      match arrayLength (maxLength.add (JSNum.fin 1)) with
      | .error e => .error e
      | .ok len => .ok (padRightText value (len - 1))

/-- The statements of `percentToBar` after the first one, `value` being the number
`Math.max(+value || 0, 0)`. -/
def barOfValue (value : JSNum) : Except JSError String :=
  let ret := "|"
  let numberOfEquals := JSNum.min2 (JSNum.round (value.div (JSNum.fin 10))) (JSNum.fin 20)
  match arrayLength numberOfEquals with
  | .error e => .error e
  | .ok len =>
      let ret := ret ++ String.mk (emptyJoin len '=')
      if value.gt (JSNum.fin 0) then .ok (ret ++ "|") else .ok ret

/-- The template helper `percentToBar(value)`. -/
def percentToBar (cv : Conv) (value : JSVal) : Except JSError String :=
  barOfValue (JSNum.mathMax [plusOrZero cv value, JSNum.fin 0])

/-- The call `units.split('/')` on the characters of the string; `cur` is the current
component, reversed. -/
def splitSlashAux : List Char → List Char → List (List Char)
  | [], cur => [cur.reverse]
  | c :: cs, cur =>
      if c = '/' then cur.reverse :: splitSlashAux cs []
      else splitSlashAux cs (c :: cur)

/-- The inner function `stripPlural(unit)` of `customUnits`; `unit.substring(a)` is
`unit.drop a` and `unit.substring(0, b)` is `unit.take b`, a negative `a` counting
as 0. -/
def stripPlural (unit : List Char) : List Char :=
  if unit.length = 1 then unit
  else if unit.drop (unit.length - 3) = ['s', 'e', 's'] then unit.take (unit.length - 2)
  else if unit.drop (unit.length - 1) = ['s'] then unit.take (unit.length - 1)
  else unit

/-- The template helper `customUnits(value, units)` for a string `units`. -/
def customUnits (value : JSVal) (units : String) : String :=
  if !strictEquals value (.num (JSNum.fin 1)) then units
  else
    String.mk (List.intercalate ['/'] ((splitSlashAux units.data []).map stripPlural))

/-- The singular of a component as the statement on `customUnits` words it. -/
def singular (unit : List Char) : List Char :=
  if unit.length = 1 then unit
  else if ['s', 'e', 's'] <:+ unit then unit.dropLast.dropLast
  else if ['s'] <:+ unit then unit.dropLast
  else unit

/-- The frame invariant of the loop of `wrapText` on the string `s`: `result` has the
length of `s` and holds at each place the character of `s`, or a newline where `s`
holds a wrappable character; and `lastSpaceOnLine` is the place of a wrappable
character of `s`. -/
def WrapFrame (s : List Char) (st : WrapState) : Prop :=
  st.result.length = s.length ∧
    (∀ k : Nat, st.result[k]? = s[k]? ∨
      (st.result[k]? = some '\n' ∧ ∃ c, s[k]? = some c ∧ c ∈ wrappableChars)) ∧
    ∀ p : Nat, st.lastSpaceOnLine = some p → ∃ c, s[p]? = some c ∧ c ∈ wrappableChars

/-- The object `{a: {b: 5}}`. -/
def nestedObject : JSVal :=
  .obj [("a", .obj [("b", .num (JSNum.fin 5))])]

/-! ## The two loops as maps -/

theorem scanMetric_newMetrics (root : Root) (s : Scan) (metric : Metric) :
    (scanMetric root s metric).newMetrics = s.newMetrics ++ [prepare root metric] := by
  unfold scanMetric
  cases hg : metric.group <;> simp [extend, prepare, valueOf, hg]

theorem foldl_scanMetric_newMetrics (root : Root) (metrics : List Metric) (s : Scan) :
    (metrics.foldl (scanMetric root) s).newMetrics
      = s.newMetrics ++ metrics.map (prepare root) := by
  induction metrics generalizing s with
  | nil => simp
  | cons m ms ih => simp [List.foldl_cons, ih, scanMetric_newMetrics]

theorem firstLoop_newMetrics (root : Root) (metrics : List Metric) :
    (firstLoop root metrics).newMetrics = metrics.map (prepare root) := by
  simp [firstLoop, foldl_scanMetric_newMetrics, Scan.init]

theorem normaliseMetric_eq_finish (s : Scan) (metric : Metric) (v : Stats)
    (hv : metric.value = some v) : normaliseMetric s metric = .ok (finish s metric) := by
  unfold normaliseMetric finish
  cases hg : metric.group with
  | none =>
      cases hb : metric.maxBarValue <;> simp [readValue, hv, Except.map]
  | some g =>
      by_cases hpos : (slotToNumber (readPlain s.maxValues g)).gt (JSNum.fin 0) = true
        <;> simp [readValue, hv, Except.map, hpos]

theorem secondLoop_eq_map (s : Scan) (metrics : List Metric)
    (h : ∀ m ∈ metrics, ∃ v, m.value = some v) :
    secondLoop s metrics = .ok (metrics.map (finish s)) := by
  induction metrics with
  | nil => rfl
  | cons m ms ih =>
      obtain ⟨v, hv⟩ := h m (List.mem_cons_self m ms)
      have hms := ih (fun x hx => h x (List.mem_cons_of_mem m hx))
      simp [secondLoop, normaliseMetric_eq_finish s m v hv, hms, bind, Except.bind, pure,
        Except.pure]

/-- The call never throws, and its result is the image of the input list. -/
theorem normaliseMetrics_eq (root : Root) (metrics : List Metric) :
    normaliseMetrics root metrics
      = .ok (metrics.map fun m => finish (firstLoop root metrics) (prepare root m)) := by
  unfold normaliseMetrics
  simp only [firstLoop_newMetrics]
  rw [secondLoop_eq_map]
  · simp [List.map_map, Function.comp_def]
  · intro m hm
    obtain ⟨m0, _, rfl⟩ := List.mem_map.mp hm
    exact ⟨_, rfl⟩

/-! ## Rounding to double precision -/

theorem pow2_pos (e : ℤ) : 0 < pow2 e := by
  unfold pow2
  split_ifs <;> positivity

theorem pow2_eq_zpow (e : ℤ) : pow2 e = (2 : ℚ) ^ e := by
  unfold pow2
  split_ifs with h
  · obtain ⟨n, rfl⟩ := Int.eq_ofNat_of_zero_le h
    simp
  · obtain ⟨n, hn⟩ := Int.eq_ofNat_of_zero_le (show (0 : ℤ) ≤ -e by omega)
    have he : e = -(n : ℤ) := by omega
    subst he
    simp [zpow_neg]

theorem pow2_add (a b : ℤ) : pow2 (a + b) = pow2 a * pow2 b := by
  rw [pow2_eq_zpow, pow2_eq_zpow, pow2_eq_zpow, zpow_add₀ (by norm_num)]

theorem pow2_le_pow2 (a b : ℤ) (h : a ≤ b) : pow2 a ≤ pow2 b := by
  rw [pow2_eq_zpow, pow2_eq_zpow]
  exact zpow_le_zpow_right₀ (by norm_num) h

theorem pow2_lt_pow2 (a b : ℤ) (h : a < b) : pow2 a < pow2 b := by
  rw [pow2_eq_zpow, pow2_eq_zpow]
  exact zpow_lt_zpow_right₀ (by norm_num) h

theorem pow2_succ (a : ℤ) : pow2 (a + 1) = 2 * pow2 a := by
  rw [pow2_add, mul_comm]
  congr 1

theorem pow2_natCast (n : ℕ) : pow2 (n : ℤ) = ((2 ^ n : ℕ) : ℚ) := by
  simp [pow2]

theorem exponentSearch_spec (a : ℚ) (n : ℕ) :
    ∀ lo : ℤ, lo ≤ exponentSearch a n lo ∧ exponentSearch a n lo ≤ lo + 2 ^ n - 1 ∧
      (lo < exponentSearch a n lo → pow2 (exponentSearch a n lo) ≤ a) ∧
      (exponentSearch a n lo < lo + 2 ^ n - 1 → a < pow2 (exponentSearch a n lo + 1)) := by
  induction n with
  | zero =>
      intro lo
      simp [exponentSearch]
  | succ n ih =>
      intro lo
      have hpos : (0 : ℤ) < 2 ^ n := by positivity
      have h2 : (2 : ℤ) ^ (n + 1) = 2 ^ n + 2 ^ n := by ring
      unfold exponentSearch
      by_cases h : pow2 (lo + 2 ^ n) ≤ a
      · rw [if_pos h]
        obtain ⟨i1, i2, i3, i4⟩ := ih (lo + 2 ^ n)
        refine ⟨by omega, by omega, ?_, ?_⟩
        · intro _
          by_cases he : lo + 2 ^ n < exponentSearch a n (lo + 2 ^ n)
          · exact i3 he
          · have : exponentSearch a n (lo + 2 ^ n) = lo + 2 ^ n := by omega
            rw [this]
            exact h
        · intro hlt
          exact i4 (by omega)
      · rw [if_neg h]
        obtain ⟨i1, i2, i3, i4⟩ := ih lo
        refine ⟨i1, by omega, i3, ?_⟩
        intro _
        by_cases he : exponentSearch a n lo < lo + 2 ^ n - 1
        · exact i4 he
        · have : exponentSearch a n lo + 1 = lo + 2 ^ n := by omega
          rw [this]
          exact not_le.mp h

theorem doubleExponent_spec (a : ℚ) :
    -1022 ≤ doubleExponent a ∧ doubleExponent a ≤ 1023 ∧
      (-1022 < doubleExponent a → pow2 (doubleExponent a) ≤ a) ∧
      (doubleExponent a < 1023 → a < pow2 (doubleExponent a + 1)) := by
  obtain ⟨h1, h2, h3, h4⟩ := exponentSearch_spec a 11 (-1022)
  unfold doubleExponent
  by_cases hr : exponentSearch a 11 (-1022) ≤ 1023
  · rw [min_eq_left hr]
    refine ⟨h1, hr, h3, ?_⟩
    intro hlt
    exact h4 (by norm_num; omega)
  · have hr2 : 1023 ≤ exponentSearch a 11 (-1022) := by omega
    rw [min_eq_right hr2]
    refine ⟨by norm_num, le_refl _, ?_, by norm_num⟩
    intro _
    exact le_trans (pow2_le_pow2 _ _ hr2) (h3 (by omega))

theorem doubleExponent_le (a : ℚ) (k : ℤ) (hk : -1022 ≤ k) (h : a < pow2 (k + 1)) :
    doubleExponent a ≤ k := by
  obtain ⟨_, _, h3, _⟩ := doubleExponent_spec a
  by_contra hcon
  have hlt : k + 1 ≤ doubleExponent a := by omega
  have := h3 (by omega)
  have := pow2_le_pow2 _ _ hlt
  linarith

theorem le_doubleExponent (a : ℚ) (k : ℤ) (hk : k ≤ 1023) (h : pow2 k ≤ a) :
    k ≤ doubleExponent a := by
  obtain ⟨_, _, _, h4⟩ := doubleExponent_spec a
  by_contra hcon
  have hlt : doubleExponent a + 1 ≤ k := by omega
  have := h4 (by omega)
  have := pow2_le_pow2 _ _ hlt
  linarith

theorem roundHalfEven_error (x : ℚ) : |(roundHalfEven x : ℚ) - x| ≤ 1 / 2 := by
  have hfl : Rat.floor x = ⌊x⌋ := rfl
  have h1 := Int.floor_le x
  have h2 := Int.lt_floor_add_one x
  unfold roundHalfEven
  simp only [hfl]
  rw [abs_le]
  split_ifs with ha hb hc
  · constructor <;> linarith
  · push_cast
    constructor <;> linarith
  · have : x - ⌊x⌋ = 1 / 2 := le_antisymm (not_lt.mp hb) (not_lt.mp ha)
    constructor <;> linarith
  · have : x - ⌊x⌋ = 1 / 2 := le_antisymm (not_lt.mp hb) (not_lt.mp ha)
    push_cast
    constructor <;> linarith

theorem roundHalfEven_int (k : ℤ) : roundHalfEven (k : ℚ) = k := by
  have hfl : Rat.floor (k : ℚ) = k := by
    show ⌊(k : ℚ)⌋ = k
    exact Int.floor_intCast k
  unfold roundHalfEven
  simp only [hfl, sub_self]
  norm_num

theorem roundHalfEven_mono (x y : ℚ) (h : x ≤ y) : roundHalfEven x ≤ roundHalfEven y := by
  have hx1 := Int.floor_le x
  have hx2 := Int.lt_floor_add_one x
  have hy1 := Int.floor_le y
  have hy2 := Int.lt_floor_add_one y
  have hfx : Rat.floor x = ⌊x⌋ := rfl
  have hfy : Rat.floor y = ⌊y⌋ := rfl
  have hfloor : ⌊x⌋ ≤ ⌊y⌋ := Int.floor_le_floor h
  have hxle : roundHalfEven x ≤ ⌊x⌋ + 1 := by
    unfold roundHalfEven
    simp only [hfx]
    split_ifs <;> omega
  have hyge : ⌊y⌋ ≤ roundHalfEven y := by
    unfold roundHalfEven
    simp only [hfy]
    split_ifs <;> omega
  by_cases hlt : ⌊x⌋ < ⌊y⌋
  · omega
  · have heq : ⌊x⌋ = ⌊y⌋ := by omega
    unfold roundHalfEven
    simp only [hfx, hfy, heq]
    have hfrac : x - (⌊y⌋ : ℚ) ≤ y - (⌊y⌋ : ℚ) := by linarith
    split_ifs <;> first | omega | (exfalso; linarith)

theorem roundHalfEven_nonneg (x : ℚ) (hx : 0 ≤ x) : 0 ≤ roundHalfEven x := by
  have := roundHalfEven_mono 0 x hx
  have h0 : roundHalfEven (0 : ℚ) = 0 := by
    have := roundHalfEven_int 0
    simpa using this
  omega

theorem ulp_pos (a : ℚ) : 0 < pow2 (doubleExponent a - 52) := pow2_pos _

theorem roundMagnitude_eq (a : ℚ) :
    roundMagnitude a
      = (roundHalfEven (a / pow2 (doubleExponent a - 52)) : ℚ) * pow2 (doubleExponent a - 52) :=
  rfl

theorem roundMagnitude_error (a : ℚ) :
    |roundMagnitude a - a| ≤ pow2 (doubleExponent a - 52) / 2 := by
  have hu := ulp_pos a
  have h := roundHalfEven_error (a / pow2 (doubleExponent a - 52))
  rw [roundMagnitude_eq]
  have e1 : (roundHalfEven (a / pow2 (doubleExponent a - 52)) : ℚ) * pow2 (doubleExponent a - 52) - a
      = ((roundHalfEven (a / pow2 (doubleExponent a - 52)) : ℚ) - a / pow2 (doubleExponent a - 52))
          * pow2 (doubleExponent a - 52) := by
    field_simp
  rw [e1, abs_mul, abs_of_pos hu]
  calc |(roundHalfEven (a / pow2 (doubleExponent a - 52)) : ℚ) - a / pow2 (doubleExponent a - 52)|
        * pow2 (doubleExponent a - 52)
      ≤ 1 / 2 * pow2 (doubleExponent a - 52) := mul_le_mul_of_nonneg_right h (le_of_lt hu)
    _ = pow2 (doubleExponent a - 52) / 2 := by ring

theorem roundMagnitude_nonneg (a : ℚ) (ha : 0 ≤ a) : 0 ≤ roundMagnitude a := by
  have hu := ulp_pos a
  rw [roundMagnitude_eq]
  apply mul_nonneg _ (le_of_lt hu)
  have := roundHalfEven_nonneg (a / pow2 (doubleExponent a - 52)) (div_nonneg ha (le_of_lt hu))
  exact_mod_cast this

/-- A multiple of the unit in the last place is kept. -/
theorem roundMagnitude_exact (a : ℚ) (k : ℤ) (h : a = k * pow2 (doubleExponent a - 52)) :
    roundMagnitude a = a := by
  have hu := ulp_pos a
  have hd : a / pow2 (doubleExponent a - 52) = (k : ℚ) := by
    rw [div_eq_iff (ne_of_gt hu)]
    exact h
  rw [roundMagnitude_eq, hd, roundHalfEven_int]
  exact h.symm

theorem pow2_split (e : ℤ) : pow2 e = pow2 52 * pow2 (e - 52) := by
  rw [← pow2_add]
  congr 1
  ring

theorem pow2_52 : pow2 52 = ((2 ^ 52 : ℤ) : ℚ) := by
  rw [pow2_eq_zpow]
  norm_num

theorem pow2_53 : pow2 53 = ((2 ^ 53 : ℤ) : ℚ) := by
  rw [pow2_eq_zpow]
  norm_num

theorem le_roundMagnitude (a : ℚ) (h : pow2 (doubleExponent a) ≤ a) :
    pow2 (doubleExponent a) ≤ roundMagnitude a := by
  have hu := ulp_pos a
  have h1 : ((2 ^ 52 : ℤ) : ℚ) ≤ a / pow2 (doubleExponent a - 52) := by
    rw [le_div_iff₀ hu, ← pow2_52, ← pow2_split]
    exact h
  have h2 := roundHalfEven_mono _ _ h1
  rw [roundHalfEven_int] at h2
  have h3 : ((2 ^ 52 : ℤ) : ℚ) ≤ (roundHalfEven (a / pow2 (doubleExponent a - 52)) : ℚ) := by
    exact_mod_cast h2
  rw [roundMagnitude_eq, pow2_split (doubleExponent a), pow2_52]
  exact mul_le_mul_of_nonneg_right h3 (le_of_lt hu)

theorem roundMagnitude_le (a : ℚ) (h : a ≤ pow2 (doubleExponent a + 1)) :
    roundMagnitude a ≤ pow2 (doubleExponent a + 1) := by
  have hu := ulp_pos a
  have hs : pow2 (doubleExponent a + 1) = pow2 53 * pow2 (doubleExponent a - 52) := by
    rw [← pow2_add]
    congr 1
    ring
  have h1 : a / pow2 (doubleExponent a - 52) ≤ ((2 ^ 53 : ℤ) : ℚ) := by
    rw [div_le_iff₀ hu, ← pow2_53, ← hs]
    exact h
  have h2 := roundHalfEven_mono _ _ h1
  rw [roundHalfEven_int] at h2
  have h3 : (roundHalfEven (a / pow2 (doubleExponent a - 52)) : ℚ) ≤ ((2 ^ 53 : ℤ) : ℚ) := by
    exact_mod_cast h2
  rw [roundMagnitude_eq, hs, pow2_53]
  exact mul_le_mul_of_nonneg_right h3 (le_of_lt hu)

theorem doubleExponent_mono (a b : ℚ) (h : a ≤ b) : doubleExponent a ≤ doubleExponent b := by
  obtain ⟨a1, a2, a3, _⟩ := doubleExponent_spec a
  obtain ⟨b1, _, _, _⟩ := doubleExponent_spec b
  by_cases hlow : -1022 < doubleExponent a
  · exact le_doubleExponent b _ a2 (le_trans (a3 hlow) h)
  · omega

theorem roundMagnitude_mono (a b : ℚ) (h : a ≤ b) : roundMagnitude a ≤ roundMagnitude b := by
  obtain ⟨a1, a2, a3, a4⟩ := doubleExponent_spec a
  obtain ⟨b1, b2, b3, b4⟩ := doubleExponent_spec b
  have hexp := doubleExponent_mono a b h
  by_cases heq : doubleExponent a = doubleExponent b
  · have hu := ulp_pos b
    rw [roundMagnitude_eq, roundMagnitude_eq, heq]
    apply mul_le_mul_of_nonneg_right _ (le_of_lt hu)
    have := roundHalfEven_mono (a / pow2 (doubleExponent b - 52))
      (b / pow2 (doubleExponent b - 52)) (div_le_div_of_nonneg_right h (le_of_lt hu))
    exact_mod_cast this
  · have hlt : doubleExponent a < doubleExponent b := by omega
    have h1 : roundMagnitude a ≤ pow2 (doubleExponent a + 1) :=
      roundMagnitude_le a (le_of_lt (a4 (by omega)))
    have h2 : pow2 (doubleExponent a + 1) ≤ pow2 (doubleExponent b) :=
      pow2_le_pow2 _ _ (by omega)
    have h3 : pow2 (doubleExponent b) ≤ roundMagnitude b :=
      le_roundMagnitude b (b3 (by omega))
    linarith

theorem roundDouble_pos (q : ℚ) (hq : 0 < q) :
    roundDouble q = if pow2 1024 ≤ roundMagnitude q then .posInf else .fin (roundMagnitude q) := by
  unfold roundDouble
  simp only [ne_of_gt hq, if_false, abs_of_pos hq, hq, if_true]

theorem roundDouble_neg (q : ℚ) (hq : q < 0) :
    roundDouble q
      = if pow2 1024 ≤ roundMagnitude (-q) then .negInf else .fin (-roundMagnitude (-q)) := by
  unfold roundDouble
  simp only [ne_of_lt hq, if_false, abs_of_neg hq, not_lt.mpr (le_of_lt hq)]

theorem roundDouble_zero : roundDouble 0 = .fin 0 := by
  simp [roundDouble]

/-- Rounding is monotone. -/
theorem roundDouble_mono (x y : ℚ) (h : x ≤ y) : (roundDouble x).le (roundDouble y) = true := by
  rcases lt_trichotomy x 0 with hx | hx | hx <;> rcases lt_trichotomy y 0 with hy | hy | hy
  · -- both negative
    have hm := roundMagnitude_mono (-y) (-x) (by linarith)
    rw [roundDouble_neg x hx, roundDouble_neg y hy]
    by_cases h1 : pow2 1024 ≤ roundMagnitude (-x)
    · rw [if_pos h1]
      split_ifs <;> rfl
    · rw [if_neg h1, if_neg (fun hc => h1 (le_trans hc hm))]
      simpa [JSNum.le] using hm
  · subst hy
    rw [roundDouble_neg x hx, roundDouble_zero]
    have := roundMagnitude_nonneg (-x) (by linarith)
    split_ifs
    · rfl
    · simpa [JSNum.le] using this
  · rw [roundDouble_neg x hx, roundDouble_pos y hy]
    have h1 := roundMagnitude_nonneg (-x) (by linarith)
    have h2 := roundMagnitude_nonneg y (by linarith)
    split_ifs <;> first | rfl | (simp only [JSNum.le, decide_eq_true_eq]; linarith)
  · linarith
  · subst hx
    subst hy
    rw [roundDouble_zero]
    simp [JSNum.le]
  · subst hx
    rw [roundDouble_zero, roundDouble_pos y hy]
    have := roundMagnitude_nonneg y (by linarith)
    split_ifs
    · rfl
    · simpa [JSNum.le] using this
  · linarith
  · linarith
  · have hm := roundMagnitude_mono x y h
    rw [roundDouble_pos x hx, roundDouble_pos y hy]
    by_cases h1 : pow2 1024 ≤ roundMagnitude x
    · rw [if_pos h1, if_pos (le_trans h1 hm)]
      rfl
    · rw [if_neg h1]
      split_ifs
      · rfl
      · simpa [JSNum.le] using hm

/-- The error of rounding a number below `2 ^ (k + 1)` in size is at most half a unit
in the last place of the binade of `2 ^ k`. -/
theorem roundDouble_near (q : ℚ) (k : ℤ) (hk : -1022 ≤ k) (hk2 : k ≤ 1022)
    (h : |q| < pow2 (k + 1)) :
    ∃ y, roundDouble q = .fin y ∧ |y - q| ≤ pow2 (k - 53) ∧ (0 ≤ q → 0 ≤ y) ∧
      (q ≤ 0 → y ≤ 0) := by
  have hexp := doubleExponent_le |q| k hk h
  have herr := roundMagnitude_error |q|
  have hulp : pow2 (doubleExponent |q| - 52) / 2 ≤ pow2 (k - 53) := by
    have : pow2 (doubleExponent |q| - 52) ≤ pow2 (k - 52) := pow2_le_pow2 _ _ (by omega)
    have h2 : pow2 (k - 52) = 2 * pow2 (k - 53) := by
      rw [← pow2_succ]
      congr 1
      ring
    linarith
  have hsmall : pow2 (k - 53) ≤ pow2 (k + 1) := pow2_le_pow2 _ _ (by omega)
  have htop : pow2 (k + 1) + pow2 (k + 1) ≤ pow2 1024 := by
    have : pow2 (k + 1 + 1) = 2 * pow2 (k + 1) := pow2_succ _
    have h3 : pow2 (k + 1 + 1) ≤ pow2 1024 := pow2_le_pow2 _ _ (by omega)
    linarith
  have hnn := roundMagnitude_nonneg |q| (abs_nonneg q)
  have hno : ¬ pow2 1024 ≤ roundMagnitude |q| := by
    intro hc
    have := (abs_le.mp herr).2
    linarith
  rcases lt_trichotomy q 0 with hq | hq | hq
  · have habs : |q| = -q := abs_of_neg hq
    rw [habs] at herr hno hnn hulp
    refine ⟨-roundMagnitude (-q), ?_, ?_, ?_, ?_⟩
    · rw [roundDouble_neg q hq, if_neg hno]
    · have e : -roundMagnitude (-q) - q = -(roundMagnitude (-q) - -q) := by ring
      rw [e, abs_neg]
      exact le_trans herr hulp
    · intro h0
      linarith
    · intro _
      linarith
  · subst hq
    exact ⟨0, roundDouble_zero, by simp [le_of_lt (pow2_pos _)], fun _ => le_refl _,
      fun _ => le_refl _⟩
  · have habs : |q| = q := abs_of_pos hq
    rw [habs] at herr hno hnn hulp
    refine ⟨roundMagnitude q, ?_, le_trans herr hulp, fun _ => hnn, ?_⟩
    · rw [roundDouble_pos q hq, if_neg hno]
    · intro h0
      linarith

theorem roundMagnitude_relative (a : ℚ) (ha : pow2 (-1022) ≤ a) :
    roundMagnitude a ≤ a * (1 + pow2 (-53)) := by
  obtain ⟨e1, _, e3, _⟩ := doubleExponent_spec a
  have hle : pow2 (doubleExponent a) ≤ a := by
    by_cases h : -1022 < doubleExponent a
    · exact e3 h
    · have : doubleExponent a = -1022 := by omega
      rw [this]
      exact ha
  have herr := (abs_le.mp (roundMagnitude_error a)).2
  have hs : pow2 (doubleExponent a - 52) / 2 = pow2 (doubleExponent a) * pow2 (-53) := by
    have h1 : pow2 (doubleExponent a - 52) = 2 * pow2 (doubleExponent a - 53) := by
      rw [← pow2_succ]
      congr 1
      ring
    have h2 : pow2 (doubleExponent a - 53) = pow2 (doubleExponent a) * pow2 (-53) := by
      rw [← pow2_add]
      congr 1
    rw [h1, h2]
    ring
  have hp := pow2_pos (-53)
  nlinarith

/-- A double is a multiple of the smallest subnormal number `2 ^ (-1074)`. -/
theorem multiple_of_double (x : ℚ) (h : roundDouble x = .fin x) :
    ∃ k : ℤ, x = k * pow2 (-1074) := by
  have key : ∀ a : ℚ, ∃ k : ℤ, roundMagnitude a = k * pow2 (-1074) := by
    intro a
    obtain ⟨e1, _, _, _⟩ := doubleExponent_spec a
    obtain ⟨n, hn⟩ := Int.eq_ofNat_of_zero_le (show (0 : ℤ) ≤ doubleExponent a + 1022 by omega)
    have hs : pow2 (doubleExponent a - 52) = pow2 (n : ℤ) * pow2 (-1074) := by
      rw [← pow2_add]
      congr 1
      omega
    refine ⟨roundHalfEven (a / pow2 (doubleExponent a - 52)) * (2 ^ n : ℕ), ?_⟩
    rw [roundMagnitude_eq, hs, pow2_natCast]
    push_cast
    ring
  rcases lt_trichotomy x 0 with hx | hx | hx
  · rw [roundDouble_neg x hx] at h
    split_ifs at h
    obtain ⟨k, hk⟩ := key (-x)
    refine ⟨-k, ?_⟩
    have := JSNum.fin.inj h
    push_cast
    linarith
  · exact ⟨0, by simp [hx]⟩
  · rw [roundDouble_pos x hx] at h
    split_ifs at h
    obtain ⟨k, hk⟩ := key x
    exact ⟨k, by rw [← hk]; exact (JSNum.fin.inj h).symm⟩

/-- A multiple of `2 ^ (-1074)` below the normal range is a double. -/
theorem roundMagnitude_subnormal (a : ℚ) (k : ℤ) (ha : a < pow2 (-1022))
    (hk : a = k * pow2 (-1074)) : roundMagnitude a = a := by
  obtain ⟨e1, _, _, _⟩ := doubleExponent_spec a
  have he : doubleExponent a ≤ -1022 :=
    doubleExponent_le a (-1022) (le_refl _) (lt_trans ha (pow2_lt_pow2 _ _ (by norm_num)))
  have he2 : doubleExponent a = -1022 := by omega
  apply roundMagnitude_exact a k
  rw [he2]
  exact hk

/-- Twice a double in the unit range is a double. -/
theorem roundDouble_two_mul (l : ℚ) (hl0 : 0 ≤ l) (hl1 : l ≤ 1) (h : roundDouble l = .fin l) :
    roundDouble (2 * l) = .fin (2 * l) := by
  rcases eq_or_lt_of_le hl0 with h0 | hpos
  · rw [← h0]
    simp [roundDouble_zero]
  · rw [roundDouble_pos l hpos] at h
    split_ifs at h with hov
    have hl : roundMagnitude l = l := JSNum.fin.inj h
    obtain ⟨a1, a2, a3, a4⟩ := doubleExponent_spec l
    obtain ⟨b1, b2, b3, b4⟩ := doubleExponent_spec (2 * l)
    have hmono := doubleExponent_mono l (2 * l) (by linarith)
    have hle0 : doubleExponent l ≤ 0 :=
      doubleExponent_le l 0 (by norm_num) (by
        have : pow2 (0 + 1) = 2 := by
          rw [pow2_eq_zpow]
          norm_num
        rw [this]
        linarith)
    have hup : doubleExponent (2 * l) ≤ doubleExponent l + 1 := by
      by_contra hcon
      have h1 : pow2 (doubleExponent (2 * l)) ≤ 2 * l := b3 (by omega)
      have h2 : l < pow2 (doubleExponent l + 1) := a4 (by omega)
      have h3 : pow2 (doubleExponent l + 1 + 1) ≤ pow2 (doubleExponent (2 * l)) :=
        pow2_le_pow2 _ _ (by omega)
      rw [pow2_succ] at h3
      linarith
    have hex : roundMagnitude (2 * l) = 2 * l := by
      rcases (show doubleExponent (2 * l) = doubleExponent l ∨
          doubleExponent (2 * l) = doubleExponent l + 1 by omega) with he | he
      · apply roundMagnitude_exact (2 * l)
          (2 * roundHalfEven (l / pow2 (doubleExponent l - 52)))
        rw [he]
        push_cast
        rw [mul_assoc, ← roundMagnitude_eq, hl]
      · apply roundMagnitude_exact (2 * l) (roundHalfEven (l / pow2 (doubleExponent l - 52)))
        rw [he]
        have : pow2 (doubleExponent l + 1 - 52) = 2 * pow2 (doubleExponent l - 52) := by
          rw [← pow2_succ]
          congr 1
          ring
        rw [this]
        have hl2 := hl
        rw [roundMagnitude_eq] at hl2
        linarith
    have hno : ¬ pow2 1024 ≤ roundMagnitude (2 * l) := by
      rw [hex]
      have : (4 : ℚ) ≤ pow2 1024 := by
        have h2 := pow2_le_pow2 2 1024 (by norm_num)
        have : pow2 2 = 4 := by
          rw [pow2_eq_zpow]
          norm_num
        linarith
      intro hc
      linarith
    rw [roundDouble_pos (2 * l) (by linarith), if_neg hno, hex]

namespace JSNum

theorem mulD_fin (a b : ℚ) : (fin a).mulD (fin b) = roundDouble (a * b) := rfl

theorem addD_fin (a b : ℚ) : (fin a).addD (fin b) = roundDouble (a + b) := rfl

theorem subD_fin (a b : ℚ) : (fin a).subD (fin b) = roundDouble (a - b) := by
  simp [subD, sub, neg, add, toDouble, sub_eq_add_neg]

theorem divD_fin (a b : ℚ) (hb : b ≠ 0) : (fin a).divD (fin b) = roundDouble (a / b) := by
  simp [divD, div, hb, toDouble]

end JSNum

/-! ## Order facts on numbers and `Math.max` -/

theorem JSNum.le_self (a : JSNum) (ha : a ≠ .nan) : a.le a = true := by
  cases a <;> simp_all [JSNum.le]

theorem JSNum.le_chain (a b c : JSNum) (hab : a.le b = true) (hbc : b.le c = true) :
    a.le c = true := by
  cases a <;> cases b <;> cases c <;> simp_all [JSNum.le]
  exact hab.trans hbc

theorem JSNum.eq_negInf_of_le (a : JSNum) (h : a.le .negInf = true) : a = .negInf := by
  cases a <;> simp_all [JSNum.le]

theorem JSNum.max2_ne_nan (a b : JSNum) (ha : a ≠ .nan) (hb : b ≠ .nan) :
    JSNum.max2 a b ≠ .nan := by
  rcases a with a | _ | _ | _ <;> rcases b with b | _ | _ | _ <;>
    simp_all [JSNum.max2, JSNum.gt]
  by_cases h : a < b <;> simp [h]

theorem JSNum.le_max2_left (a b : JSNum) (ha : a ≠ .nan) (hb : b ≠ .nan) :
    a.le (JSNum.max2 a b) = true := by
  rcases a with a | _ | _ | _ <;> rcases b with b | _ | _ | _ <;>
    simp_all [JSNum.max2, JSNum.gt, JSNum.le]
  by_cases h : a < b <;> simp [h, JSNum.le]
  exact le_of_lt h

theorem JSNum.le_max2_right (a b : JSNum) (ha : a ≠ .nan) (hb : b ≠ .nan) :
    b.le (JSNum.max2 a b) = true := by
  rcases a with a | _ | _ | _ <;> rcases b with b | _ | _ | _ <;>
    simp_all [JSNum.max2, JSNum.gt, JSNum.le]
  by_cases h : a < b <;> simp [h, JSNum.le]
  exact not_lt.mp h

theorem JSNum.max2_choice (a b : JSNum) (ha : a ≠ .nan) (hb : b ≠ .nan) :
    JSNum.max2 a b = a ∨ JSNum.max2 a b = b := by
  rcases a with a | _ | _ | _ <;> rcases b with b | _ | _ | _ <;>
    simp_all [JSNum.max2, JSNum.gt]
  by_cases h : a < b <;> simp [h]

theorem JSNum.foldl_max2 (xs : List JSNum) (acc : JSNum) (hacc : acc ≠ .nan)
    (hxs : ∀ x ∈ xs, x ≠ .nan) :
    xs.foldl JSNum.max2 acc ≠ .nan ∧ acc.le (xs.foldl JSNum.max2 acc) = true ∧
      (∀ x ∈ xs, x.le (xs.foldl JSNum.max2 acc) = true) ∧
      (xs.foldl JSNum.max2 acc = acc ∨ xs.foldl JSNum.max2 acc ∈ xs) := by
  induction xs generalizing acc with
  | nil => exact ⟨hacc, JSNum.le_self acc hacc, by simp, Or.inl rfl⟩
  | cons y ys ih =>
      have hy : y ≠ .nan := hxs y (List.mem_cons_self y ys)
      have hys : ∀ x ∈ ys, x ≠ .nan := fun x hx => hxs x (List.mem_cons_of_mem y hx)
      obtain ⟨h1, h2, h3, h4⟩ := ih (JSNum.max2 acc y) (JSNum.max2_ne_nan acc y hacc hy) hys
      refine ⟨h1, JSNum.le_chain _ _ _ (JSNum.le_max2_left acc y hacc hy) h2, ?_, ?_⟩
      · intro x hx
        rcases List.mem_cons.mp hx with rfl | hx
        · exact JSNum.le_chain _ _ _ (JSNum.le_max2_right acc x hacc hy) h2
        · exact h3 x hx
      · rcases h4 with h4 | h4
        · rcases JSNum.max2_choice acc y hacc hy with h5 | h5
          · exact Or.inl (by simpa [h5] using h4)
          · refine Or.inr ?_
            rw [List.foldl_cons, h4, h5]
            exact List.mem_cons_self y ys
        · exact Or.inr (List.mem_cons_of_mem y h4)

/-- On arguments without `NaN`, `Math.max` is the greatest of its arguments. -/
theorem JSNum.mathMax_spec (x : JSNum) (xs : List JSNum) (h : ∀ y ∈ x :: xs, y ≠ .nan) :
    JSNum.mathMax (x :: xs) ≠ .nan ∧
      (∀ y ∈ x :: xs, y.le (JSNum.mathMax (x :: xs)) = true) ∧
      JSNum.mathMax (x :: xs) ∈ x :: xs := by
  unfold JSNum.mathMax
  obtain ⟨h1, _, h3, h4⟩ := JSNum.foldl_max2 (x :: xs) .negInf (by simp) h
  refine ⟨h1, h3, ?_⟩
  rcases h4 with h4 | h4
  · have hx := h3 x (List.mem_cons_self x xs)
    rw [h4] at hx
    have hx3 := JSNum.eq_negInf_of_le x hx
    rw [h4, hx3]
    exact List.mem_cons_self _ xs
  · exact h4

theorem orZero_ne_nan (x : Option JSNum) : orZero x ≠ .nan := by
  rcases x with _ | (q | _ | _ | _) <;> simp [orZero, JSNum.truthy]
  by_cases h : q = 0 <;> simp [h]

theorem zero_le_orZero (x : Option JSNum)
    (h : ∀ M, x = some M → (JSNum.fin 0).le M = true) : (JSNum.fin 0).le (orZero x) = true := by
  rcases x with _ | (q | _ | _ | _)
  · simp [orZero, JSNum.le]
  · have := h (.fin q) rfl
    by_cases hq : q = 0 <;> simp_all [orZero, JSNum.truthy, JSNum.le]
  · simp [orZero, JSNum.truthy, JSNum.le]
  · simp [orZero, JSNum.truthy, JSNum.le]
  · have := h .negInf rfl
    simp [JSNum.le] at this

theorem orZero_some_of_ne_nan (M : JSNum) (h : M ≠ .nan) : orZero (some M) = M := by
  rcases M with q | _ | _ | _ <;> simp_all [orZero, JSNum.truthy]

/-! ## The group maxima and member counts after the first loop -/

theorem seenValues_ne_nan (root : Root) (metric : Metric) :
    ∀ x ∈ seenValues root metric, x ≠ .nan := by
  intro x hx
  simp only [seenValues, List.mem_cons, List.mem_singleton, List.not_mem_nil, or_false] at hx
  rcases hx with rfl | rfl | rfl | rfl <;> exact orZero_ne_nan _

theorem proto_mem_objectPrototypeNames : "__proto__" ∈ objectPrototypeNames := by
  decide

theorem ne_proto_of_plain (g : String) (hname : g ∉ objectPrototypeNames) :
    g ≠ "__proto__" := by
  intro h
  exact hname (h ▸ proto_mem_objectPrototypeNames)

theorem readPlain_some {α : Type} (own : String → Option α) (key : String) (v : α)
    (h : own key = some v) : readPlain own key = .own v := by
  simp [readPlain, h]

theorem readPlain_plain_none {α : Type} (own : String → Option α) (key : String)
    (hname : key ∉ objectPrototypeNames) (h : own key = none) :
    readPlain own key = .missing := by
  simp [readPlain, h, hname]

theorem readPlain_inherited_none {α : Type} (own : String → Option α) (key : String)
    (hname : key ∈ objectPrototypeNames) (h : own key = none) :
    readPlain own key = .inherited := by
  simp [readPlain, h, hname]

theorem runningMaximum_plain (mv : String → Option JSNum) (g : String)
    (hname : g ∉ objectPrototypeNames) : runningMaximum (readPlain mv g) = orZero (mv g) := by
  cases h : mv g with
  | none =>
      rw [readPlain_plain_none _ _ hname h]
      rfl
  | some n =>
      rw [readPlain_some _ _ _ h]
      rfl

theorem JSNum.foldl_max2_nan (xs : List JSNum) : xs.foldl JSNum.max2 .nan = .nan := by
  induction xs with
  | nil => rfl
  | cons y ys ih =>
      rw [List.foldl_cons]
      have : JSNum.max2 .nan y = .nan := by cases y <;> rfl
      rw [this, ih]

theorem JSNum.mathMax_nan (xs : List JSNum) : JSNum.mathMax (.nan :: xs) = .nan := by
  unfold JSNum.mathMax
  rw [List.foldl_cons]
  have : JSNum.max2 .negInf .nan = .nan := rfl
  rw [this, JSNum.foldl_max2_nan]

theorem scanMetric_maxValues (root : Root) (s : Scan) (metric : Metric) (g : String) :
    (scanMetric root s metric).maxValues g
      = if metric.group = some g ∧ g ≠ "__proto__" then
          some (JSNum.mathMax
            (runningMaximum (readPlain s.maxValues g) :: seenValues root metric))
        else s.maxValues g := by
  unfold scanMetric
  cases hg : metric.group with
  | none => simp [extend, hg]
  | some group =>
      by_cases h : g = group
      · subst h
        by_cases hp : g = "__proto__"
        · simp [extend, hg, writePlain, hp]
        · simp [extend, hg, seenValues, valueOf, writePlain, hp]
      · have h2 : ¬ group = g := fun e => h e.symm
        simp [extend, hg, h, h2, writePlain]

theorem scanMetric_count (root : Root) (s : Scan) (metric : Metric) (g : String) :
    (scanMetric root s metric).numberOfMetricsInGroup g
      = if metric.group = some g ∧ g ≠ "__proto__" then
          some (nextCount (readPlain s.numberOfMetricsInGroup g))
        else s.numberOfMetricsInGroup g := by
  unfold scanMetric
  cases hg : metric.group with
  | none => simp [extend, hg]
  | some group =>
      by_cases h : g = group
      · subst h
        by_cases hp : g = "__proto__"
        · simp [extend, hg, writePlain, hp]
        · simp [extend, hg, writePlain, hp]
      · have h2 : ¬ group = g := fun e => h e.symm
        simp [extend, hg, h, h2, writePlain]

theorem firstLoop_append (root : Root) (metrics : List Metric) (metric : Metric) :
    firstLoop root (metrics ++ [metric]) = scanMetric root (firstLoop root metrics) metric := by
  simp [firstLoop, List.foldl_append]

theorem membersOf_append (g : String) (metrics : List Metric) (metric : Metric) :
    membersOf g (metrics ++ [metric])
      = membersOf g metrics + (if metric.group = some g then 1 else 0) := by
  by_cases hg : metric.group = some g <;> simp [membersOf, List.countP_append, hg]

/-- For a group whose name is not a property of `Object.prototype`, the count is the
number of members. -/
theorem firstLoop_count (root : Root) (metrics : List Metric) (g : String)
    (hname : g ∉ objectPrototypeNames) :
    (firstLoop root metrics).numberOfMetricsInGroup g
      = if membersOf g metrics = 0 then none
        else some (Count.number (membersOf g metrics)) := by
  have hne := ne_proto_of_plain g hname
  induction metrics using List.reverseRecOn with
  | nil => simp [firstLoop, Scan.init, membersOf]
  | append_singleton ms m ih =>
      rw [firstLoop_append, scanMetric_count, membersOf_append]
      by_cases hg : m.group = some g
      · rw [if_pos ⟨hg, hne⟩]
        by_cases h0 : membersOf g ms = 0
        · rw [if_pos h0] at ih
          rw [readPlain_plain_none _ _ hname ih]
          simp [hg, h0, nextCount]
        · rw [if_neg h0] at ih
          rw [readPlain_some _ _ _ ih]
          simp [hg, nextCount]
      · rw [if_neg (fun h => hg h.1), ih]
        simp [hg]

/-- For a group named like a property of `Object.prototype`, the count is never a
number. -/
theorem firstLoop_count_inherited (root : Root) (metrics : List Metric) (g : String)
    (hname : g ∈ objectPrototypeNames) :
    (firstLoop root metrics).numberOfMetricsInGroup g = none ∨
      ∃ ones, (firstLoop root metrics).numberOfMetricsInGroup g = some (Count.text ones) := by
  induction metrics using List.reverseRecOn with
  | nil => exact Or.inl rfl
  | append_singleton ms m ih =>
      rw [firstLoop_append, scanMetric_count]
      by_cases hc : m.group = some g ∧ g ≠ "__proto__"
      · rw [if_pos hc]
        right
        rcases ih with h | ⟨ones, h⟩
        · rw [readPlain_inherited_none _ _ hname h]
          exact ⟨1, rfl⟩
        · rw [readPlain_some _ _ _ h]
          exact ⟨ones + 1, rfl⟩
      · rw [if_neg hc]
        exact ih

theorem atMostOne_inherited (root : Root) (metrics : List Metric) (g : String)
    (hname : g ∈ objectPrototypeNames) :
    atMostOne (readPlain (firstLoop root metrics).numberOfMetricsInGroup g) = false := by
  rcases firstLoop_count_inherited root metrics g hname with h | ⟨ones, h⟩
  · rw [readPlain_inherited_none _ _ hname h]
    rfl
  · rw [readPlain_some _ _ _ h]
    rfl

theorem atMostOne_plain (root : Root) (metrics : List Metric) (g : String)
    (hname : g ∉ objectPrototypeNames) (hpos : membersOf g metrics ≠ 0) :
    atMostOne (readPlain (firstLoop root metrics).numberOfMetricsInGroup g)
      = decide (membersOf g metrics ≤ 1) := by
  have h := firstLoop_count root metrics g hname
  rw [if_neg hpos] at h
  rw [readPlain_some _ _ _ h]
  rfl

/-- For a group named like a property of `Object.prototype`, the first member stores
`NaN` (or nothing, for `__proto__`): a number other than `NaN` is stored for the
second member at the earliest. -/
theorem firstLoop_maxValues_inherited (root : Root) (metrics : List Metric) (g : String)
    (hname : g ∈ objectPrototypeNames) :
    (membersOf g metrics = 0 → (firstLoop root metrics).maxValues g = none) ∧
      (membersOf g metrics = 1 →
        (firstLoop root metrics).maxValues g = none ∨
          (firstLoop root metrics).maxValues g = some .nan) := by
  induction metrics using List.reverseRecOn with
  | nil => exact ⟨fun _ => rfl, fun _ => Or.inl rfl⟩
  | append_singleton ms m ih =>
      obtain ⟨ih0, ih1⟩ := ih
      rw [firstLoop_append, scanMetric_maxValues, membersOf_append]
      by_cases hg : m.group = some g
      · rw [if_pos hg]
        constructor
        · intro h
          omega
        · intro h
          have h0 : membersOf g ms = 0 := by omega
          have hnone := ih0 h0
          by_cases hp : g ≠ "__proto__"
          · right
            rw [if_pos ⟨hg, hp⟩, readPlain_inherited_none _ _ hname hnone]
            show some (JSNum.mathMax (JSNum.nan :: seenValues root m)) = some JSNum.nan
            rw [JSNum.mathMax_nan]
          · left
            rw [if_neg (fun hc => hp hc.2)]
            exact hnone
      · rw [if_neg hg, if_neg (fun hc => hg hc.1), Nat.add_zero]
        exact ⟨ih0, ih1⟩

theorem two_members_of_inherited (root : Root) (metrics : List Metric) (g : String)
    (hname : g ∈ objectPrototypeNames) (M : JSNum) (hM : M ≠ .nan)
    (h : (firstLoop root metrics).maxValues g = some M) : 2 ≤ membersOf g metrics := by
  obtain ⟨h0, h1⟩ := firstLoop_maxValues_inherited root metrics g hname
  by_contra hcon
  rcases (show membersOf g metrics = 0 ∨ membersOf g metrics = 1 by omega) with hm | hm
  · rw [h0 hm] at h
    exact Option.noConfusion h
  · rcases h1 hm with h2 | h2
    · rw [h2] at h
      exact Option.noConfusion h
    · rw [h2] at h
      exact hM (Option.some.inj h).symm

/-- For a group whose name is not a property of `Object.prototype`, the stored maximum
is the greatest of 0 and the values seen. -/
theorem firstLoop_maxValues (root : Root) (metrics : List Metric) (g : String)
    (hname : g ∉ objectPrototypeNames) :
    (∀ M, (firstLoop root metrics).maxValues g = some M →
        M ≠ .nan ∧ (JSNum.fin 0).le M = true ∧
          (M = .fin 0 ∨ ∃ m ∈ metrics, m.group = some g ∧ M ∈ seenValues root m)) ∧
      (∀ m ∈ metrics, m.group = some g →
        ∃ M, (firstLoop root metrics).maxValues g = some M ∧
          ∀ x ∈ seenValues root m, x.le M = true) := by
  have hne := ne_proto_of_plain g hname
  induction metrics using List.reverseRecOn with
  | nil => simp [firstLoop, Scan.init]
  | append_singleton ms m ih =>
      obtain ⟨ihA, ihB⟩ := ih
      rw [firstLoop_append]
      by_cases hg : m.group = some g
      · -- the metric belongs to the group: the maximum is recomputed
        have hstep : (scanMetric root (firstLoop root ms) m).maxValues g
            = some (JSNum.mathMax
                (orZero ((firstLoop root ms).maxValues g) :: seenValues root m)) := by
          rw [scanMetric_maxValues, if_pos ⟨hg, hne⟩, runningMaximum_plain _ _ hname]
        have hold_nan : orZero ((firstLoop root ms).maxValues g) ≠ .nan := orZero_ne_nan _
        have hall : ∀ y ∈ orZero ((firstLoop root ms).maxValues g) :: seenValues root m,
            y ≠ .nan := by
          intro y hy
          rcases List.mem_cons.mp hy with rfl | hy
          · exact hold_nan
          · exact seenValues_ne_nan root m y hy
        obtain ⟨hm1, hm2, hm3⟩ := JSNum.mathMax_spec _ _ hall
        have hzero : (JSNum.fin 0).le (orZero ((firstLoop root ms).maxValues g)) = true :=
          zero_le_orZero _ (fun M hM => (ihA M hM).2.1)
        generalize hN :
          JSNum.mathMax (orZero ((firstLoop root ms).maxValues g) :: seenValues root m) = N
          at hm1 hm2 hm3 hstep
        constructor
        · intro M hM
          rw [hstep] at hM
          have hM2 : N = M := Option.some.inj hM
          subst hM2
          refine ⟨hm1, JSNum.le_chain _ _ _ hzero (hm2 _ (List.mem_cons_self _ _)), ?_⟩
          rcases List.mem_cons.mp hm3 with h | h
          · -- the maximum is the previous one
            cases hprev : (firstLoop root ms).maxValues g with
            | none =>
                left
                rw [h, hprev]
                rfl
            | some P =>
                obtain ⟨hP1, _, hP3⟩ := ihA P hprev
                rw [hprev, orZero_some_of_ne_nan P hP1] at h
                rcases hP3 with hP3 | ⟨m0, hm0, hg0, hin⟩
                · left
                  rw [h, hP3]
                · right
                  exact ⟨m0, List.mem_append_left _ hm0, hg0, by rw [h]; exact hin⟩
          · right
            exact ⟨m, by simp, hg, h⟩
        · intro m1 hm1mem hg1
          refine ⟨N, hstep, ?_⟩
          rcases List.mem_append.mp hm1mem with hin | hin
          · obtain ⟨P, hP, hle⟩ := ihB m1 hin hg1
            obtain ⟨hP1, _, _⟩ := ihA P hP
            intro x hx
            have h1 := hle x hx
            have h2 := hm2 _ (List.mem_cons_self _ _)
            rw [hP, orZero_some_of_ne_nan P hP1] at h2
            exact JSNum.le_chain _ _ _ h1 h2
          · have : m1 = m := by simpa using hin
            subst this
            intro x hx
            exact hm2 x (List.mem_cons_of_mem _ hx)
      · -- another group: nothing changes for `g`
        have hstep : (scanMetric root (firstLoop root ms) m).maxValues g
            = (firstLoop root ms).maxValues g := by
          rw [scanMetric_maxValues, if_neg (fun hc => hg hc.1)]
        constructor
        · intro M hM
          rw [hstep] at hM
          obtain ⟨h1, h2, h3⟩ := ihA M hM
          refine ⟨h1, h2, ?_⟩
          rcases h3 with h3 | ⟨m0, hm0, hg0, hin⟩
          · exact Or.inl h3
          · exact Or.inr ⟨m0, List.mem_append_left _ hm0, hg0, hin⟩
        · intro m1 hm1mem hg1
          rcases List.mem_append.mp hm1mem with hin | hin
          · obtain ⟨P, hP, hle⟩ := ihB m1 hin hg1
            exact ⟨P, by rw [hstep]; exact hP, hle⟩
          · have : m1 = m := by simpa using hin
            subst this
            exact absurd hg1 hg

/-! ## Reading the result of `normaliseMetrics` -/

theorem percentages_get (v : Stats) (d : JSNum) (f : Field) :
    (percentages v d).get f = some (percentOf (v.get f) d) := by
  cases f <;> rfl

theorem percentOf_fin (x : ℚ) (d : JSNum) :
    percentOf (some (.fin x)) d = (roundDouble (100 * x)).divD d := rfl

theorem percentOf_fin_fin (x q y : ℚ) (hq : q ≠ 0) (hy : roundDouble (100 * x) = .fin y) :
    percentOf (some (.fin x)) (.fin q) = roundDouble (y / q) := by
  rw [percentOf_fin, hy, JSNum.divD_fin y q hq]

theorem finish_group (s : Scan) (m : Metric) : (finish s m).group = m.group := by
  unfold finish
  cases hg : m.group with
  | none => cases hb : m.maxBarValue <;> simp [hg]
  | some g => simp

theorem finish_maxBarValue (s : Scan) (m : Metric) :
    (finish s m).maxBarValue = m.maxBarValue := by
  unfold finish
  cases hg : m.group with
  | none => cases hb : m.maxBarValue <;> simp [hb]
  | some g => simp

theorem finish_value (s : Scan) (m : Metric) : (finish s m).value = m.value := by
  unfold finish
  cases hg : m.group with
  | none => cases hb : m.maxBarValue <;> simp
  | some g => simp

theorem finish_defn (s : Scan) (m : Metric) : (finish s m).defn = m.defn := by
  unfold finish
  cases hg : m.group with
  | none => cases hb : m.maxBarValue <;> simp
  | some g => simp

theorem prepare_value (root : Root) (m : Metric) :
    (prepare root m).value = some (valueOf root m) := rfl

/-- The call returns, and its `i`-th entry is the `i`-th input after both loops. -/
theorem normaliseMetrics_getElem? (root : Root) (metrics : List Metric) (i : Nat)
    (m0 : Metric) (h0 : metrics[i]? = some m0) :
    ∃ out, normaliseMetrics root metrics = .ok out ∧ out.length = metrics.length ∧
      out[i]? = some (finish (firstLoop root metrics) (prepare root m0)) := by
  refine ⟨_, normaliseMetrics_eq root metrics, by simp, ?_⟩
  simp [List.getElem?_map, h0]

theorem finish_prepare_group (root : Root) (s : Scan) (m0 : Metric) (g : String)
    (M : JSNum) (hg : m0.group = some g) (hM : s.maxValues g = some M)
    (hpos : M.gt (JSNum.fin 0) = true) :
    (finish s (prepare root m0)).normalisedValue
      = some (percentages (valueOf root m0) M) := by
  have hpg : (prepare root m0).group = some g := hg
  simp [finish, hpg, readPlain_some _ _ _ hM, slotToNumber, hpos, prepare_value]

theorem finish_prepare_bar (root : Root) (s : Scan) (m0 : Metric) (b : JSNum)
    (hg : m0.group = none) (hb : m0.maxBarValue = some b) :
    (finish s (prepare root m0)).normalisedValue
      = some (percentages (valueOf root m0) b) := by
  have hpg : (prepare root m0).group = none := hg
  have hpb : (prepare root m0).maxBarValue = some b := hb
  simp [finish, hpg, hpb, prepare_value]

/-! ## C1: normalisation against the group maximum -/

/-- C1, as stated, fails when the final maximum of the group is 0: the lone metric of
`negativeLoneMetrics` has the numeric mean -2 and the group maximum is 0; its
normalised mean is the raw -2, not `100 * -2 / 0` (which is `-Infinity`). -/
theorem group_percent_fails_at_zero_maximum :
    (firstLoop negativeRoot negativeLoneMetrics).maxValues "g" = some (JSNum.fin 0) ∧
      (normaliseMetrics negativeRoot negativeLoneMetrics).toOption.map
          (List.map fun m => (m.group, m.value.bind Stats.mean,
            m.normalisedValue.bind Stats.mean))
        = some [(some "g", some (JSNum.fin (-2)), some (JSNum.fin (-2)))] ∧
      percentOf (some (JSNum.fin (-2))) (JSNum.fin 0) = JSNum.negInf := by
  refine ⟨?_, ?_, ?_⟩ <;> with_unfolding_all rfl

/-- C1 (amended): the call returns, and every output metric that declares a group
whose final maximum `M` is positive is normalised against that one `M`: each field
`f` of `normalisedValue` is `100 * value.f / M` in double-precision arithmetic (a
`null` field counting as 0). For a numeric field `x` the product `100 * x` is rounded
to a double, an infinity when it is too large, and the quotient by `M` is rounded
again; when the product rounds to the finite `y` and `M` is the finite `q` the field
is the double nearest to `y / q`. -/
theorem normaliseMetrics_group_percent (root : Root) (metrics : List Metric) (i : Nat)
    (m0 : Metric) (g : String) (M : JSNum)
    (h0 : metrics[i]? = some m0) (hg : m0.group = some g)
    (hM : (firstLoop root metrics).maxValues g = some M)
    (hpos : M.gt (JSNum.fin 0) = true) :
    ∃ out m v nv, normaliseMetrics root metrics = .ok out ∧ out[i]? = some m ∧
      m.group = some g ∧ m.value = some v ∧ m.normalisedValue = some nv ∧
      (∀ f, nv.get f = some (percentOf (v.get f) M)) ∧
      (∀ f x, v.get f = some (JSNum.fin x) →
        nv.get f = some ((roundDouble (100 * x)).divD M)) ∧
      (∀ f x q y, v.get f = some (JSNum.fin x) → M = JSNum.fin q →
        roundDouble (100 * x) = JSNum.fin y → nv.get f = some (roundDouble (y / q))) := by
  obtain ⟨out, hout, _, hi⟩ := normaliseMetrics_getElem? root metrics i m0 h0
  have hpg : (prepare root m0).group = some g := hg
  refine ⟨out, _, valueOf root m0, percentages (valueOf root m0) M, hout, hi, ?_, ?_, ?_, ?_,
    ?_, ?_⟩
  · rw [finish_group, hpg]
  · rw [finish_value, prepare_value]
  · exact finish_prepare_group root _ m0 g M hg hM hpos
  · intro f
    exact percentages_get _ _ f
  · intro f x hx
    rw [percentages_get, hx, percentOf_fin]
  · intro f x q y hx hq hy
    subst hq
    have hq0 : q ≠ 0 := by
      intro h
      subst h
      simp [JSNum.gt] at hpos
    rw [percentages_get, hx, percentOf_fin_fin x q y hq0 hy]

/-- C1, the example of the specification: two metrics in group `g` with means 50 and
100 have the group maximum 100 and the normalised means 50 and 100. With the means 1
and 3 the first normalised mean is the double 33.333333333333336, and a lone mean
`2 ^ 1023` is normalised to `Infinity`, the product by 100 being too large. -/
theorem normaliseMetrics_group_percent_witness :
    (∃ out m v nv, normaliseMetrics twoMeansRoot twoMeansMetrics = .ok out ∧
      out[1]? = some m ∧ m.group = some "g" ∧ m.value = some v ∧
      m.normalisedValue = some nv ∧
      (∀ f, nv.get f = some (percentOf (v.get f) (JSNum.fin 100))) ∧
      (∀ f x, v.get f = some (JSNum.fin x) →
        nv.get f = some ((roundDouble (100 * x)).divD (JSNum.fin 100))) ∧
      (∀ f x q y, v.get f = some (JSNum.fin x) → JSNum.fin 100 = JSNum.fin q →
        roundDouble (100 * x) = JSNum.fin y → nv.get f = some (roundDouble (y / q)))) ∧
    (firstLoop twoMeansRoot twoMeansMetrics).maxValues "g" = some (JSNum.fin 100) ∧
    (normaliseMetrics twoMeansRoot twoMeansMetrics).toOption.map
        (List.map fun m => m.normalisedValue.bind Stats.mean)
      = some [some (JSNum.fin 50), some (JSNum.fin 100)] ∧
    (normaliseMetrics thirdsRoot twoMeansMetrics).toOption.map
        (List.map fun m => m.normalisedValue.bind Stats.mean)
      = some [some (JSNum.fin (4691249611844267 / 140737488355328)),
          some (JSNum.fin 100)] ∧
    (normaliseMetrics hugeRoot loneMetrics).toOption.map
        (List.map fun m => (m.value.bind Stats.mean, m.normalisedValue.bind Stats.mean))
      = some [(some (JSNum.fin (2 ^ 1023)), some JSNum.posInf)] :=
  ⟨normaliseMetrics_group_percent twoMeansRoot twoMeansMetrics 1
      (Metric.ref (some "b") (some "g") none) "g" (JSNum.fin 100) rfl rfl
      (by with_unfolding_all rfl) rfl,
    by with_unfolding_all rfl, by decide!, by decide!, by decide!⟩

/-! ## C2: the group maximum -/

theorem valueOrNull_finite (x : JSVal) (n : JSNum) (h : valueOrNull x = some n) :
    ∃ q, n = JSNum.fin q := by
  rcases x with _ | _ | _ | (q | _ | _ | _) | _ | _ | _ <;>
    simp [valueOrNull, JSNum.isFinite] at h
  exact ⟨q, h.symm⟩

theorem valueOf_get_finite (root : Root) (m : Metric) (f : Field) (n : JSNum)
    (h : (valueOf root m).get f = some n) : ∃ q, n = JSNum.fin q := by
  cases f <;> exact valueOrNull_finite _ n h

theorem orZero_eq_cases (y : Option JSNum) (M : JSNum) (h : orZero y = M) :
    M = JSNum.fin 0 ∨ y = some M := by
  rcases y with _ | n
  · exact Or.inl h.symm
  · by_cases ht : n.truthy = true
    · right
      simp [orZero, ht] at h
      rw [h]
    · left
      simp [orZero, ht] at h
      exact h.symm

theorem seenValues_of_field (root : Root) (m : Metric) (f : Field) (hf : f ≠ Field.stdev) :
    orZero ((valueOf root m).get f) ∈ seenValues root m := by
  cases f <;> simp [seenValues, Stats.get] at *

theorem mem_normaliseMetrics (root : Root) (metrics out : List Metric)
    (hout : normaliseMetrics root metrics = .ok out) (m : Metric) (hm : m ∈ out) :
    ∃ m0 ∈ metrics, m = finish (firstLoop root metrics) (prepare root m0) := by
  rw [normaliseMetrics_eq] at hout
  have hout2 := Except.ok.inj hout
  subst hout2
  obtain ⟨m0, hm0, rfl⟩ := List.mem_map.mp hm
  exact ⟨m0, hm0, rfl⟩

/-- C2, as stated, fails on a group whose seen values are all negative: in
`negativeMetrics` every min, mean, max and maxBarValue of the group `g` is present
and negative, the largest being -1, and the maximum used for the group is 0. -/
theorem group_maximum_is_clamped_at_zero :
    (normaliseMetrics negativeRoot negativeMetrics).toOption.map
        (List.map fun m => (m.group, m.value.bind Stats.min, m.value.bind Stats.mean,
          m.value.bind Stats.max, m.maxBarValue))
      = some [(some "g", some (JSNum.fin (-7)), some (JSNum.fin (-5)),
                some (JSNum.fin (-3)), some (JSNum.fin (-1))),
              (some "g", some (JSNum.fin (-4)), some (JSNum.fin (-2)),
                some (JSNum.fin (-1)), some (JSNum.fin (-6)))] ∧
    (firstLoop negativeRoot negativeMetrics).maxValues "g" = some (JSNum.fin 0) ∧
    (firstLoop negativeRoot negativeMetrics).maxValues "g" ≠ some (JSNum.fin (-1)) := by
  refine ⟨?_, ?_, ?_⟩
  · with_unfolding_all rfl
  · with_unfolding_all rfl
  · with_unfolding_all decide

/-- For a group named like a property of `Object.prototype` the running maximum does
not start from 0: the first read of `maxValues["toString"]` finds the inherited
function, the first member stores `NaN`, and the maximum restarts at the second
member. With the means 100 and then 50 the final maximum is 50, and the first member
is normalised to 200. -/
theorem inherited_group_maximum_restarts :
    (firstLoop twoMeansRoot (toStringMetrics.take 1)).maxValues "toString"
        = some JSNum.nan ∧
      (firstLoop twoMeansRoot toStringMetrics).maxValues "toString" = some (JSNum.fin 50) ∧
      (normaliseMetrics twoMeansRoot toStringMetrics).toOption.map
          (List.map fun m => (m.value.bind Stats.mean, m.normalisedValue.bind Stats.mean))
        = some [(some (JSNum.fin 100), some (JSNum.fin 200)),
                (some (JSNum.fin 50), some (JSNum.fin 100))] := by
  refine ⟨by with_unfolding_all rfl, by with_unfolding_all rfl, by decide!⟩

/-- C2 (amended): for every group with a member whose name is not the name of a
property of `Object.prototype`, the maximum `M` used to normalise the group is the
maximum of 0 and of all the min, mean, max and maxBarValue values seen among its
members (stdev is not included): `M` is at least 0, at least every such value, and is
either 0 or one of these values.  So it is clamped at 0 from below: a group whose
seen values are all negative has the maximum 0. -/
theorem group_maximum_spec (root : Root) (metrics : List Metric) (g : String)
    (m0 : Metric) (hm0 : m0 ∈ metrics) (hg0 : m0.group = some g)
    (hname : g ∉ objectPrototypeNames) :
    ∃ out M, normaliseMetrics root metrics = .ok out ∧
      (firstLoop root metrics).maxValues g = some M ∧
      (JSNum.fin 0).le M = true ∧
      (∀ m ∈ out, m.group = some g → ∀ v, m.value = some v →
        (∀ f, f ≠ Field.stdev → ∀ x, v.get f = some x → x.le M = true) ∧
        (∀ b, m.maxBarValue = some b → b ≠ JSNum.nan → b.le M = true)) ∧
      (M = JSNum.fin 0 ∨ ∃ m ∈ out, m.group = some g ∧
        ((∃ v f, m.value = some v ∧ f ≠ Field.stdev ∧ v.get f = some M) ∨
          m.maxBarValue = some M)) := by
  obtain ⟨hA, hB⟩ := firstLoop_maxValues root metrics g hname
  obtain ⟨M, hM, _⟩ := hB m0 hm0 hg0
  obtain ⟨_, hM0, hMatt⟩ := hA M hM
  refine ⟨_, M, normaliseMetrics_eq root metrics, hM, hM0, ?_, ?_⟩
  · intro m hm hg v hv
    obtain ⟨m1, hm1, rfl⟩ := mem_normaliseMetrics root metrics _ (normaliseMetrics_eq _ _) m hm
    rw [finish_group] at hg
    have hg1 : m1.group = some g := hg
    rw [finish_value, prepare_value] at hv
    have hv2 := Option.some.inj hv
    subst hv2
    obtain ⟨M2, hM2, hle⟩ := hB m1 hm1 hg1
    rw [hM] at hM2
    have hM3 := Option.some.inj hM2
    subst hM3
    constructor
    · intro f hf x hx
      obtain ⟨q, rfl⟩ := valueOf_get_finite root m1 f x hx
      have hmem := seenValues_of_field root m1 f hf
      rw [hx, orZero_some_of_ne_nan _ (by simp)] at hmem
      exact hle _ hmem
    · intro b hb hbn
      rw [finish_maxBarValue] at hb
      have hb1 : m1.maxBarValue = some b := hb
      have hmem : orZero m1.maxBarValue ∈ seenValues root m1 := by simp [seenValues]
      rw [hb1, orZero_some_of_ne_nan b hbn] at hmem
      exact hle _ hmem
  · rcases hMatt with h | ⟨m1, hm1, hg1, hin⟩
    · exact Or.inl h
    · simp only [seenValues, List.mem_cons, List.mem_singleton, List.not_mem_nil,
        or_false] at hin
      have key : M = JSNum.fin 0 ∨
          ((∃ f, f ≠ Field.stdev ∧ (valueOf root m1).get f = some M) ∨
            m1.maxBarValue = some M) := by
        rcases hin with h | h | h | h
        · rcases orZero_eq_cases _ _ h.symm with h2 | h2
          · exact Or.inl h2
          · exact Or.inr (Or.inl ⟨Field.min, by simp, h2⟩)
        · rcases orZero_eq_cases _ _ h.symm with h2 | h2
          · exact Or.inl h2
          · exact Or.inr (Or.inl ⟨Field.mean, by simp, h2⟩)
        · rcases orZero_eq_cases _ _ h.symm with h2 | h2
          · exact Or.inl h2
          · exact Or.inr (Or.inl ⟨Field.max, by simp, h2⟩)
        · rcases orZero_eq_cases _ _ h.symm with h2 | h2
          · exact Or.inl h2
          · exact Or.inr (Or.inr h2)
      rcases key with h | h
      · exact Or.inl h
      · right
        refine ⟨finish (firstLoop root metrics) (prepare root m1),
          List.mem_map.mpr ⟨m1, hm1, rfl⟩, ?_, ?_⟩
        · rw [finish_group]
          exact hg1
        · rcases h with ⟨f, hf, hfM⟩ | h
          · left
            exact ⟨valueOf root m1, f, by rw [finish_value, prepare_value], hf, hfM⟩
          · right
            rw [finish_maxBarValue]
            exact h

/-- C2, an instance: the group `g` of `twoMeansMetrics` has the maximum 100. -/
theorem group_maximum_spec_witness :
    (Metric.ref (some "a") (some "g") none ∈ twoMeansMetrics) ∧
    "g" ∉ objectPrototypeNames ∧
    (∃ out M, normaliseMetrics twoMeansRoot twoMeansMetrics = .ok out ∧
      (firstLoop twoMeansRoot twoMeansMetrics).maxValues "g" = some M ∧
      (JSNum.fin 0).le M = true ∧
      (∀ m ∈ out, m.group = some "g" → ∀ v, m.value = some v →
        (∀ f, f ≠ Field.stdev → ∀ x, v.get f = some x → x.le M = true) ∧
        (∀ b, m.maxBarValue = some b → b ≠ JSNum.nan → b.le M = true)) ∧
      (M = JSNum.fin 0 ∨ ∃ m ∈ out, m.group = some "g" ∧
        ((∃ v f, m.value = some v ∧ f ≠ Field.stdev ∧ v.get f = some M) ∨
          m.maxBarValue = some M))) ∧
    (firstLoop twoMeansRoot twoMeansMetrics).maxValues "g" = some (JSNum.fin 100) :=
  ⟨by simp [twoMeansMetrics], by decide,
    group_maximum_spec twoMeansRoot twoMeansMetrics "g"
      (Metric.ref (some "a") (some "g") none) (by simp [twoMeansMetrics]) rfl (by decide),
    by with_unfolding_all rfl⟩

/-! ## C3: `noBar` -/

/-- For a group whose name is not the name of a property of `Object.prototype`, the
call returns and `noBar` is true if and only if at most one input metric declares the
group. -/
theorem noBar_of_plain_group (root : Root) (metrics : List Metric) (i : Nat)
    (m0 : Metric) (g : String) (h0 : metrics[i]? = some m0) (hg : m0.group = some g)
    (hname : g ∉ objectPrototypeNames) :
    ∃ out m, normaliseMetrics root metrics = .ok out ∧ out[i]? = some m ∧
      m.group = some g ∧ m.noBar = some (decide (membersOf g metrics ≤ 1)) := by
  obtain ⟨out, hout, _, hi⟩ := normaliseMetrics_getElem? root metrics i m0 h0
  have hpg : (prepare root m0).group = some g := hg
  have hpos : membersOf g metrics ≠ 0 := by
    have : 0 < membersOf g metrics :=
      List.countP_pos_iff.mpr ⟨m0, List.getElem?_mem h0, by simp [hg]⟩
    omega
  refine ⟨out, _, hout, hi, ?_, ?_⟩
  · rw [finish_group, hpg]
  · simp [finish, hpg, atMostOne_plain root metrics g hname hpos]

/-- For a group named like a property of `Object.prototype`, `noBar` is false for
every member, whatever the number of members. -/
theorem noBar_of_inherited_group (root : Root) (metrics : List Metric) (i : Nat)
    (m0 : Metric) (g : String) (h0 : metrics[i]? = some m0) (hg : m0.group = some g)
    (hname : g ∈ objectPrototypeNames) :
    ∃ out m, normaliseMetrics root metrics = .ok out ∧ out[i]? = some m ∧
      m.group = some g ∧ m.noBar = some false := by
  obtain ⟨out, hout, _, hi⟩ := normaliseMetrics_getElem? root metrics i m0 h0
  have hpg : (prepare root m0).group = some g := hg
  refine ⟨out, _, hout, hi, ?_, ?_⟩
  · rw [finish_group, hpg]
  · simp [finish, hpg, atMostOne_inherited root metrics g hname]

/-- Claim C3 at the failing input: the metric `a` is the only member of the group
`constructor`, and its `noBar` is false. The first read of
`numberOfMetricsInGroup["constructor"]` finds the inherited function `Object`, which
is truthy; `+ 1` makes a text of it, and the text is not `<= 1`. The lone metric of a
group of another name, as `g`, has `noBar` true, and both members of a group of two
have `noBar` false. -/
theorem lone_metric_in_group_constructor_has_a_bar :
    membersOf "constructor" constructorLoneMetrics = 1 ∧
      (firstLoop twoMeansRoot constructorLoneMetrics).numberOfMetricsInGroup "constructor"
        = some (Count.text 1) ∧
      (normaliseMetrics twoMeansRoot constructorLoneMetrics).toOption.map
          (List.map fun m => (m.group, m.noBar))
        = some [(some "constructor", some false)] ∧
      (normaliseMetrics twoMeansRoot loneMetrics).toOption.map
          (List.map fun m => (m.group, m.noBar))
        = some [(some "g", some true)] ∧
      (normaliseMetrics twoMeansRoot twoMeansMetrics).toOption.map (List.map Metric.noBar)
        = some [some false, some false] := by
  refine ⟨by decide, by with_unfolding_all rfl, by with_unfolding_all rfl,
    by with_unfolding_all rfl, by with_unfolding_all rfl⟩

/-! ## C4: metrics without a group -/

/-- C4: the call returns, and for every metric without a group: if `maxBarValue` is
set, each field of `normalisedValue` is `100 * value.field / maxBarValue` in
double-precision arithmetic (for a numeric field `x` the product `100 * x` rounded to
a double, divided by `maxBarValue` and rounded again: with the product rounding to
the finite `y` and a finite non-zero `maxBarValue = q`, the double nearest to
`y / q`); if `maxBarValue` is not set either, `normalisedValue` is the raw value
tuple. -/
theorem no_group_normalisedValue (root : Root) (metrics : List Metric) (i : Nat)
    (m0 : Metric) (h0 : metrics[i]? = some m0) (hg : m0.group = none) :
    ∃ out m v, normaliseMetrics root metrics = .ok out ∧ out[i]? = some m ∧
      m.group = none ∧ m.maxBarValue = m0.maxBarValue ∧ m.value = some v ∧
      (∀ b, m0.maxBarValue = some b →
        ∃ nv, m.normalisedValue = some nv ∧
          (∀ f, nv.get f = some (percentOf (v.get f) b)) ∧
          (∀ f x, v.get f = some (JSNum.fin x) →
            nv.get f = some ((roundDouble (100 * x)).divD b)) ∧
          (∀ f x q y, v.get f = some (JSNum.fin x) → b = JSNum.fin q → q ≠ 0 →
            roundDouble (100 * x) = JSNum.fin y →
            nv.get f = some (roundDouble (y / q)))) ∧
      (m0.maxBarValue = none → m.normalisedValue = some v) := by
  obtain ⟨out, hout, _, hi⟩ := normaliseMetrics_getElem? root metrics i m0 h0
  have hpg : (prepare root m0).group = none := hg
  refine ⟨out, _, valueOf root m0, hout, hi, ?_, ?_, ?_, ?_, ?_⟩
  · rw [finish_group, hpg]
  · rw [finish_maxBarValue]
    rfl
  · rw [finish_value, prepare_value]
  · intro b hb
    refine ⟨percentages (valueOf root m0) b, ?_, ?_, ?_, ?_⟩
    · exact finish_prepare_bar root _ m0 b hg hb
    · intro f
      exact percentages_get _ _ f
    · intro f x hx
      rw [percentages_get, hx, percentOf_fin]
    · intro f x q y hx hq hq0 hy
      subst hq
      rw [percentages_get, hx, percentOf_fin_fin x q y hq0 hy]
  · intro hb
    have hpb : (prepare root m0).maxBarValue = none := hb
    simp [finish, hpg, hpb, prepare_value]

/-- C4, instances: the mean 50 with `maxBarValue: 200` and no group is normalised to
25; the mean 1 with `maxBarValue: 3` to the double 33.333333333333336; the mean
`2 ^ 1023` with `maxBarValue: 2 ^ 1023` to `Infinity`. -/
theorem no_group_normalisedValue_witness :
    (∃ out m v, normaliseMetrics twoMeansRoot barMetrics = .ok out ∧ out[0]? = some m ∧
      m.group = none ∧ m.maxBarValue = some (JSNum.fin 200) ∧ m.value = some v ∧
      (∀ b, some (JSNum.fin 200) = some b →
        ∃ nv, m.normalisedValue = some nv ∧
          (∀ f, nv.get f = some (percentOf (v.get f) b)) ∧
          (∀ f x, v.get f = some (JSNum.fin x) →
            nv.get f = some ((roundDouble (100 * x)).divD b)) ∧
          (∀ f x q y, v.get f = some (JSNum.fin x) → b = JSNum.fin q → q ≠ 0 →
            roundDouble (100 * x) = JSNum.fin y →
            nv.get f = some (roundDouble (y / q)))) ∧
      (some (JSNum.fin 200) = none → m.normalisedValue = some v)) ∧
    (normaliseMetrics twoMeansRoot barMetrics).toOption.map
        (List.map fun m => m.normalisedValue.bind Stats.mean)
      = some [some (JSNum.fin 25)] ∧
    (normaliseMetrics thirdsRoot [Metric.ref (some "a") none (some (.fin 3))]).toOption.map
        (List.map fun m => m.normalisedValue.bind Stats.mean)
      = some [some (JSNum.fin (4691249611844267 / 140737488355328))] ∧
    (normaliseMetrics hugeRoot
        [Metric.ref (some "a") none (some (.fin (2 ^ 1023)))]).toOption.map
        (List.map fun m => m.normalisedValue.bind Stats.mean)
      = some [some JSNum.posInf] :=
  ⟨no_group_normalisedValue twoMeansRoot barMetrics 0
      (Metric.ref (some "a") none (some (JSNum.fin 200))) rfl rfl,
    by decide!, by decide!, by decide!⟩

/-! ## C5: unresolved metric ids -/

/-- C5 at the failing input: the id `nope` is not defined, the call returns and warns,
but the metric does not get the empty value: `allinea.lookup` is called with an
undefined path and returns the data table itself, whose top-level `mean` and `max`
become the value of the metric. -/
theorem unresolved_metric_reads_data_table :
    normaliseMetrics unknownRoot unknownMetrics = .ok
      [{ Metric.ref (some "nope") none none with
          defn := none,
          value := some { mean := some (.fin 7), min := none, max := some (.fin 9),
                          stdev := none },
          normalisedValue := some { mean := some (.fin 7), min := none,
                                    max := some (.fin 9), stdev := none } }] ∧
      (firstLoop unknownRoot unknownMetrics).warnings = ["unknown metric: nope"] ∧
      lookup unknownRoot.data none = unknownRoot.data := by
  refine ⟨?_, ?_, ?_⟩ <;> with_unfolding_all rfl

/-! ## C6: division by a zero `maxBarValue` -/

/-- C6 at the failing input: with `maxBarValue: 0` and no group the division is not
guarded: the mean 50 is normalised to `Infinity` and the `null` fields to `NaN`. -/
theorem zero_maxBarValue_gives_infinity_and_nan :
    (normaliseMetrics twoMeansRoot zeroBarMetrics).toOption.map
        (List.map fun m => (m.value, m.normalisedValue))
      = some [(some { mean := some (.fin 50), min := none, max := none, stdev := none },
               some { mean := some .posInf, min := some .nan, max := some .nan,
                      stdev := some .nan })] := by
  with_unfolding_all rfl

/-! ## C7: `null` fields in the percentage arithmetic -/

theorem percentOf_none (d : JSNum) (hnan : d ≠ .nan) (hzero : d ≠ .fin 0) :
    percentOf none d = .fin 0 := by
  rcases d with q | _ | _ | _
  · have hq : q ≠ 0 := fun h => hzero (by rw [h])
    simp [percentOf, nullToNumber, JSNum.mulD, JSNum.divD, JSNum.mul, JSNum.div,
      JSNum.toDouble, hq, roundDouble_zero]
  · exact absurd rfl hnan
  · simp [percentOf, nullToNumber, JSNum.mulD, JSNum.divD, JSNum.mul, JSNum.div,
      JSNum.toDouble, roundDouble_zero]
  · simp [percentOf, nullToNumber, JSNum.mulD, JSNum.divD, JSNum.mul, JSNum.div,
      JSNum.toDouble, roundDouble_zero]

theorem ne_of_gt_zero (d : JSNum) (h : d.gt (.fin 0) = true) : d ≠ .nan ∧ d ≠ .fin 0 := by
  rcases d with q | _ | _ | _ <;> simp_all [JSNum.gt]
  intro hq
  rw [hq] at h
  exact lt_irrefl 0 h

/-- C7, as stated, fails: in `twoMeansMetrics` the group `g` applies, the raw `min`,
`max` and `stdev` of both metrics are `null`, and the corresponding fields of
`normalisedValue` are the number 0, not `null`. -/
theorem null_field_is_normalised_to_a_number :
    (normaliseMetrics twoMeansRoot twoMeansMetrics).toOption.map
        (List.map fun m => (m.group, m.value, m.normalisedValue))
      = some
        [(some "g",
          some { mean := some (.fin 50), min := none, max := none, stdev := none },
          some { mean := some (.fin 50), min := some (.fin 0), max := some (.fin 0),
                 stdev := some (.fin 0) }),
         (some "g",
          some { mean := some (.fin 100), min := none, max := none, stdev := none },
          some { mean := some (.fin 100), min := some (.fin 0), max := some (.fin 0),
                 stdev := some (.fin 0) })] := by
  with_unfolding_all rfl

/-- C7 (amended): a raw field that is `null` counts as 0 in the percentage
arithmetic: whenever a group with a positive maximum applies, or no group and a
`maxBarValue` other than 0 and `NaN`, the corresponding field of `normalisedValue` is
the number 0. -/
theorem null_field_normalised_to_zero (root : Root) (metrics : List Metric) (i : Nat)
    (m0 : Metric) (d : JSNum) (h0 : metrics[i]? = some m0)
    (hd : (∃ g, m0.group = some g ∧ (firstLoop root metrics).maxValues g = some d ∧
            d.gt (JSNum.fin 0) = true) ∨
          (m0.group = none ∧ m0.maxBarValue = some d ∧ d ≠ JSNum.nan ∧ d ≠ JSNum.fin 0)) :
    ∃ out m v nv, normaliseMetrics root metrics = .ok out ∧ out[i]? = some m ∧
      m.value = some v ∧ m.normalisedValue = some nv ∧
      ∀ f, v.get f = none → nv.get f = some (JSNum.fin 0) := by
  obtain ⟨out, hout, _, hi⟩ := normaliseMetrics_getElem? root metrics i m0 h0
  refine ⟨out, _, valueOf root m0, percentages (valueOf root m0) d, hout, hi, ?_, ?_, ?_⟩
  · rw [finish_value, prepare_value]
  · rcases hd with ⟨g, hg, hM, hpos⟩ | ⟨hg, hb, _, _⟩
    · exact finish_prepare_group root _ m0 g d hg hM hpos
    · exact finish_prepare_bar root _ m0 d hg hb
  · intro f hf
    have hne : d ≠ JSNum.nan ∧ d ≠ JSNum.fin 0 := by
      rcases hd with ⟨g, _, _, hpos⟩ | ⟨_, _, hnan, hzero⟩
      · exact ne_of_gt_zero d hpos
      · exact ⟨hnan, hzero⟩
    rw [percentages_get, hf, percentOf_none d hne.1 hne.2]

/-- C7, an instance: the first metric of `twoMeansMetrics`, group maximum 100. -/
theorem null_field_normalised_to_zero_witness :
    ((∃ g, (Metric.ref (some "a") (some "g") none).group = some g ∧
        (firstLoop twoMeansRoot twoMeansMetrics).maxValues g = some (JSNum.fin 100) ∧
        (JSNum.fin 100).gt (JSNum.fin 0) = true) ∨
      ((Metric.ref (some "a") (some "g") none).group = none ∧
        (Metric.ref (some "a") (some "g") none).maxBarValue = some (JSNum.fin 100) ∧
        JSNum.fin 100 ≠ JSNum.nan ∧ JSNum.fin 100 ≠ JSNum.fin 0)) ∧
    ∃ out m v nv, normaliseMetrics twoMeansRoot twoMeansMetrics = .ok out ∧
      out[0]? = some m ∧ m.value = some v ∧ m.normalisedValue = some nv ∧
      ∀ f, v.get f = none → nv.get f = some (JSNum.fin 0) :=
  ⟨Or.inl ⟨"g", rfl, rfl, rfl⟩,
    null_field_normalised_to_zero twoMeansRoot twoMeansMetrics 0
      (Metric.ref (some "a") (some "g") none) (JSNum.fin 100) rfl
      (Or.inl ⟨"g", rfl, rfl, rfl⟩)⟩

/-! ## C8: value resolution -/

theorem valueOrNull_fin (x : JSVal) (q : ℚ) (h : x = .num (.fin q)) :
    valueOrNull x = some (.fin q) := by
  subst h
  rfl

theorem valueOrNull_none (x : JSVal) (h : ∀ q, x ≠ .num (.fin q)) : valueOrNull x = none := by
  rcases x with _ | _ | _ | (q | _ | _ | _) | _ | _ | _ <;>
    simp [valueOrNull, JSNum.isFinite]
  exact h q rfl

theorem statsOf_object (x : JSVal) (h : isObject x = true) (f : Field) :
    (statsOf x).get f = valueOrNull (x.get f.key) := by
  cases f <;> simp [statsOf, h, Stats.get, Field.key]

theorem statsOf_bare (x : JSVal) (h : isObject x = false) :
    statsOf x = { mean := valueOrNull x, min := none, max := none, stdev := none } := by
  simp [statsOf, h, JSVal.get, List.lookup, valueOrNull]

/-- C8: the call returns, and for every metric whose definition resolves and carries
the dotted path `p`, with `found` the value at `p` in the data table: if `found` is not
an object it is treated as `{mean: found}` (min, max and stdev are `null`); each field
of the output `value` is the source field when that is a finite number and `null`
otherwise, hence always a finite number or `null`. -/
theorem value_resolution (root : Root) (metrics : List Metric) (i : Nat) (m0 : Metric)
    (d : MetricDefinition) (p : String) (h0 : metrics[i]? = some m0)
    (hd : root.metricData.lookup (propertyKey m0.metricId) = some d)
    (hp : d.value = some p) :
    ∃ out m v, normaliseMetrics root metrics = .ok out ∧ out[i]? = some m ∧
      m.defn = some d ∧ m.value = some v ∧
      (isObject (lookup root.data (some p)) = false →
        (∀ q, lookup root.data (some p) = .num (.fin q) → v.mean = some (.fin q)) ∧
        ((∀ q, lookup root.data (some p) ≠ .num (.fin q)) → v.mean = none) ∧
        v.min = none ∧ v.max = none ∧ v.stdev = none) ∧
      (isObject (lookup root.data (some p)) = true →
        ∀ f, (∀ q, (lookup root.data (some p)).get f.key = .num (.fin q) →
                v.get f = some (.fin q)) ∧
             ((∀ q, (lookup root.data (some p)).get f.key ≠ .num (.fin q)) →
                v.get f = none)) ∧
      (∀ f, v.get f = none ∨ ∃ q, v.get f = some (JSNum.fin q)) := by
  obtain ⟨out, hout, _, hi⟩ := normaliseMetrics_getElem? root metrics i m0 h0
  have hval : valueOf root m0 = statsOf (lookup root.data (some p)) := by
    simp [valueOf, hd, hp]
  refine ⟨out, _, valueOf root m0, hout, hi, ?_, ?_, ?_, ?_, ?_⟩
  · rw [finish_defn]
    exact hd
  · rw [finish_value, prepare_value]
  · intro hobj
    rw [hval, statsOf_bare _ hobj]
    exact ⟨fun q hq => valueOrNull_fin _ q hq, fun hq => valueOrNull_none _ hq, rfl, rfl, rfl⟩
  · intro hobj f
    rw [hval, statsOf_object _ hobj]
    exact ⟨fun q hq => valueOrNull_fin _ q hq, fun hq => valueOrNull_none _ hq⟩
  · intro f
    cases hf : (valueOf root m0).get f with
    | none => exact Or.inl rfl
    | some n =>
        obtain ⟨q, rfl⟩ := valueOf_get_finite root m0 f n hf
        exact Or.inr ⟨q, rfl⟩

/-- C8, an instance: the metric `a` of `twoMeansRoot`, whose path `t.a` holds the bare
number 50, gets the value `{mean: 50, min: null, max: null, stdev: null}`. -/
theorem value_resolution_witness :
    (∃ out m v, normaliseMetrics twoMeansRoot twoMeansMetrics = .ok out ∧
      out[0]? = some m ∧ m.defn = some (MetricDefinition.atPath "t.a") ∧
      m.value = some v ∧
      (isObject (lookup twoMeansRoot.data (some "t.a")) = false →
        (∀ q, lookup twoMeansRoot.data (some "t.a") = .num (.fin q) →
          v.mean = some (.fin q)) ∧
        ((∀ q, lookup twoMeansRoot.data (some "t.a") ≠ .num (.fin q)) → v.mean = none) ∧
        v.min = none ∧ v.max = none ∧ v.stdev = none) ∧
      (isObject (lookup twoMeansRoot.data (some "t.a")) = true →
        ∀ f, (∀ q, (lookup twoMeansRoot.data (some "t.a")).get f.key = .num (.fin q) →
                v.get f = some (.fin q)) ∧
             ((∀ q, (lookup twoMeansRoot.data (some "t.a")).get f.key ≠ .num (.fin q)) →
                v.get f = none)) ∧
      (∀ f, v.get f = none ∨ ∃ q, v.get f = some (JSNum.fin q))) ∧
    lookup twoMeansRoot.data (some "t.a") = .num (.fin 50) ∧
    (normaliseMetrics twoMeansRoot twoMeansMetrics).toOption.map
        (List.map Metric.value)
      = some [some { mean := some (.fin 50), min := none, max := none, stdev := none },
              some { mean := some (.fin 100), min := none, max := none, stdev := none }] :=
  ⟨value_resolution twoMeansRoot twoMeansMetrics 0 (Metric.ref (some "a") (some "g") none)
      (MetricDefinition.atPath "t.a") "t.a" rfl rfl rfl,
    by with_unfolding_all rfl, by with_unfolding_all rfl⟩

/-! ## C9: the range of the normalised values -/

theorem orZero_eq_nullToNumber (y : Option JSNum) (h : ∀ n, y = some n → ∃ q, n = JSNum.fin q) :
    orZero y = nullToNumber y ∧ ∃ x, nullToNumber y = JSNum.fin x := by
  rcases y with _ | n
  · exact ⟨rfl, 0, rfl⟩
  · obtain ⟨q, rfl⟩ := h n rfl
    exact ⟨orZero_some_of_ne_nan _ (by simp), q, rfl⟩

theorem roundDouble_nonpos (q : ℚ) (hq : q ≤ 0) : (roundDouble q).le (.fin 0) = true := by
  have := roundDouble_mono q 0 hq
  rwa [roundDouble_zero] at this

theorem roundDouble_nonneg (q : ℚ) (hq : 0 ≤ q) : (JSNum.fin 0).le (roundDouble q) = true := by
  have := roundDouble_mono 0 q hq
  rwa [roundDouble_zero] at this

/-- The double nearest to `100 * (1 + 2 ^ (-53))` is the double next above 100. -/
theorem hundred_rounded : roundDouble (100 * (1 + pow2 (-53))) = .fin (100 + pow2 (-46)) := by
  decide!

theorem percentOf_nonneg (x b : ℚ) (hx : 0 ≤ x) (hb : 0 < b) :
    (JSNum.fin 0).le (percentOf (some (.fin x)) (.fin b)) = true := by
  have h1 := roundDouble_nonneg (100 * x) (by linarith)
  rw [percentOf_fin]
  cases hr : roundDouble (100 * x) with
  | fin y =>
      rw [hr] at h1
      have hy : 0 ≤ y := by simpa [JSNum.le] using h1
      rw [JSNum.divD_fin y b (ne_of_gt hb)]
      exact roundDouble_nonneg _ (div_nonneg hy (le_of_lt hb))
  | nan =>
      rw [hr] at h1
      simp [JSNum.le] at h1
  | posInf =>
      simp [JSNum.divD, JSNum.div, not_lt.mpr (le_of_lt hb), JSNum.toDouble, JSNum.le]
  | negInf =>
      rw [hr] at h1
      simp [JSNum.le] at h1

/-- The percentage of a double `x` against a positive `b ≥ x` whose product by 100 is
finite is at most the double next above 100. -/
theorem percentOf_bounded (x b : ℚ) (hxb : x ≤ b) (hb : 0 < b)
    (hdouble : roundDouble x = .fin x) (hfin : roundDouble (100 * b) ≠ .posInf) :
    (percentOf (some (.fin x)) (.fin b)).le (.fin (100 + pow2 (-46))) = true := by
  have htop : (JSNum.fin 0).le (.fin (100 + pow2 (-46))) = true := by
    have := pow2_pos (-46)
    simp only [JSNum.le, decide_eq_true_eq]
    linarith
  rw [percentOf_fin]
  rcases le_or_lt x 0 with hx | hx
  · have h1 := roundDouble_nonpos (100 * x) (by linarith)
    cases hr : roundDouble (100 * x) with
    | fin y =>
        rw [hr] at h1
        have hy : y ≤ 0 := by simpa [JSNum.le] using h1
        rw [JSNum.divD_fin y b (ne_of_gt hb)]
        exact JSNum.le_chain _ _ _
          (roundDouble_nonpos _ (div_nonpos_of_nonpos_of_nonneg hy (le_of_lt hb))) htop
    | nan =>
        rw [hr] at h1
        simp [JSNum.le] at h1
    | posInf =>
        rw [hr] at h1
        simp [JSNum.le] at h1
    | negInf =>
        simp [JSNum.divD, JSNum.div, not_lt.mpr (le_of_lt hb), JSNum.toDouble, JSNum.le]
  · have hxpos : 0 < 100 * x := by linarith
    have hbpos : 0 < 100 * b := by linarith
    have hmono := roundDouble_mono (100 * x) (100 * b) (by linarith)
    have hnb : ¬ pow2 1024 ≤ roundMagnitude (100 * b) := by
      intro hc
      rw [roundDouble_pos _ hbpos, if_pos hc] at hfin
      exact hfin rfl
    have hnx : ¬ pow2 1024 ≤ roundMagnitude (100 * x) := by
      intro hc
      rw [roundDouble_pos _ hxpos, if_pos hc, roundDouble_pos _ hbpos, if_neg hnb] at hmono
      simp [JSNum.le] at hmono
    have hrx : roundDouble (100 * x) = .fin (roundMagnitude (100 * x)) := by
      rw [roundDouble_pos _ hxpos, if_neg hnx]
    have heps := pow2_pos (-53)
    have hbound : roundMagnitude (100 * x) ≤ 100 * x * (1 + pow2 (-53)) := by
      by_cases hn : pow2 (-1022) ≤ 100 * x
      · exact roundMagnitude_relative _ hn
      · obtain ⟨k, hk⟩ := multiple_of_double x hdouble
        have hex : roundMagnitude (100 * x) = 100 * x :=
          roundMagnitude_subnormal (100 * x) (100 * k) (not_le.mp hn) (by
            rw [hk]
            push_cast
            ring)
        rw [hex]
        nlinarith
    rw [hrx, JSNum.divD_fin _ b (ne_of_gt hb)]
    have hq : roundMagnitude (100 * x) / b ≤ 100 * (1 + pow2 (-53)) := by
      rw [div_le_iff₀ hb]
      nlinarith
    have := roundDouble_mono _ _ hq
    rwa [hundred_rounded] at this

/-- C9, as stated, fails.  With `maxBarValue: 50` and no group the mean 100 is
normalised to 200.  In a group of maximum 20 the metric
`{mean: 10, min: -5, max: 20, stdev: 30}` is normalised to
`{mean: 50, min: -25, max: 100, stdev: 150}`: `stdev` exceeds 100 and `min` is
negative. -/
theorem normalised_value_leaves_the_range :
    (normaliseMetrics twoMeansRoot overBarMetrics).toOption.map
        (List.map fun m => (m.maxBarValue, m.normalisedValue.bind Stats.mean))
      = some [(some (.fin 50), some (.fin 200))] ∧
    (firstLoop spreadRoot loneMetrics).maxValues "g" = some (.fin 20) ∧
    (normaliseMetrics spreadRoot loneMetrics).toOption.map
        (List.map fun m => (m.group, m.normalisedValue))
      = some [(some "g", some { mean := some (.fin 50), min := some (.fin (-25)),
                                max := some (.fin 100), stdev := some (.fin 150) })] := by
  refine ⟨?_, ?_, ?_⟩ <;> with_unfolding_all rfl

/-- C9 (amended): whenever a group applies to a metric whose name is not the name of
a property of `Object.prototype` and whose maximum `M` is positive with `100 * M`
finite in double precision, the min, mean and max fields of its `normalisedValue`
(the raw fields being doubles) are at most the double next above 100,
`100 + 2 ^ (-46)`, and not less than 0 when the raw field is `null` or not negative.
The stdev field and the `maxBarValue` case carry no bound. -/
theorem group_percent_at_most_hundred (root : Root) (metrics : List Metric) (i : Nat)
    (m0 : Metric) (g : String) (M : JSNum)
    (h0 : metrics[i]? = some m0) (hg : m0.group = some g)
    (hname : g ∉ objectPrototypeNames)
    (hM : (firstLoop root metrics).maxValues g = some M)
    (hpos : M.gt (JSNum.fin 0) = true)
    (hfin : (JSNum.fin 100).mulD M ≠ JSNum.posInf)
    (hdouble : ∀ f x, (valueOf root m0).get f = some (JSNum.fin x) →
      roundDouble x = JSNum.fin x) :
    ∃ out m v nv, normaliseMetrics root metrics = .ok out ∧ out[i]? = some m ∧
      m.value = some v ∧ m.normalisedValue = some nv ∧
      ∀ f, f ≠ Field.stdev →
        ∃ p, nv.get f = some p ∧ p.le (JSNum.fin (100 + pow2 (-46))) = true ∧
          ((∀ x, v.get f = some (JSNum.fin x) → 0 ≤ x) → (JSNum.fin 0).le p = true) := by
  obtain ⟨out, hout, _, hi⟩ := normaliseMetrics_getElem? root metrics i m0 h0
  refine ⟨out, _, valueOf root m0, percentages (valueOf root m0) M, hout, hi, ?_, ?_, ?_⟩
  · rw [finish_value, prepare_value]
  · exact finish_prepare_group root _ m0 g M hg hM hpos
  · intro f hf
    obtain ⟨b, rfl, hb⟩ : ∃ b, M = JSNum.fin b ∧ 0 < b := by
      rcases M with b | _ | _ | _
      · exact ⟨b, rfl, by simpa [JSNum.gt] using hpos⟩
      · simp [JSNum.gt] at hpos
      · exact absurd rfl hfin
      · simp [JSNum.gt] at hpos
    have hfinb : roundDouble (100 * b) ≠ JSNum.posInf := hfin
    refine ⟨_, percentages_get _ _ f, ?_⟩
    cases hv : (valueOf root m0).get f with
    | none =>
        rw [percentOf_none _ (by simp) (by simpa using ne_of_gt hb)]
        have := pow2_pos (-46)
        refine ⟨?_, fun _ => by simp [JSNum.le]⟩
        simp only [JSNum.le, decide_eq_true_eq]
        linarith
    | some n =>
        obtain ⟨x, rfl⟩ := valueOf_get_finite root m0 f n hv
        obtain ⟨M2, hM2, hle⟩ := (firstLoop_maxValues root metrics g hname).2 m0
          (List.getElem?_mem h0) hg
        rw [hM] at hM2
        have hM3 := Option.some.inj hM2
        subst hM3
        have hmem := seenValues_of_field root m0 f hf
        rw [hv, orZero_some_of_ne_nan _ (by simp)] at hmem
        have hxb : x ≤ b := by simpa [JSNum.le] using hle _ hmem
        exact ⟨percentOf_bounded x b hxb hb (hdouble f x hv) hfinb,
          fun hnn => percentOf_nonneg x b (hnn x rfl) hb⟩

/-- C9, instances: the second metric of `twoMeansMetrics`, group maximum 100, whose
mean is normalised to 100. The bound is reached: the lone mean `roundedUpValue` is
normalised to `100 + 2 ^ (-46)`, which prints as 100.00000000000001. Without the
condition on `100 * M` there is no bound: the lone mean `2 ^ 1023` is normalised to
`Infinity`. -/
theorem group_percent_at_most_hundred_witness :
    (firstLoop twoMeansRoot twoMeansMetrics).maxValues "g" = some (JSNum.fin 100) ∧
    (JSNum.fin 100).gt (JSNum.fin 0) = true ∧
    (∃ out m v nv, normaliseMetrics twoMeansRoot twoMeansMetrics = .ok out ∧
      out[1]? = some m ∧ m.value = some v ∧ m.normalisedValue = some nv ∧
      ∀ f, f ≠ Field.stdev →
        ∃ p, nv.get f = some p ∧ p.le (JSNum.fin (100 + pow2 (-46))) = true ∧
          ((∀ x, v.get f = some (JSNum.fin x) → 0 ≤ x) → (JSNum.fin 0).le p = true)) ∧
    (normaliseMetrics roundedUpRoot loneMetrics).toOption.map
        (List.map fun m => m.normalisedValue.bind Stats.mean)
      = some [some (JSNum.fin (100 + pow2 (-46)))] ∧
    (normaliseMetrics hugeRoot loneMetrics).toOption.map
        (List.map fun m => m.normalisedValue.bind Stats.mean)
      = some [some JSNum.posInf] :=
  ⟨by with_unfolding_all rfl, rfl,
    group_percent_at_most_hundred twoMeansRoot twoMeansMetrics 1
      (Metric.ref (some "b") (some "g") none) "g" (JSNum.fin 100) rfl rfl (by decide)
      (by with_unfolding_all rfl) rfl (by decide!) (by
        intro f x h
        have hv : valueOf twoMeansRoot (Metric.ref (some "b") (some "g") none)
            = { mean := some (.fin 100), min := none, max := none, stdev := none } := by
          with_unfolding_all rfl
        rw [hv] at h
        cases f <;> simp [Stats.get] at h
        subst h
        decide!),
    by decide!, by decide!⟩

/-! ## C10: the input objects -/

/-- C10 at the failing input: `extend(metric, {})` returns `metric` itself, so the
objects of the result are the input objects, and after the call the input reference
of `loneMetrics` carries the written `def`, `value`, `normalisedValue` and `noBar`. -/
theorem input_reference_is_written :
    extend (Metric.ref (some "a") (some "g") none) []
      = Metric.ref (some "a") (some "g") none ∧
    normaliseMetrics twoMeansRoot loneMetrics = .ok
      [{ Metric.ref (some "a") (some "g") none with
          defn := some (MetricDefinition.atPath "t.a"),
          value := some { mean := some (.fin 50), min := none, max := none,
                          stdev := none },
          normalisedValue := some { mean := some (.fin 100), min := some (.fin 0),
                                    max := some (.fin 0), stdev := some (.fin 0) },
          noBar := some true }] ∧
    normaliseMetrics twoMeansRoot loneMetrics ≠ .ok loneMetrics := by
  refine ⟨rfl, by with_unfolding_all rfl, ?_⟩
  intro h
  have h2 : normaliseMetrics twoMeansRoot loneMetrics
      = .ok (loneMetrics.map fun m =>
          finish (firstLoop twoMeansRoot loneMetrics) (prepare twoMeansRoot m)) :=
    normaliseMetrics_eq _ _
  rw [h] at h2
  have h3 := congrArg (fun l => l.map Metric.noBar) (Except.ok.inj h2)
  revert h3
  with_unfolding_all decide

/-! ## C11: `mergeColor` -/

theorem plusOrZero_eq (cv : Conv) (v : JSVal) :
    plusOrZero cv v = (match toNumber cv v with
      | .nan => .fin 0
      | n => n) := by
  unfold plusOrZero
  rcases toNumber cv v with q | _ | _ | _ <;> simp [orZero, JSNum.truthy]
  intro h
  rw [h]

theorem clampTo_fin (hi q : ℚ) (hhi : 0 ≤ hi) :
    clampTo hi (.fin q) = .fin (min (max q 0) hi) := by
  unfold clampTo
  by_cases h0 : q < 0
  · have h1 : max q 0 = 0 := max_eq_right (le_of_lt h0)
    have h2 : ¬ hi < 0 := not_lt.mpr hhi
    simp [JSNum.lt, JSNum.gt, h0, h1, h2, min_eq_left hhi]
  · have h1 : max q 0 = q := max_eq_left (not_lt.mp h0)
    by_cases h2 : hi < q
    · simp [JSNum.lt, JSNum.gt, h0, h1, h2, min_eq_right (le_of_lt h2)]
    · simp [JSNum.lt, JSNum.gt, h0, h1, h2, min_eq_left (not_lt.mp h2)]

theorem mergeColor_component (cv : Conv) (c1 c2 : JSVal) (key : String) (hi : ℚ)
    (hhi : 0 ≤ hi) :
    MergedComponent cv c1 c2 key hi
      (clampTo hi
        ((if c1.truthy then plusOrZero cv (c1.get key) else .fin 0).add
          (if c2.truthy then plusOrZero cv (c2.get key) else .fin 0))) := by
  intro a b ha hb
  have h1 : (if c1.truthy then plusOrZero cv (c1.get key) else JSNum.fin 0) = .fin a := by
    rw [← ha, componentValue, plusOrZero_eq]
  have h2 : (if c2.truthy then plusOrZero cv (c2.get key) else JSNum.fin 0) = .fin b := by
    rw [← hb, componentValue, plusOrZero_eq]
  rw [h1, h2]
  exact clampTo_fin hi (a + b) hhi

theorem JSNum.add_zero (x : JSNum) : x.add (.fin 0) = x := by
  cases x <;> simp [JSNum.add]

theorem JSNum.zero_add (x : JSNum) : (JSNum.fin 0).add x = x := by
  cases x <;> simp [JSNum.add]

/-- The result of `mergeColor`, component by component. -/
theorem mergeColor_eq (cv : Conv) (c1 c2 : JSVal) :
    mergeColor cv c1 c2 = .arr
      [.num (clampTo 360
          ((if c1.truthy then plusOrZero cv (c1.get "0") else .fin 0).add
            (if c2.truthy then plusOrZero cv (c2.get "0") else .fin 0))),
       .num (clampTo 100
          ((if c1.truthy then plusOrZero cv (c1.get "1") else .fin 0).add
            (if c2.truthy then plusOrZero cv (c2.get "1") else .fin 0))),
       .num (clampTo 100
          ((if c1.truthy then plusOrZero cv (c1.get "2") else .fin 0).add
            (if c2.truthy then plusOrZero cv (c2.get "2") else .fin 0)))] := by
  unfold mergeColor
  by_cases h1 : c1.truthy = true <;> by_cases h2 : c2.truthy = true <;>
    simp [h1, h2, JSNum.add_zero, JSNum.zero_add]

theorem triple_get (a b c : ℚ) :
    (triple a b c).get "0" = .num (.fin a) ∧ (triple a b c).get "1" = .num (.fin b) ∧
      (triple a b c).get "2" = .num (.fin c) :=
  ⟨by with_unfolding_all rfl, by with_unfolding_all rfl, by with_unfolding_all rfl⟩

theorem plusOrZero_fin (cv : Conv) (q : ℚ) : plusOrZero cv (.num (.fin q)) = .fin q := by
  rw [plusOrZero_eq]
  rfl

theorem mergeColor_triple (cv : Conv) (a b c d e f : ℚ) :
    mergeColor cv (triple a b c) (triple d e f)
      = triple (min (max (a + d) 0) 360) (min (max (b + e) 0) 100)
          (min (max (c + f) 0) 100) := by
  rw [mergeColor_eq]
  obtain ⟨h0, h1, h2⟩ := triple_get a b c
  obtain ⟨k0, k1, k2⟩ := triple_get d e f
  have t1 : (triple a b c).truthy = true := rfl
  have t2 : (triple d e f).truthy = true := rfl
  simp only [t1, t2, if_true, h0, h1, h2, k0, k1, k2, plusOrZero_fin, JSNum.add]
  rw [clampTo_fin 360 _ (by norm_num), clampTo_fin 100 _ (by norm_num),
    clampTo_fin 100 _ (by norm_num)]
  rfl

theorem mergeColor_undefined_triple (cv : Conv) (d e f : ℚ) :
    mergeColor cv .undefined (triple d e f)
      = triple (min (max d 0) 360) (min (max e 0) 100) (min (max f 0) 100) := by
  rw [mergeColor_eq]
  obtain ⟨k0, k1, k2⟩ := triple_get d e f
  have t1 : JSVal.undefined.truthy = false := rfl
  have t2 : (triple d e f).truthy = true := rfl
  simp only [t1, t2, if_true, Bool.false_eq_true, if_false, k0, k1, k2, plusOrZero_fin,
    JSNum.zero_add]
  rw [clampTo_fin 360 _ (by norm_num), clampTo_fin 100 _ (by norm_num),
    clampTo_fin 100 _ (by norm_num)]
  simp [triple]

/-- C11: `mergeColor(c1, c2)` is a new array of three numbers; when the components
are finite, the `i`-th is `c1[i] + c2[i]` (a missing array, and a component that is
missing or does not convert to a number, counting as 0) clamped to `[0, 360]` for the
hue and to `[0, 100]` for saturation and lightness, so it lies in that range.
Example: `mergeColor([10,20,30], [5,-30,200]) = [15,0,100]`. -/
theorem mergeColor_sum_clamped (cv : Conv) (c1 c2 : JSVal) :
    (∃ x0 x1 x2, mergeColor cv c1 c2 = .arr [.num x0, .num x1, .num x2] ∧
      MergedComponent cv c1 c2 "0" 360 x0 ∧
      MergedComponent cv c1 c2 "1" 100 x1 ∧
      MergedComponent cv c1 c2 "2" 100 x2) ∧
    (∀ (a b c d e f : ℚ), ∃ x y z,
      mergeColor cv (triple a b c) (triple d e f) = triple x y z ∧
      x = min (max (a + d) 0) 360 ∧ y = min (max (b + e) 0) 100 ∧
      z = min (max (c + f) 0) 100 ∧
      0 ≤ x ∧ x ≤ 360 ∧ 0 ≤ y ∧ y ≤ 100 ∧ 0 ≤ z ∧ z ≤ 100) ∧
    mergeColor cv (triple 10 20 30) (triple 5 (-30) 200) = triple 15 0 100 ∧
    mergeColor cv .undefined (triple 5 (-30) 200) = triple 5 0 100 := by
  refine ⟨⟨_, _, _, mergeColor_eq cv c1 c2, mergeColor_component cv c1 c2 "0" 360 (by norm_num),
    mergeColor_component cv c1 c2 "1" 100 (by norm_num),
    mergeColor_component cv c1 c2 "2" 100 (by norm_num)⟩, ?_, ?_, ?_⟩
  · intro a b c d e f
    refine ⟨_, _, _, mergeColor_triple cv a b c d e f, rfl, rfl, rfl, ?_⟩
    refine ⟨le_min (le_max_right _ _) (by norm_num), min_le_right _ _,
      le_min (le_max_right _ _) (by norm_num), min_le_right _ _,
      le_min (le_max_right _ _) (by norm_num), min_le_right _ _⟩
  · rw [mergeColor_triple]
    norm_num [triple]
  · rw [mergeColor_undefined_triple]
    norm_num [triple]

/-! ## C12, C13, C14: `computeColor` -/

theorem computeColorLoop_eq (cv : Conv) (names : List String) (colorData color : JSVal)
    (hu : colorData ≠ .undefined) (hn : colorData ≠ .null) :
    computeColorLoop cv colorData color names
      = match path colorData names with
        | .found values =>
            .ok (some (values.foldl (fun c v => mergeColor cv c (contribution v)) color))
        | .missing => .ok none
        | .null => .error (.typeError "Cannot read properties of null") := by
  induction names generalizing colorData color with
  | nil => rfl
  | cons name rest ih =>
      have hget : getProp colorData name = .ok (colorData.get name) := by
        cases colorData <;> simp_all [getProp]
      unfold computeColorLoop path
      rw [hget]
      cases hnext : colorData.get name with
      | undefined => rfl
      | null => rfl
      | arr items =>
          simp only []
          rw [ih (.arr items) _ (by simp) (by simp)]
          cases path (.arr items) rest <;> rfl
      | bool b =>
          simp only [getProp]
          rw [ih (.bool b) _ (by simp) (by simp)]
          cases path (.bool b) rest <;> rfl
      | num n =>
          simp only [getProp]
          rw [ih (.num n) _ (by simp) (by simp)]
          cases path (.num n) rest <;> rfl
      | str s =>
          simp only [getProp]
          rw [ih (.str s) _ (by simp) (by simp)]
          cases path (.str s) rest <;> rfl
      | obj fields =>
          simp only [getProp]
          rw [ih (.obj fields) _ (by simp) (by simp)]
          cases path (.obj fields) rest <;> rfl

theorem arr_of_numbers_get (h s l : JSNum) :
    (JSVal.arr [.num h, .num s, .num l]).get "0" = .num h ∧
      (JSVal.arr [.num h, .num s, .num l]).get "1" = .num s ∧
      (JSVal.arr [.num h, .num s, .num l]).get "2" = .num l :=
  ⟨by with_unfolding_all rfl, by with_unfolding_all rfl, by with_unfolding_all rfl⟩

theorem colorToRgb_numbers (cv : Conv) (fround : JSNum → JSNum) (h s l : JSNum) :
    colorToRgb cv fround (.arr [.num h, .num s, .num l])
      = hslToRgb cv fround (h.divD (.fin 360)) (s.divD (.fin 100)) (l.divD (.fin 100)) := by
  obtain ⟨h0, h1, h2⟩ := arr_of_numbers_get h s l
  simp only [colorToRgb, h0, h1, h2, toNumber]

theorem foldl_mergeColor_numbers (cv : Conv) (values : List JSVal) (color : JSVal)
    (hc : ∃ h s l, color = .arr [.num h, .num s, .num l]) :
    ∃ h s l, values.foldl (fun c v => mergeColor cv c (contribution v)) color
      = .arr [.num h, .num s, .num l] := by
  induction values generalizing color with
  | nil => exact hc
  | cons v vs ih =>
      rw [List.foldl_cons]
      exact ih _ ⟨_, _, _, mergeColor_eq cv color (contribution v)⟩

theorem str_get_ne_arr (s key : String) (items : List JSVal) :
    (JSVal.str s).get key ≠ .arr items := by
  intro h
  simp only [JSVal.get] at h
  split at h
  · simp at h
  · split at h
    · rename_i i _
      cases hc : s.data[i]? <;> simp [hc] at h
    · simp at h

theorem truthy_of_get_arr (colorData : JSVal) (key : String) (items : List JSVal)
    (h : colorData.get key = .arr items) : colorData.truthy = true := by
  cases colorData with
  | undefined => simp [JSVal.get] at h
  | null => simp [JSVal.get] at h
  | bool b => simp [JSVal.get] at h
  | num n => simp [JSVal.get] at h
  | str s => exact absurd h (str_get_ne_arr s key items)
  | arr xs => rfl
  | obj fields => rfl

theorem ne_of_truthy (v : JSVal) (h : v.truthy = true) : v ≠ .undefined ∧ v ≠ .null := by
  cases v <;> simp_all [JSVal.truthy]

/-- The derived case of `computeColor`, by the outcome of the walk. -/
theorem computeColor_walk (cv : Conv) (fround : JSNum → JSNum) (colorData : JSVal)
    (colorName : String) (ht : colorData.truthy = true)
    (hexp : ∀ items, colorData.get colorName ≠ .arr items) :
    computeColor cv fround colorData colorName
      = match path colorData (splitDot colorName) with
        | .found values => .ok (colorToRgb cv fround (derivedColor cv values))
        | .missing => .ok "rgb(0, 0, 0)"
        | .null => .error (.typeError "Cannot read properties of null") := by
  obtain ⟨hu, hn⟩ := ne_of_truthy colorData ht
  unfold computeColor
  simp only [ht, Bool.not_true, Bool.false_eq_true, if_false]
  have hloop := computeColorLoop_eq cv (splitDot colorName) colorData
    (.arr [.num (JSNum.fin 0), .num (JSNum.fin 0), .num (JSNum.fin 0)]) hu hn
  cases hget : colorData.get colorName with
  | arr items => exact absurd hget (hexp items)
  | undefined => rw [hloop]; cases path colorData (splitDot colorName) <;> rfl
  | null => rw [hloop]; cases path colorData (splitDot colorName) <;> rfl
  | bool b => rw [hloop]; cases path colorData (splitDot colorName) <;> rfl
  | num n => rw [hloop]; cases path colorData (splitDot colorName) <;> rfl
  | str s => rw [hloop]; cases path colorData (splitDot colorName) <;> rfl
  | obj fs => rw [hloop]; cases path colorData (splitDot colorName) <;> rfl

/-- C12: when `colorData[colorName]` is not a literal array and every segment of
`colorName` is a key at its level, `computeColor` returns
`hslToRgb(h/360, s/100, l/100)` of the triple `[h, s, l]` obtained by starting from
`[0, 0, 0]` and merging, for each value met on the walk, the value itself when it is
a literal array and its `"default"` entry otherwise. -/
theorem computeColor_derived (cv : Conv) (fround : JSNum → JSNum) (colorData : JSVal)
    (colorName : String) (values : List JSVal) (ht : colorData.truthy = true)
    (hexp : ∀ items, colorData.get colorName ≠ .arr items)
    (hpath : path colorData (splitDot colorName) = .found values) :
    ∃ h s l, derivedColor cv values = .arr [.num h, .num s, .num l] ∧
      computeColor cv fround colorData colorName
        = .ok (hslToRgb cv fround (h.divD (.fin 360)) (s.divD (.fin 100))
            (l.divD (.fin 100))) := by
  have hnum : ∃ h s l, derivedColor cv values = .arr [.num h, .num s, .num l] :=
    foldl_mergeColor_numbers cv values (triple 0 0 0) ⟨_, _, _, rfl⟩
  obtain ⟨h, s, l, hd⟩ := hnum
  refine ⟨h, s, l, hd, ?_⟩
  rw [computeColor_walk cv fround colorData colorName ht hexp, hpath]
  simp only []
  rw [hd, colorToRgb_numbers]

/-- C12, the examples: `"a.b"` in `{a: {default: [10,20,30], b: [1,1,1]}}` is the RGB
string of `[11, 21, 31]`, and `"cpu.single_core"` in the colour data of the source
comment is the RGB string of `[105, 40, 65]`. -/
theorem computeColor_derived_witness :
    (∃ h s l,
      derivedColor Conv.plain
          [.obj [("default", triple 10 20 30), ("b", triple 1 1 1)], triple 1 1 1]
        = .arr [.num h, .num s, .num l] ∧
      computeColor Conv.plain froundNative abColors "a.b"
        = .ok (hslToRgb Conv.plain froundNative (h.divD (.fin 360)) (s.divD (.fin 100))
            (l.divD (.fin 100)))) ∧
    derivedColor Conv.plain
        [.obj [("default", triple 10 20 30), ("b", triple 1 1 1)], triple 1 1 1]
      = triple 11 21 31 ∧
    computeColor Conv.plain froundNative abColors "a.b"
      = .ok (colorToRgb Conv.plain froundNative (triple 11 21 31)) ∧
    computeColor Conv.plain froundNative abColors "a.b" = .ok "rgb(96, 69, 62)" ∧
    computeColor Conv.plain froundNative cpuColors "cpu.single_core"
      = .ok (colorToRgb Conv.plain froundNative (triple 105 40 65)) ∧
    computeColor Conv.plain froundNative cpuColors "cpu.single_core"
      = .ok "rgb(148, 201, 130)" :=
  ⟨computeColor_derived Conv.plain froundNative abColors "a.b"
      [.obj [("default", triple 10 20 30), ("b", triple 1 1 1)], triple 1 1 1]
      rfl (by intro items h; simp [abColors, JSVal.get, List.lookup] at h)
      (by with_unfolding_all rfl),
    by with_unfolding_all rfl, by with_unfolding_all rfl, by with_unfolding_all rfl,
    by with_unfolding_all rfl, by with_unfolding_all rfl⟩

/-- C13: when `colorData[colorName]`, the whole dotted name taken as one key, is a
literal array, `computeColor` returns the RGB conversion of exactly that array:
`hslToRgb(c[0]/360, c[1]/100, c[2]/100)` with `c = colorData[colorName]`; nothing is
merged in, whatever else `colorData` holds. -/
theorem computeColor_explicit (cv : Conv) (fround : JSNum → JSNum) (colorData : JSVal)
    (colorName : String) (items : List JSVal)
    (h : colorData.get colorName = .arr items) :
    computeColor cv fround colorData colorName
      = .ok (hslToRgb cv fround
          ((toNumber cv ((JSVal.arr items).get "0")).divD (.fin 360))
          ((toNumber cv ((JSVal.arr items).get "1")).divD (.fin 100))
          ((toNumber cv ((JSVal.arr items).get "2")).divD (.fin 100))) := by
  have ht := truthy_of_get_arr colorData colorName items h
  unfold computeColor
  simp only [ht, Bool.not_true, Bool.false_eq_true, if_false, h, colorToRgb]

/-- C13, the example of the source comment: `"cpu.multi_core"` yields the RGB string
of `[77, 88, 99]` although a nested `cpu` map exists. -/
theorem computeColor_explicit_witness :
    cpuColors.get "cpu.multi_core" = triple 77 88 99 ∧
    computeColor Conv.plain froundNative cpuColors "cpu.multi_core"
      = .ok (hslToRgb Conv.plain froundNative
          ((toNumber Conv.plain ((triple 77 88 99).get "0")).divD (.fin 360))
          ((toNumber Conv.plain ((triple 77 88 99).get "1")).divD (.fin 100))
          ((toNumber Conv.plain ((triple 77 88 99).get "2")).divD (.fin 100))) ∧
    computeColor Conv.plain froundNative cpuColors "cpu.multi_core"
      = .ok "rgb(253, 255, 250)" :=
  ⟨by with_unfolding_all rfl,
    computeColor_explicit Conv.plain froundNative cpuColors "cpu.multi_core"
      [.num (.fin 77), .num (.fin 88), .num (.fin 99)] (by with_unfolding_all rfl),
    by with_unfolding_all rfl⟩

/-- C14, as stated, fails when the dotted name is itself an explicit key: in
`{"cpu.multi_core": [77, 88, 99]}` the segment `cpu` of `"cpu.multi_core"` is not a
key of the map, and the result is the colour of the explicit entry, not black. -/
theorem explicit_entry_is_not_black :
    explicitOnlyColors.get "cpu" = .undefined ∧
    path explicitOnlyColors (splitDot "cpu.multi_core") = .missing ∧
    (computeColor Conv.plain froundNative explicitOnlyColors "cpu.multi_core").toOption
      = some "rgb(253, 255, 250)" ∧
    (computeColor Conv.plain froundNative explicitOnlyColors "cpu.multi_core").toOption
      ≠ some "rgb(0, 0, 0)" := by
  refine ⟨by with_unfolding_all rfl, by with_unfolding_all rfl, by with_unfolding_all rfl, ?_⟩
  decide!

/-- C14 (amended): `computeColor` returns exactly `"rgb(0, 0, 0)"`, without raising,
when `colorData` is missing (falsy), and when `colorData[colorName]` is not a literal
array and some segment of the dotted `colorName` is not a key at its level of the
nested map (no level before it being `null`). -/
theorem computeColor_black (cv : Conv) (fround : JSNum → JSNum) (colorData : JSVal)
    (colorName : String)
    (h : colorData.truthy = false ∨
      ((∀ items, colorData.get colorName ≠ .arr items) ∧
        path colorData (splitDot colorName) = .missing)) :
    computeColor cv fround colorData colorName = .ok "rgb(0, 0, 0)" := by
  by_cases ht : colorData.truthy = true
  · rcases h with h | ⟨hexp, hpath⟩
    · rw [ht] at h
      exact absurd h (by simp)
    · rw [computeColor_walk cv fround colorData colorName ht hexp, hpath]
  · have hf : colorData.truthy = false := by simpa using ht
    unfold computeColor
    simp [hf]

/-- C14, instances: missing colour data, and the segment `nope` that is not a key of
the nested `cpu` map. -/
theorem computeColor_black_witness :
    (JSVal.undefined.truthy = false ∨
      ((∀ items, JSVal.undefined.get "cpu.nope" ≠ .arr items) ∧
        path .undefined (splitDot "cpu.nope") = .missing)) ∧
    computeColor Conv.plain froundNative .undefined "cpu.nope" = .ok "rgb(0, 0, 0)" ∧
    computeColor Conv.plain froundNative cpuColors "cpu.nope" = .ok "rgb(0, 0, 0)" :=
  ⟨Or.inl rfl,
    computeColor_black Conv.plain froundNative .undefined "cpu.nope" (Or.inl rfl),
    computeColor_black Conv.plain froundNative cpuColors "cpu.nope"
      (Or.inr ⟨by intro items h; simp [cpuColors, JSVal.get, List.lookup] at h,
        by with_unfolding_all rfl⟩)⟩

/-- A level that is `null` is outside the statement above: for `{a: null}` and the
name `"a.b"` the walk reads `colorData["default"]` of `null` and throws a `TypeError`,
where the comment on `computeColor` promises `"rgb(0, 0, 0)"`. -/
theorem computeColor_throws_at_null_level :
    path nullLevelColors (splitDot "a.b") = .null ∧
      computeColor Conv.plain froundNative nullLevelColors "a.b"
        = .error (.typeError "Cannot read properties of null") := by
  refine ⟨by with_unfolding_all rfl, by with_unfolding_all rfl⟩

/-! ## C16: `hslToRgb` -/

theorem JSNum.lt_fin (a b : ℚ) : (JSNum.fin a).lt (.fin b) = decide (a < b) := rfl

theorem JSNum.gt_fin (a b : ℚ) : (JSNum.fin a).gt (.fin b) = decide (b < a) := rfl

theorem JSNum.add_fin (a b : ℚ) : (JSNum.fin a).add (.fin b) = .fin (a + b) := rfl

theorem JSNum.mul_fin (a b : ℚ) : (JSNum.fin a).mul (.fin b) = .fin (a * b) := rfl

theorem JSNum.sub_fin (a b : ℚ) : (JSNum.fin a).sub (.fin b) = .fin (a - b) := by
  simp [JSNum.sub, JSNum.neg, JSNum.add, sub_eq_add_neg]

theorem upperLevel_bounds (s l : ℚ) (hs0 : 0 ≤ s) (hs1 : s ≤ 1) (hl0 : 0 ≤ l) (hl1 : l ≤ 1) :
    0 ≤ 2 * l - upperLevel s l ∧ 2 * l - upperLevel s l ≤ upperLevel s l ∧
      upperLevel s l ≤ 1 := by
  unfold upperLevel
  split_ifs with h
  · refine ⟨by nlinarith, by nlinarith, by nlinarith⟩
  · have h2 : 1 / 2 ≤ l := not_lt.mp h
    refine ⟨by nlinarith, by nlinarith, by nlinarith⟩

theorem hueFormula_mem (p q t : ℚ) (hpq : p ≤ q) (ht : -1 ≤ t) :
    p ≤ hueFormula p q t ∧ hueFormula p q t ≤ q := by
  have key : ∀ u : ℚ, 0 ≤ u →
      p ≤ (if u < 1 / 6 then p + (q - p) * 6 * u
            else if u < 1 / 2 then q
            else if u < 2 / 3 then p + (q - p) * (2 / 3 - u) * 6
            else p) ∧
      (if u < 1 / 6 then p + (q - p) * 6 * u
            else if u < 1 / 2 then q
            else if u < 2 / 3 then p + (q - p) * (2 / 3 - u) * 6
            else p) ≤ q := by
    intro u hu
    split_ifs <;> constructor <;> nlinarith
  simp only [hueFormula]
  apply key
  split_ifs <;> linarith

theorem channelValue_unit (h s l off : ℚ) (hs0 : 0 ≤ s) (hs1 : s ≤ 1) (hl0 : 0 ≤ l)
    (hl1 : l ≤ 1) (ht : -1 ≤ h + off) :
    0 ≤ channelValue h s l off ∧ channelValue h s l off ≤ 1 := by
  obtain ⟨h1, h2, h3⟩ := upperLevel_bounds s l hs0 hs1 hl0 hl1
  obtain ⟨h4, h5⟩ := hueFormula_mem _ _ (h + off) h2 ht
  exact ⟨le_trans h1 h4, le_trans h5 h3⟩

theorem channelValue_grey (h l off : ℚ) : channelValue h 0 l off = l := by
  have hq : upperLevel 0 l = l := by
    unfold upperLevel
    split_ifs <;> ring
  simp only [channelValue, hueFormula, hq]
  split_ifs <;> ring

theorem hue2rgb_eq (p q t : JSNum) : hue2rgb p q t = pieceD p q (wrapD t) := rfl

theorem roundValue_near (q : ℚ) (k : ℤ) (hk : -1022 ≤ k) (hk2 : k ≤ 1022)
    (h : |q| < pow2 (k + 1)) :
    roundDouble q = .fin (roundValue q) ∧ |roundValue q - q| ≤ pow2 (k - 53) ∧
      (0 ≤ q → 0 ≤ roundValue q) ∧ (q ≤ 0 → roundValue q ≤ 0) := by
  obtain ⟨y, hy, herr, h0, h1⟩ := roundDouble_near q k hk hk2 h
  have hv : roundValue q = y := by simp [roundValue, hy]
  rw [hv]
  exact ⟨hy, herr, h0, h1⟩

theorem pow2_m51 : pow2 (-51) = 1 / 2251799813685248 := by
  rw [pow2_eq_zpow]
  norm_num

theorem pow2_m51_small : pow2 (-51) ≤ 1 / 1000000 := by
  rw [pow2_m51]
  norm_num

/-- A number below 8 in absolute value is rounded to a double within `2 ^ (-51)`. -/
theorem roundValue_spec (q : ℚ) (h : |q| < 8) :
    roundDouble q = .fin (roundValue q) ∧
      (q - pow2 (-51) ≤ roundValue q ∧ roundValue q ≤ q + pow2 (-51)) ∧
      (0 ≤ q → 0 ≤ roundValue q) ∧ (q ≤ 0 → roundValue q ≤ 0) := by
  have h8 : pow2 (2 + 1) = 8 := by
    rw [pow2_eq_zpow]
    norm_num
  obtain ⟨h1, h2, h3, h4⟩ := roundValue_near q 2 (by norm_num) (by norm_num) (by rwa [h8])
  have he : pow2 (2 - 53) = pow2 (-51) := rfl
  rw [he, abs_le] at h2
  exact ⟨h1, ⟨by linarith, by linarith⟩, h3, h4⟩

theorem roundDouble_one : roundDouble 1 = .fin 1 := by
  decide!

theorem roundValue_le_one (q : ℚ) (h : |q| < 8) (hq : q ≤ 1) : roundValue q ≤ 1 := by
  have hm := roundDouble_mono q 1 hq
  rw [(roundValue_spec q h).1, roundDouble_one] at hm
  simpa [JSNum.le] using hm

theorem roundValue_of_double (q : ℚ) (h : roundDouble q = .fin q) : roundValue q = q := by
  simp [roundValue, h]

theorem upperLevelD_spec (s l : ℚ) (hs0 : 0 ≤ s) (hs1 : s ≤ 1) (hl0 : 0 ≤ l) (hl1 : l ≤ 1) :
    (if (JSNum.fin l).lt (JSNum.fin (1 / 2)) then
        (JSNum.fin l).mulD ((JSNum.fin 1).addD (JSNum.fin s))
      else ((JSNum.fin l).addD (JSNum.fin s)).subD ((JSNum.fin l).mulD (JSNum.fin s)))
        = JSNum.fin (upperLevelD s l) ∧
      upperLevel s l - 3 * pow2 (-51) ≤ upperLevelD s l ∧
      upperLevelD s l ≤ upperLevel s l + 3 * pow2 (-51) := by
  have he0 := pow2_pos (-51)
  have he1 := pow2_m51_small
  unfold upperLevelD upperLevel
  by_cases hl : l < 1 / 2
  · have a1 := roundValue_spec (1 + s) (by rw [abs_lt]; constructor <;> linarith)
    obtain ⟨a1e, ⟨a1l, a1u⟩, a1p, _⟩ := a1
    have a10 := a1p (by linarith)
    have hprod : l * roundValue (1 + s) ≤ roundValue (1 + s) := by nlinarith
    have hprod0 : 0 ≤ l * roundValue (1 + s) := mul_nonneg hl0 a10
    obtain ⟨a2e, ⟨a2l, a2u⟩, _, _⟩ := roundValue_spec (l * roundValue (1 + s))
      (by rw [abs_lt]; constructor <;> linarith)
    simp only [JSNum.lt_fin, hl, decide_True, if_true]
    refine ⟨?_, ?_, ?_⟩
    · rw [JSNum.addD_fin, a1e, JSNum.mulD_fin, a2e]
    · nlinarith
    · nlinarith
  · have hl2 : 1 / 2 ≤ l := not_lt.mp hl
    obtain ⟨a1e, ⟨a1l, a1u⟩, a1p, _⟩ := roundValue_spec (l + s)
      (by rw [abs_lt]; constructor <;> linarith)
    have hls0 : 0 ≤ l * s := mul_nonneg hl0 hs0
    have hls1 : l * s ≤ 1 := by nlinarith
    obtain ⟨a2e, ⟨a2l, a2u⟩, a2p, _⟩ := roundValue_spec (l * s)
      (by rw [abs_lt]; constructor <;> linarith)
    obtain ⟨a3e, ⟨a3l, a3u⟩, _, _⟩ := roundValue_spec (roundValue (l + s) - roundValue (l * s))
      (by rw [abs_lt]; constructor <;> linarith)
    simp only [JSNum.lt_fin, hl, decide_False, if_false, Bool.false_eq_true]
    refine ⟨?_, ?_, ?_⟩
    · rw [JSNum.addD_fin, a1e, JSNum.mulD_fin, a2e, JSNum.subD_fin, a3e]
    · linarith
    · linarith

theorem lowerLevelD_spec (s l : ℚ) (hs0 : 0 ≤ s) (hs1 : s ≤ 1) (hl0 : 0 ≤ l) (hl1 : l ≤ 1) :
    ((JSNum.fin 2).mulD (JSNum.fin l)).subD (JSNum.fin (upperLevelD s l))
        = JSNum.fin (lowerLevelD s l) ∧
      2 * l - upperLevel s l - 5 * pow2 (-51) ≤ lowerLevelD s l ∧
      lowerLevelD s l ≤ 2 * l - upperLevel s l + 5 * pow2 (-51) := by
  have he0 := pow2_pos (-51)
  have he1 := pow2_m51_small
  obtain ⟨_, qlo, qhi⟩ := upperLevelD_spec s l hs0 hs1 hl0 hl1
  obtain ⟨b1, b2, b3⟩ := upperLevel_bounds s l hs0 hs1 hl0 hl1
  obtain ⟨a1e, ⟨a1l, a1u⟩, _, _⟩ := roundValue_spec (2 * l)
    (by rw [abs_lt]; constructor <;> linarith)
  obtain ⟨a2e, ⟨a2l, a2u⟩, _, _⟩ := roundValue_spec (roundValue (2 * l) - upperLevelD s l)
    (by rw [abs_lt]; constructor <;> linarith)
  unfold lowerLevelD
  refine ⟨?_, by linarith, by linarith⟩
  rw [JSNum.mulD_fin, a1e, JSNum.subD_fin, a2e]

theorem hueFormula_shape (p q t : ℚ) :
    hueFormula p q t = p + (q - p) * shape (wrapHue t) := by
  unfold hueFormula wrapHue shape
  simp only []
  split_ifs <;> ring

theorem shape_lipschitz (u v : ℚ) (huv : u ≤ v) :
    shape u - shape v ≤ 6 * (v - u) ∧ shape v - shape u ≤ 6 * (v - u) := by
  unfold shape
  split_ifs <;> constructor <;> linarith

theorem shape_unit (u : ℚ) (hu : 0 ≤ u) : 0 ≤ shape u ∧ shape u ≤ 1 := by
  unfold shape
  split_ifs <;> constructor <;> linarith

theorem wrapHue_unit (t : ℚ) (h0 : -1 / 2 ≤ t) (h1 : t ≤ 3 / 2) :
    0 ≤ wrapHue t ∧ wrapHue t ≤ 1 := by
  unfold wrapHue
  simp only []
  split_ifs <;> constructor <;> linarith

/-- The hue that the code brings back to the unit interval is near the exact one, or
the two lie at the two ends of the interval. -/
theorem wrapD_close (T t : ℚ) (hT0 : -1 / 2 ≤ T) (hT1 : T ≤ 3 / 2)
    (ht0 : T - 2 * pow2 (-51) ≤ t) (ht1 : t ≤ T + 2 * pow2 (-51)) :
    ∃ w, wrapD (.fin t) = .fin w ∧ 0 ≤ w ∧ w ≤ 1 ∧
      ((wrapHue T - 3 * pow2 (-51) ≤ w ∧ w ≤ wrapHue T + 3 * pow2 (-51)) ∨
        (1 - 3 * pow2 (-51) ≤ w ∧ wrapHue T ≤ 3 * pow2 (-51)) ∨
        (w ≤ 3 * pow2 (-51) ∧ 1 - 3 * pow2 (-51) ≤ wrapHue T)) := by
  have he0 := pow2_pos (-51)
  have he1 := pow2_m51_small
  unfold wrapD wrapHue
  simp only []
  by_cases hneg : t < 0
  · obtain ⟨a1e, ⟨a1l, a1u⟩, a1p, _⟩ := roundValue_spec (t + 1)
      (by rw [abs_lt]; constructor <;> linarith)
    have hle : roundValue (t + 1) ≤ 1 :=
      roundValue_le_one (t + 1) (by rw [abs_lt]; constructor <;> linarith) (by linarith)
    have h0 := a1p (by linarith)
    refine ⟨roundValue (t + 1), ?_, h0, hle, ?_⟩
    · simp only [JSNum.lt_fin, hneg, decide_True, if_true, JSNum.addD_fin, a1e, JSNum.gt_fin,
        not_lt.mpr hle, decide_False, if_false, Bool.false_eq_true]
    · by_cases hT : T < 0
      · left
        rw [if_pos hT, if_neg (by linarith)]
        constructor <;> linarith
      · right
        left
        rw [if_neg hT, if_neg (by linarith)]
        constructor <;> linarith
  · have ht : 0 ≤ t := not_lt.mp hneg
    by_cases hbig : 1 < t
    · obtain ⟨a1e, ⟨a1l, a1u⟩, a1p, _⟩ := roundValue_spec (t - 1)
        (by rw [abs_lt]; constructor <;> linarith)
      have hle : roundValue (t - 1) ≤ 1 :=
        roundValue_le_one (t - 1) (by rw [abs_lt]; constructor <;> linarith) (by linarith)
      have h0 := a1p (by linarith)
      refine ⟨roundValue (t - 1), ?_, h0, hle, ?_⟩
      · simp only [JSNum.lt_fin, hneg, decide_False, if_false, Bool.false_eq_true,
          JSNum.gt_fin, hbig, decide_True, if_true, JSNum.subD_fin, a1e]
      · have hTn : ¬ T < 0 := by linarith
        simp only [if_neg hTn]
        by_cases hT : 1 < T
        · left
          rw [if_pos hT]
          constructor <;> linarith
        · right
          right
          rw [if_neg hT]
          constructor <;> linarith
    · have ht1' : t ≤ 1 := not_lt.mp hbig
      refine ⟨t, ?_, ht, ht1', ?_⟩
      · simp only [JSNum.lt_fin, hneg, decide_False, if_false, Bool.false_eq_true,
          JSNum.gt_fin, hbig]
      · by_cases hT : T < 0
        · right
          right
          rw [if_pos hT, if_neg (by linarith)]
          constructor <;> linarith
        · rw [if_neg hT]
          by_cases hT2 : 1 < T
          · right
            left
            rw [if_pos hT2]
            constructor <;> linarith
          · left
            rw [if_neg hT2]
            constructor <;> linarith

/-- The shapes of two hues that are near, or at the two ends of the unit interval,
are near. -/
theorem shape_close (w W : ℚ) (hw0 : 0 ≤ w) (hW0 : 0 ≤ W)
    (h : (W - 3 * pow2 (-51) ≤ w ∧ w ≤ W + 3 * pow2 (-51)) ∨
        (1 - 3 * pow2 (-51) ≤ w ∧ W ≤ 3 * pow2 (-51)) ∨
        (w ≤ 3 * pow2 (-51) ∧ 1 - 3 * pow2 (-51) ≤ W)) :
    shape W - 18 * pow2 (-51) ≤ shape w ∧ shape w ≤ shape W + 18 * pow2 (-51) := by
  have he0 := pow2_pos (-51)
  have he1 := pow2_m51_small
  rcases h with ⟨h1, h2⟩ | ⟨h1, h2⟩ | ⟨h1, h2⟩
  · rcases le_total w W with hle | hle
    · obtain ⟨l1, l2⟩ := shape_lipschitz w W hle
      constructor <;> linarith
    · obtain ⟨l1, l2⟩ := shape_lipschitz W w hle
      constructor <;> linarith
  · have e1 : shape w = 0 := by
      unfold shape
      rw [if_neg (by linarith), if_neg (by linarith), if_neg (by linarith)]
    have e2 : shape W = 6 * W := by
      unfold shape
      rw [if_pos (by linarith)]
    rw [e1, e2]
    constructor <;> linarith
  · have e1 : shape W = 0 := by
      unfold shape
      rw [if_neg (by linarith), if_neg (by linarith), if_neg (by linarith)]
    have e2 : shape w = 6 * w := by
      unfold shape
      rw [if_pos (by linarith)]
    rw [e1, e2]
    constructor <;> linarith

theorem sixth_double :
    ∃ c, (JSNum.fin 1).divD (JSNum.fin 6) = .fin c ∧ c < 1 / 6 ∧ 1 / 6 - pow2 (-51) ≤ c :=
  ⟨6004799503160661 / 36028797018963968, by with_unfolding_all rfl, by norm_num, by
    rw [pow2_m51]
    norm_num⟩

theorem half_double : (JSNum.fin 1).divD (JSNum.fin 2) = .fin (1 / 2) := by
  with_unfolding_all rfl

theorem third_double :
    ∃ c, (JSNum.fin 1).divD (JSNum.fin 3) = .fin c ∧ c < 1 / 3 ∧ 1 / 3 - pow2 (-51) ≤ c :=
  ⟨6004799503160661 / 18014398509481984, by with_unfolding_all rfl, by norm_num, by
    rw [pow2_m51]
    norm_num⟩

theorem two_thirds_double :
    ∃ c, (JSNum.fin 2).divD (JSNum.fin 3) = .fin c ∧ c < 2 / 3 ∧ 2 / 3 - pow2 (-51) ≤ c :=
  ⟨6004799503160661 / 9007199254740992, by with_unfolding_all rfl, by norm_num, by
    rw [pow2_m51]
    norm_num⟩

theorem mul_bounds (x w lo hi : ℚ) (hlo : lo ≤ x) (hhi : x ≤ hi) (hw0 : 0 ≤ w) (hw1 : w ≤ 1)
    (hlo0 : lo ≤ 0) (hhi0 : 0 ≤ hi) : lo ≤ x * w ∧ x * w ≤ hi := by
  constructor
  · nlinarith [mul_nonneg (sub_nonneg.mpr hlo) hw0, mul_nonneg (neg_nonneg.mpr hlo0)
      (sub_nonneg.mpr hw1)]
  · nlinarith [mul_nonneg (sub_nonneg.mpr hhi) hw0, mul_nonneg hhi0 (sub_nonneg.mpr hw1)]

theorem mul_err (x X w E : ℚ) (hlo : X - E ≤ x) (hhi : x ≤ X + E) (hw0 : 0 ≤ w) (hw1 : w ≤ 1)
    (hE : 0 ≤ E) : X * w - E ≤ x * w ∧ x * w ≤ X * w + E := by
  constructor
  · nlinarith [mul_nonneg (show 0 ≤ x - (X - E) by linarith) hw0,
      mul_nonneg hE (sub_nonneg.mpr hw1)]
  · nlinarith [mul_nonneg (show 0 ≤ X + E - x by linarith) hw0,
      mul_nonneg hE (sub_nonneg.mpr hw1)]

/-- The rising piece `p + (q - p) * 6 * t` in double precision, `d` being the rounded
difference of the levels. -/
theorem rising_piece (P D p d w : ℚ) (hP0 : 0 ≤ P) (hP1 : P ≤ 1) (hD0 : 0 ≤ D) (hD1 : D ≤ 1)
    (hp0 : P - 5 * pow2 (-51) ≤ p) (hp1 : p ≤ P + 5 * pow2 (-51))
    (hd0 : D - 11 * pow2 (-51) ≤ d) (hd1 : d ≤ D + 11 * pow2 (-51))
    (hw0 : 0 ≤ w) (hw1 : w ≤ 1) :
    ∃ c, (JSNum.fin p).addD (((JSNum.fin d).mulD (.fin 6)).mulD (.fin w)) = .fin c ∧
      P + D * 6 * w - 74 * pow2 (-51) ≤ c ∧ c ≤ P + D * 6 * w + 74 * pow2 (-51) := by
  have he0 := pow2_pos (-51)
  have he1 := pow2_m51_small
  obtain ⟨a1e, ⟨a1l, a1u⟩, _, _⟩ := roundValue_spec (d * 6)
    (by rw [abs_lt]; constructor <;> linarith)
  generalize roundValue (d * 6) = a1 at a1e a1l a1u
  obtain ⟨m1, m2⟩ := mul_bounds a1 w (-1) (13 / 2) (by linarith) (by linarith) hw0 hw1
    (by norm_num) (by norm_num)
  obtain ⟨n1, n2⟩ := mul_err a1 (D * 6) w (67 * pow2 (-51)) (by linarith)
    (by linarith) hw0 hw1 (by linarith)
  obtain ⟨a2e, ⟨a2l, a2u⟩, _, _⟩ := roundValue_spec (a1 * w)
    (by rw [abs_lt]; constructor <;> linarith)
  generalize roundValue (a1 * w) = a2 at a2e a2l a2u
  obtain ⟨a3e, ⟨a3l, a3u⟩, _, _⟩ := roundValue_spec (p + a2)
    (by rw [abs_lt]; constructor <;> linarith)
  refine ⟨roundValue (p + a2), ?_, by linarith, by linarith⟩
  rw [JSNum.mulD_fin, a1e, JSNum.mulD_fin, a2e, JSNum.addD_fin, a3e]

/-- The falling piece `p + (q - p) * (2/3 - t) * 6` in double precision, `d` being the
rounded difference of the levels and `b` the rounded `2/3 - t`. -/
theorem falling_piece (P D Y p d b : ℚ) (hP0 : 0 ≤ P) (hP1 : P ≤ 1) (hD0 : 0 ≤ D)
    (hD1 : D ≤ 1) (hY0 : 0 ≤ Y) (hY1 : Y ≤ 1 / 6)
    (hp0 : P - 5 * pow2 (-51) ≤ p) (hp1 : p ≤ P + 5 * pow2 (-51))
    (hd0 : D - 11 * pow2 (-51) ≤ d) (hd1 : d ≤ D + 11 * pow2 (-51))
    (hb0 : Y - 2 * pow2 (-51) ≤ b) (hb1 : b ≤ Y + 2 * pow2 (-51)) (hb : 0 ≤ b) :
    ∃ c, (JSNum.fin p).addD (((JSNum.fin d).mulD (.fin b)).mulD (.fin 6)) = .fin c ∧
      P + D * Y * 6 - 91 * pow2 (-51) ≤ c ∧ c ≤ P + D * Y * 6 + 91 * pow2 (-51) := by
  have he0 := pow2_pos (-51)
  have he1 := pow2_m51_small
  have hDY0 : 0 ≤ D * Y := mul_nonneg hD0 hY0
  have hDY1 : D * Y ≤ 1 / 6 := by nlinarith
  obtain ⟨n1, n2⟩ := mul_err d D b (11 * pow2 (-51)) hd0 hd1 hb (by linarith) (by linarith)
  obtain ⟨n3, n4⟩ := mul_err b Y D (2 * pow2 (-51)) hb0 hb1 hD0 hD1 (by linarith)
  have hc1 : D * b = b * D := mul_comm _ _
  have hc2 : Y * D = D * Y := mul_comm _ _
  obtain ⟨b2e, ⟨b2l, b2u⟩, _, _⟩ := roundValue_spec (d * b)
    (by rw [abs_lt]; constructor <;> linarith)
  generalize roundValue (d * b) = b2 at b2e b2l b2u
  obtain ⟨b3e, ⟨b3l, b3u⟩, _, _⟩ := roundValue_spec (b2 * 6)
    (by rw [abs_lt]; constructor <;> linarith)
  generalize roundValue (b2 * 6) = b3 at b3e b3l b3u
  obtain ⟨b4e, ⟨b4l, b4u⟩, _, _⟩ := roundValue_spec (p + b3)
    (by rw [abs_lt]; constructor <;> linarith)
  refine ⟨roundValue (p + b3), ?_, by linarith, by linarith⟩
  rw [JSNum.mulD_fin, b2e, JSNum.mulD_fin, b3e, JSNum.addD_fin, b4e]

/-- The value that the four `return` statements compute in double precision is within
`91 * 2 ^ (-51)` of the exact piecewise formula, the levels being within
`5 * 2 ^ (-51)` of the exact levels. -/
theorem pieceD_close (P Q p q w : ℚ) (hP0 : 0 ≤ P) (hPQ : P ≤ Q) (hQ1 : Q ≤ 1)
    (hp0 : P - 5 * pow2 (-51) ≤ p) (hp1 : p ≤ P + 5 * pow2 (-51))
    (hq0 : Q - 5 * pow2 (-51) ≤ q) (hq1 : q ≤ Q + 5 * pow2 (-51))
    (hw0 : 0 ≤ w) (hw1 : w ≤ 1) :
    ∃ c, pieceD (.fin p) (.fin q) (.fin w) = .fin c ∧
      P + (Q - P) * shape w - 91 * pow2 (-51) ≤ c ∧
      c ≤ P + (Q - P) * shape w + 91 * pow2 (-51) := by
  have he0 := pow2_pos (-51)
  have he1 := pow2_m51_small
  have hD0 : 0 ≤ Q - P := by linarith
  have hD1 : Q - P ≤ 1 := by linarith
  obtain ⟨de, ⟨dl, du⟩, _, _⟩ := roundValue_spec (q - p)
    (by rw [abs_lt]; constructor <;> linarith)
  have hsub : (JSNum.fin q).subD (.fin p) = .fin (roundValue (q - p)) := by
    rw [JSNum.subD_fin, de]
  generalize roundValue (q - p) = d at dl du hsub
  obtain ⟨c16, hc16, c16a, c16b⟩ := sixth_double
  obtain ⟨c23, hc23, c23a, c23b⟩ := two_thirds_double
  unfold pieceD
  rw [hc16, half_double, hc23, hsub]
  simp only [JSNum.lt_fin, decide_eq_true_eq]
  by_cases h1 : w < c16
  · rw [if_pos h1]
    have hs : shape w = 6 * w := by
      unfold shape
      rw [if_pos (by linarith)]
    obtain ⟨c, hc, c0, c1⟩ := rising_piece P (Q - P) p d w hP0 (by linarith) hD0 hD1 hp0 hp1
      (by linarith) (by linarith) hw0 hw1
    have hr : (Q - P) * (6 * w) = (Q - P) * 6 * w := by ring
    exact ⟨c, hc, by rw [hs, hr]; linarith, by rw [hs, hr]; linarith⟩
  · rw [if_neg h1]
    have h1' : c16 ≤ w := not_lt.mp h1
    by_cases h2 : w < 1 / 2
    · rw [if_pos h2]
      have hs : 1 - 6 * pow2 (-51) ≤ shape w ∧ shape w ≤ 1 + 6 * pow2 (-51) := by
        unfold shape
        split_ifs <;> constructor <;> linarith
      obtain ⟨n1, n2⟩ := mul_err (shape w) 1 (Q - P) (6 * pow2 (-51)) hs.1 hs.2 hD0 hD1
        (by linarith)
      have hc : (Q - P) * shape w = shape w * (Q - P) := mul_comm _ _
      exact ⟨q, rfl, by linarith, by linarith⟩
    · rw [if_neg h2]
      have h2' : 1 / 2 ≤ w := not_lt.mp h2
      by_cases h3 : w < c23
      · rw [if_pos h3]
        obtain ⟨b1e, ⟨b1l, b1u⟩, b1p, _⟩ := roundValue_spec (c23 - w)
          (by rw [abs_lt]; constructor <;> linarith)
        have b10 := b1p (by linarith)
        generalize roundValue (c23 - w) = b1 at b1e b1l b1u b10
        have hs : shape w = (2 / 3 - w) * 6 := by
          unfold shape
          rw [if_neg (by linarith), if_neg (by linarith), if_pos (by linarith)]
        obtain ⟨c, hc, c0, c1⟩ := falling_piece P (Q - P) (2 / 3 - w) p d b1 hP0 (by linarith)
          hD0 hD1 (by linarith) (by linarith) hp0 hp1 (by linarith) (by linarith)
          (by linarith) (by linarith) b10
        have hr : (Q - P) * ((2 / 3 - w) * 6) = (Q - P) * (2 / 3 - w) * 6 := by ring
        refine ⟨c, ?_, by rw [hs, hr]; exact c0, by rw [hs, hr]; exact c1⟩
        rw [JSNum.subD_fin, b1e]
        exact hc
      · rw [if_neg h3]
        have h3' : c23 ≤ w := not_lt.mp h3
        have hs : 0 - 6 * pow2 (-51) ≤ shape w ∧ shape w ≤ 0 + 6 * pow2 (-51) := by
          unfold shape
          split_ifs <;> constructor <;> linarith
        obtain ⟨n1, n2⟩ := mul_err (shape w) 0 (Q - P) (6 * pow2 (-51)) hs.1 hs.2 hD0
          hD1 (by linarith)
        have hc : (Q - P) * shape w = shape w * (Q - P) := mul_comm _ _
        exact ⟨p, rfl, by linarith, by linarith⟩

/-- With equal levels every `return` statement gives the level. -/
theorem pieceD_grey (l w : ℚ) (hl : roundDouble l = .fin l) (hw0 : 0 ≤ w) (hw1 : w ≤ 1) :
    pieceD (.fin l) (.fin l) (.fin w) = .fin l := by
  have he0 := pow2_pos (-51)
  have he1 := pow2_m51_small
  have hz : roundDouble 0 = .fin 0 := roundDouble_zero
  obtain ⟨c16, hc16, _, _⟩ := sixth_double
  obtain ⟨c23, hc23, c23a, c23b⟩ := two_thirds_double
  obtain ⟨b1e, _, _, _⟩ := roundValue_spec (c23 - w)
    (by rw [abs_lt]; constructor <;> linarith)
  unfold pieceD
  rw [hc16, half_double, hc23]
  simp only [JSNum.lt_fin, decide_eq_true_eq, JSNum.subD_fin, sub_self, hz, JSNum.mulD_fin,
    zero_mul, JSNum.addD_fin, add_zero, hl, b1e]
  split_ifs <;> rfl

theorem pow2_m44 : pow2 (-44) = 128 * pow2 (-51) := by
  rw [pow2_eq_zpow, pow2_eq_zpow]
  norm_num

/-- The function `hue2rgb` in double precision is within `2 ^ (-44)` of the exact hue
formula, the levels being within `5 * 2 ^ (-51)` and the hue within `2 * 2 ^ (-51)` of
the exact ones. -/
theorem hue2rgb_close (P Q T p q t : ℚ) (hP0 : 0 ≤ P) (hPQ : P ≤ Q) (hQ1 : Q ≤ 1)
    (hp0 : P - 5 * pow2 (-51) ≤ p) (hp1 : p ≤ P + 5 * pow2 (-51))
    (hq0 : Q - 5 * pow2 (-51) ≤ q) (hq1 : q ≤ Q + 5 * pow2 (-51))
    (hT0 : -1 / 2 ≤ T) (hT1 : T ≤ 3 / 2)
    (ht0 : T - 2 * pow2 (-51) ≤ t) (ht1 : t ≤ T + 2 * pow2 (-51)) :
    ∃ c, hue2rgb (.fin p) (.fin q) (.fin t) = .fin c ∧ |c - hueFormula P Q T| ≤ pow2 (-44) := by
  have he0 := pow2_pos (-51)
  obtain ⟨w, hw, w0, w1, halt⟩ := wrapD_close T t hT0 hT1 ht0 ht1
  obtain ⟨W0, W1⟩ := wrapHue_unit T hT0 hT1
  obtain ⟨s0, s1⟩ := shape_close w (wrapHue T) w0 W0 halt
  obtain ⟨c, hc, c0, c1⟩ := pieceD_close P Q p q w hP0 hPQ hQ1 hp0 hp1 hq0 hq1 w0 w1
  obtain ⟨n1, n2⟩ := mul_err (shape w) (shape (wrapHue T)) (Q - P) (18 * pow2 (-51)) s0 s1
    (by linarith) (by linarith) (by linarith)
  have hc1 : (Q - P) * shape w = shape w * (Q - P) := mul_comm _ _
  have hc2 : (Q - P) * shape (wrapHue T) = shape (wrapHue T) * (Q - P) := mul_comm _ _
  refine ⟨c, by rw [hue2rgb_eq, hw]; exact hc, ?_⟩
  rw [hueFormula_shape, pow2_m44, abs_le]
  constructor <;> linarith

/-- With equal levels `hue2rgb` returns the level. -/
theorem hue2rgb_grey (l T t : ℚ) (hl : roundDouble l = .fin l)
    (hT0 : -1 / 2 ≤ T) (hT1 : T ≤ 3 / 2)
    (ht0 : T - 2 * pow2 (-51) ≤ t) (ht1 : t ≤ T + 2 * pow2 (-51)) :
    hue2rgb (.fin l) (.fin l) (.fin t) = .fin l := by
  obtain ⟨w, hw, w0, w1, _⟩ := wrapD_close T t hT0 hT1 ht0 ht1
  rw [hue2rgb_eq, hw]
  exact pieceD_grey l w hl w0 w1

theorem levels_grey (l : ℚ) (hl0 : 0 ≤ l) (hl1 : l ≤ 1) (hl : roundDouble l = .fin l) :
    upperLevelD 0 l = l ∧ lowerLevelD 0 l = l := by
  have h1 : roundValue 1 = 1 := roundValue_of_double 1 roundDouble_one
  have h0 : roundValue 0 = 0 := roundValue_of_double 0 roundDouble_zero
  have hv : roundValue l = l := roundValue_of_double l hl
  have h2 : roundValue (2 * l) = 2 * l :=
    roundValue_of_double _ (roundDouble_two_mul l hl0 hl1 hl)
  have hq : upperLevelD 0 l = l := by
    unfold upperLevelD
    split_ifs
    · rw [add_zero, h1, mul_one, hv]
    · rw [add_zero, mul_zero, h0, hv, sub_zero, hv]
  refine ⟨hq, ?_⟩
  unfold lowerLevelD
  rw [hq, h2]
  have : 2 * l - l = l := by ring
  rw [this, hv]

/-- The three values that `hslToRgb` computes in double precision before the final
rounding are within `2 ^ (-44)` of the exact channels of the HSL colour; with
saturation 0 and a lightness that is a double they are the lightness. -/
theorem hslChannels_close (h s l : ℚ) (hh0 : 0 ≤ h) (hh1 : h ≤ 1) (hs0 : 0 ≤ s)
    (hs1 : s ≤ 1) (hl0 : 0 ≤ l) (hl1 : l ≤ 1) :
    ∃ cr cg cb : ℚ, hslChannels (.fin h) (.fin s) (.fin l) = (.fin cr, .fin cg, .fin cb) ∧
      |cr - channelValue h s l (1 / 3)| ≤ pow2 (-44) ∧
      |cg - channelValue h s l 0| ≤ pow2 (-44) ∧
      |cb - channelValue h s l (-(1 / 3))| ≤ pow2 (-44) ∧
      (s = 0 → roundDouble l = .fin l → cr = l ∧ cg = l ∧ cb = l) := by
  have he0 := pow2_pos (-51)
  have he1 := pow2_m51_small
  obtain ⟨qe, q0, q1⟩ := upperLevelD_spec s l hs0 hs1 hl0 hl1
  obtain ⟨pe, p0, p1⟩ := lowerLevelD_spec s l hs0 hs1 hl0 hl1
  obtain ⟨b1, b2, b3⟩ := upperLevel_bounds s l hs0 hs1 hl0 hl1
  obtain ⟨c13, hc13, c13a, c13b⟩ := third_double
  obtain ⟨t1e, ⟨t1l, t1u⟩, _, _⟩ := roundValue_spec (h + c13)
    (by rw [abs_lt]; constructor <;> linarith)
  obtain ⟨t3e, ⟨t3l, t3u⟩, _, _⟩ := roundValue_spec (h - c13)
    (by rw [abs_lt]; constructor <;> linarith)
  have hr0 : -1 / 2 ≤ h + 1 / 3 := by linarith
  have hr1 : h + 1 / 3 ≤ 3 / 2 := by linarith
  have hr2 : h + 1 / 3 - 2 * pow2 (-51) ≤ roundValue (h + c13) := by linarith
  have hr3 : roundValue (h + c13) ≤ h + 1 / 3 + 2 * pow2 (-51) := by linarith
  have hg0 : -1 / 2 ≤ h + 0 := by linarith
  have hg1 : h + 0 ≤ 3 / 2 := by linarith
  have hg2 : h + 0 - 2 * pow2 (-51) ≤ h := by linarith
  have hg3 : h ≤ h + 0 + 2 * pow2 (-51) := by linarith
  have hb0 : -1 / 2 ≤ h + -(1 / 3) := by linarith
  have hb1 : h + -(1 / 3) ≤ 3 / 2 := by linarith
  have hb2 : h + -(1 / 3) - 2 * pow2 (-51) ≤ roundValue (h - c13) := by linarith
  have hb3 : roundValue (h - c13) ≤ h + -(1 / 3) + 2 * pow2 (-51) := by linarith
  obtain ⟨cr, hcr, er⟩ := hue2rgb_close (2 * l - upperLevel s l) (upperLevel s l) (h + 1 / 3)
    (lowerLevelD s l) (upperLevelD s l) (roundValue (h + c13)) b1 b2 b3 p0 p1
    (by linarith) (by linarith) hr0 hr1 hr2 hr3
  obtain ⟨cg, hcg, eg⟩ := hue2rgb_close (2 * l - upperLevel s l) (upperLevel s l) (h + 0)
    (lowerLevelD s l) (upperLevelD s l) h b1 b2 b3 p0 p1
    (by linarith) (by linarith) hg0 hg1 hg2 hg3
  obtain ⟨cb, hcb, eb⟩ := hue2rgb_close (2 * l - upperLevel s l) (upperLevel s l)
    (h + -(1 / 3)) (lowerLevelD s l) (upperLevelD s l) (roundValue (h - c13)) b1 b2 b3 p0 p1
    (by linarith) (by linarith) hb0 hb1 hb2 hb3
  refine ⟨cr, cg, cb, ?_, er, eg, eb, ?_⟩
  · unfold hslChannels
    simp only []
    rw [qe, pe, hc13, JSNum.addD_fin, t1e, JSNum.subD_fin, t3e, hcr, hcg, hcb]
  · intro hs hl
    subst hs
    obtain ⟨e1, e2⟩ := levels_grey l hl0 hl1 hl
    rw [e1, e2] at hcr hcg hcb
    rw [hue2rgb_grey l (h + 1 / 3) _ hl hr0 hr1 hr2 hr3] at hcr
    rw [hue2rgb_grey l (h + 0) _ hl hg0 hg1 hg2 hg3] at hcg
    rw [hue2rgb_grey l (h + -(1 / 3)) _ hl hb0 hb1 hb2 hb3] at hcb
    exact ⟨(JSNum.fin.inj hcr).symm, (JSNum.fin.inj hcg).symm, (JSNum.fin.inj hcb).symm⟩

theorem floatExponent_le_one (a : ℚ) (ha : a ≤ 2) : floatExponent a ≤ 1 := by
  unfold floatExponent
  cases hf : floatExponents.find? (fun e => decide (pow2 e ≤ a)) with
  | none => simp
  | some e =>
      have hp := List.find?_some hf
      simp only [decide_eq_true_eq] at hp
      simp only [Option.getD_some]
      by_contra hcon
      have h4 : pow2 2 ≤ pow2 e := pow2_le_pow2 2 e (by omega)
      have h5 : pow2 2 = 4 := by
        rw [pow2_eq_zpow]
        norm_num
      linarith

theorem froundNative_near : NearRounding froundNative := by
  intro x hx
  by_cases hx0 : x = 0
  · subst hx0
    exact ⟨0, by simp [froundNative], by norm_num⟩
  · have ha0 : 0 < |x| := abs_pos.mpr hx0
    have he := floatExponent_le_one |x| hx
    have hupos : 0 < pow2 (floatExponent |x| - 23) := pow2_pos _
    have hule : pow2 (floatExponent |x| - 23) ≤ pow2 (-22) := pow2_le_pow2 _ _ (by omega)
    have h22 : pow2 (-22) = 1 / 4194304 := by
      rw [pow2_eq_zpow]
      norm_num
    have herr := roundHalfEven_error (|x| / pow2 (floatExponent |x| - 23))
    rw [abs_le] at herr
    set m := (roundHalfEven (|x| / pow2 (floatExponent |x| - 23)) : ℚ)
      * pow2 (floatExponent |x| - 23) with hm
    have hdiv : |x| / pow2 (floatExponent |x| - 23) * pow2 (floatExponent |x| - 23) = |x| :=
      div_mul_cancel₀ _ (ne_of_gt hupos)
    have hm1 : |x| - pow2 (floatExponent |x| - 23) / 2 ≤ m := by
      rw [hm]
      nlinarith [herr.1]
    have hm2 : m ≤ |x| + pow2 (floatExponent |x| - 23) / 2 := by
      rw [hm]
      nlinarith [herr.2]
    have h128 : ¬ pow2 128 ≤ m := by
      have h4 : pow2 2 ≤ pow2 128 := pow2_le_pow2 2 128 (by norm_num)
      have h5 : pow2 2 = 4 := by
        rw [pow2_eq_zpow]
        norm_num
      intro hcon
      linarith
    rcases lt_or_gt_of_ne hx0 with hneg | hpos
    · refine ⟨-m, ?_, ?_⟩
      · simp only [froundNative, hx0, if_false, ← hm, h128, not_lt.mpr (le_of_lt hneg)]
      · have ha : |x| = -x := abs_of_neg hneg
        rw [abs_le]
        constructor <;> linarith
    · refine ⟨m, ?_, ?_⟩
      · simp only [froundNative, hx0, if_false, ← hm, h128, hpos, if_true]
      · have ha : |x| = x := abs_of_pos hpos
        rw [abs_le]
        constructor <;> linarith

theorem froundPolyfill_near : NearRounding froundPolyfill := by
  intro x hx
  rw [abs_le] at hx
  have h31 : pow2 (30 + 1) = 2147483648 := by
    rw [pow2_eq_zpow]
    norm_num
  have h23 : pow2 (30 - 53) = 1 / 8388608 := by
    rw [pow2_eq_zpow]
    norm_num
  obtain ⟨z1e, z1err, _, _⟩ := roundValue_near (x * 1000000000) 30 (by norm_num) (by norm_num)
    (by rw [h31, abs_lt]; constructor <;> linarith)
  rw [h23, abs_le] at z1err
  generalize roundValue (x * 1000000000) = z at z1e z1err
  have hfl : Rat.floor (z + 1 / 2) = ⌊z + 1 / 2⌋ := rfl
  have f1 := Int.floor_le (z + 1 / 2)
  have f2 := Int.lt_floor_add_one (z + 1 / 2)
  have hne : (1000000000 : ℚ) ≠ 0 := by norm_num
  have hq1 : ((⌊z + 1 / 2⌋ : ℤ) : ℚ) / 1000000000 ≤ x + 6 / 10000000000 := by
    rw [div_le_iff₀ (by norm_num)]
    linarith [z1err.1, z1err.2]
  have hq0 : x - 6 / 10000000000 ≤ ((⌊z + 1 / 2⌋ : ℤ) : ℚ) / 1000000000 := by
    rw [le_div_iff₀ (by norm_num)]
    linarith [z1err.1, z1err.2]
  obtain ⟨ye, ⟨y0, y1⟩, _, _⟩ := roundValue_spec (((⌊z + 1 / 2⌋ : ℤ) : ℚ) / 1000000000)
    (by rw [abs_lt]; constructor <;> linarith)
  have he1 := pow2_m51
  refine ⟨roundValue (((⌊z + 1 / 2⌋ : ℤ) : ℚ) / 1000000000), ?_, ?_⟩
  · unfold froundPolyfill
    rw [JSNum.mulD_fin, z1e]
    simp only [JSNum.round, hfl]
    rw [JSNum.divD_fin _ _ hne, ye]
  · rw [abs_le]
    constructor <;> linarith

/-- One channel: a value within `2 ^ (-44)` of a number of the unit interval is
rounded to an integer from 0 to 255, printed in decimal digits. -/
theorem channel_text (cv : Conv) (fround : JSNum → JSNum) (hf : NearRounding fround)
    (c C : ℚ) (hC0 : 0 ≤ C) (hC1 : C ≤ 1) (hc : |c - C| ≤ pow2 (-44)) :
    ∃ n : ℕ, channel fround (.fin c) = .fin (n : ℚ) ∧ n ≤ 255 ∧
      numberToString cv (channel fround (.fin c)) = toString n := by
  have he0 := pow2_pos (-51)
  have he1 := pow2_m51_small
  rw [pow2_m44, abs_le] at hc
  obtain ⟨y, hy, hyerr⟩ := hf c (by rw [abs_le]; constructor <;> linarith)
  rw [abs_le] at hyerr
  have h9 : pow2 (8 + 1) = 512 := by
    rw [pow2_eq_zpow]
    norm_num
  have h45 : pow2 (8 - 53) = 1 / 35184372088832 := by
    rw [pow2_eq_zpow]
    norm_num
  obtain ⟨ze, zerr, _, _⟩ := roundValue_near (y * 255) 8 (by norm_num) (by norm_num)
    (by rw [h9, abs_lt]; constructor <;> linarith)
  rw [h45, abs_le] at zerr
  generalize roundValue (y * 255) = z at ze zerr
  have hk0 : (0 : ℤ) ≤ ⌊z + 1 / 2⌋ := Int.floor_nonneg.mpr (by linarith)
  have hk1 : ⌊z + 1 / 2⌋ ≤ (255 : ℤ) := by
    have : ⌊z + 1 / 2⌋ < (256 : ℤ) := Int.floor_lt.mpr (by push_cast; linarith)
    omega
  obtain ⟨n, hn⟩ := Int.eq_ofNat_of_zero_le hk0
  have hch : channel fround (.fin c) = .fin (n : ℚ) := by
    unfold channel
    rw [hy, JSNum.mulD_fin, ze]
    show JSNum.fin ((⌊z + 1 / 2⌋ : ℤ) : ℚ) = _
    rw [hn]
    push_cast
    rfl
  refine ⟨n, hch, by omega, ?_⟩
  rw [hch]
  unfold numberToString
  have hlt : |(n : ℚ)| < 10 ^ 21 := by
    rw [abs_of_nonneg (Nat.cast_nonneg n)]
    have h2 : (n : ℚ) ≤ 255 := by
      have : n ≤ 255 := by omega
      exact_mod_cast this
    linarith [show (255 : ℚ) < 10 ^ 21 by norm_num]
  simp only [Rat.den_natCast, Rat.num_natCast, hlt, and_self, if_true]
  rfl

theorem hslToRgb_eq (cv : Conv) (fround : JSNum → JSNum) (h s l r g b : JSNum)
    (hc : hslChannels h s l = (r, g, b)) :
    hslToRgb cv fround h s l
      = "rgb(" ++ numberToString cv (channel fround r) ++ ", " ++
        numberToString cv (channel fround g) ++ ", " ++
        numberToString cv (channel fround b) ++ ")" := by
  unfold hslToRgb
  rw [hc]

/-- C16, as stated, fails for "saturation 0 gives `round(255 * l)`": the channels are
rounded from `Math.fround(l) * 255`.  For the lightness `52634403 / 2^30` (just below
`12.5 / 255`) `round(255 * l)` is 12, and `hslToRgb(0, 0, l)` is `"rgb(13, 13, 13)"`,
with the built-in `Math.fround` and with the polyfill alike. -/
theorem grey_channel_differs_from_round_of_lightness :
    0 ≤ greyLightness ∧ greyLightness ≤ 1 ∧
    JSNum.round (.fin (255 * greyLightness)) = .fin 12 ∧
    hslToRgb Conv.plain froundNative (.fin 0) (.fin 0) (.fin greyLightness)
      = "rgb(13, 13, 13)" ∧
    hslToRgb Conv.plain froundPolyfill (.fin 0) (.fin 0) (.fin greyLightness)
      = "rgb(13, 13, 13)" := by
  refine ⟨by norm_num [greyLightness], by norm_num [greyLightness], ?_, ?_, ?_⟩
  · with_unfolding_all rfl
  · with_unfolding_all rfl
  · with_unfolding_all rfl

/-- C16 (amended): for `h`, `s`, `l` in `[0, 1]` (and a `Math.fround` that stays within
`2 ^ (-20)` of its argument, as the built-in one and the polyfill do), the three values
that `hslToRgb(h, s, l)` computes in double precision are within `2 ^ (-44)` of the
channels that the piecewise hue formula gives at the hue offsets 1/3, 0 and -1/3, and
the result is the string `"rgb(r, g, b)"` where `r`, `g`, `b` are integers of
`[0, 255]`, each being `Math.round(Math.fround(c) * 255)` for its channel `c`.  With
saturation 0 and a lightness that is a double every channel is `l`, so
`r = g = b = Math.round(Math.fround(l) * 255)`. -/
theorem hslToRgb_channels (cv : Conv) (fround : JSNum → JSNum) (hf : NearRounding fround)
    (h s l : ℚ) (hh0 : 0 ≤ h) (hh1 : h ≤ 1) (hs0 : 0 ≤ s) (hs1 : s ≤ 1) (hl0 : 0 ≤ l)
    (hl1 : l ≤ 1) :
    ∃ (cr cg cb : ℚ) (r g b : ℕ),
      hslChannels (.fin h) (.fin s) (.fin l) = (.fin cr, .fin cg, .fin cb) ∧
      |cr - channelValue h s l (1 / 3)| ≤ pow2 (-44) ∧
      |cg - channelValue h s l 0| ≤ pow2 (-44) ∧
      |cb - channelValue h s l (-(1 / 3))| ≤ pow2 (-44) ∧
      channel fround (.fin cr) = .fin (r : ℚ) ∧ channel fround (.fin cg) = .fin (g : ℚ) ∧
      channel fround (.fin cb) = .fin (b : ℚ) ∧
      r ≤ 255 ∧ g ≤ 255 ∧ b ≤ 255 ∧
      hslToRgb cv fround (.fin h) (.fin s) (.fin l)
        = "rgb(" ++ toString r ++ ", " ++ toString g ++ ", " ++ toString b ++ ")" ∧
      (s = 0 → roundDouble l = .fin l → cr = l ∧ cg = l ∧ cb = l ∧ r = g ∧ g = b) := by
  obtain ⟨cr, cg, cb, hch, er, eg, eb, hgrey⟩ := hslChannels_close h s l hh0 hh1 hs0 hs1 hl0 hl1
  obtain ⟨r0, r1⟩ := channelValue_unit h s l (1 / 3) hs0 hs1 hl0 hl1 (by linarith)
  obtain ⟨g0, g1⟩ := channelValue_unit h s l 0 hs0 hs1 hl0 hl1 (by linarith)
  obtain ⟨b0, b1⟩ := channelValue_unit h s l (-(1 / 3)) hs0 hs1 hl0 hl1 (by linarith)
  obtain ⟨r, hr, hr255, htr⟩ := channel_text cv fround hf cr _ r0 r1 er
  obtain ⟨g, hg, hg255, htg⟩ := channel_text cv fround hf cg _ g0 g1 eg
  obtain ⟨b, hb, hb255, htb⟩ := channel_text cv fround hf cb _ b0 b1 eb
  refine ⟨cr, cg, cb, r, g, b, hch, er, eg, eb, hr, hg, hb, hr255, hg255, hb255, ?_, ?_⟩
  · rw [hslToRgb_eq cv fround _ _ _ _ _ _ hch, htr, htg, htb]
  · intro hs hl
    obtain ⟨e1, e2, e3⟩ := hgrey hs hl
    refine ⟨e1, e2, e3, ?_, ?_⟩
    · rw [e1, ← e2, hg] at hr
      have := JSNum.fin.inj hr
      exact_mod_cast this.symm
    · rw [e2, ← e3, hb] at hg
      have := JSNum.fin.inj hg
      exact_mod_cast this.symm

/-- C16, the example: `hslToRgb(0, 1, 0.5)` is `"rgb(255, 0, 0)"`, and
`hslToRgb(0, 0, 0.5)` is `"rgb(128, 128, 128)"`. Outside the unit interval the channels
leave the range: `hslToRgb(-1, 1, 0.5)` is `"rgb(255, 0, -510)"`. -/
theorem hslToRgb_channels_witness :
    (∃ (cr cg cb : ℚ) (r g b : ℕ),
      hslChannels (.fin 0) (.fin 1) (.fin (1 / 2)) = (.fin cr, .fin cg, .fin cb) ∧
      |cr - channelValue 0 1 (1 / 2) (1 / 3)| ≤ pow2 (-44) ∧
      |cg - channelValue 0 1 (1 / 2) 0| ≤ pow2 (-44) ∧
      |cb - channelValue 0 1 (1 / 2) (-(1 / 3))| ≤ pow2 (-44) ∧
      channel froundNative (.fin cr) = .fin (r : ℚ) ∧
      channel froundNative (.fin cg) = .fin (g : ℚ) ∧
      channel froundNative (.fin cb) = .fin (b : ℚ) ∧
      r ≤ 255 ∧ g ≤ 255 ∧ b ≤ 255 ∧
      hslToRgb Conv.plain froundNative (.fin 0) (.fin 1) (.fin (1 / 2))
        = "rgb(" ++ toString r ++ ", " ++ toString g ++ ", " ++ toString b ++ ")" ∧
      ((1 : ℚ) = 0 → roundDouble (1 / 2) = .fin (1 / 2) →
        cr = 1 / 2 ∧ cg = 1 / 2 ∧ cb = 1 / 2 ∧ r = g ∧ g = b)) ∧
    hslToRgb Conv.plain froundNative (.fin 0) (.fin 1) (.fin (1 / 2)) = "rgb(255, 0, 0)" ∧
    hslToRgb Conv.plain froundPolyfill (.fin 0) (.fin 1) (.fin (1 / 2)) = "rgb(255, 0, 0)" ∧
    hslToRgb Conv.plain froundNative (.fin 0) (.fin 0) (.fin (1 / 2)) = "rgb(128, 128, 128)" ∧
    hslToRgb Conv.plain froundNative (.fin (-1)) (.fin 1) (.fin (1 / 2))
      = "rgb(255, 0, -510)" :=
  ⟨hslToRgb_channels Conv.plain froundNative froundNative_near 0 1 (1 / 2)
      (le_refl 0) (by norm_num) (by norm_num) (le_refl 1) (by norm_num) (by norm_num),
    by with_unfolding_all rfl, by with_unfolding_all rfl, by with_unfolding_all rfl,
    by with_unfolding_all rfl⟩

/-! ## C15: colour resolution does not write to its input -/

theorem getElem?_append_length (heap : Heap) (o : HObj) :
    (heap ++ [o])[heap.length]? = some o := by
  simp

theorem writeItem_fresh (heap : Heap) (a b c : JSNum) (i : Nat) (hi : i < 3) (v : JSNum) :
    ∃ a' b' c', writeItem (heap ++ [HObj.arr [.num a, .num b, .num c]]) heap.length i (.num v)
      = heap ++ [HObj.arr [.num a', .num b', .num c']] := by
  unfold writeItem
  rw [getElem?_append_length]
  simp only []
  have hset : ∀ o' : HObj, (heap ++ [HObj.arr [.num a, .num b, .num c]]).set heap.length o'
      = heap ++ [o'] := by
    intro o'
    rw [List.set_append_right _ _ (le_refl _)]
    simp
  rw [hset]
  interval_cases i
  · exact ⟨v, b, c, rfl⟩
  · exact ⟨a, v, c, rfl⟩
  · exact ⟨a, b, v, rfl⟩

theorem clampItem_fresh (cv : Conv) (refNum : Heap → Nat → JSNum) (heap : Heap)
    (a b c : JSNum) (i : Nat) (hi : i < 3) (top : ℚ) :
    ∃ a' b' c',
      clampItem cv refNum (heap ++ [HObj.arr [.num a, .num b, .num c]]) heap.length i top
        = heap ++ [HObj.arr [.num a', .num b', .num c']] := by
  unfold clampItem
  simp only []
  split_ifs
  · obtain ⟨a1, b1, c1, h1⟩ := writeItem_fresh heap a b c i hi (JSNum.fin 0)
    rw [h1]
    exact writeItem_fresh heap a1 b1 c1 i hi (JSNum.fin top)
  · obtain ⟨a1, b1, c1, h1⟩ := writeItem_fresh heap a b c i hi (JSNum.fin 0)
    exact ⟨a1, b1, c1, h1⟩
  · exact writeItem_fresh heap a b c i hi (JSNum.fin top)
  · exact ⟨a, b, c, rfl⟩

theorem FreshTriple.write (heap heap' : Heap) (h : FreshTriple heap heap') (i : Nat)
    (hi : i < 3) (v : JSNum) : FreshTriple heap (writeItem heap' heap.length i (.num v)) := by
  obtain ⟨a, b, c, rfl⟩ := h
  exact writeItem_fresh heap a b c i hi v

theorem FreshTriple.clamp (cv : Conv) (refNum : Heap → Nat → JSNum) (heap heap' : Heap)
    (h : FreshTriple heap heap') (i : Nat) (hi : i < 3) (top : ℚ) :
    FreshTriple heap (clampItem cv refNum heap' heap.length i top) := by
  obtain ⟨a, b, c, rfl⟩ := h
  exact clampItem_fresh cv refNum heap a b c i hi top

theorem FreshTriple.assign (cv : Conv) (refNum : Heap → Nat → JSNum) (heap heap' : Heap)
    (h : FreshTriple heap heap') (c1 : HVal) :
    FreshTriple heap (assignFrom cv refNum heap' heap.length c1) := by
  unfold assignFrom
  simp only []
  apply FreshTriple.write _ _ _ 2 (by norm_num)
  apply FreshTriple.write _ _ _ 1 (by norm_num)
  exact FreshTriple.write _ _ h 0 (by norm_num) _

theorem FreshTriple.add (cv : Conv) (refNum : Heap → Nat → JSNum) (heap heap' : Heap)
    (h : FreshTriple heap heap') (c2 : HVal) :
    FreshTriple heap (addFrom cv refNum heap' heap.length c2) := by
  unfold addFrom
  simp only []
  apply FreshTriple.write _ _ _ 2 (by norm_num)
  apply FreshTriple.write _ _ _ 1 (by norm_num)
  exact FreshTriple.write _ _ h 0 (by norm_num) _

theorem mergeColorH_fresh (cv : Conv) (refNum : Heap → Nat → JSNum) (heap : Heap)
    (c1 c2 : HVal) :
    FreshTriple heap (mergeColorH cv refNum heap c1 c2).1 ∧
      (mergeColorH cv refNum heap c1 c2).2 = .ref heap.length := by
  refine ⟨?_, rfl⟩
  have h0 : FreshTriple heap
      (heap ++ [HObj.arr [.num (JSNum.fin 0), .num (JSNum.fin 0), .num (JSNum.fin 0)]]) :=
    ⟨_, _, _, rfl⟩
  have h1 : FreshTriple heap
      (if c1.truthy then assignFrom cv refNum
          (heap ++ [HObj.arr [.num (JSNum.fin 0), .num (JSNum.fin 0), .num (JSNum.fin 0)]])
          heap.length c1
        else heap ++ [HObj.arr [.num (JSNum.fin 0), .num (JSNum.fin 0), .num (JSNum.fin 0)]]) := by
    split_ifs
    · exact FreshTriple.assign cv refNum heap _ h0 c1
    · exact h0
  unfold mergeColorH
  simp only []
  apply FreshTriple.clamp _ _ _ _ _ 2 (by norm_num)
  apply FreshTriple.clamp _ _ _ _ _ 1 (by norm_num)
  apply FreshTriple.clamp _ _ _ _ _ 0 (by norm_num)
  split_ifs
  · exact FreshTriple.add cv refNum heap _ (FreshTriple.assign cv refNum heap _ h0 c1) c2
  · exact FreshTriple.add cv refNum heap _ h0 c2
  · exact FreshTriple.assign cv refNum heap _ h0 c1
  · exact h0

theorem computeColorLoopH_frame (cv : Conv) (refNum : Heap → Nat → JSNum)
    (names : List String) (heap : Heap) (colorData color : HVal) :
    ∃ extra, (computeColorLoopH cv refNum heap colorData color names).1 = heap ++ extra := by
  induction names generalizing heap colorData color with
  | nil => exact ⟨[], by simp [computeColorLoopH]⟩
  | cons name rest ih =>
      have step : ∀ (c2 next : HVal), ∃ extra,
          (computeColorLoopH cv refNum (mergeColorH cv refNum heap color c2).1 next
            (mergeColorH cv refNum heap color c2).2 rest).1 = heap ++ extra := by
        intro c2 next
        obtain ⟨⟨a, b, c, hm⟩, _⟩ := mergeColorH_fresh cv refNum heap color c2
        obtain ⟨extra, he⟩ := ih (mergeColorH cv refNum heap color c2).1 next
          (mergeColorH cv refNum heap color c2).2
        exact ⟨HObj.arr [.num a, .num b, .num c] :: extra, by rw [he, hm]; simp⟩
      unfold computeColorLoopH
      cases hg : getPropH heap colorData name with
      | error e => exact ⟨[], by simp⟩
      | ok next =>
          cases next with
          | undefined => exact ⟨[], by simp⟩
          | null =>
              simp only []
              split_ifs
              · exact step _ _
              · exact ⟨[], by simp [getPropH]⟩
          | bool b =>
              simp only [getPropH]
              split_ifs
              · exact step _ _
              · exact step _ _
          | num n =>
              simp only [getPropH]
              split_ifs
              · exact step _ _
              · exact step _ _
          | str s =>
              simp only [getPropH]
              split_ifs
              · exact step _ _
              · exact step _ _
          | ref a =>
              simp only [getPropH]
              split_ifs
              · exact step _ _
              · exact step _ _

theorem computeColorH_frame (cv : Conv) (refNum : Heap → Nat → JSNum)
    (fround : JSNum → JSNum) (heap : Heap) (colorData : HVal) (colorName : String) :
    ∃ extra, (computeColorH cv refNum fround heap colorData colorName).1 = heap ++ extra := by
  have hfst : ∀ p : Heap × Except JSError (Option HVal),
      (match p with
        | (heap2, .error e) => ((heap2, .error e) : Heap × Except JSError String)
        | (heap2, .ok none) => (heap2, .ok "rgb(0, 0, 0)")
        | (heap2, .ok (some c)) => (heap2, .ok (colorToRgbH cv refNum fround heap2 c))).1
        = p.1 := by
    rintro ⟨hp, (e | (_ | c))⟩ <;> rfl
  unfold computeColorH
  by_cases h1 : (!colorData.truthy) = true
  · rw [if_pos h1]
    exact ⟨[], by simp⟩
  · rw [if_neg h1]
    simp only []
    by_cases h2 : isArrayH
        (heap ++ [HObj.arr [.num (JSNum.fin 0), .num (JSNum.fin 0), .num (JSNum.fin 0)]])
        (hget (heap ++ [HObj.arr [.num (JSNum.fin 0), .num (JSNum.fin 0), .num (JSNum.fin 0)]])
          colorData colorName) = true
    · rw [if_pos h2]
      exact ⟨_, rfl⟩
    · rw [if_neg h2]
      obtain ⟨extra, he⟩ := computeColorLoopH_frame cv refNum (splitDot colorName)
        (heap ++ [HObj.arr [.num (JSNum.fin 0), .num (JSNum.fin 0), .num (JSNum.fin 0)]])
        colorData (.ref heap.length)
      refine ⟨HObj.arr [.num (JSNum.fin 0), .num (JSNum.fin 0), .num (JSNum.fin 0)] :: extra, ?_⟩
      rw [hfst, he]
      simp

/-- On the heap of `{a: {default: [10,20,30], b: [1,1,1]}}` the name `"a.b"` gives the
same string as the function on values, and the heap grows by the three arrays built on
the way. -/
theorem computeColorH_example :
    computeColorH Conv.plain (fun _ _ => JSNum.nan) froundNative abHeap (.ref 0) "a.b"
      = (abHeap ++
          [.arr [.num (JSNum.fin 0), .num (JSNum.fin 0), .num (JSNum.fin 0)],
           .arr [.num (JSNum.fin 10), .num (JSNum.fin 20), .num (JSNum.fin 30)],
           .arr [.num (JSNum.fin 11), .num (JSNum.fin 21), .num (JSNum.fin 31)]],
         .ok (colorToRgb Conv.plain froundNative (triple 11 21 31))) := by
  with_unfolding_all rfl

/-- Claim C15. Colour resolution never changes an object that existed before the call.
`mergeColor` leaves the heap as it was, followed by one new array of three numbers, and
returns the address of that new array, which is no address of the old heap;
`computeColor` leaves the heap as it was, followed by new objects. Hence every array and
every map of `colorData`, and both arguments of `mergeColor`, hold after the call what
they held before it. -/
theorem colour_resolution_keeps_heap (cv : Conv) (refNum : Heap → Nat → JSNum)
    (fround : JSNum → JSNum) (heap : Heap) (c1 c2 colorData : HVal) (colorName : String) :
    (∃ a b c, mergeColorH cv refNum heap c1 c2
        = (heap ++ [HObj.arr [.num a, .num b, .num c]], .ref heap.length)) ∧
      (∀ addr, addr < heap.length →
        (mergeColorH cv refNum heap c1 c2).1[addr]? = heap[addr]?) ∧
      (∃ extra, (computeColorH cv refNum fround heap colorData colorName).1
        = heap ++ extra) ∧
      (∀ addr, addr < heap.length →
        (computeColorH cv refNum fround heap colorData colorName).1[addr]? = heap[addr]?) := by
  obtain ⟨⟨a, b, c, hm⟩, hr⟩ := mergeColorH_fresh cv refNum heap c1 c2
  obtain ⟨extra, he⟩ := computeColorH_frame cv refNum fround heap colorData colorName
  refine ⟨⟨a, b, c, Prod.ext hm hr⟩, ?_, ⟨extra, he⟩, ?_⟩
  · intro addr ha
    rw [hm, List.getElem?_append_left ha]
  · intro addr ha
    rw [he, List.getElem?_append_left ha]

/-! ## C17 and C18: `formatNumber`, `percent` and the placeholder -/

theorem digitChar_ne_space (d : Nat) (h : d < 10) : Nat.digitChar d ≠ ' ' := by
  interval_cases d <;> decide

theorem toDigitsCore_no_space (fuel : Nat) :
    ∀ (n : Nat) (ds : List Char), ' ' ∉ ds → ' ' ∉ Nat.toDigitsCore 10 fuel n ds := by
  induction fuel with
  | zero => intro n ds h; simpa [Nat.toDigitsCore] using h
  | succ fuel ih =>
      intro n ds h
      have hd : ' ' ∉ Nat.digitChar (n % 10) :: ds := by
        intro hm
        rcases List.mem_cons.mp hm with h1 | h1
        · exact digitChar_ne_space _ (Nat.mod_lt _ (by norm_num)) h1.symm
        · exact h h1
      unfold Nat.toDigitsCore
      simp only []
      split_ifs
      · exact hd
      · exact ih _ _ hd

theorem toDigits_no_space (n : Nat) : ' ' ∉ Nat.toDigits 10 n :=
  toDigitsCore_no_space _ _ _ (by simp)

theorem fixedDigits_no_space (f n : Nat) : ' ' ∉ fixedDigits f n := by
  have hpad : ' ' ∉ List.replicate (f + 1 - (Nat.toDigits 10 n).length) '0'
      ++ Nat.toDigits 10 n := by
    intro hm
    rcases List.mem_append.mp hm with h | h
    · have := List.eq_of_mem_replicate h
      exact absurd this (by decide)
    · exact toDigits_no_space n h
  unfold fixedDigits
  simp only []
  split_ifs
  · exact toDigits_no_space n
  · intro hm
    rcases List.mem_append.mp hm with h | h
    · exact hpad (List.mem_of_mem_take h)
    · rcases List.mem_cons.mp h with h | h
      · exact absurd h (by decide)
      · exact hpad (List.mem_of_mem_drop h)

theorem ne_placeholder_of_no_space (s : String) (h : ' ' ∉ s.data) :
    s ≠ "not supported " := by
  intro hs
  apply h
  rw [hs]
  decide

theorem minus_append_ne_placeholder (t : String) : "-" ++ t ≠ "not supported " := by
  intro h
  have := congrArg String.data h
  rw [String.data_append] at this
  simp at this

theorem repr_no_space (n : Nat) : ' ' ∉ (toString n).data :=
  toDigits_no_space n

theorem int_text_ne_placeholder (i : ℤ) : toString i ≠ "not supported " := by
  cases i with
  | ofNat n => exact ne_placeholder_of_no_space _ (repr_no_space n)
  | negSucc n => exact minus_append_ne_placeholder _

theorem numberToString_ne_placeholder (cv : Conv) (x : JSNum) :
    numberToString cv x ≠ "not supported " := by
  cases x with
  | fin q =>
      unfold numberToString
      simp only []
      split_ifs
      · exact int_text_ne_placeholder _
      · exact cv.numberText_ne q
  | nan => show "NaN" ≠ "not supported "; decide
  | posInf => show "Infinity" ≠ "not supported "; decide
  | negInf => show "-Infinity" ≠ "not supported "; decide

theorem toFixed_ne_placeholder (cv : Conv) (f : Nat) (x : JSNum) :
    toFixed cv f x ≠ "not supported " := by
  cases x with
  | fin q =>
      unfold toFixed
      simp only []
      by_cases hq : q < 0
      · rw [if_pos hq]
        split_ifs
        · exact minus_append_ne_placeholder _
        · exact minus_append_ne_placeholder _
      · rw [if_neg hq]
        split_ifs
        · rw [String.empty_append]
          exact numberToString_ne_placeholder cv _
        · rw [String.empty_append]
          exact ne_placeholder_of_no_space _ (fixedDigits_no_space _ _)
  | nan => unfold toFixed; exact numberToString_ne_placeholder cv _
  | posInf => unfold toFixed; exact numberToString_ne_placeholder cv _
  | negInf => unfold toFixed; exact numberToString_ne_placeholder cv _

theorem supported_iff (cv : Conv) (num : JSVal) :
    supported cv num = false ↔
      (num = .null ∨ num = .str "" ∨ (toNumber cv num).isFinite = false) := by
  unfold supported
  cases num <;> simp [JSVal.isNull, JSVal.isEmptyString]
  tauto

theorem formatNumber_supported (cv : Conv) (num : JSVal) (h : supported cv num = true) :
    formatNumber cv num = toFixed cv 0 (toNumber cv num) ∨
      formatNumber cv num = toFixed cv 1 (toNumber cv num) ∨
      formatNumber cv num = toFixed cv 2 (toNumber cv num) := by
  unfold formatNumber
  rw [if_pos h]
  split_ifs
  · exact Or.inl rfl
  · exact Or.inr (Or.inl rfl)
  · exact Or.inr (Or.inr rfl)

theorem formatNumber_ne_placeholder (cv : Conv) (num : JSVal) (h : supported cv num = true) :
    formatNumber cv num ≠ "not supported " := by
  rcases formatNumber_supported cv num h with h1 | h1 | h1 <;> rw [h1] <;>
    exact toFixed_ne_placeholder cv _ _

theorem formatNumber_fin (cv : Conv) (q : ℚ) :
    formatNumber cv (.num (JSNum.fin q))
      = toFixed cv (if 100 ≤ q then 0 else if 10 ≤ q then 1 else 2) (JSNum.fin q) := by
  unfold formatNumber
  have hs : supported cv (.num (JSNum.fin q)) = true := rfl
  rw [if_pos hs]
  simp only [toNumber, JSNum.ge, JSNum.le, decide_eq_true_eq]
  split_ifs <;> rfl

/-! ## C19: `formatPreciseNumber` -/

theorem pow10_eq_zpow (e : ℤ) : pow10 e = (10 : ℚ) ^ e := by
  unfold pow10
  split_ifs with h
  · obtain ⟨n, rfl⟩ := Int.eq_ofNat_of_zero_le h
    simp
  · push_neg at h
    obtain ⟨n, hn⟩ := Int.eq_ofNat_of_zero_le (by omega : 0 ≤ -e)
    have he : e = -(n : ℤ) := by omega
    subst he
    simp

theorem searchExponent_spec (a : ℚ) (fuel : Nat) :
    ∀ e : ℤ, a < (10 : ℚ) ^ (e + 1) →
      ((10 : ℚ) ^ searchExponent a fuel e ≤ a ∨ searchExponent a fuel e = e - fuel) ∧
        a < (10 : ℚ) ^ (searchExponent a fuel e + 1) := by
  induction fuel with
  | zero =>
      intro e h
      exact ⟨Or.inr (by simp [searchExponent]), by simpa [searchExponent] using h⟩
  | succ fuel ih =>
      intro e h
      unfold searchExponent
      by_cases hp : pow10 e ≤ a
      · rw [if_pos hp]
        exact ⟨Or.inl (by rwa [pow10_eq_zpow] at hp), h⟩
      · rw [if_neg hp]
        rw [pow10_eq_zpow] at hp
        have h' : a < (10 : ℚ) ^ (e - 1 + 1) := by
          rw [sub_add_cancel]
          exact lt_of_not_le hp
        obtain ⟨h1, h2⟩ := ih (e - 1) h'
        refine ⟨?_, h2⟩
        rcases h1 with h1 | h1
        · exact Or.inl h1
        · refine Or.inr ?_
          rw [h1]
          push_cast
          ring

theorem decimalExponent_spec (a : ℚ) (hlo : (10 : ℚ) ^ (-324 : ℤ) ≤ a)
    (hhi : a < (10 : ℚ) ^ (309 : ℤ)) :
    (10 : ℚ) ^ decimalExponent a ≤ a ∧ a < (10 : ℚ) ^ (decimalExponent a + 1) := by
  have e1 : (308 : ℤ) + 1 = 309 := by norm_num
  have e2 : (308 : ℤ) - ((632 : ℕ) : ℤ) = -324 := by norm_num
  obtain ⟨h1, h2⟩ := searchExponent_spec a 632 308 (by rw [e1]; exact hhi)
  refine ⟨?_, h2⟩
  rcases h1 with h1 | h1
  · exact h1
  · unfold decimalExponent
    rw [h1, e2]
    exact hlo

theorem toPrecision6_six_digits (x : ℚ)
    (hrange : x = 0 ∨ ((10 : ℚ) ^ (-324 : ℤ) ≤ |x| ∧ |x| < (10 : ℚ) ^ (309 : ℤ))) :
    ∃ v, toPrecision6 (JSNum.fin x) = JSNum.fin v ∧ SixDigits x v := by
  by_cases hx : x = 0
  · exact ⟨0, by simp [toPrecision6, hx], Or.inl ⟨hx, rfl⟩⟩
  · rcases hrange with h0 | ⟨hlo, hhi⟩
    · exact absurd h0 hx
    obtain ⟨he1, he2⟩ := decimalExponent_spec |x| hlo hhi
    set e := decimalExponent |x| with he
    have hu : (0 : ℚ) < (10 : ℚ) ^ (e - 5) := by positivity
    have hsplit : (10 : ℚ) ^ e = 100000 * (10 : ℚ) ^ (e - 5) := by
      have h5 : (10 : ℚ) ^ (5 : ℤ) = 100000 := by norm_num
      rw [zpow_sub₀ (by norm_num : (10 : ℚ) ≠ 0), h5]
      ring
    have hsplit2 : (10 : ℚ) ^ (e + 1) = 1000000 * (10 : ℚ) ^ (e - 5) := by
      rw [zpow_add₀ (by norm_num : (10 : ℚ) ≠ 0), hsplit]
      ring
    set t := |x| / (10 : ℚ) ^ (e - 5) with ht
    have ht1 : (100000 : ℚ) ≤ t := by
      rw [ht, le_div_iff₀ hu, ← hsplit]
      exact he1
    have ht2 : t < 1000000 := by
      rw [ht, div_lt_iff₀ hu, ← hsplit2]
      exact he2
    set n : ℤ := Rat.floor (t + 1 / 2) with hn
    have hfl : (n : ℚ) ≤ t + 1 / 2 := by
      rw [hn]
      exact Int.floor_le (t + 1 / 2)
    have hfl2 : t + 1 / 2 < (n : ℚ) + 1 := by
      rw [hn]
      exact Int.lt_floor_add_one (t + 1 / 2)
    have hn1 : (100000 : ℤ) ≤ n := by
      have : ((100000 : ℤ) : ℚ) < (n : ℚ) + 1 := by push_cast; linarith
      have : (100000 : ℤ) < n + 1 := by exact_mod_cast this
      omega
    have hn2 : n ≤ (1000000 : ℤ) := by
      have : (n : ℚ) < ((1000000 : ℤ) : ℚ) + 1 := by push_cast; linarith
      have : n < (1000000 : ℤ) + 1 := by exact_mod_cast this
      omega
    have hxt : |x| = t * (10 : ℚ) ^ (e - 5) := by
      rw [ht, div_mul_cancel₀ _ (ne_of_gt hu)]
    refine ⟨if x < 0 then -((n : ℚ) * (10 : ℚ) ^ (e - 5)) else (n : ℚ) * (10 : ℚ) ^ (e - 5),
      ?_, Or.inr ⟨e, n, he1, he2, hn1, hn2, ?_, ?_, ?_⟩⟩
    · show (if x = 0 then JSNum.fin 0 else _) = _
      rw [if_neg hx]
      simp only [pow10_eq_zpow]
    · split_ifs <;> ring
    · rw [hxt]
      nlinarith
    · rw [hxt]
      nlinarith

theorem formatNumber_nonneg (cv : Conv) (q : ℚ) (h0 : 0 ≤ q) :
    formatNumber cv (.num (JSNum.fin q))
      = toFixed cv (if 100 ≤ |q| then 0 else if 10 ≤ |q| then 1 else 2) (JSNum.fin q) := by
  rw [formatNumber_fin, abs_of_nonneg h0]

/-- Claim C17. `formatNumber` chooses the number of decimals by the signed value, not
by its size: a number `q` is written with 0 decimals for `q ≥ 100`, with 1 for
`10 ≤ q < 100` and with 2 below 10, so every `q ≤ -10` gets 2 decimals. For -234.9
the result is `"-234.90"`, where 0 decimals give `"-235"`. The three examples of the
claim, which are positive, come out as stated. -/
theorem formatNumber_decimals_by_signed_value (cv : Conv) (q : ℚ) :
    formatNumber cv (.num (JSNum.fin q))
        = toFixed cv (if 100 ≤ q then 0 else if 10 ≤ q then 1 else 2) (JSNum.fin q) ∧
      formatNumber Conv.plain (.num (JSNum.fin (-2349 / 10))) = "-234.90" ∧
      toFixed Conv.plain 0 (JSNum.fin (-2349 / 10)) = "-235" ∧
      formatNumber Conv.plain (.num (JSNum.fin 5)) = "5.00" ∧
      formatNumber Conv.plain (.num (JSNum.fin (1234 / 100))) = "12.3" ∧
      formatNumber Conv.plain (.num (JSNum.fin (2349 / 10))) = "235" :=
  ⟨formatNumber_fin cv q, by decide!, by decide!, by decide!, by decide!, by decide!⟩

theorem percent_supported (cv : Conv) (value : JSVal) (h : supported cv value = true) :
    percent cv value = "<0.1" ∨ percent cv value = toFixed cv 1 (toNumber cv value) := by
  unfold percent
  rw [if_pos h]
  split_ifs
  · exact Or.inl rfl
  · exact Or.inr rfl

theorem percent_ne_placeholder (cv : Conv) (value : JSVal) (h : supported cv value = true) :
    percent cv value ≠ "not supported " := by
  rcases percent_supported cv value h with h1 | h1 <;> rw [h1]
  · decide
  · exact toFixed_ne_placeholder cv _ _

theorem formatPreciseNumber_supported (cv : Conv) (num : JSVal)
    (h : supported cv num = true) :
    formatPreciseNumber cv num
      = if (formatNumber cv num).length
            ≤ (numberToString cv (toPrecision6 (toNumber cv num))).length
        then numberToString cv (toPrecision6 (toNumber cv num))
        else formatNumber cv num := by
  unfold formatPreciseNumber
  rw [if_pos h]

theorem formatPreciseNumber_ne_placeholder (cv : Conv) (num : JSVal)
    (h : supported cv num = true) :
    formatPreciseNumber cv num ≠ "not supported " := by
  rw [formatPreciseNumber_supported cv num h]
  split_ifs
  · exact numberToString_ne_placeholder cv _
  · exact formatNumber_ne_placeholder cv num h

theorem placeholder_iff (cv : Conv) (num : JSVal) (f : Conv → JSVal → String)
    (hno : supported cv num = false → f cv num = "not supported ")
    (hyes : supported cv num = true → f cv num ≠ "not supported ") :
    f cv num = "not supported " ↔
      (num = .null ∨ num = .str "" ∨ (toNumber cv num).isFinite = false) := by
  rw [← supported_iff]
  constructor
  · intro h
    by_contra hs
    exact hyes (by simpa using hs) h
  · exact hno

/-- Claim C18. The three formatters `formatNumber`, `formatPreciseNumber` and `percent`
are total functions to strings, and each returns the placeholder `'not supported '`
exactly when the input is `null`, the empty string, or converts to a number that is
not finite (`NaN`, an infinity; `undefined` and text that is no number convert to
`NaN`). For every other input the result is a formatted number: `toFixed` with 0, 1
or 2 decimals for `formatNumber`; `'<0.1'` or `toFixed` with 1 decimal for `percent`;
the text of the number to six digits or the result of `formatNumber` for
`formatPreciseNumber`. -/
theorem formatters_placeholder (cv : Conv) (num : JSVal) :
    (formatNumber cv num = "not supported " ↔
        (num = .null ∨ num = .str "" ∨ (toNumber cv num).isFinite = false)) ∧
      (formatPreciseNumber cv num = "not supported " ↔
        (num = .null ∨ num = .str "" ∨ (toNumber cv num).isFinite = false)) ∧
      (percent cv num = "not supported " ↔
        (num = .null ∨ num = .str "" ∨ (toNumber cv num).isFinite = false)) ∧
      ((num = .null ∨ num = .str "" ∨ (toNumber cv num).isFinite = false) ∨
        ((formatNumber cv num = toFixed cv 0 (toNumber cv num) ∨
            formatNumber cv num = toFixed cv 1 (toNumber cv num) ∨
            formatNumber cv num = toFixed cv 2 (toNumber cv num)) ∧
          (percent cv num = "<0.1" ∨ percent cv num = toFixed cv 1 (toNumber cv num)) ∧
          (formatPreciseNumber cv num
              = numberToString cv (toPrecision6 (toNumber cv num)) ∨
            formatPreciseNumber cv num = formatNumber cv num))) := by
  refine ⟨placeholder_iff cv num formatNumber ?_ (formatNumber_ne_placeholder cv num),
    placeholder_iff cv num formatPreciseNumber ?_ (formatPreciseNumber_ne_placeholder cv num),
    placeholder_iff cv num percent ?_ (percent_ne_placeholder cv num), ?_⟩
  · intro h
    unfold formatNumber
    rw [h]
    rfl
  · intro h
    unfold formatPreciseNumber
    rw [h]
    rfl
  · intro h
    unfold percent
    rw [h]
    rfl
  · rw [← supported_iff]
    by_cases hs : supported cv num = true
    · refine Or.inr ⟨formatNumber_supported cv num hs, percent_supported cv num hs, ?_⟩
      rw [formatPreciseNumber_supported cv num hs]
      split_ifs
      · exact Or.inl rfl
      · exact Or.inr rfl
    · exact Or.inl (by simpa using hs)

/-- Claim C19. For an input that is not `null`, not the empty string and converts to a
finite number `x` in the range of the doubles, `formatPreciseNumber` compares
`precise`, the text of `x` to six significant digits (the text of a number has no
trailing zeros), with `short = formatNumber(x)`: the result is `precise` when
`precise` is at least as long as `short`, and `short` otherwise; it is one of the
two, and never shorter than `short`. -/
theorem formatPreciseNumber_longer (cv : Conv) (num : JSVal) (x : ℚ)
    (hnull : num ≠ .null) (hempty : num ≠ .str "") (hfin : toNumber cv num = JSNum.fin x)
    (hrange : x = 0 ∨ ((10 : ℚ) ^ (-324 : ℤ) ≤ |x| ∧ |x| < (10 : ℚ) ^ (309 : ℤ))) :
    ∃ v, toPrecision6 (JSNum.fin x) = JSNum.fin v ∧ SixDigits x v ∧
      formatPreciseNumber cv num
        = (if (formatNumber cv num).length ≤ (numberToString cv (JSNum.fin v)).length
            then numberToString cv (JSNum.fin v) else formatNumber cv num) ∧
      (formatNumber cv num).length ≤ (formatPreciseNumber cv num).length ∧
      ((numberToString cv (JSNum.fin v)).length < (formatNumber cv num).length ∨
        formatPreciseNumber cv num = numberToString cv (JSNum.fin v)) := by
  obtain ⟨v, hv, hsix⟩ := toPrecision6_six_digits x hrange
  have hs : supported cv num = true := by
    have := supported_iff cv num
    by_contra hc
    rcases this.mp (by simpa using hc) with h | h | h
    · exact hnull h
    · exact hempty h
    · rw [hfin] at h
      cases h
  have heq := formatPreciseNumber_supported cv num hs
  rw [hfin, hv] at heq
  refine ⟨v, hv, hsix, heq, ?_, ?_⟩
  · rw [heq]
    split_ifs with h
    · exact h
    · exact le_refl _
  · rw [heq]
    by_cases h : (formatNumber cv num).length ≤ (numberToString cv (JSNum.fin v)).length
    · rw [if_pos h]
      exact Or.inr rfl
    · exact Or.inl (not_le.mp h)

/-- Witness for C19: 1234567 has seven digits, to six digits it is 1234570, whose text
is as long as `"1234567"`, so the result is `"1234570"`; for 5 the text `"5"` is
shorter than `"5.00"`, so the result is `"5.00"`. -/
theorem formatPreciseNumber_longer_witness :
    (∃ v, toPrecision6 (JSNum.fin 1234567) = JSNum.fin v ∧ SixDigits 1234567 v ∧
      formatPreciseNumber Conv.plain (.num (JSNum.fin 1234567))
        = (if (formatNumber Conv.plain (.num (JSNum.fin 1234567))).length
              ≤ (numberToString Conv.plain (JSNum.fin v)).length
            then numberToString Conv.plain (JSNum.fin v)
            else formatNumber Conv.plain (.num (JSNum.fin 1234567))) ∧
      (formatNumber Conv.plain (.num (JSNum.fin 1234567))).length
        ≤ (formatPreciseNumber Conv.plain (.num (JSNum.fin 1234567))).length ∧
      ((numberToString Conv.plain (JSNum.fin v)).length
          < (formatNumber Conv.plain (.num (JSNum.fin 1234567))).length ∨
        formatPreciseNumber Conv.plain (.num (JSNum.fin 1234567))
          = numberToString Conv.plain (JSNum.fin v))) ∧
    toPrecision6 (JSNum.fin 1234567) = JSNum.fin 1234570 ∧
    formatNumber Conv.plain (.num (JSNum.fin 1234567)) = "1234567" ∧
    formatPreciseNumber Conv.plain (.num (JSNum.fin 1234567)) = "1234570" ∧
    formatPreciseNumber Conv.plain (.num (JSNum.fin 5)) = "5.00" :=
  ⟨formatPreciseNumber_longer Conv.plain (.num (JSNum.fin 1234567)) 1234567
      (by simp) (by simp) rfl
      (Or.inr ⟨by rw [abs_of_nonneg (by norm_num)]
                  exact le_trans (zpow_le_one_of_nonpos₀ (by norm_num) (by norm_num))
                    (by norm_num),
                by rw [abs_of_nonneg (by norm_num)]
                   exact lt_of_lt_of_le (by norm_num : (1234567 : ℚ) < 10 ^ (7 : ℤ))
                    (zpow_le_zpow_right₀ (by norm_num) (by norm_num))⟩),
    by decide!, by decide!, by decide!, by decide!⟩

/-! ## C20: `chooseFactor` -/

theorem chooseFactorLoop_none (value : JSNum) (factors : List Factor) :
    chooseFactorLoop value factors = none ↔
      ∀ g ∈ factors, value.abs.ge g.factor = false := by
  induction factors with
  | nil => simp [chooseFactorLoop]
  | cons f rest ih =>
      unfold chooseFactorLoop
      by_cases h : value.abs.ge f.factor = true
      · simp [h]
      · simp [h, ih]

theorem chooseFactorLoop_some (value : JSNum) (factors : List Factor) (f : Factor) :
    chooseFactorLoop value factors = some f ↔
      ∃ before after, factors = before ++ f :: after ∧ value.abs.ge f.factor = true ∧
        ∀ g ∈ before, value.abs.ge g.factor = false := by
  induction factors with
  | nil => simp [chooseFactorLoop]
  | cons x rest ih =>
      unfold chooseFactorLoop
      by_cases h : value.abs.ge x.factor = true
      · rw [if_pos h]
        constructor
        · intro hx
          cases hx
          exact ⟨[], rest, rfl, h, by simp⟩
        · rintro ⟨before, after, heq, hf, hb⟩
          cases before with
          | nil =>
              simp only [List.nil_append, List.cons.injEq] at heq
              rw [heq.1]
          | cons b bs =>
              simp only [List.cons_append, List.cons.injEq] at heq
              have := hb b (by simp)
              rw [← heq.1] at this
              rw [this] at h
              cases h
      · rw [if_neg h, ih]
        constructor
        · rintro ⟨before, after, heq, hf, hb⟩
          refine ⟨x :: before, after, by rw [heq]; rfl, hf, ?_⟩
          intro g hg
          rcases List.mem_cons.mp hg with rfl | hg
          · simpa using h
          · exact hb g hg
        · rintro ⟨before, after, heq, hf, hb⟩
          cases before with
          | nil =>
              simp only [List.nil_append, List.cons.injEq] at heq
              rw [heq.1] at h
              exact absurd hf h
          | cons b bs =>
              simp only [List.cons_append, List.cons.injEq] at heq
              exact ⟨bs, after, heq.2, hf, fun g hg => hb g (List.mem_cons_of_mem _ hg)⟩

theorem pairwise_last_least (init : List Factor) (f : Factor)
    (hdesc : (init ++ [f]).Pairwise fun a b => b.factor.le a.factor = true) :
    ∀ g ∈ init, f.factor.le g.factor = true := by
  intro g hg
  rw [List.pairwise_append] at hdesc
  exact hdesc.2.2 g hg f (by simp)

/-- Claim C20. For every value and every non-empty table of factors in descending
order, `chooseFactor` returns an entry of the table: the first entry whose factor
`|value|` reaches, every entry of a smaller factor coming after it; and when `|value|`
reaches no factor, the last entry, whose factor is at most every other one. -/
theorem chooseFactor_first_reached (cv : Conv) (value : JSVal) (factors : List Factor)
    (hne : factors ≠ [])
    (hdesc : factors.Pairwise fun a b => b.factor.le a.factor = true) :
    ∃ f, chooseFactor cv value factors = some f ∧ f ∈ factors ∧
      ((∃ before after, factors = before ++ f :: after ∧
          (toNumber cv value).abs.ge f.factor = true ∧
          (∀ g ∈ before, (toNumber cv value).abs.ge g.factor = false) ∧
          (∀ g ∈ after, g.factor.le f.factor = true)) ∨
        (∃ init, factors = init ++ [f] ∧
          (∀ g ∈ factors, (toNumber cv value).abs.ge g.factor = false) ∧
          (∀ g ∈ init, f.factor.le g.factor = true))) := by
  unfold chooseFactor
  cases hloop : chooseFactorLoop (toNumber cv value) factors with
  | some f =>
      obtain ⟨before, after, heq, hf, hb⟩ := (chooseFactorLoop_some _ _ _).mp hloop
      refine ⟨f, rfl, by rw [heq]; simp, Or.inl ⟨before, after, heq, hf, hb, ?_⟩⟩
      intro g hg
      rw [heq, List.pairwise_append] at hdesc
      exact (List.pairwise_cons.mp hdesc.2.1).1 g hg
  | none =>
      have hall := (chooseFactorLoop_none _ _).mp hloop
      obtain ⟨init, f, heq⟩ : ∃ init f, factors = init ++ [f] :=
        ⟨factors.dropLast, factors.getLast hne, (List.dropLast_append_getLast hne).symm⟩
      refine ⟨f, by simp [heq], by simp [heq], Or.inr ⟨init, heq, hall, ?_⟩⟩
      rw [heq] at hdesc
      exact pairwise_last_least init f hdesc

/-- Witness for C20: the SI table is not empty and descends, so the statement applies
to the value 1,500,000; the entry chosen there is the one with prefix `M`. -/
theorem chooseFactor_first_reached_witness :
    (∃ f, chooseFactor Conv.plain (.num (JSNum.fin 1500000)) siFactors = some f ∧
      f ∈ siFactors ∧
      ((∃ before after, siFactors = before ++ f :: after ∧
          (toNumber Conv.plain (.num (JSNum.fin 1500000))).abs.ge f.factor = true ∧
          (∀ g ∈ before,
            (toNumber Conv.plain (.num (JSNum.fin 1500000))).abs.ge g.factor = false) ∧
          (∀ g ∈ after, g.factor.le f.factor = true)) ∨
        (∃ init, siFactors = init ++ [f] ∧
          (∀ g ∈ siFactors,
            (toNumber Conv.plain (.num (JSNum.fin 1500000))).abs.ge g.factor = false) ∧
          (∀ g ∈ init, f.factor.le g.factor = true)))) ∧
    chooseFactor Conv.plain (.num (JSNum.fin 1500000)) siFactors
      = some ⟨JSNum.fin (10 ^ 6), "M"⟩ :=
  ⟨chooseFactor_first_reached Conv.plain (.num (JSNum.fin 1500000)) siFactors
      (by simp [siFactors]) (by with_unfolding_all decide),
    by with_unfolding_all rfl⟩

/-! ## C21 and C22: `factorValue` and `factorUnits` -/

theorem chooseFactor_some (cv : Conv) (value : JSVal) (factors : List Factor)
    (hne : factors ≠ []) : ∃ f, chooseFactor cv value factors = some f ∧ f ∈ factors := by
  unfold chooseFactor
  cases hloop : chooseFactorLoop (toNumber cv value) factors with
  | some f =>
      obtain ⟨before, after, heq, _, _⟩ := (chooseFactorLoop_some _ _ _).mp hloop
      exact ⟨f, rfl, by rw [heq]; simp⟩
  | none =>
      refine ⟨factors.getLast hne, ?_, List.getLast_mem hne⟩
      simp [List.getLast?_eq_getLast, hne]

/-- Claim C21. For a value other than `null` and `undefined` and a non-empty table,
`factorValue` returns the number `value / f.factor` for the entry `f` that
`chooseFactor` selects; when the value is the finite number `q` and the factor the
positive number `p` this is `q / p`, which has the sign of `q`. The values `null` and
`undefined` are returned as they are, for every table, the empty one included. -/
theorem factorValue_scaled (cv : Conv) (value : JSVal) (factors : List Factor)
    (hvalue : value.isNullish = false) (hne : factors ≠ []) :
    (∃ f, chooseFactor cv value factors = some f ∧ f ∈ factors ∧
      factorValue cv value factors = .ok (.num ((toNumber cv value).div f.factor)) ∧
      ∀ q p : ℚ, toNumber cv value = JSNum.fin q → f.factor = JSNum.fin p → 0 < p →
        factorValue cv value factors = .ok (.num (JSNum.fin (q / p))) ∧
          (0 < q / p ↔ 0 < q) ∧ (q / p < 0 ↔ q < 0)) ∧
      (∀ table, factorValue cv .null table = .ok .null) ∧
      (∀ table, factorValue cv .undefined table = .ok .undefined) := by
  obtain ⟨f, hf, hmem⟩ := chooseFactor_some cv value factors hne
  have hval : factorValue cv value factors
      = .ok (.num ((toNumber cv value).div f.factor)) := by
    unfold factorValue
    rw [hvalue, hf]
    rfl
  refine ⟨⟨f, hf, hmem, hval, ?_⟩, fun _ => rfl, fun _ => rfl⟩
  intro q p hq hp hpos
  refine ⟨?_, div_pos_iff_of_pos_right hpos, by rw [div_lt_iff₀ hpos, zero_mul]⟩
  rw [hval, hq, hp]
  simp [JSNum.div, ne_of_gt hpos]

/-- Witness for C21: 1,500,000 is not `null` and the SI table is not empty; the result
there is the number 1.5. -/
theorem factorValue_scaled_witness :
    ((∃ f, chooseFactor Conv.plain (.num (JSNum.fin 1500000)) siFactors = some f ∧
      f ∈ siFactors ∧
      factorValue Conv.plain (.num (JSNum.fin 1500000)) siFactors
        = .ok (.num ((toNumber Conv.plain (.num (JSNum.fin 1500000))).div f.factor)) ∧
      ∀ q p : ℚ, toNumber Conv.plain (.num (JSNum.fin 1500000)) = JSNum.fin q →
        f.factor = JSNum.fin p → 0 < p →
        factorValue Conv.plain (.num (JSNum.fin 1500000)) siFactors
            = .ok (.num (JSNum.fin (q / p))) ∧
          (0 < q / p ↔ 0 < q) ∧ (q / p < 0 ↔ q < 0)) ∧
      (∀ table, factorValue Conv.plain .null table = .ok .null) ∧
      (∀ table, factorValue Conv.plain .undefined table = .ok .undefined)) ∧
    factorValue Conv.plain (.num (JSNum.fin 1500000)) siFactors
      = .ok (.num (JSNum.fin (3 / 2))) :=
  ⟨factorValue_scaled Conv.plain (.num (JSNum.fin 1500000)) siFactors rfl
      (by simp [siFactors]),
    by with_unfolding_all rfl⟩

theorem orValue_explicit (a : Option String) (b : UnitsValue) :
    orValue (.ofOption a) b = match explicit a with
      | some s => .text s
      | none => b := by
  cases a with
  | none => rfl
  | some s =>
      unfold orValue explicit UnitsValue.ofOption
      by_cases h : s = "" <;> simp [h]

theorem tableGet_plain (table : List (String × String)) (u : String)
    (hu : u ∉ objectPrototypeNames) (hk : table.lookup u = none) :
    tableGet table (some u) = .undefined := by
  simp [tableGet, propertyKey, readPlain, hk, hu]

theorem symbol_chain (inheritedText : String → String) (options : UnitOptions)
    (hunits : PlainName options.units) :
    (orValue (.ofOption options.symbol)
      (orValue (tableGet knownSymbols options.units)
        (orValue (.ofOption options.units) (.text "")))).toText inheritedText
      = symbolOf options := by
  obtain ⟨symbol, units⟩ := options
  simp only [orValue_explicit, symbolOf]
  cases hs : explicit symbol with
  | some s => rfl
  | none =>
      cases units with
      | none => rfl
      | some u =>
          by_cases hu : u = ""
          · subst hu
            rfl
          · have he : explicit (some u) = some u := by simp [explicit, hu]
            by_cases h1 : u = "bytes"
            · subst h1
              rfl
            · by_cases h2 : u = "bytes/s"
              · subst h2
                rfl
              · have b1 : (u == "bytes") = false := by simpa using h1
                have b2 : (u == "bytes/s") = false := by simpa using h2
                have hk : tableGet knownSymbols (some u) = .undefined :=
                  tableGet_plain _ u (hunits u rfl) (by
                    simp [knownSymbols, List.lookup, b1, b2])
                simp only [hk, he, explicit, orValue]
                split <;> simp_all [UnitsValue.toText]

theorem units_chain (options : UnitOptions) (hsymbol : PlainName options.symbol) :
    orValue (.ofOption options.units)
      (orValue (tableGet knownUnits options.symbol)
        (orValue (.ofOption options.symbol) (.text ""))) = .text (unitsOf options) := by
  obtain ⟨symbol, units⟩ := options
  simp only [orValue_explicit, unitsOf]
  cases hs : explicit units with
  | some s => rfl
  | none =>
      cases symbol with
      | none => rfl
      | some u =>
          by_cases hu : u = ""
          · subst hu
            rfl
          · have he : explicit (some u) = some u := by simp [explicit, hu]
            by_cases h1 : u = "B"
            · subst h1
              rfl
            · by_cases h2 : u = "B/s"
              · subst h2
                rfl
              · have b1 : (u == "B") = false := by simpa using h1
                have b2 : (u == "B/s") = false := by simpa using h2
                have hk : tableGet knownUnits (some u) = .undefined :=
                  tableGet_plain _ u (hsymbol u rfl) (by
                    simp [knownUnits, List.lookup, b1, b2])
                simp only [hk, he, explicit, orValue]
                split <;> simp_all

/-- For options whose units and symbol are not names of properties of
`Object.prototype`, `factorUnits` returns the prefix of the chosen entry followed by
the symbol when that prefix is not empty, and the units otherwise. -/
theorem factorUnits_of_plain_names (cv : Conv) (inheritedText : String → String)
    (value : JSVal) (factors : List Factor) (options : UnitOptions) (hne : factors ≠ [])
    (hunits : PlainName options.units) (hsymbol : PlainName options.symbol) :
    ∃ f, chooseFactor cv value factors = some f ∧ f ∈ factors ∧
      factorUnits cv inheritedText value factors options
        = .ok (.text (if f.prefixText ≠ "" then f.prefixText ++ symbolOf options
            else unitsOf options)) := by
  obtain ⟨f, hf, hmem⟩ := chooseFactor_some cv value factors hne
  refine ⟨f, hf, hmem, ?_⟩
  unfold factorUnits
  simp only [hf, symbol_chain inheritedText options hunits, units_chain options hsymbol]
  split_ifs <;> rfl

/-- Claim C22 at the failing input `factorUnits(2048, iecFactors, {units:
'constructor'})`: the read `knownSymbols['constructor']` finds the function `Object`
that every plain object inherits, so the symbol is that function and the result is
`'ki'` followed by the text of the function, where the statement gives the prefix
followed by the units, `'kiconstructor'`. In the same way
`factorUnits(5, iecFactors, {symbol: 'constructor'})` returns the function itself and
not the string `'constructor'`. The two examples of the statement hold: `'kiB'` for
2048 with the units `bytes`, and `'bytes'` for 5 with the symbol `B`. -/
theorem factorUnits_reads_inherited_symbol :
    (∀ inheritedText, factorUnits Conv.plain inheritedText (.num (JSNum.fin 2048)) iecFactors
        ⟨none, some "constructor"⟩ = .ok (.text ("ki" ++ inheritedText "constructor"))) ∧
      factorUnits Conv.plain nativeText (.num (JSNum.fin 2048)) iecFactors
        ⟨none, some "constructor"⟩
        = .ok (.text "kifunction Object() \x7b [native code] \x7d") ∧
      symbolOf ⟨none, some "constructor"⟩ = "constructor" ∧
      (∀ inheritedText, factorUnits Conv.plain inheritedText (.num (JSNum.fin 5)) iecFactors
        ⟨some "constructor", none⟩ = .ok (.inherited "constructor")) ∧
      unitsOf ⟨some "constructor", none⟩ = "constructor" ∧
      (∀ inheritedText, iecUnits Conv.plain inheritedText (.num (JSNum.fin 2048))
        ⟨none, some "bytes"⟩ = .ok (.text "kiB")) ∧
      (∀ inheritedText, iecUnits Conv.plain inheritedText (.num (JSNum.fin 5))
        ⟨some "B", none⟩ = .ok (.text "bytes")) := by
  refine ⟨fun _ => by with_unfolding_all rfl, by with_unfolding_all rfl,
    by with_unfolding_all rfl, fun _ => by with_unfolding_all rfl,
    by with_unfolding_all rfl, fun _ => by with_unfolding_all rfl,
    fun _ => by with_unfolding_all rfl⟩

/-! ## C26: `collapseWhitespace` -/

theorem collapseFrom_chars (l : List Char) :
    ∀ inRun c, c ∈ collapseFrom inRun l → c = ' ' ∨ isWhitespace c = false := by
  induction l with
  | nil => intro inRun c h; simp [collapseFrom] at h
  | cons x xs ih =>
      intro inRun c h
      unfold collapseFrom at h
      by_cases hx : isWhitespace x = true
      · rw [if_pos hx] at h
        cases inRun with
        | true => exact ih true c (by simpa using h)
        | false =>
            simp only [Bool.false_eq_true, if_false] at h
            rcases List.mem_cons.mp h with h | h
            · exact Or.inl h
            · exact ih true c h
      · rw [if_neg hx] at h
        rcases List.mem_cons.mp h with h | h
        · exact Or.inr (by rw [h]; simpa using hx)
        · exact ih false c h

theorem collapseFrom_head (l : List Char) :
    ∀ c, (collapseFrom true l).head? = some c → isWhitespace c = false := by
  induction l with
  | nil => intro c h; simp [collapseFrom] at h
  | cons x xs ih =>
      intro c h
      unfold collapseFrom at h
      by_cases hx : isWhitespace x = true
      · rw [if_pos hx, if_pos rfl] at h
        exact ih c h
      · rw [if_neg hx] at h
        simp only [List.head?_cons, Option.some.injEq] at h
        rw [← h]
        simpa using hx

/-- No two neighbours of the list are both a space. -/
theorem collapseFrom_chain (l : List Char) :
    ∀ inRun, (collapseFrom inRun l).Chain' fun a b => ¬(a = ' ' ∧ b = ' ') := by
  induction l with
  | nil => intro inRun; simp [collapseFrom]
  | cons x xs ih =>
      intro inRun
      unfold collapseFrom
      by_cases hx : isWhitespace x = true
      · rw [if_pos hx]
        cases inRun with
        | true => simpa using ih true
        | false =>
            simp only [Bool.false_eq_true, if_false]
            rw [List.chain'_cons']
            refine ⟨?_, ih true⟩
            intro c hc hcc
            have := collapseFrom_head xs c hc
            rw [hcc.2] at this
            exact absurd this (by decide)
      · rw [if_neg hx, List.chain'_cons']
        refine ⟨?_, ih false⟩
        intro c _ hcc
        rw [hcc.1] at hx
        exact hx (by decide)

theorem collapseFrom_fixed (l : List Char)
    (hchars : ∀ c ∈ l, c = ' ' ∨ isWhitespace c = false)
    (hchain : l.Chain' fun a b => ¬(a = ' ' ∧ b = ' ')) :
    collapseFrom false l = l ∧
      ((∀ c, l.head? = some c → isWhitespace c = false) → collapseFrom true l = l) := by
  induction l with
  | nil => simp [collapseFrom]
  | cons x xs ih =>
      have hxs := ih (fun c hc => hchars c (List.mem_cons_of_mem _ hc))
        (List.chain'_cons'.mp hchain).2
      by_cases hx : isWhitespace x = true
      · have hsp : x = ' ' := by
          rcases hchars x (by simp) with h | h
          · exact h
          · rw [h] at hx
            cases hx
        have hhead : ∀ c, xs.head? = some c → isWhitespace c = false := by
          intro c hc
          have hne : ¬(x = ' ' ∧ c = ' ') := (List.chain'_cons'.mp hchain).1 c hc
          rcases hchars c (List.mem_cons_of_mem _ (List.mem_of_mem_head? hc)) with h | h
          · exact absurd ⟨hsp, h⟩ hne
          · exact h
        constructor
        · unfold collapseFrom
          rw [if_pos hx]
          simp only [Bool.false_eq_true, if_false]
          rw [hxs.2 hhead, hsp]
        · intro h
          have := h x rfl
          rw [this] at hx
          cases hx
      · constructor
        · unfold collapseFrom
          rw [if_neg hx, hxs.1]
        · intro _
          unfold collapseFrom
          rw [if_neg hx, hxs.1]

/-- Claim C26. For every string `s`, collapsing the collapsed text gives the collapsed
text again; the collapsed text holds no tab, carriage return or newline, and no two
spaces next to each other. -/
theorem collapseWhitespace_idempotent (s : String) :
    collapseWhitespace (collapseWhitespace s) = collapseWhitespace s ∧
      (∀ c ∈ (collapseWhitespace s).data, c ≠ '\t' ∧ c ≠ '\r' ∧ c ≠ '\n') ∧
      (collapseWhitespace s).data.Chain' fun a b => ¬(a = ' ' ∧ b = ' ') := by
  refine ⟨?_, ?_, collapseFrom_chain s.data false⟩
  · unfold collapseWhitespace collapseChars
    rw [(collapseFrom_fixed _ (collapseFrom_chars s.data false)
      (collapseFrom_chain s.data false)).1]
  · intro c hc
    rcases collapseFrom_chars s.data false c hc with h | h
    · rw [h]
      decide
    · refine ⟨?_, ?_, ?_⟩ <;> intro hcc <;> rw [hcc] at h <;> exact absurd h (by decide)

/-! ## C23 and C24: `parsedHtmlToText` -/

theorem textData_plain (dec : Decoder) (data : String) (h : '&' ∉ data.data) :
    textData dec ⟨0, true⟩ data = collapseWhitespace data := by
  unfold textData
  rw [dec.decode_plain data h]
  rfl

theorem paragraphBreakText_text (dec : Decoder) :
    htmlToText dec paragraphBreakText (some ⟨some 0, some true⟩) = "a b\n\n\nc" ∧
      htmlToText dec paragraphBreakText none = "a b\n\n\nc" := by
  have h1 := textData_plain dec "a  b" (by decide)
  have h2 := textData_plain dec "c" (by decide)
  have key : parsedHtmlToText dec paragraphBreakText ⟨0, true⟩ = "a b\n\n\nc" := by
    simp only [parsedHtmlToText, paragraphBreakText, elementsToText, htmlElementToText, h1, h2]
    decide
  exact ⟨key, key⟩

/-- Counterexample for C23: the tree of `<p>a  b</p><br>c` with the default options
(`collapseWhitespace` true, `wrap` false), given or left out, does not convert to
`"a b\nc"`; the texts of the tree hold no entity, so the decoder plays no part. -/
theorem paragraph_break_is_not_one_newline :
    htmlToText Decoder.identity paragraphBreakText (some ⟨some 0, some true⟩) ≠ "a b\nc" ∧
      htmlToText Decoder.identity paragraphBreakText none ≠ "a b\nc" := by
  rw [(paragraphBreakText_text Decoder.identity).1,
    (paragraphBreakText_text Decoder.identity).2]
  exact ⟨by decide, by decide⟩

/-- Claim C23, amended. A `p` tag holding a text, then a `br` tag, then a text convert
to the first text, the two newlines that close a `p` tag, the newline of the `br` tag
and the second text; for the tree of `<p>a  b</p><br>c` with `collapseWhitespace`
true and `wrap` false this is `"a b\n\n\nc"`. -/
theorem paragraph_then_break (dec : Decoder) (options : TextOptions) (t1 t2 : String) :
    parsedHtmlToText dec [.tag "p" [.text t1], .tag "br" [], .text t2] options
        = textData dec options t1 ++ "\n\n" ++ "\n" ++ textData dec options t2 ∧
      htmlToText dec paragraphBreakText (some ⟨some 0, some true⟩) = "a b\n\n\nc" ∧
      htmlToText dec paragraphBreakText none = "a b\n\n\nc" := by
  refine ⟨?_, paragraphBreakText_text dec⟩
  simp [parsedHtmlToText, elementsToText, htmlElementToText, blockElements]

theorem blockInSpan_text (dec : Decoder) :
    htmlToText dec blockInSpan none = "xy\n" ∧
      parsedHtmlToText dec [.tag "div" [.text "y"]] ⟨0, true⟩ = "y\n" := by
  have h1 := textData_plain dec "x" (by decide)
  have h2 := textData_plain dec "y" (by decide)
  constructor
  · show parsedHtmlToText dec blockInSpan ⟨0, true⟩ = "xy\n"
    simp only [parsedHtmlToText, blockInSpan, elementsToText, htmlElementToText, h1, h2]
    decide
  · simp only [parsedHtmlToText, elementsToText, htmlElementToText, h2]
    decide

/-- Within one list of elements a block-level tag starts on a new line: its content
is appended to `result` as it is when `result` is empty or ends with a newline, and to
`result` followed by a newline otherwise. -/
theorem block_tag_starts_line (dec : Decoder) (options : TextOptions) (result name : String)
    (children : List HtmlNode) (hblock : name ∈ blockElements) :
    ∃ closing : String,
      htmlElementToText dec options result (.tag name children)
        = (if result.length > 0 && lastIsNotNewline result then result ++ "\n" else result)
          ++ elementsToText dec options "" children ++ closing := by
  have hbr : name ≠ "br" := by
    intro h
    rw [h] at hblock
    exact absurd hblock (by decide)
  unfold htmlElementToText
  simp only [if_neg hbr, if_pos hblock]
  split_ifs <;>
    first
      | exact ⟨"\n\n", rfl⟩
      | exact ⟨"\n", rfl⟩
      | exact ⟨"", by simp⟩

/-- Claim C24. The tree of `x<span><div>y</div></span>` converts to `"xy\n"`: the text
`"y\n"` of the `div` follows the `x` with no newline between them. The inner call for
the children of the `span` starts from an empty `result`, so the test for a newline
before the block does not see the `x`. -/
theorem nested_block_does_not_start_a_line (dec : Decoder) :
    htmlToText dec blockInSpan none = "xy\n" ∧
      parsedHtmlToText dec [.tag "div" [.text "y"]] ⟨0, true⟩ = "y\n" ∧
      htmlToText dec blockInSpan none
        = "x" ++ parsedHtmlToText dec [.tag "div" [.text "y"]] ⟨0, true⟩ := by
  obtain ⟨h1, h2⟩ := blockInSpan_text dec
  refine ⟨h1, h2, ?_⟩
  rw [h1, h2]
  decide

/-! ## C25: `wrapText` -/

theorem set_at_length (a b : List Char) (x y : Char) :
    (a ++ x :: b).set a.length y = a ++ y :: b := by
  induction a with
  | nil => rfl
  | cons h t ih => simp [ih]

theorem joinLines_append (lines : List (List Char)) (line : List Char) :
    joinLines (lines ++ [line]) = joinLines lines ++ (line ++ ['\n']) := by
  simp [joinLines]

theorem newline_not_wrappable : '\n' ∉ wrappableChars := by decide

theorem wrapInv_finish (W : Nat) (i : Nat) (cs : List Char)
    (lines : List (List Char)) (cur : List Char)
    (hlines : ∀ l ∈ lines, GoodLine W l ∧ '\n' ∉ l) (hcur : '\n' ∉ cur)
    (hgood : GoodLine W cur) (hi : i = (joinLines lines).length + cur.length) :
    WrapInv W ⟨joinLines lines ++ (cur ++ '\n' :: cs), i + 1, none⟩ (i + 1) cs := by
  refine ⟨lines ++ [cur], [], ?_, ?_, ?_, ?_, by simp, by simp⟩
  · simp [joinLines_append]
  · simp [joinLines_append, hi]
    omega
  · simp [joinLines_append, hi]
    omega
  · intro l hl
    rcases List.mem_append.mp hl with h | h
    · exact hlines l h
    · rw [List.mem_singleton.mp h]
      exact ⟨hgood, hcur⟩

theorem wrapInv_good_cur (W : Nat) (ls : Option Nat) (J : Nat) (cur : List Char)
    (h : match ls with
      | none => ∀ c ∈ cur, c ∉ wrappableChars
      | some p =>
          cur.length ≤ W ∧
            ∃ pre w post, cur = pre ++ w :: post ∧ w ∈ wrappableChars ∧
              p = J + pre.length ∧ ∀ c ∈ post, c ∉ wrappableChars) :
    GoodLine W cur := by
  cases ls with
  | none => exact Or.inr h
  | some p => exact Or.inl h.1

theorem wrapStep_inv (W : Nat) (st : WrapState) (i : Nat) (c : Char) (cs : List Char)
    (h : WrapInv W st i (c :: cs)) : WrapInv W (wrapStep W st i c) (i + 1) cs := by
  obtain ⟨result, start, ls⟩ := st
  obtain ⟨lines, cur, hres, hstart, hi, hlines, hcur, hls⟩ := h
  simp only at hres hstart hls
  subst hres hstart
  have hgood : GoodLine W cur := wrapInv_good_cur W ls _ cur hls
  by_cases hc : c = '\n'
  · subst hc
    have : wrapStep W ⟨joinLines lines ++ (cur ++ '\n' :: cs), (joinLines lines).length, ls⟩
        i '\n' = ⟨joinLines lines ++ (cur ++ '\n' :: cs), i + 1, none⟩ := by
      simp [wrapStep]
    rw [this]
    exact wrapInv_finish W i cs lines cur hlines hcur hgood hi
  · by_cases hw : c ∈ wrappableChars
    · by_cases hlen : cur.length + 1 > W
      · have : wrapStep W ⟨joinLines lines ++ (cur ++ c :: cs), (joinLines lines).length, ls⟩
            i c = ⟨joinLines lines ++ (cur ++ '\n' :: cs), i + 1, none⟩ := by
          have hlt : (W : ℤ) < (i : ℤ) - ((joinLines lines).length : ℤ) + 1 := by
            rw [hi]
            push_cast
            omega
          have hset : (joinLines lines ++ (cur ++ c :: cs)).set i '\n'
              = joinLines lines ++ (cur ++ '\n' :: cs) := by
            rw [hi, ← List.append_assoc, ← List.length_append, set_at_length,
              List.append_assoc]
          simp [wrapStep, hc, hw, hlt, hset]
        rw [this]
        exact wrapInv_finish W i cs lines cur hlines hcur hgood hi
      · have : wrapStep W ⟨joinLines lines ++ (cur ++ c :: cs), (joinLines lines).length, ls⟩
            i c = ⟨joinLines lines ++ (cur ++ c :: cs), (joinLines lines).length, some i⟩ := by
          have hlt : ¬ (W : ℤ) < (i : ℤ) - ((joinLines lines).length : ℤ) + 1 := by
            rw [hi]
            push_cast
            omega
          simp [wrapStep, hc, hw, hlt]
        rw [this]
        refine ⟨lines, cur ++ [c], by simp, rfl, by simp [hi]; omega, hlines, ?_, ?_⟩
        · simp [hcur, Ne.symm hc]
        · refine ⟨by simp; omega, cur, c, [], rfl, hw, hi, by simp⟩
    · cases ls with
      | none =>
          have : wrapStep W
              ⟨joinLines lines ++ (cur ++ c :: cs), (joinLines lines).length, none⟩ i c
              = ⟨joinLines lines ++ (cur ++ c :: cs), (joinLines lines).length, none⟩ := by
            simp [wrapStep, hc, hw]
          rw [this]
          refine ⟨lines, cur ++ [c], by simp, rfl, by simp [hi]; omega, hlines, ?_, ?_⟩
          · simp [hcur, Ne.symm hc]
          · intro x hx
            rcases List.mem_append.mp hx with hx | hx
            · exact hls x hx
            · rw [List.mem_singleton.mp hx]
              exact hw
      | some p =>
          obtain ⟨hlenW, pre, w, post, hsplit, hwr, hp, hpost⟩ := hls
          by_cases hlen : cur.length + 1 > W
          · have hset : (joinLines lines ++ (cur ++ c :: cs)).set p '\n'
                = joinLines lines ++ (pre ++ '\n' :: (post ++ c :: cs)) := by
              rw [hp, hsplit]
              have e1 : joinLines lines ++ ((pre ++ w :: post) ++ c :: cs)
                  = (joinLines lines ++ pre) ++ w :: (post ++ c :: cs) := by simp
              rw [e1, ← List.length_append, set_at_length, List.append_assoc]
            have : wrapStep W
                ⟨joinLines lines ++ (cur ++ c :: cs), (joinLines lines).length, some p⟩ i c
                = ⟨joinLines lines ++ (pre ++ '\n' :: (post ++ c :: cs)), p + 1, none⟩ := by
              have hlt : (W : ℤ) < (i : ℤ) - ((joinLines lines).length : ℤ) + 1 := by
                rw [hi]
                push_cast
                omega
              simp [wrapStep, hc, hw, hlt, hset]
            rw [this]
            have hcurlen : cur.length = pre.length + 1 + post.length := by
              rw [hsplit]
              simp
              omega
            refine ⟨lines ++ [pre], post ++ [c], ?_, ?_, ?_, ?_, ?_, ?_⟩
            · simp [joinLines_append]
            · simp [joinLines_append, hp]
              omega
            · simp [joinLines_append, hi, hcurlen]
              omega
            · intro l hl
              rcases List.mem_append.mp hl with h | h
              · exact hlines l h
              · rw [List.mem_singleton.mp h]
                refine ⟨Or.inl (by omega), ?_⟩
                intro hn
                exact hcur (by rw [hsplit]; simp [hn])
            · intro hn
              rcases List.mem_append.mp hn with h | h
              · exact hcur (by rw [hsplit]; simp [h])
              · exact hc (List.mem_singleton.mp h).symm
            · intro x hx
              rcases List.mem_append.mp hx with hx | hx
              · exact hpost x hx
              · rw [List.mem_singleton.mp hx]
                exact hw
          · have : wrapStep W
                ⟨joinLines lines ++ (cur ++ c :: cs), (joinLines lines).length, some p⟩ i c
                = ⟨joinLines lines ++ (cur ++ c :: cs), (joinLines lines).length, some p⟩ := by
              have hlt : ¬ (W : ℤ) < (i : ℤ) - ((joinLines lines).length : ℤ) + 1 := by
                rw [hi]
                push_cast
                omega
              simp [wrapStep, hc, hw, hlt]
            rw [this]
            refine ⟨lines, cur ++ [c], by simp, rfl, by simp [hi]; omega, hlines, ?_, ?_⟩
            · simp [hcur, Ne.symm hc]
            · refine ⟨by simp; omega, pre, w, post ++ [c], by simp [hsplit], hwr, hp, ?_⟩
              intro x hx
              rcases List.mem_append.mp hx with hx | hx
              · exact hpost x hx
              · rw [List.mem_singleton.mp hx]
                exact hw

theorem wrapLoop_inv (W : Nat) (rest : List Char) :
    ∀ (i : Nat) (st : WrapState), WrapInv W st i rest →
      WrapInv W (wrapLoop W rest i st) (i + rest.length) [] := by
  induction rest with
  | nil => intro i st h; simpa [wrapLoop] using h
  | cons c cs ih =>
      intro i st h
      have := ih (i + 1) (wrapStep W st i c) (wrapStep_inv W st i c cs h)
      simp only [wrapLoop, List.length_cons]
      rw [show i + (cs.length + 1) = i + 1 + cs.length by omega]
      exact this

theorem linesOf_ne_nil (l : List Char) : linesOf l ≠ [] := by
  cases l with
  | nil => simp [linesOf]
  | cons c cs =>
      unfold linesOf
      split_ifs
      · simp
      · split <;> simp

theorem linesOf_single (l : List Char) (h : '\n' ∉ l) : linesOf l = [l] := by
  induction l with
  | nil => rfl
  | cons c cs ih =>
      have hc : c ≠ '\n' := fun hc => h (by simp [hc])
      have hcs : '\n' ∉ cs := fun hm => h (List.mem_cons_of_mem _ hm)
      unfold linesOf
      rw [if_neg hc, ih hcs]

theorem linesOf_line (l rest : List Char) (h : '\n' ∉ l) :
    linesOf (l ++ '\n' :: rest) = l :: linesOf rest := by
  induction l with
  | nil => simp [linesOf]
  | cons c cs ih =>
      have hc : c ≠ '\n' := fun hc => h (by simp [hc])
      have hcs : '\n' ∉ cs := fun hm => h (List.mem_cons_of_mem _ hm)
      rw [List.cons_append]
      conv_lhs => unfold linesOf
      rw [if_neg hc, ih hcs]

theorem linesOf_joinLines (lines : List (List Char)) (cur : List Char)
    (hlines : ∀ l ∈ lines, '\n' ∉ l) (hcur : '\n' ∉ cur) :
    linesOf (joinLines lines ++ cur) = lines ++ [cur] := by
  induction lines with
  | nil => simpa [joinLines] using linesOf_single cur hcur
  | cons l ls ih =>
      have : joinLines (l :: ls) ++ cur = l ++ '\n' :: (joinLines ls ++ cur) := by
        simp [joinLines]
      rw [this, linesOf_line _ _ (hlines l (by simp)),
        ih (fun x hx => hlines x (List.mem_cons_of_mem _ hx))]
      rfl

theorem wrapChars_lines (s : List Char) (W : Nat) :
    ∀ line ∈ linesOf (wrapChars s W), GoodLine W line := by
  have h0 : WrapInv W ⟨s, 0, none⟩ 0 s :=
    ⟨[], [], by simp [joinLines], by simp [joinLines], by simp [joinLines], by simp, by simp,
      by simp⟩
  obtain ⟨lines, cur, hres, _, _, hlines, hcur, hls⟩ := wrapLoop_inv W s 0 _ h0
  intro line hline
  unfold wrapChars at hline
  rw [hres, List.append_nil, linesOf_joinLines lines cur (fun l hl => (hlines l hl).2) hcur]
    at hline
  rcases List.mem_append.mp hline with h | h
  · exact (hlines line h).1
  · rw [List.mem_singleton.mp h]
    exact wrapInv_good_cur W _ _ cur hls

/-- Claim C25. For every string `s` and every wrap column `W`, each line of
`wrapText(s, W)`, a line being a piece between newline characters, has at most `W`
characters or holds no wrappable character: only a word longer than `W` exceeds the
column, and it is not split. -/
theorem wrapText_lines (s : String) (W : Nat) :
    ∀ line ∈ linesOf (wrapText s W).data,
      line.length ≤ W ∨ ∀ c ∈ line, c ∉ wrappableChars :=
  wrapChars_lines s.data W

/-- Witness for C25: `wrapText("ab cd", 3)` is `"ab\ncd"`, and its line `ab` has at
most 3 characters. -/
theorem wrapText_lines_witness :
    wrapText "ab cd" 3 = "ab\ncd" ∧
      ['a', 'b'] ∈ linesOf (wrapText "ab cd" 3).data ∧
      (['a', 'b'].length ≤ 3 ∨ ∀ c ∈ ['a', 'b'], c ∉ wrappableChars) :=
  ⟨by decide, by decide, wrapText_lines "ab cd" 3 ['a', 'b'] (by decide)⟩

/-! ## C27: `allinea.makeId` -/

theorem digitChar_isDigit (d : Nat) (h : d < 10) :
    (Nat.digitChar d).isDigit = true ∧ (Nat.digitChar d).toNat - 48 = d := by
  interval_cases d <;> exact ⟨by decide, by decide⟩

theorem digitsValue_append (l : List Char) (c : Char) :
    digitsValue (l ++ [c]) = 10 * digitsValue l + (c.toNat - 48) := by
  simp [digitsValue, List.foldl_append]

theorem toDigitsCore_spec (fuel : Nat) :
    ∀ (n : Nat) (ds : List Char), n < fuel →
      ∃ front, Nat.toDigitsCore 10 fuel n ds = front ++ ds ∧ front ≠ [] ∧
        (∀ c ∈ front, c.isDigit = true) ∧ digitsValue front = n := by
  induction fuel with
  | zero => intro n ds h; omega
  | succ fuel ih =>
      intro n ds h
      obtain ⟨hd1, hd2⟩ := digitChar_isDigit (n % 10) (Nat.mod_lt _ (by norm_num))
      unfold Nat.toDigitsCore
      simp only []
      by_cases h0 : n / 10 = 0
      · rw [if_pos h0]
        refine ⟨[Nat.digitChar (n % 10)], rfl, by simp, by simpa using hd1, ?_⟩
        show 10 * 0 + ((Nat.digitChar (n % 10)).toNat - 48) = n
        rw [hd2]
        omega
      · rw [if_neg h0]
        obtain ⟨front, hf, hne, hall, hval⟩ := ih (n / 10) (Nat.digitChar (n % 10) :: ds)
          (by omega)
        refine ⟨front ++ [Nat.digitChar (n % 10)], by rw [hf]; simp, by simp, ?_, ?_⟩
        · intro c hc
          rcases List.mem_append.mp hc with hc | hc
          · exact hall c hc
          · rw [List.mem_singleton.mp hc]
            exact hd1
        · rw [digitsValue_append, hval, hd2]
          omega

theorem toString_nat_spec (n : Nat) :
    (toString n).data ≠ [] ∧ (∀ c ∈ (toString n).data, c.isDigit = true) ∧
      digitsValue (toString n).data = n := by
  obtain ⟨front, hf, hne, hall, hval⟩ := toDigitsCore_spec (n + 1) n [] (by omega)
  have : (toString n).data = front := by
    show Nat.toDigitsCore 10 (n + 1) n [] = front
    rw [hf, List.append_nil]
  rw [this]
  exact ⟨hne, hall, hval⟩

theorem stripTrailingDigits_append (b d : List Char) (hb : EndsWithoutDigit b)
    (hd : ∀ c ∈ d, c.isDigit = true) : stripTrailingDigits (b ++ d) = b := by
  obtain ⟨init, c, rfl, hc⟩ := hb
  unfold stripTrailingDigits
  have hdrop : ∀ r : List Char, (∀ x ∈ r, x.isDigit = true) →
      (r ++ c :: init.reverse).dropWhile Char.isDigit = c :: init.reverse := by
    intro r hr
    induction r with
    | nil => simp [List.dropWhile, hc]
    | cons x xs ih =>
        rw [List.cons_append, List.dropWhile_cons, if_pos (hr x (by simp))]
        exact ih (fun y hy => hr y (List.mem_cons_of_mem _ hy))
  have hrev : (init ++ [c] ++ d).reverse = d.reverse ++ c :: init.reverse := by simp
  rw [hrev, hdrop d.reverse (fun x hx => hd x (List.mem_reverse.mp hx))]
  simp

theorem append_digits_inj (b b' d d' : List Char) (hb : EndsWithoutDigit b)
    (hb' : EndsWithoutDigit b') (hd : ∀ c ∈ d, c.isDigit = true)
    (hd' : ∀ c ∈ d', c.isDigit = true) (h : b ++ d = b' ++ d') : b = b' ∧ d = d' := by
  have h1 := stripTrailingDigits_append b d hb hd
  have h2 := stripTrailingDigits_append b' d' hb' hd'
  rw [h] at h1
  have hbb : b = b' := by rw [← h1, h2]
  subst hbb
  exact ⟨rfl, List.append_cancel_left h⟩

theorem stripTrailingDigits_last (l : List Char) :
    stripTrailingDigits l = [] ∨ EndsWithoutDigit (stripTrailingDigits l) := by
  unfold stripTrailingDigits
  cases hr : l.reverse.dropWhile Char.isDigit with
  | nil => exact Or.inl rfl
  | cons c cs =>
      refine Or.inr ⟨cs.reverse, c, by simp, ?_⟩
      have := List.head_dropWhile_not Char.isDigit l.reverse (by rw [hr]; simp)
      simpa [hr] using this

theorem cleanIdOf_ends (str : String) : EndsWithoutDigit (cleanIdOf str).data := by
  unfold cleanIdOf
  simp only []
  rcases stripTrailingDigits_last ((str.data.filter isIdChar).map Char.toLower) with h | h
  · rw [h]
    exact ⟨[], 'x', rfl, by decide⟩
  · split_ifs
    · exact h
    · obtain ⟨init, c, heq, hc⟩ := h
      exact ⟨'x' :: init, c, by rw [heq]; rfl, hc⟩

theorem label_data (b : String) (k : Nat) :
    (label b k).data = b.data ++ (if k = 1 then [] else (toString k).data) := by
  unfold label
  split_ifs <;> simp [String.data_append]

theorem label_inj (b b' : String) (k k' : Nat) (hb : EndsWithoutDigit b.data)
    (hb' : EndsWithoutDigit b'.data) (h : label b k = label b' k') : b = b' ∧ k = k' := by
  have hdig : ∀ n : Nat, ∀ c ∈ (if n = 1 then [] else (toString n).data), c.isDigit = true := by
    intro n c hc
    split_ifs at hc
    · simp at hc
    · exact (toString_nat_spec n).2.1 c hc
  have hdata := congrArg String.data h
  rw [label_data, label_data] at hdata
  obtain ⟨h1, h2⟩ := append_digits_inj _ _ _ _ hb hb' (hdig k) (hdig k') hdata
  refine ⟨String.ext h1, ?_⟩
  by_cases e1 : k = 1 <;> by_cases e2 : k' = 1
  · omega
  · rw [if_pos e1, if_neg e2] at h2
    exact absurd h2.symm (toString_nat_spec k').1
  · rw [if_neg e1, if_pos e2] at h2
    exact absurd h2 (toString_nat_spec k).1
  · rw [if_neg e1, if_neg e2] at h2
    have := congrArg digitsValue h2
    rwa [(toString_nat_spec k).2.2, (toString_nat_spec k').2.2] at this

theorem makeId_label (idCounters : List (String × Nat)) (str : String)
    (hpos : ∀ b n, idCounters.lookup b = some n → 1 ≤ n) :
    (makeId idCounters str).1 = label (cleanIdOf str) (usesOf idCounters (cleanIdOf str) + 1) ∧
      (makeId idCounters str).2
        = (cleanIdOf str, usesOf idCounters (cleanIdOf str) + 1) :: idCounters := by
  unfold makeId usesOf
  cases hl : idCounters.lookup (cleanIdOf str) with
  | none =>
      simp only [hl]
      simp [label]
  | some n =>
      have := hpos _ _ hl
      have hne : n + 1 ≠ 1 := by omega
      simp only [hl]
      simp [label, hne]

theorem makeIds_spec (inputs : List String) :
    ∀ idCounters : List (String × Nat),
      (∀ b n, idCounters.lookup b = some n → 1 ≤ n) →
      (makeIds idCounters inputs).Nodup ∧
        ∀ id ∈ makeIds idCounters inputs, ∃ b k, id = label b k ∧
          EndsWithoutDigit b.data ∧ usesOf idCounters b < k := by
  induction inputs with
  | nil => intro _ _; simp [makeIds]
  | cons str rest ih =>
      intro idCounters hpos
      obtain ⟨hid, hstate⟩ := makeId_label idCounters str hpos
      have hpos' : ∀ b n, (makeId idCounters str).2.lookup b = some n → 1 ≤ n := by
        intro b n hb
        rw [hstate, List.lookup_cons] at hb
        split at hb
        · simp only [Option.some.injEq] at hb
          omega
        · exact hpos b n hb
      have huses : ∀ b, usesOf idCounters b ≤ usesOf (makeId idCounters str).2 b ∧
          (b = cleanIdOf str →
            usesOf (makeId idCounters str).2 b = usesOf idCounters (cleanIdOf str) + 1) := by
        intro b
        rw [hstate]
        unfold usesOf
        rw [List.lookup_cons]
        by_cases hb : b = cleanIdOf str
        · subst hb
          simp
        · have : (b == cleanIdOf str) = false := by simpa using hb
          simp [this, hb]
      obtain ⟨hnodup, hform⟩ := ih (makeId idCounters str).2 hpos'
      unfold makeIds
      refine ⟨List.nodup_cons.mpr ⟨?_, hnodup⟩, ?_⟩
      · intro hmem
        obtain ⟨b, k, hbk, hb, hlt⟩ := hform _ hmem
        rw [hid] at hbk
        obtain ⟨e1, e2⟩ := label_inj _ _ _ _ (cleanIdOf_ends str) hb hbk
        have := (huses b).2 e1.symm
        omega
      · intro id hmem
        rcases List.mem_cons.mp hmem with h | h
        · exact ⟨cleanIdOf str, _, by rw [h, hid], cleanIdOf_ends str, by omega⟩
        · obtain ⟨b, k, hbk, hb, hlt⟩ := hform id h
          exact ⟨b, k, hbk, hb, lt_of_le_of_lt (huses b).1 hlt⟩

/-- Claim C27. Starting from an empty `idCounters`, the ids that successive calls of
`makeId` return for any sequence of input strings are pairwise distinct; each is a
clean id, which never ends with a digit, alone or followed by the digits of its
count of uses. The inputs `name`, `name` give `name`, `name2`, and `name2`, `name`,
`name` give `name`, `name2`, `name3`. -/
theorem makeId_ids_distinct (inputs : List String) :
    (makeIds [] inputs).Nodup ∧
      (∀ id ∈ makeIds [] inputs, ∃ b k, id = label b k ∧ EndsWithoutDigit b.data ∧ 1 ≤ k) ∧
      makeIds [] ["name", "name"] = ["name", "name2"] ∧
      makeIds [] ["name2", "name", "name"] = ["name", "name2", "name3"] := by
  obtain ⟨h1, h2⟩ := makeIds_spec inputs [] (by simp)
  refine ⟨h1, ?_, by decide, by decide⟩
  intro id hid
  obtain ⟨b, k, hbk, hb, hlt⟩ := h2 id hid
  exact ⟨b, k, hbk, hb, by omega⟩

/-! ## C28: `allinea.remove` -/

theorem filter_snoc (p : JSVal → Bool) (t : List JSVal) (x : JSVal) :
    (t ++ [x]).filter p = t.filter p ++ (if p x then [x] else []) := by
  rw [List.filter_append]
  by_cases h : p x = true <;> simp [List.filter, h]

theorem removeLoop_spec (p : JSVal → Bool) (i : Nat) :
    ∀ (array result : List JSVal), i ≤ array.length →
      removeLoop (fun x _ _ => p x) i array result
        = ((array.take i).filter p ++ result,
            (array.take i).filter (fun x => !p x) ++ array.drop i) := by
  induction i with
  | zero => intro array result _; simp [removeLoop]
  | succ i ih =>
      intro array result hi
      have hlt : i < array.length := hi
      have hget : array.getD i .undefined = array[i] := by
        simp [List.getD, List.getElem?_eq_getElem hlt]
      have htake : array.take (i + 1) = array.take i ++ [array[i]] := by
        rw [List.take_succ, List.getElem?_eq_getElem hlt]
        rfl
      have hdrop : array.drop i = array[i] :: array.drop (i + 1) :=
        List.drop_eq_getElem_cons hlt
      unfold removeLoop
      by_cases hp : p array[i] = true
      · have herase : array.eraseIdx i = array.take i ++ array.drop (i + 1) :=
          List.eraseIdx_eq_take_drop_succ array i
        have hlen : i ≤ (array.eraseIdx i).length := by
          rw [List.length_eraseIdx]
          simp [hlt]
          omega
        have ht : (array.eraseIdx i).take i = array.take i := by
          rw [herase, List.take_append_of_le_length (by simp; omega)]
          simp
        have hd : (array.eraseIdx i).drop i = array.drop (i + 1) := by
          rw [herase, List.drop_append_of_le_length (by simp; omega)]
          simp
        simp only [hget, hp, if_true]
        rw [ih _ _ hlen, ht, hd, htake, hdrop, filter_snoc, filter_snoc, hp]
        simp only [List.take_succ_cons, List.take_zero, List.headD_cons, if_true,
          Bool.not_true, Bool.false_eq_true, if_false, List.append_nil, List.append_assoc,
          List.singleton_append]
      · simp only [hget, hp, if_false, Bool.false_eq_true]
        have hp' : p array[i] = false := by simpa using hp
        rw [ih _ _ (Nat.le_of_lt hlt), htake, hdrop, filter_snoc, filter_snoc, hp']
        simp only [Bool.false_eq_true, if_false, Bool.not_false, if_true, List.append_nil,
          List.append_assoc, List.singleton_append]

/-- Claim C28. For every array and every predicate on elements, `allinea.remove`
returns the elements that satisfy the predicate, in their order in the array, and
leaves in the array the elements that do not, in their order; the two lists together
hold each element of the original as often as it did. -/
theorem remove_partitions (array : List JSVal) (p : JSVal → Bool) :
    remove array (fun x _ _ => p x)
        = (array.filter p, array.filter fun x => !p x) ∧
      ((remove array (fun x _ _ => p x)).1 ++ (remove array (fun x _ _ => p x)).2).Perm
        array := by
  have h : remove array (fun x _ _ => p x)
      = (array.filter p, array.filter fun x => !p x) := by
    unfold remove
    rw [removeLoop_spec p array.length array [] (le_refl _)]
    simp
  rw [h]
  exact ⟨rfl, List.filter_append_perm p array⟩

/-! ## C29: `isVisible` -/

theorem getProp_ok (ctx : JSVal) (key : String) (h : ctx.isNullish = false) :
    getProp ctx key = .ok (ctx.get key) := by
  cases ctx <;> first | rfl | cases h

/-- Claim C29. For a context `ctx` other than `null` and `undefined`: when
`ctx.visible` is not `undefined` the result is decided by it alone, every context with
the same `visible` giving the same result: a string is looked up as a dotted path in
the root scope and judged by `isMetricValueValid`, any other value by `toBool`. When
`ctx.visible` is `undefined` the result is the negation of the same judgement of
`ctx.hidden`. Under `isMetricValueValid` the number 0 and the text `'0'` are valid,
so `visible` naming a metric equal to 0 gives true and `hidden` naming it gives
false. -/
theorem isVisible_priority (ctx root : JSVal) (hctx : ctx.isNullish = false) :
    ((ctx.get "visible").isDefined = true →
        isVisible ctx root
            = .ok (match ctx.get "visible" with
                | .str path => isMetricValueValid (lookup root (some path))
                | visible => toBool visible) ∧
          ∀ other : JSVal, other.isNullish = false →
            other.get "visible" = ctx.get "visible" →
            isVisible other root = isVisible ctx root) ∧
      ((ctx.get "visible").isDefined = false →
        isVisible ctx root
          = .ok (match ctx.get "hidden" with
              | .str path => !isMetricValueValid (lookup root (some path))
              | hidden => !toBool hidden)) ∧
      isMetricValueValid (.num (JSNum.fin 0)) = true ∧
      isMetricValueValid (.str "0") = true ∧
      (∀ path, (lookup root (some path) = .num (JSNum.fin 0) ∨
            lookup root (some path) = .str "0") →
          (ctx.get "visible" = .str path → isVisible ctx root = .ok true) ∧
          (ctx.get "visible" = .undefined → ctx.get "hidden" = .str path →
            isVisible ctx root = .ok false)) := by
  have hvis : ∀ c : JSVal, c.isNullish = false → (c.get "visible").isDefined = true →
      isVisible c root
        = .ok (match c.get "visible" with
            | .str path => isMetricValueValid (lookup root (some path))
            | visible => toBool visible) := by
    intro c hc hdef
    unfold isVisible
    rw [getProp_ok c _ hc]
    simp only [hdef, if_true]
    cases hv : c.get "visible" <;> simp [isString, lookupString]
  have hhid : (ctx.get "visible").isDefined = false →
      isVisible ctx root
        = .ok (match ctx.get "hidden" with
            | .str path => !isMetricValueValid (lookup root (some path))
            | hidden => !toBool hidden) := by
    intro hdef
    unfold isVisible
    rw [getProp_ok ctx _ hctx]
    simp only [hdef, Bool.false_eq_true, if_false]
    cases hv : ctx.get "hidden" <;> simp [isString, lookupString]
  have hz0 : isMetricValueValid (.num (JSNum.fin 0)) = true := by with_unfolding_all rfl
  have hz1 : isMetricValueValid (.str "0") = true := by with_unfolding_all rfl
  refine ⟨?_, hhid, hz0, hz1, ?_⟩
  · intro hdef
    refine ⟨hvis ctx hctx hdef, ?_⟩
    intro other hother heq
    rw [hvis ctx hctx hdef, hvis other hother (by rw [heq]; exact hdef), heq]
  · intro path hpath
    constructor
    · intro hv
      rw [hvis ctx hctx (by rw [hv]; rfl), hv]
      rcases hpath with h | h <;> simp only [h, hz0, hz1]
    · intro hv hh
      rw [hhid (by rw [hv]; rfl), hh]
      rcases hpath with h | h <;> simp only [h, hz0, hz1] <;> rfl

/-- Witness for C29: with the root scope `{m: 0, t: '0'}`, the context
`{visible: 'm', hidden: 'm'}` is visible, `{hidden: 'm'}` is not, and
`{visible: 0}` is not. -/
theorem isVisible_priority_witness :
    (isVisible (.obj [("visible", .str "m"), ("hidden", .str "m")]) zeroMetricRoot
          = .ok (match (JSVal.obj [("visible", .str "m"), ("hidden", .str "m")]).get
                "visible" with
              | .str path => isMetricValueValid (lookup zeroMetricRoot (some path))
              | visible => toBool visible) ∧
        ∀ other : JSVal, other.isNullish = false →
          other.get "visible"
            = (JSVal.obj [("visible", .str "m"), ("hidden", .str "m")]).get "visible" →
          isVisible other zeroMetricRoot
            = isVisible (.obj [("visible", .str "m"), ("hidden", .str "m")])
                zeroMetricRoot) ∧
    isVisible (.obj [("visible", .str "m"), ("hidden", .str "m")]) zeroMetricRoot
      = .ok true ∧
    isVisible (.obj [("hidden", .str "m")]) zeroMetricRoot = .ok false ∧
    isVisible (.obj [("visible", .str "t")]) zeroMetricRoot = .ok true ∧
    isVisible (.obj [("visible", .num (JSNum.fin 0))]) zeroMetricRoot = .ok false :=
  ⟨(isVisible_priority (.obj [("visible", .str "m"), ("hidden", .str "m")]) zeroMetricRoot
      rfl).1 rfl,
    by with_unfolding_all rfl, by with_unfolding_all rfl, by with_unfolding_all rfl,
    by with_unfolding_all rfl⟩

/-! ## C30: `csvEscape` -/

theorem doubleQuotes_mem (l : List Char) (c : Char) : c ∈ doubleQuotes l ↔ c ∈ l := by
  induction l with
  | nil => simp [doubleQuotes]
  | cons x xs ih =>
      unfold doubleQuotes
      by_cases hx : x = '"'
      · rw [if_pos hx]
        simp only [List.mem_cons, ih, hx]
        tauto
      · rw [if_neg hx]
        simp only [List.mem_cons, ih]

theorem doubleQuotes_of_no_quote (l : List Char) (h : '"' ∉ l) : doubleQuotes l = l := by
  induction l with
  | nil => rfl
  | cons x xs ih =>
      have hx : x ≠ '"' := fun hx => h (by simp [hx])
      unfold doubleQuotes
      rw [if_neg hx, ih (fun hm => h (List.mem_cons_of_mem _ hm))]

theorem undoubleQuotes_doubleQuotes (l : List Char) :
    undoubleQuotes (doubleQuotes l) = l := by
  unfold undoubleQuotes
  induction l with
  | nil => rfl
  | cons x xs ih =>
      unfold doubleQuotes
      by_cases hx : x = '"'
      · rw [if_pos hx]
        simp only [undoubleFrom, if_true, Bool.false_eq_true, if_false, ih, hx]
      · rw [if_neg hx]
        simp only [undoubleFrom, if_neg hx, ih]

theorem contains_iff (l : List Char) (c : Char) : l.contains c = true ↔ c ∈ l := by
  simp

theorem csvQuote_spec (text : String) :
    csvQuote text
        = (if ',' ∈ text.data ∨ ' ' ∈ text.data ∨ '\n' ∈ text.data ∨ '"' ∈ text.data then
            "\"" ++ String.mk (doubleQuotes text.data) ++ "\""
          else text) ∧
      csvUnquote (csvQuote text) = text := by
  have hq : csvQuote text
      = (if ',' ∈ text.data ∨ ' ' ∈ text.data ∨ '\n' ∈ text.data ∨ '"' ∈ text.data then
          "\"" ++ String.mk (doubleQuotes text.data) ++ "\""
        else text) := by
    unfold csvQuote
    simp only [Bool.or_eq_true, contains_iff, doubleQuotes_mem]
    by_cases h : ',' ∈ text.data ∨ ' ' ∈ text.data ∨ '\n' ∈ text.data ∨ '"' ∈ text.data
    · have h' : ((',' ∈ text.data ∨ ' ' ∈ text.data) ∨ '\n' ∈ text.data) ∨ '"' ∈ text.data := by
        tauto
      rw [if_pos h, if_pos h']
    · have h' : ¬(((',' ∈ text.data ∨ ' ' ∈ text.data) ∨ '\n' ∈ text.data) ∨
          '"' ∈ text.data) := by tauto
      rw [if_neg h, if_neg h']
      have hno : '"' ∉ text.data := fun hm => h (Or.inr (Or.inr (Or.inr hm)))
      rw [doubleQuotes_of_no_quote _ hno]
  refine ⟨hq, ?_⟩
  rw [hq]
  by_cases h : ',' ∈ text.data ∨ ' ' ∈ text.data ∨ '\n' ∈ text.data ∨ '"' ∈ text.data
  · rw [if_pos h]
    have hdata : ("\"" ++ String.mk (doubleQuotes text.data) ++ "\"").data
        = '"' :: (doubleQuotes text.data ++ ['"']) := by
      simp [String.data_append]
    unfold csvUnquote
    rw [hdata]
    simp only [List.dropLast_concat, undoubleQuotes_doubleQuotes]
  · rw [if_neg h]
    have hno : '"' ∉ text.data := fun hm => h (Or.inr (Or.inr (Or.inr hm)))
    unfold csvUnquote
    cases htd : text.data with
    | nil => rfl
    | cons c cs =>
        have hc : c ≠ '"' := by
          intro hc
          apply hno
          rw [htd, hc]
          simp
        split
        · rename_i rest heq
          rw [List.cons.injEq] at heq
          exact absurd heq.1 hc
        · rfl

/-- Claim C30. In function form, for every value, `csvEscape` returns the text of the
value with each quote doubled, put between two quotes when the text holds a comma, a
space, a newline or a quote, and the text itself otherwise; a reader that strips the
outer quotes and undoubles the quotes gets the text back. -/
theorem csvEscape_function_form (cv : Conv) (objectText : JSVal → String) (value : JSVal) :
    csvEscape cv objectText [value] (some ⟨none⟩)
        = .ok (if ',' ∈ (stringOf cv objectText value).data ∨
                ' ' ∈ (stringOf cv objectText value).data ∨
                '\n' ∈ (stringOf cv objectText value).data ∨
                '"' ∈ (stringOf cv objectText value).data then
            "\"" ++ String.mk (doubleQuotes (stringOf cv objectText value).data) ++ "\""
          else stringOf cv objectText value) ∧
      (csvEscape cv objectText [value] (some ⟨none⟩)).map csvUnquote
        = .ok (stringOf cv objectText value) ∧
      csvEscape cv objectText [.str "foo \" bar"] (some ⟨none⟩) = .ok "\"foo \"\" bar\"" := by
  have h : ∀ v, csvEscape cv objectText [v] (some ⟨none⟩)
      = .ok (csvQuote (stringOf cv objectText v)) := fun _ => rfl
  refine ⟨?_, ?_, ?_⟩
  · rw [h, (csvQuote_spec _).1]
  · rw [h]
    show Except.ok (csvUnquote (csvQuote (stringOf cv objectText value))) = _
    rw [(csvQuote_spec _).2]
  · have hq : csvQuote "foo \" bar" = "\"foo \"\" bar\"" := by decide
    show Except.ok (csvQuote "foo \" bar") = Except.ok "\"foo \"\" bar\""
    rw [hq]

/-! ## C31 and C32: `padLeft` and `padRight` -/

theorem maxZero_cases (x : JSNum) :
    JSNum.mathMax [x, JSNum.fin 0] = (match x with
      | .fin q => JSNum.fin (max q 0)
      | .posInf => .posInf
      | .nan => .nan
      | .negInf => JSNum.fin 0) := by
  cases x with
  | fin q =>
      simp only [JSNum.mathMax, List.foldl, JSNum.max2, JSNum.gt]
      by_cases h : q < 0
      · simp [h, max_eq_right (le_of_lt h)]
      · simp [h, max_eq_left (not_lt.mp h)]
  | nan => simp [JSNum.mathMax, List.foldl, JSNum.max2, JSNum.gt]
  | posInf => simp [JSNum.mathMax, List.foldl, JSNum.max2, JSNum.gt]
  | negInf => simp [JSNum.mathMax, List.foldl, JSNum.max2, JSNum.gt]

theorem arrayLength_nat (n : Nat) (hn : n < 2 ^ 32) :
    arrayLength (JSNum.fin (n : ℚ)) = .ok n := by
  have h1 : ((n : ℚ)).den = 1 := Rat.den_natCast n
  have h2 : (0 : ℚ) ≤ (n : ℚ) := Nat.cast_nonneg n
  have h3 : (n : ℚ) < 2 ^ 32 := by exact_mod_cast hn
  show (if (n : ℚ).den = 1 ∧ 0 ≤ (n : ℚ) ∧ (n : ℚ) < 2 ^ 32 then
      Except.ok (n : ℚ).num.toNat
    else Except.error (JSError.rangeError "Invalid array length")) = Except.ok n
  rw [if_pos ⟨h1, h2, h3⟩]
  simp

theorem padArguments_function (cv : Conv) (objectText : JSVal → String) (name : String)
    (value : JSVal) (n : Nat) :
    padArguments cv objectText name [value, .num (JSNum.fin n)] (some ⟨none⟩)
      = .ok (stringOf cv objectText value, JSNum.fin n) := by
  have h : JSNum.mathMax [plusOrZero cv (.num (JSNum.fin (n : ℚ))), JSNum.fin 0]
      = JSNum.fin n := by
    rw [plusOrZero_fin, maxZero_cases]
    simp
  simp only [padArguments]
  simp [h, Except.map]

theorem padLeftText_data (value : String) (n : Nat) :
    (padLeftText value n).data
      = List.replicate (n - value.data.length) ' ' ++ value.data.drop (value.data.length - n) := by
  unfold padLeftText emptyJoin
  simp only [Nat.add_sub_cancel, List.length_append, List.length_replicate]
  rw [show n + value.data.length - n = value.data.length by omega,
    List.drop_append_eq_append_drop, List.drop_replicate, List.length_replicate]

theorem padRightText_data (value : String) (n : Nat) :
    (padRightText value n).data
      = value.data.take n ++ List.replicate (n - value.data.length) ' ' := by
  unfold padRightText emptyJoin
  simp only [Nat.add_sub_cancel]
  rw [List.take_append_eq_append_take, List.take_replicate]
  congr 2
  omega

theorem padLeft_function (cv : Conv) (objectText : JSVal → String) (value : JSVal) (n : Nat)
    (hn : n + 1 < 2 ^ 32) :
    padLeft cv objectText [value, .num (JSNum.fin n)] (some ⟨none⟩)
      = .ok (padLeftText (stringOf cv objectText value) n) := by
  unfold padLeft
  rw [padArguments_function]
  have : (JSNum.fin (n : ℚ)).add (JSNum.fin 1) = JSNum.fin ((n + 1 : ℕ) : ℚ) := by
    simp [JSNum.add]
  simp only [this, arrayLength_nat (n + 1) hn, Nat.add_sub_cancel]

theorem padRight_function (cv : Conv) (objectText : JSVal → String) (value : JSVal) (n : Nat)
    (hn : n + 1 < 2 ^ 32) :
    padRight cv objectText [value, .num (JSNum.fin n)] (some ⟨none⟩)
      = .ok (padRightText (stringOf cv objectText value) n) := by
  unfold padRight
  rw [padArguments_function]
  have : (JSNum.fin (n : ℚ)).add (JSNum.fin 1) = JSNum.fin ((n + 1 : ℕ) : ℚ) := by
    simp [JSNum.add]
  simp only [this, arrayLength_nat (n + 1) hn, Nat.add_sub_cancel]

/-- C31, as stated, fails for the largest columns: `Array(maxLength + 1)` needs
`maxLength + 1` to be a valid array length, that is at most `2 ^ 32 - 1`. For the
non-negative integer 4294967295 the call `padLeft('foo', 4294967295)` throws a
`RangeError` and returns no text at all. -/
theorem padLeft_throws_at_largest_array_length :
    padLeft Conv.plain (fun _ => "") [.str "foo", .num (JSNum.fin 4294967295)] (some ⟨none⟩)
      = .error (.rangeError "Invalid array length") := by
  with_unfolding_all rfl

/-- C31 (amended). In function form, for every value and every column `n` with
`n + 1 < 2 ^ 32` (a non-negative integer for which `Array(n + 1)` exists), `padLeft`
returns a text of exactly `n` characters; when the text of the value has at most `n`
characters, the result is that text with `n` minus its length spaces before it. -/
theorem padLeft_right_aligns (cv : Conv) (objectText : JSVal → String) (value : JSVal)
    (n : Nat) (hn : n + 1 < 2 ^ 32) :
    ∃ r, padLeft cv objectText [value, .num (JSNum.fin n)] (some ⟨none⟩) = .ok r ∧
      r.length = n ∧
      ((stringOf cv objectText value).length ≤ n →
        r = String.mk (List.replicate (n - (stringOf cv objectText value).length) ' ')
              ++ stringOf cv objectText value) := by
  refine ⟨_, padLeft_function cv objectText value n hn, ?_, ?_⟩
  · show (padLeftText (stringOf cv objectText value) n).data.length = n
    rw [padLeftText_data]
    simp
    omega
  · intro hlen
    apply String.ext
    rw [padLeftText_data, String.data_append]
    have h0 : (stringOf cv objectText value).data.length - n = 0 := by
      have : (stringOf cv objectText value).data.length ≤ n := hlen
      omega
    rw [h0, List.drop_zero]
    rfl

/-- Witness for C31: `padLeft('foo', 5)` is `'  foo'`. -/
theorem padLeft_right_aligns_witness :
    (∃ r, padLeft Conv.plain (fun _ => "") [.str "foo", .num (JSNum.fin (5 : ℕ))]
          (some ⟨none⟩) = .ok r ∧
      r.length = 5 ∧
      ((stringOf Conv.plain (fun _ => "") (.str "foo")).length ≤ 5 →
        r = String.mk (List.replicate
              (5 - (stringOf Conv.plain (fun _ => "") (.str "foo")).length) ' ')
              ++ stringOf Conv.plain (fun _ => "") (.str "foo"))) ∧
    padLeft Conv.plain (fun _ => "") [.str "foo", .num (JSNum.fin 5)] (some ⟨none⟩)
      = .ok "  foo" :=
  ⟨padLeft_right_aligns Conv.plain (fun _ => "") (.str "foo") 5 (by norm_num),
    by with_unfolding_all rfl⟩

/-- Claim C32. `padLeft` keeps the end of a text that is too long, not its beginning:
for every text and column the result is the missing spaces followed by the last
characters of the text, where `padRight` gives the first characters followed by the
missing spaces. `padLeft('foobar', 3)` is `'bar'`, and `padRight('foobar', 3)` is
`'foo'`. -/
theorem padLeft_keeps_the_end (value : String) (n : Nat) :
    (padLeftText value n).data
        = List.replicate (n - value.data.length) ' '
            ++ value.data.drop (value.data.length - n) ∧
      (padRightText value n).data
        = value.data.take n ++ List.replicate (n - value.data.length) ' ' ∧
      padLeft Conv.plain (fun _ => "") [.str "foobar", .num (JSNum.fin 3)] (some ⟨none⟩)
        = .ok "bar" ∧
      padRight Conv.plain (fun _ => "") [.str "foobar", .num (JSNum.fin 3)] (some ⟨none⟩)
        = .ok "foo" :=
  ⟨padLeftText_data value n, padRightText_data value n, by with_unfolding_all rfl,
    by with_unfolding_all rfl⟩

/-! ## C33 and C34: `percentToBar` -/

theorem barOfValue_fin (q : ℚ) (hq : 0 ≤ q) :
    barOfValue (JSNum.fin q)
      = .ok (String.mk ('|' :: List.replicate (min (Rat.floor (q / 10 + 1 / 2)).toNat 20 - 1) '='
          ++ (if 0 < q then ['|'] else []))) := by
  have hk0 : (0 : ℤ) ≤ Rat.floor (q / 10 + 1 / 2) := by
    show (0 : ℤ) ≤ ⌊q / 10 + 1 / 2⌋
    exact Int.floor_nonneg.mpr (by positivity)
  obtain ⟨k, hk⟩ := Int.eq_ofNat_of_zero_le hk0
  have hmin : JSNum.min2 (JSNum.round ((JSNum.fin q).div (JSNum.fin 10))) (JSNum.fin 20)
      = JSNum.fin ((min k 20 : ℕ) : ℚ) := by
    have hdiv : (JSNum.fin q).div (JSNum.fin 10) = JSNum.fin (q / 10) := by
      simp [JSNum.div]
    rw [hdiv]
    simp only [JSNum.round, hk, JSNum.min2, JSNum.gt]
    by_cases h : 20 < k
    · have h' : (20 : ℚ) < ((k : ℤ) : ℚ) := by exact_mod_cast h
      rw [Nat.min_eq_right (le_of_lt h), if_pos (by simpa using h')]
      norm_num
    · have h' : ¬ (20 : ℚ) < ((k : ℤ) : ℚ) := by
        intro hc
        exact h (by exact_mod_cast hc)
      rw [Nat.min_eq_left (not_lt.mp h), if_neg (by simpa using h')]
      norm_num
  unfold barOfValue
  simp only [hmin, arrayLength_nat (min k 20) (by omega), hk, Int.toNat_ofNat, JSNum.gt,
    emptyJoin]
  by_cases h0 : 0 < q
  · simp [h0]
    rfl
  · simp [h0]
    rfl

theorem barOfValue_zero : barOfValue (JSNum.fin 0) = .ok "|" := by
  with_unfolding_all rfl

theorem barOfValue_posInf :
    barOfValue JSNum.posInf
      = .ok (String.mk ('|' :: List.replicate 19 '=' ++ ['|'])) := by
  with_unfolding_all rfl

theorem percentToBar_value (cv : Conv) (value : JSVal) :
    JSNum.mathMax [plusOrZero cv value, JSNum.fin 0] = JSNum.posInf ∧
        (toNumber cv value).gt (JSNum.fin 0) = true ∨
      ∃ q : ℚ, 0 ≤ q ∧ JSNum.mathMax [plusOrZero cv value, JSNum.fin 0] = JSNum.fin q ∧
        ((toNumber cv value).gt (JSNum.fin 0) = false → q = 0) := by
  rw [maxZero_cases, plusOrZero_eq]
  cases h : toNumber cv value with
  | fin q =>
      refine Or.inr ⟨max q 0, le_max_right _ _, rfl, ?_⟩
      intro hgt
      simp only [JSNum.gt, decide_eq_false_iff_not, not_lt] at hgt
      exact max_eq_right hgt
  | nan => exact Or.inr ⟨0, le_refl _, by simp, fun _ => rfl⟩
  | posInf => exact Or.inl ⟨rfl, rfl⟩
  | negInf => exact Or.inr ⟨0, le_refl _, rfl, fun _ => rfl⟩

/-- Claim C33. For a number `q > 0`, `percentToBar` returns `|`, then one `=` less than
`round(q / 10)` capped at 20 (and none when that is 0), then `|`: `Array(n).join('=')`
has `n - 1` signs. So `percentToBar(51)` is `'|====|'`, with four `=`, where the
comment of the function and the claim give `'|=====|'`. -/
theorem percentToBar_one_sign_short (cv : Conv) (q : ℚ) :
    percentToBar cv (.num (JSNum.fin q))
        = .ok (if 0 < q then
              String.mk ('|' :: List.replicate
                (min (Rat.floor (q / 10 + 1 / 2)).toNat 20 - 1) '=' ++ ['|'])
            else "|") ∧
      percentToBar Conv.plain (.num (JSNum.fin 51)) = .ok "|====|" ∧
      percentToBar Conv.plain (.num (JSNum.fin 100)) = .ok "|=========|" := by
  refine ⟨?_, by with_unfolding_all rfl, by with_unfolding_all rfl⟩
  unfold percentToBar
  rw [plusOrZero_fin, maxZero_cases]
  simp only []
  by_cases h0 : 0 < q
  · rw [max_eq_left (le_of_lt h0), barOfValue_fin _ (le_of_lt h0), if_pos h0, if_pos h0]
  · rw [max_eq_right (not_lt.mp h0), barOfValue_zero, if_neg h0]

/-- Claim C34. For every input `percentToBar` returns a bar: a text of at most 21
characters, each of them `|` or `=`, that starts with `|`; the bar is `|` alone when
the input, as a number, is not greater than 0 (a text that is no number included). -/
theorem percentToBar_bar (cv : Conv) (value : JSVal) :
    ∃ bar, percentToBar cv value = .ok bar ∧ bar.length ≤ 21 ∧
      (∀ c ∈ bar.data, c = '|' ∨ c = '=') ∧ bar.data.head? = some '|' ∧
      ((toNumber cv value).gt (JSNum.fin 0) = false → bar = "|") := by
  unfold percentToBar
  rcases percentToBar_value cv value with ⟨h, hpos⟩ | ⟨q, hq, h, hzero⟩
  · rw [h, barOfValue_posInf]
    refine ⟨_, rfl, by decide, by decide, rfl, ?_⟩
    intro hgt
    rw [hpos] at hgt
    cases hgt
  · have hb := barOfValue_fin q hq
    rw [h, hb]
    refine ⟨_, rfl, ?_, ?_, rfl, ?_⟩
    · show (('|' :: List.replicate (min (Rat.floor (q / 10 + 1 / 2)).toNat 20 - 1) '='
          ++ (if 0 < q then ['|'] else [])) : List Char).length ≤ 21
      split_ifs <;> simp
    · intro c hc
      simp only [List.cons_append, List.mem_cons, List.mem_append] at hc
      rcases hc with hc | hc | hc
      · exact Or.inl hc
      · exact Or.inr (List.eq_of_mem_replicate hc)
      · split_ifs at hc
        · exact Or.inl (List.mem_singleton.mp hc)
        · simp at hc
    · intro hgt
      have hq0 := hzero hgt
      subst hq0
      have hz := barOfValue_zero
      rw [hb] at hz
      exact Except.ok.inj hz

/-! ## C35: `customUnits` -/

theorem drop_eq_iff_suffix (s l : List Char) :
    l.drop (l.length - s.length) = s ↔ s <:+ l := by
  constructor
  · intro h
    rw [← h]
    exact List.drop_suffix _ _
  · rintro ⟨t, rfl⟩
    simp

theorem stripPlural_eq_singular (unit : List Char) : stripPlural unit = singular unit := by
  unfold stripPlural singular
  have h3 := drop_eq_iff_suffix ['s', 'e', 's'] unit
  have h1 := drop_eq_iff_suffix ['s'] unit
  simp only [List.length_cons, List.length_nil, Nat.zero_add, Nat.reduceAdd] at h3 h1
  have e2 : unit.take (unit.length - 2) = unit.dropLast.dropLast := by
    rw [List.dropLast_eq_take, List.dropLast_eq_take, List.take_take]
    congr 1
    simp
    omega
  have e1 : unit.take (unit.length - 1) = unit.dropLast := by
    rw [List.dropLast_eq_take]
  by_cases hl : unit.length = 1
  · rw [if_pos hl, if_pos hl]
  · rw [if_neg hl, if_neg hl]
    by_cases hs3 : ['s', 'e', 's'] <:+ unit
    · rw [if_pos (h3.mpr hs3), if_pos hs3, e2]
    · rw [if_neg (fun h => hs3 (h3.mp h)), if_neg hs3]
      by_cases hs1 : ['s'] <:+ unit
      · rw [if_pos (h1.mpr hs1), if_pos hs1, e1]
      · rw [if_neg (fun h => hs1 (h1.mp h)), if_neg hs1]

theorem strictEquals_one (value : JSVal) :
    strictEquals value (.num (JSNum.fin 1)) = true ↔ value = .num (JSNum.fin 1) := by
  cases value with
  | num n => cases n <;> simp [strictEquals]
  | _ => simp [strictEquals]

/-- Claim C35. For every string `units`: when `value` is not the number 1 the result
is `units`; when it is, the result is the components of `units` between the slashes,
each in the singular (a component of one character kept, one ending in `ses` without
its last two characters, any other one ending in `s` without its last character,
every other one kept), joined with slashes again. `buses/hour` becomes `bus/hour` and
`bytes/s` becomes `byte/s`. -/
theorem customUnits_singular (value : JSVal) (units : String) :
    (value ≠ .num (JSNum.fin 1) → customUnits value units = units) ∧
      customUnits (.num (JSNum.fin 1)) units
        = String.mk (List.intercalate ['/'] ((splitSlashAux units.data []).map singular)) ∧
      customUnits (.num (JSNum.fin 1)) "buses/hour" = "bus/hour" ∧
      customUnits (.num (JSNum.fin 1)) "bytes/s" = "byte/s" ∧
      customUnits (.str "1") "buses/hour" = "buses/hour" := by
  refine ⟨?_, ?_, by with_unfolding_all decide, by with_unfolding_all decide,
    by with_unfolding_all decide⟩
  · intro hne
    have : strictEquals value (.num (JSNum.fin 1)) = false := by
      cases h : strictEquals value (.num (JSNum.fin 1))
      · rfl
      · exact absurd ((strictEquals_one value).mp h) hne
    unfold customUnits
    simp [this]
  · have h1 : strictEquals (.num (JSNum.fin 1)) (.num (JSNum.fin 1)) = true :=
      (strictEquals_one _).mpr rfl
    unfold customUnits
    simp only [h1, Bool.not_true, Bool.false_eq_true, if_false]
    congr 2
    exact List.map_congr_left fun u _ => stripPlural_eq_singular u

/-! ## C36: a group whose maximum is 0 -/

theorem finish_prepare_zero (root : Root) (s : Scan) (m0 : Metric) (g : String)
    (hg : m0.group = some g) (hM : s.maxValues g = some (JSNum.fin 0)) :
    (finish s (prepare root m0)).normalisedValue = some (valueOf root m0) := by
  have hpg : (prepare root m0).group = some g := hg
  simp [finish, hpg, readPlain_some _ _ _ hM, slotToNumber, JSNum.gt, prepare_value]

theorem atMostOne_of_zero_maximum (root : Root) (metrics : List Metric) (g : String)
    (hpos : membersOf g metrics ≠ 0)
    (hM : (firstLoop root metrics).maxValues g = some (JSNum.fin 0)) :
    atMostOne (readPlain (firstLoop root metrics).numberOfMetricsInGroup g)
      = decide (membersOf g metrics ≤ 1) := by
  by_cases hname : g ∈ objectPrototypeNames
  · have h2 := two_members_of_inherited root metrics g hname (JSNum.fin 0) (by simp) hM
    rw [atMostOne_inherited root metrics g hname]
    symm
    simp only [decide_eq_false_iff_not]
    omega
  · exact atMostOne_plain root metrics g hname hpos

/-- C36, as stated, fails in its gloss of a maximum of 0: in the group `constructor`
the first member stores `NaN` (the first read finds the inherited function), and the
running maximum restarts from 0 at the second member. With the means 100 and -5 the
final maximum is 0 although the first member has the positive mean 100; both members
keep their raw values. -/
theorem zero_maximum_with_a_positive_member :
    (firstLoop mixedRoot constructorPairMetrics).maxValues "constructor"
        = some (JSNum.fin 0) ∧
      (normaliseMetrics mixedRoot constructorPairMetrics).toOption.map
          (List.map fun m => (m.group, m.value.bind Stats.mean,
            m.normalisedValue.bind Stats.mean, m.noBar))
        = some [(some "constructor", some (JSNum.fin 100), some (JSNum.fin 100), some false),
                (some "constructor", some (JSNum.fin (-5)), some (JSNum.fin (-5)),
                  some false)] ∧
      (JSNum.fin 100).gt (JSNum.fin 0) = true := by
  refine ⟨by with_unfolding_all rfl, by with_unfolding_all rfl, rfl⟩

/-- C36 (amended). For a group whose final maximum is 0 the call returns, and every
member of the group keeps its value: `normalisedValue` is the value four-tuple
itself, no percentage being computed, and `noBar` tells whether the group has at most
one member. When the name of the group is not the name of a property of
`Object.prototype`, the maximum is 0 only when no member has a positive min, mean,
max or `maxBarValue`. -/
theorem zero_group_maximum_keeps_value (root : Root) (metrics : List Metric) (i : Nat)
    (m0 : Metric) (g : String) (h0 : metrics[i]? = some m0) (hg : m0.group = some g)
    (hM : (firstLoop root metrics).maxValues g = some (JSNum.fin 0)) :
    ∃ out m v, normaliseMetrics root metrics = .ok out ∧ out[i]? = some m ∧
      m.group = some g ∧ m.value = some v ∧ v = valueOf root m0 ∧
      m.normalisedValue = some v ∧
      m.noBar = some (decide (membersOf g metrics ≤ 1)) ∧
      (g ∉ objectPrototypeNames →
        ∀ m1 ∈ metrics, m1.group = some g →
          ∀ x ∈ seenValues root m1, x.le (JSNum.fin 0) = true) := by
  obtain ⟨out, hout, _, hi⟩ := normaliseMetrics_getElem? root metrics i m0 h0
  have hpg : (prepare root m0).group = some g := hg
  have hpos : membersOf g metrics ≠ 0 := by
    have : 0 < membersOf g metrics :=
      List.countP_pos_iff.mpr ⟨m0, List.getElem?_mem h0, by simp [hg]⟩
    omega
  refine ⟨out, _, valueOf root m0, hout, hi, ?_, ?_, rfl, ?_, ?_, ?_⟩
  · rw [finish_group, hpg]
  · rw [finish_value, prepare_value]
  · exact finish_prepare_zero root _ m0 g hg hM
  · simp [finish, hpg, atMostOne_of_zero_maximum root metrics g hpos hM]
  · intro hname m1 hm1 hg1 x hx
    obtain ⟨M, hM1, hle⟩ := (firstLoop_maxValues root metrics g hname).2 m1 hm1 hg1
    rw [hM] at hM1
    rw [Option.some.inj hM1]
    exact hle x hx

/-- Witness for C36: the metric `b` alone in the group `g` has the mean -2, the
minimum -4 and the maximum -1, so the maximum of the group is 0; its normalised
value is its value, and `noBar` is true. -/
theorem zero_group_maximum_keeps_value_witness :
    (∃ out m v, normaliseMetrics negativeRoot negativeLoneMetrics = .ok out ∧
      out[0]? = some m ∧ m.group = some "g" ∧ m.value = some v ∧
      v = valueOf negativeRoot (Metric.ref (some "b") (some "g") none) ∧
      m.normalisedValue = some v ∧
      m.noBar = some (decide (membersOf "g" negativeLoneMetrics ≤ 1)) ∧
      ("g" ∉ objectPrototypeNames →
        ∀ m1 ∈ negativeLoneMetrics, m1.group = some "g" →
          ∀ x ∈ seenValues negativeRoot m1, x.le (JSNum.fin 0) = true)) ∧
    (normaliseMetrics negativeRoot negativeLoneMetrics).toOption.map
        (List.map fun m => (m.value.bind Stats.mean, m.normalisedValue.bind Stats.mean,
          m.normalisedValue.bind Stats.min, m.noBar))
      = some [(some (JSNum.fin (-2)), some (JSNum.fin (-2)), some (JSNum.fin (-4)),
          some true)] :=
  ⟨zero_group_maximum_keeps_value negativeRoot negativeLoneMetrics 0
      (Metric.ref (some "b") (some "g") none) "g" rfl rfl (by with_unfolding_all rfl),
    by with_unfolding_all rfl⟩

/-! ## C37: `wrapText` changes wrappable characters only -/

theorem wrapFrame_break (s : List Char) (result : List Char) (last : Nat)
    (hlen : result.length = s.length)
    (hres : ∀ k : Nat, result[k]? = s[k]? ∨
      (result[k]? = some '\n' ∧ ∃ c, s[k]? = some c ∧ c ∈ wrappableChars))
    (hlast : ∃ c, s[last]? = some c ∧ c ∈ wrappableChars) :
    WrapFrame s ⟨result.set last '\n', last + 1, none⟩ := by
  refine ⟨by simp [hlen], ?_, by simp⟩
  intro k
  simp only [List.getElem?_set]
  by_cases hk : last = k
  · subst hk
    obtain ⟨c, hc, hw⟩ := hlast
    have hlt : last < result.length := by
      rw [hlen]
      by_contra hge
      rw [List.getElem?_eq_none (not_lt.mp hge)] at hc
      cases hc
    exact Or.inr ⟨by simp [hlt], c, hc, hw⟩
  · simp only [if_neg hk]
    exact hres k

theorem wrapStep_frame (W : Nat) (s : List Char) (st : WrapState) (i : Nat) (c : Char)
    (hc : s[i]? = some c) (h : WrapFrame s st) : WrapFrame s (wrapStep W st i c) := by
  obtain ⟨result, start, ls⟩ := st
  obtain ⟨hlen, hres, hls⟩ := h
  simp only at hlen hres hls
  unfold wrapStep
  by_cases hn : c = '\n'
  · simp only [hn, if_true]
    exact ⟨hlen, hres, by simp⟩
  · by_cases hw : c ∈ wrappableChars
    · simp only [if_neg hn, if_pos hw]
      split_ifs
      · exact wrapFrame_break s result i hlen hres ⟨c, hc, hw⟩
      · refine ⟨hlen, hres, ?_⟩
        intro p hp
        simp only [Option.some.injEq] at hp
        subst hp
        exact ⟨c, hc, hw⟩
    · simp only [if_neg hn, if_neg hw]
      cases ls with
      | none => exact ⟨hlen, hres, by simp⟩
      | some last =>
          simp only []
          split_ifs
          · exact wrapFrame_break s result last hlen hres (hls last rfl)
          · exact ⟨hlen, hres, hls⟩

theorem drop_cons_getElem? (s : List Char) (i : Nat) (c : Char) (cs : List Char)
    (h : s.drop i = c :: cs) : s[i]? = some c ∧ s.drop (i + 1) = cs := by
  constructor
  · have : (s.drop i)[0]? = some c := by rw [h]; simp
    rwa [List.getElem?_drop, Nat.add_zero] at this
  · have : (s.drop i).drop 1 = cs := by rw [h]; rfl
    rwa [List.drop_drop] at this

theorem wrapLoop_frame (W : Nat) (s : List Char) (rest : List Char) :
    ∀ (i : Nat) (st : WrapState), s.drop i = rest → WrapFrame s st →
      WrapFrame s (wrapLoop W rest i st) := by
  induction rest with
  | nil => intro i st _ h; exact h
  | cons c cs ih =>
      intro i st hd h
      obtain ⟨hc, hd'⟩ := drop_cons_getElem? s i c cs hd
      exact ih (i + 1) _ hd' (wrapStep_frame W s st i c hc h)

/-- Claim C37. For every string `s` and column `W`, `wrapText(s, W)` has the length of
`s`; at every place it holds the character of `s`, or a newline where `s` holds a
wrappable character; and where `s` holds a newline so does the result. -/
theorem wrapText_frame (s : String) (W : Nat) :
    (wrapText s W).length = s.length ∧
      (∀ k : Nat, (wrapText s W).data[k]? = s.data[k]? ∨
        ((wrapText s W).data[k]? = some '\n' ∧
          ∃ c, s.data[k]? = some c ∧ c ∈ wrappableChars)) ∧
      (∀ k : Nat, s.data[k]? = some '\n' → (wrapText s W).data[k]? = some '\n') ∧
      wrapText "ab cd\nef" 3 = "ab\ncd\nef" := by
  have h0 : WrapFrame s.data ⟨s.data, 0, none⟩ := ⟨rfl, fun _ => Or.inl rfl, by simp⟩
  obtain ⟨hlen, hres, _⟩ := wrapLoop_frame W s.data s.data 0 _ rfl h0
  refine ⟨hlen, hres, ?_, by decide⟩
  intro k hk
  rcases hres k with h | ⟨h, _⟩
  · exact h.trans hk
  · exact h

/-! ## C38: the scaled value stays in range -/

theorem factorValue_table (cv : Conv) (value : JSVal) (q a b c d : ℚ)
    (pa pb pc pd : String) (hvalue : value.isNullish = false)
    (hq : toNumber cv value = JSNum.fin q) (ha : 0 < a) (hb : 0 < b) (hc : 0 < c)
    (hd : 0 < d) :
    chooseFactor cv value
        [⟨JSNum.fin a, pa⟩, ⟨JSNum.fin b, pb⟩, ⟨JSNum.fin c, pc⟩, ⟨JSNum.fin d, pd⟩]
      = some (if a ≤ |q| then ⟨JSNum.fin a, pa⟩ else if b ≤ |q| then ⟨JSNum.fin b, pb⟩
          else if c ≤ |q| then ⟨JSNum.fin c, pc⟩ else ⟨JSNum.fin d, pd⟩) ∧
      factorValue cv value
          [⟨JSNum.fin a, pa⟩, ⟨JSNum.fin b, pb⟩, ⟨JSNum.fin c, pc⟩, ⟨JSNum.fin d, pd⟩]
        = .ok (.num (JSNum.fin
            (q / (if a ≤ |q| then a else if b ≤ |q| then b else if c ≤ |q| then c else d)))) := by
  have hch : chooseFactor cv value
      [⟨JSNum.fin a, pa⟩, ⟨JSNum.fin b, pb⟩, ⟨JSNum.fin c, pc⟩, ⟨JSNum.fin d, pd⟩]
      = some (if a ≤ |q| then ⟨JSNum.fin a, pa⟩ else if b ≤ |q| then ⟨JSNum.fin b, pb⟩
          else if c ≤ |q| then ⟨JSNum.fin c, pc⟩ else ⟨JSNum.fin d, pd⟩) := by
    simp only [chooseFactor, chooseFactorLoop, hq, JSNum.abs, JSNum.ge, JSNum.le,
      decide_eq_true_eq]
    split_ifs <;> simp
  refine ⟨hch, ?_⟩
  unfold factorValue
  rw [hvalue, hch, hq]
  simp only [Bool.not_false, if_true]
  split_ifs <;> simp [JSNum.div, ne_of_gt ha, ne_of_gt hb, ne_of_gt hc, ne_of_gt hd]

theorem scaled_range (q a b c base : ℚ) (hbase : 1 < base) (ha : a = b * base)
    (hb : b = c * base) (hc : c = base) (h1 : 1 ≤ |q|) (htop : |q| < a * base) :
    1 ≤ |q / (if a ≤ |q| then a else if b ≤ |q| then b else if c ≤ |q| then c else 1)| ∧
      |q / (if a ≤ |q| then a else if b ≤ |q| then b else if c ≤ |q| then c else 1)|
        < base := by
  have hc0 : 0 < c := by rw [hc]; linarith
  have hb0 : 0 < b := by rw [hb]; positivity
  have ha0 : 0 < a := by rw [ha]; positivity
  split_ifs with h2 h3 h4
  · rw [abs_div, abs_of_pos ha0, le_div_iff₀ ha0, div_lt_iff₀ ha0]
    constructor <;> nlinarith
  · rw [abs_div, abs_of_pos hb0, le_div_iff₀ hb0, div_lt_iff₀ hb0]
    constructor <;> nlinarith
  · rw [abs_div, abs_of_pos hc0, le_div_iff₀ hc0, div_lt_iff₀ hc0]
    constructor <;> nlinarith
  · rw [div_one]
    exact ⟨h1, by linarith⟩

/-- Claim C38. For a value that converts to a finite number `q`: with `1 ≤ |q| < 1000^4`
the SI table gives a scaled value `r` with `1 ≤ |r| < 1000`, and with
`1 ≤ |q| < 1024^4` the IEC table gives one with `1 ≤ |r| < 1024`; with `|q| < 1` both
tables choose the entry with factor 1 and the empty prefix, and the value is returned
as the number `q`. -/
theorem factorValue_in_range (cv : Conv) (value : JSVal) (q : ℚ)
    (hvalue : value.isNullish = false) (hq : toNumber cv value = JSNum.fin q) :
    (1 ≤ |q| → |q| < 1000 ^ 4 →
        ∃ r, factorValue cv value siFactors = .ok (.num (JSNum.fin r)) ∧
          1 ≤ |r| ∧ |r| < 1000) ∧
      (1 ≤ |q| → |q| < 1024 ^ 4 →
        ∃ r, factorValue cv value iecFactors = .ok (.num (JSNum.fin r)) ∧
          1 ≤ |r| ∧ |r| < 1024) ∧
      (|q| < 1 →
        chooseFactor cv value siFactors = some ⟨JSNum.fin 1, ""⟩ ∧
          factorValue cv value siFactors = .ok (.num (JSNum.fin q)) ∧
          chooseFactor cv value iecFactors = some ⟨JSNum.fin 1, ""⟩ ∧
          factorValue cv value iecFactors = .ok (.num (JSNum.fin q))) := by
  have hsi := factorValue_table cv value q (10 ^ 9) (10 ^ 6) (10 ^ 3) (10 ^ 0) "G" "M" "k" ""
    hvalue hq (by norm_num) (by norm_num) (by norm_num) (by norm_num)
  have hiec := factorValue_table cv value q (2 ^ 30) (2 ^ 20) (2 ^ 10) (2 ^ 0) "Gi" "Mi" "ki"
    "" hvalue hq (by norm_num) (by norm_num) (by norm_num) (by norm_num)
  refine ⟨?_, ?_, ?_⟩
  · intro h1 htop
    refine ⟨_, hsi.2, ?_⟩
    have := scaled_range q (10 ^ 9) (10 ^ 6) (10 ^ 3) 1000 (by norm_num) (by norm_num)
      (by norm_num) (by norm_num) h1 (by norm_num at htop ⊢; linarith)
    simpa using this
  · intro h1 htop
    refine ⟨_, hiec.2, ?_⟩
    have := scaled_range q (2 ^ 30) (2 ^ 20) (2 ^ 10) 1024 (by norm_num) (by norm_num)
      (by norm_num) (by norm_num) h1 (by norm_num at htop ⊢; linarith)
    simpa using this
  · intro hlt
    have n1 : ¬ (10 : ℚ) ^ 9 ≤ |q| := by norm_num; linarith
    have n2 : ¬ (10 : ℚ) ^ 6 ≤ |q| := by norm_num; linarith
    have n3 : ¬ (10 : ℚ) ^ 3 ≤ |q| := by norm_num; linarith
    have m1 : ¬ (2 : ℚ) ^ 30 ≤ |q| := by norm_num; linarith
    have m2 : ¬ (2 : ℚ) ^ 20 ≤ |q| := by norm_num; linarith
    have m3 : ¬ (2 : ℚ) ^ 10 ≤ |q| := by norm_num; linarith
    obtain ⟨s1, s2⟩ := hsi
    obtain ⟨i1, i2⟩ := hiec
    rw [if_neg n1, if_neg n2, if_neg n3] at s1 s2
    rw [if_neg m1, if_neg m2, if_neg m3] at i1 i2
    refine ⟨?_, ?_, ?_, ?_⟩
    · rw [show siFactors = [⟨JSNum.fin (10 ^ 9), "G"⟩, ⟨JSNum.fin (10 ^ 6), "M"⟩,
        ⟨JSNum.fin (10 ^ 3), "k"⟩, ⟨JSNum.fin (10 ^ 0), ""⟩] from rfl, s1]
      norm_num
    · rw [show siFactors = [⟨JSNum.fin (10 ^ 9), "G"⟩, ⟨JSNum.fin (10 ^ 6), "M"⟩,
        ⟨JSNum.fin (10 ^ 3), "k"⟩, ⟨JSNum.fin (10 ^ 0), ""⟩] from rfl, s2]
      norm_num
    · rw [show iecFactors = [⟨JSNum.fin (2 ^ 30), "Gi"⟩, ⟨JSNum.fin (2 ^ 20), "Mi"⟩,
        ⟨JSNum.fin (2 ^ 10), "ki"⟩, ⟨JSNum.fin (2 ^ 0), ""⟩] from rfl, i1]
      norm_num
    · rw [show iecFactors = [⟨JSNum.fin (2 ^ 30), "Gi"⟩, ⟨JSNum.fin (2 ^ 20), "Mi"⟩,
        ⟨JSNum.fin (2 ^ 10), "ki"⟩, ⟨JSNum.fin (2 ^ 0), ""⟩] from rfl, i2]
      norm_num

/-- Witness for C38: 1,500,000 is a number from 1 to below `1000^4`; its SI value is
1.5. The value 0.5 is returned as it is, with the empty prefix. -/
theorem factorValue_in_range_witness :
    (∃ r, factorValue Conv.plain (.num (JSNum.fin 1500000)) siFactors
        = .ok (.num (JSNum.fin r)) ∧ 1 ≤ |r| ∧ |r| < 1000) ∧
    factorValue Conv.plain (.num (JSNum.fin 1500000)) siFactors
      = .ok (.num (JSNum.fin (3 / 2))) ∧
    factorValue Conv.plain (.num (JSNum.fin (1 / 2))) iecFactors
      = .ok (.num (JSNum.fin (1 / 2))) :=
  ⟨(factorValue_in_range Conv.plain (.num (JSNum.fin 1500000)) 1500000 rfl rfl).1
      (by norm_num [abs_of_pos]) (by norm_num [abs_of_pos]),
    by with_unfolding_all rfl, by with_unfolding_all rfl⟩

/-! ## C39: `allinea.lookup` along a dotted path -/

theorem splitDotAux_cons (c : Char) (l cur : List Char) :
    splitDotAux (c :: l) cur
      = if c = '.' then String.mk cur.reverse :: splitDotAux l []
        else splitDotAux l (c :: cur) := rfl

theorem splitDotAux_append (p q cur : List Char) :
    splitDotAux (p ++ '.' :: q) cur = splitDotAux p cur ++ splitDotAux q [] := by
  induction p generalizing cur with
  | nil => simp [splitDotAux]
  | cons c cs ih =>
      rw [List.cons_append, splitDotAux_cons, splitDotAux_cons]
      by_cases hc : c = '.'
      · rw [if_pos hc, if_pos hc, ih]
        rfl
      · rw [if_neg hc, if_neg hc, ih]

theorem splitDot_append (p q : String) :
    splitDot (p ++ "." ++ q) = splitDot p ++ splitDot q := by
  unfold splitDot
  have : (p ++ "." ++ q).toList = p.toList ++ '.' :: q.toList := by
    simp [String.toList, String.data_append]
  rw [this, splitDotAux_append]

theorem splitDotAux_ne_nil (l cur : List Char) : splitDotAux l cur ≠ [] := by
  induction l generalizing cur with
  | nil => simp [splitDotAux]
  | cons c cs ih =>
      unfold splitDotAux
      split_ifs
      · simp
      · exact ih _

theorem lookupLoop_undefined (path : List String) :
    lookupLoop .undefined path = .undefined := by
  cases path <;> rfl

theorem lookupLoop_not_object (obj : JSVal) (seg : String) (rest : List String)
    (h : isObject obj = false) : lookupLoop obj (seg :: rest) = .undefined := by
  cases obj <;> first | rfl | cases h

theorem lookupLoop_object (obj : JSVal) (seg : String) (rest : List String)
    (h : isObject obj = true) :
    lookupLoop obj (seg :: rest) = lookupLoop (obj.get seg) rest := by
  cases obj with
  | arr items => rfl
  | obj fields => rfl
  | _ => cases h

theorem lookupLoop_append (ps qs : List String) :
    ∀ obj, lookupLoop obj (ps ++ qs) = lookupLoop (lookupLoop obj ps) qs := by
  induction ps with
  | nil =>
      intro obj
      have : lookupLoop obj [] = obj := by cases obj <;> rfl
      rw [List.nil_append, this]
  | cons seg rest ih =>
      intro obj
      rw [List.cons_append]
      by_cases h : isObject obj = true
      · rw [lookupLoop_object _ _ _ h, lookupLoop_object _ _ _ h, ih]
      · have h' : isObject obj = false := by simpa using h
        rw [lookupLoop_not_object _ _ _ h', lookupLoop_not_object _ _ _ h',
          lookupLoop_undefined]

theorem append_dot_ne_empty (p q : String) : p ++ "." ++ q ≠ "" := by
  intro h
  have := congrArg String.data h
  simp [String.data_append] at this

/-- Claim C39. For every value `obj` and non-empty paths `p` and `q`, the lookup of
`p + '.' + q` is the lookup of `q` in the lookup of `p`; it is `undefined` when the
lookup of `p` is not an object (a missing key gives `undefined`, which is none). A
path that is `undefined` or empty gives `obj` itself. The function is total: no
lookup raises. -/
theorem lookup_composes (obj : JSVal) (p q : String) (hp : p ≠ "") (hq : q ≠ "") :
    lookup obj (some (p ++ "." ++ q)) = lookup (lookup obj (some p)) (some q) ∧
      (isObject (lookup obj (some p)) = false →
        lookup obj (some (p ++ "." ++ q)) = .undefined) ∧
      lookup obj none = obj ∧ lookup obj (some "") = obj := by
  have hcomp : lookup obj (some (p ++ "." ++ q)) = lookup (lookup obj (some p)) (some q) := by
    simp only [lookup, if_pos (append_dot_ne_empty p q), if_pos hp, if_pos hq]
    rw [splitDot_append, lookupLoop_append]
  refine ⟨hcomp, ?_, rfl, rfl⟩
  intro hno
  rw [hcomp]
  simp only [lookup, if_pos hq]
  obtain ⟨seg, rest, hs⟩ : ∃ seg rest, splitDot q = seg :: rest := by
    cases h : splitDot q with
    | nil => exact absurd h (splitDotAux_ne_nil _ _)
    | cons seg rest => exact ⟨seg, rest, rfl⟩
  rw [hs]
  exact lookupLoop_not_object _ _ _ hno

/-- Witness for C39: in `{a: {b: 5}}` the path `a.b` is the path `b` in the lookup of
`a`, the number 5; `a.b.c` runs through the number 5 and `a.x.c` through a missing
key, and both give `undefined`. -/
theorem lookup_composes_witness :
    (lookup nestedObject (some ("a" ++ "." ++ "b"))
        = lookup (lookup nestedObject (some "a")) (some "b") ∧
      (isObject (lookup nestedObject (some "a")) = false →
        lookup nestedObject (some ("a" ++ "." ++ "b")) = .undefined) ∧
      lookup nestedObject none = nestedObject ∧
      lookup nestedObject (some "") = nestedObject) ∧
    lookup nestedObject (some "a.b") = .num (JSNum.fin 5) ∧
    lookup nestedObject (some "a.b.c") = .undefined ∧
    lookup nestedObject (some "a.x.c") = .undefined :=
  ⟨lookup_composes nestedObject "a" "b" (by decide) (by decide),
    by with_unfolding_all rfl, by with_unfolding_all rfl, by with_unfolding_all rfl⟩

end PerfReports
